import Mathlib

/-!
# unrolled_list: a shallow embedding of `src/lib/unrolled_list.h`

The C++ container keeps its elements in fixed-capacity nodes linked into a
doubly linked chain.  The embedding keeps the pointer structure of the source:

* the store (`Heap`) is a list of node records, the address of a record being
  its index; `none` at an index is a record that has been deallocated;
* a node pointer (`Ptr`) is `none` for `nullptr` and `some a` for address `a`;
* every operation is a function in the `Option` monad: `none` is undefined
  behaviour of the C++ program (a null or dangling pointer is dereferenced, a
  slot outside the element buffer is touched, a slot holding no live object is
  read, or, for an element type that is not trivial, assigned to or destroyed)
  or, for the loops that carry a `fuel` argument, an exhausted budget;
* the element type comes with the class `Element`, which tells a trivial type
  such as `int` from one with a copy assignment operator and a destructor of
  its own: `assign_t` and `destroy_t` on a slot that holds no object are
  harmless for the first kind and undefined for the second;
* a parameter `const T& value` that the source reads after it has moved
  elements (`push_front`, `insert`) is a `ConstRef`: an object outside the
  container or an element of it, read at the point where the source reads it;
  a parameter read before anything moves (`push_back`) is the value itself;
* a member function whose body is ill-formed whenever it is instantiated cannot
  be called, so no call of it has a result: `erase(const_iterator)`,
  `insert(const_iterator, const T&)` and the range `insert` start with
  `ul_iterator<> pos = position;`, a conversion `ul_iterator` does not declare
  (`iterator_from_const`), and their embeddings are `none` on every input; the
  statements after that initialisation are embedded on their own
  (`erase_body`, `insert_body`, `insert_range_body`);
* `size_t` subtraction wraps modulo `2 ^ 64` (`usub`);
* allocation and element construction never fail, so the `catch` blocks of the
  source are not entered and are not part of the definitions, except in the
  definitions whose name ends in `_throwing`: these take the step that throws
  as an argument, embed the `catch` block too, and tell a call that returns
  from one an exception leaves (`Outcome`);
* a data member that a constructor leaves uninitialised holds an indeterminate
  value: the function embedding that constructor takes the value as an argument;
* the operations that build one container from another (`operator=`, copy
  construction) work in one store, in which both containers live; `operator==`,
  which only reads, takes each container with the store it lives in;
* the standard library pieces the source builds on, `std::equal` and
  `std::reverse_iterator`, are embedded from their definitions in terms of the
  cursor operations of the source.
-/

namespace UnrolledList

/-! ## Store -/

/-- A node pointer: `none` is `nullptr`, `some a` is the address of a node record. -/
abbrev Ptr := Option Nat

/-- The record `struct Node`.  The element buffer `T* data` is kept inside the
record: it is the list of its slots, a slot being `none` while no live object
is stored in it.  A null `data` pointer is the buffer with no slot at all. -/
structure Node (T : Type) where
  node_size : Nat
  data : List (Option T)
  next : Ptr
  prev : Ptr
deriving DecidableEq

/-- The store of node records, addressed by index; `none` marks a freed record. -/
abbrev Heap (T : Type) := List (Option (Node T))

/-- Unsigned `size_t` subtraction `a - b`, wrapping modulo `2 ^ 64`. -/
def usub (a b : Nat) : Nat := if b ≤ a then a - b else a + 2 ^ 64 - b

/-- Read through a node pointer (`p->...`); undefined for null and dangling pointers. -/
def Heap.read {T : Type} (h : Heap T) : Ptr → Option (Node T)
  | none => none
  | some a => (h[a]?).join

/-- Replace the record at address `a` (no check; see `Heap.write`). -/
def Heap.upd {T : Type} (h : Heap T) (a : Nat) (n : Node T) : Heap T := h.set a (some n)

/-- Write through a node pointer; undefined for null and dangling pointers. -/
def Heap.write {T : Type} (h : Heap T) (p : Ptr) (n : Node T) : Option (Heap T) :=
  match p with
  | none => none
  | some a => if (h.read (some a)).isSome then some (h.upd a n) else none

/-- Allocate a fresh record holding `n`: its address is the next unused index. -/
def Heap.alloc {T : Type} (h : Heap T) (n : Node T) : Nat × Heap T := (h.length, h ++ [some n])

/-- Deallocate the record at `p`; undefined for null and dangling pointers. -/
def Heap.free {T : Type} (h : Heap T) (p : Ptr) : Option (Heap T) :=
  match p with
  | none => none
  | some a => if (h.read (some a)).isSome then some (h.set a none) else none

/-- Assignment `p->next = q`. -/
def set_next {T : Type} (h : Heap T) (p q : Ptr) : Option (Heap T) := do
  let n ← h.read p
  h.write p { n with next := q }

/-- Assignment `p->prev = q`. -/
def set_prev {T : Type} (h : Heap T) (p q : Ptr) : Option (Heap T) := do
  let n ← h.read p
  h.write p { n with prev := q }

/-- Assignment `p->node_size = k`. -/
def set_node_size {T : Type} (h : Heap T) (p : Ptr) (k : Nat) : Option (Heap T) := do
  let n ← h.read p
  h.write p { n with node_size := k }

/-- Assignment `p->data = d`. -/
def set_data {T : Type} (h : Heap T) (p : Ptr) (d : List (Option T)) : Option (Heap T) := do
  let n ← h.read p
  h.write p { n with data := d }

/-- What the embedding needs to know about the element type `T`.
`is_trivial` tells a trivial type (such as `int`: trivially copyable and
trivially destructible, so that objects of it need no constructor call to
exist in allocated storage) from a type whose copy assignment operator and
destructor are functions of their own (such as `std::string`).  For the first
kind, assigning to or destroying a slot of an allocated buffer in which no
object was constructed does no harm; for the second kind it runs a member
function of `T` on storage that holds no object, which is undefined. -/
class Element (T : Type) where
  is_trivial : Bool

/-- The type `int`. -/
instance instElementNat : Element Nat := ⟨true⟩

/-- An element type that is not trivial (it has a destructor and a copy
assignment operator of its own, as `std::string` has); its values are named by
numbers. -/
structure Obj where
  id : Nat
deriving DecidableEq

/-- The type `Obj` is not trivial. -/
instance instElementObj : Element Obj := ⟨false⟩

/-- Read of the element `p->data[i]`: the slot must exist and hold a live object. -/
def load_t {T : Type} (h : Heap T) (p : Ptr) (i : Nat) : Option T := do
  let n ← h.read p
  (n.data[i]?).join

/-- The source's `construct_t(p->data + i, value)`: an object is constructed
in the slot, whatever the slot held.  The slot must lie inside the buffer. -/
def construct_t {T : Type} (h : Heap T) (p : Ptr) (i : Nat) (value : T) : Option (Heap T) := do
  let n ← h.read p
  if i < n.data.length then h.write p { n with data := n.data.set i (some value) } else none

/-- The assignment `p->data[i] = value`: the copy assignment operator of `T`
runs on the object in the slot.  The slot must lie inside the buffer and hold
a live object, unless `T` is trivial. -/
def assign_t {T : Type} [Element T] (h : Heap T) (p : Ptr) (i : Nat) (value : T) :
    Option (Heap T) := do
  let n ← h.read p
  if i < n.data.length then
    if Element.is_trivial T = true ∨ (n.data[i]?).join.isSome = true then
      h.write p { n with data := n.data.set i (some value) }
    else none
  else none

/-- The source's `destroy_t(p->data + i)`: the destructor of `T` runs on the
object in the slot, and afterwards the slot holds no live object.  The slot
must lie inside the buffer and hold a live object, unless `T` is trivial. -/
def destroy_t {T : Type} [Element T] (h : Heap T) (p : Ptr) (i : Nat) : Option (Heap T) := do
  let n ← h.read p
  if i < n.data.length then
    if Element.is_trivial T = true ∨ (n.data[i]?).join.isSome = true then
      h.write p { n with data := n.data.set i none }
    else none
  else none

/-- An argument bound to a parameter `const T& value`: an object that is no
element of a container of the store, or the element in slot `i` of the node
`p` (as in `ul.insert(pos, ul.back())`). -/
inductive ConstRef (T : Type) where
  | object : T → ConstRef T
  | element : Ptr → Nat → ConstRef T
deriving DecidableEq

/-- Read through the reference, in the store `h`: the value the referenced
object holds at that moment. -/
def ConstRef.get {T : Type} (h : Heap T) : ConstRef T → Option T
  | ConstRef.object v => some v
  | ConstRef.element p i => load_t h p i

/-- The source's `allocate_node()`: raw storage for one record (its contents are
indeterminate until `construct_node`). -/
def allocate_node {T : Type} (h : Heap T) : Nat × Heap T := h.alloc ⟨0, [], none, none⟩

/-- The source's `allocate_t()`: a buffer of `NodeMaxSize` slots, none of them live. -/
def allocate_t {T : Type} (NodeMaxSize : Nat) : List (Option T) := List.replicate NodeMaxSize none

/-- The source's `construct_node(place, node_size, data, next, prev)`. -/
def construct_node {T : Type} (h : Heap T) (place : Ptr) (node_size : Nat)
    (data : List (Option T)) (next prev : Ptr) : Option (Heap T) :=
  h.write place ⟨node_size, data, next, prev⟩

/-! ## Container and cursor -/

/-- The data members of `unrolled_list` together with the store its nodes live
in.  `sentinel_` is the address of the member `sentinel_`. -/
structure State (T : Type) where
  heap : Heap T
  sentinel_ : Nat
  tail_ : Ptr
  head_ : Ptr
  size_ : Nat
  is_empty_ : Bool
deriving DecidableEq

/-- The cursor `ul_iterator<IsConst>`: a node pointer and an index into that
node.  `IsConst` only fixes the constness of what the cursor gives access to,
so `iterator` and `const_iterator` hold the same pair. -/
structure ul_iterator where
  current_node : Ptr
  current_index : Nat
deriving DecidableEq

/-- The initialisation `ul_iterator<> pos = position;` with `position` a
`const_iterator`.  `ul_iterator<IsConst>` declares a default constructor, a copy
constructor from its own specialisation and a constructor from a node pointer
and an index, and nothing that converts `ul_iterator<true>` to
`ul_iterator<false>` (or back): the initialisation is ill-formed, a member
function that contains it cannot be instantiated, and no call of such a member
compiles.  There is no result. -/
def iterator_from_const (_position : ul_iterator) : Option ul_iterator := none

/-- Dereference `*it`. -/
def deref {T : Type} (h : Heap T) (it : ul_iterator) : Option T :=
  load_t h it.current_node it.current_index

/-- Assignment through a cursor, `*it = value`. -/
def store {T : Type} [Element T] (h : Heap T) (it : ul_iterator) (value : T) : Option (Heap T) :=
  assign_t h it.current_node it.current_index value

/-- Source `ul_iterator::operator++`. -/
def incr {T : Type} (h : Heap T) (it : ul_iterator) : Option ul_iterator := do
  let n ← h.read it.current_node
  if it.current_index + 1 < n.node_size then
    pure { it with current_index := it.current_index + 1 }
  else
    pure ⟨n.next, 0⟩

/-- Source `ul_iterator::operator--`. -/
def decr {T : Type} (NodeMaxSize : Nat) (h : Heap T) (it : ul_iterator) : Option ul_iterator :=
  if it.current_index > 0 then
    pure { it with current_index := it.current_index - 1 }
  else do
    let n ← h.read it.current_node
    pure ⟨n.prev, usub NodeMaxSize 1⟩

/-- Source `ul_iterator::operator+(count)`; `fuel` bounds the number of loop rounds. -/
def plus {T : Type} (h : Heap T) : Nat → ul_iterator → Nat → Option ul_iterator
  | 0, _, _ => none
  | fuel + 1, it, count =>
    if count > 0 then do
      let n ← h.read it.current_node
      let remaining_in_node := usub n.node_size it.current_index
      if count < remaining_in_node then
        pure { it with current_index := it.current_index + count }
      else
        plus h fuel ⟨n.next, 0⟩ (usub count remaining_in_node)
    else
      pure it

/-- Source `ul_iterator::operator-(count)`; `fuel` bounds the number of loop rounds. -/
def minus {T : Type} (h : Heap T) : Nat → ul_iterator → Nat → Option ul_iterator
  | 0, _, _ => none
  | fuel + 1, it, count =>
    if count > 0 then
      if it.current_index ≥ count then
        pure { it with current_index := it.current_index - count }
      else do
        let n ← h.read it.current_node
        if n.prev = none then
          pure it
        else do
          let p ← h.read n.prev
          minus h fuel ⟨n.prev, usub p.node_size 1⟩ (usub count (it.current_index + 1))
    else
      pure it

/-- The default constructor `unrolled_list()`: the member `sentinel_` is
constructed by `Node()` at a fresh address of the store. -/
def default_ctor {T : Type} (h : Heap T) : State T :=
  let (s, h1) := h.alloc (⟨0, [], none, none⟩ : Node T)
  { heap := h1, sentinel_ := s, tail_ := none, head_ := none, size_ := 0, is_empty_ := true }

/-- Source `unrolled_list::begin`. -/
def begin {T : Type} (st : State T) : ul_iterator :=
  if st.size_ = 0 then ⟨some st.sentinel_, 0⟩ else ⟨st.head_, 0⟩

/-- Source `unrolled_list::end` (it reads `tail_->next` when `size_` is not 0). -/
def end_ {T : Type} (st : State T) : Option ul_iterator :=
  if st.size_ = 0 then pure ⟨some st.sentinel_, 0⟩
  else do
    let t ← st.heap.read st.tail_
    pure ⟨t.next, 0⟩

/-- Source `unrolled_list::size`. -/
def size {T : Type} (st : State T) : Nat := st.size_

/-- Source `unrolled_list::empty`. -/
def empty {T : Type} (st : State T) : Bool := st.is_empty_

/-! ## Mutation -/

/-- Source `create_node_after(current_node, size)`: returns the new node. -/
def create_node_after {T : Type} (NodeMaxSize : Nat) (st : State T) (current_node : Ptr)
    (size : Nat) : Option (Ptr × State T) := do
  let cn ← st.heap.read current_node
  let prev_next := cn.next
  let (a, h1) := allocate_node st.heap
  let h2 ← set_next h1 current_node (some a)
  let h3 ← if prev_next ≠ none then set_prev h2 prev_next (some a) else pure h2
  let h4 ← construct_node h3 (some a) size [] prev_next current_node
  let new_node : Ptr := some a
  let h5 ← set_data h4 new_node (allocate_t NodeMaxSize)
  let tail1 := if st.tail_ = current_node then new_node else st.tail_
  pure (new_node, { st with heap := h5, tail_ := tail1 })

/-- Source `push_back(value)`. -/
def push_back {T : Type} (NodeMaxSize : Nat) (st : State T) (value : T) : Option (State T) := do
  let st := { st with size_ := st.size_ + 1 }
  if st.tail_ = none ∧ st.head_ = none then
    let (a, h1) := allocate_node st.heap
    let new_node : Ptr := some a
    let h2 ← construct_node h1 new_node 1 [] none none
    let h3 ← set_data h2 new_node (allocate_t NodeMaxSize)
    let h4 ← construct_t h3 new_node 0 value
    pure { st with heap := h4, tail_ := new_node, head_ := new_node, is_empty_ := false }
  else do
    let t ← st.heap.read st.tail_
    if t.node_size ≠ NodeMaxSize then
      let h1 ← construct_t st.heap st.tail_ t.node_size value
      let h2 ← set_node_size h1 st.tail_ (t.node_size + 1)
      pure { st with heap := h2 }
    else do
      let (new_node, st1) ← create_node_after NodeMaxSize st st.tail_ 1
      let h1 ← construct_t st1.heap new_node 0 value
      pure { st1 with heap := h1 }

/-- The loop of `push_front`: `for (i = node_size; i > 0; --i) data[i] = data[i - 1]`,
entered with `i` as given. -/
def shift_right {T : Type} [Element T] (h : Heap T) (p : Ptr) : Nat → Option (Heap T)
  | 0 => pure h
  | i + 1 => do
    let v ← load_t h p i
    let h1 ← assign_t h p (i + 1) v
    shift_right h1 p i

/-- Source `push_front(const T& value)`.  The parameter is a reference: it is
read where the source reads it, in the room case after the elements of the
head node have been shifted. -/
def push_front {T : Type} [Element T] (NodeMaxSize : Nat) (st : State T) (value : ConstRef T) :
    Option (State T) := do
  let st := { st with size_ := st.size_ + 1 }
  if st.tail_ = none ∧ st.head_ = none then
    let (a, h1) := allocate_node st.heap
    let new_node : Ptr := some a
    let h2 ← construct_node h1 new_node 1 [] none none
    let h3 ← set_data h2 new_node (allocate_t NodeMaxSize)
    let v ← value.get h3
    let h4 ← construct_t h3 new_node 0 v
    pure { st with heap := h4, tail_ := new_node, head_ := new_node }
  else do
    let hd ← st.heap.read st.head_
    if hd.node_size ≠ NodeMaxSize then
      let h1 ← shift_right st.heap st.head_ hd.node_size
      let v ← value.get h1
      let h2 ← assign_t h1 st.head_ 0 v
      let hd2 ← h2.read st.head_
      let h3 ← set_node_size h2 st.head_ (hd2.node_size + 1)
      pure { st with heap := h3 }
    else do
      let (a, h1) := allocate_node st.heap
      let new_node : Ptr := some a
      let h2 ← construct_node h1 new_node 1 [] st.head_ none
      let h3 ← set_data h2 new_node (allocate_t NodeMaxSize)
      let v ← value.get h3
      let h4 ← construct_t h3 new_node 0 v
      let h5 ← set_prev h4 st.head_ new_node
      pure { st with heap := h5, head_ := new_node }

/-- The loop of `delete_node`: `destroy` on the slots `i, i + 1, ...`, `k` of them. -/
def destroy_slots {T : Type} [Element T] (h : Heap T) (p : Ptr) (i : Nat) : Nat → Option (Heap T)
  | 0 => pure h
  | k + 1 => do
    let h1 ← destroy_t h p i
    destroy_slots h1 p (i + 1) k

/-- Source `delete_node(current_node)`: runs `destroy` on all `NodeMaxSize`
slots, whether they hold an object or not, then frees the buffer and the
record. -/
def delete_node {T : Type} [Element T] (NodeMaxSize : Nat) (h : Heap T) (current_node : Ptr) :
    Option (Heap T) := do
  let h1 ← destroy_slots h current_node 0 NodeMaxSize
  h1.free current_node

/-- Source `check_node_empty(current_node)`. -/
def check_node_empty {T : Type} [Element T] (NodeMaxSize : Nat) (st : State T)
    (current_node : Ptr) : Option (State T) := do
  let cn ← st.heap.read current_node
  if cn.node_size = 0 then
    let st1 :=
      if current_node = st.head_ ∧ current_node = st.tail_ then
        { st with head_ := none, tail_ := none }
      else st
    let st2 ←
      if current_node = st1.tail_ then do
        let h1 ← if cn.prev ≠ none then set_next st1.heap cn.prev cn.next else pure st1.heap
        pure { st1 with heap := h1, tail_ := cn.prev }
      else if current_node = st1.head_ then do
        let h1 ← if cn.next ≠ none then set_prev st1.heap cn.next cn.prev else pure st1.heap
        pure { st1 with heap := h1, head_ := cn.next }
      else do
        let h1 ← if cn.prev ≠ none then set_next st1.heap cn.prev cn.next else pure st1.heap
        let h2 ← if cn.next ≠ none then set_prev h1 cn.next cn.prev else pure h1
        pure { st1 with heap := h2 }
    let h3 ← delete_node NodeMaxSize st2.heap current_node
    pure { st2 with heap := h3 }
  else
    pure st

/-- Source `pop_back()`. -/
def pop_back {T : Type} [Element T] (NodeMaxSize : Nat) (st : State T) : Option (State T) :=
  if st.is_empty_ then pure st
  else do
    let st := { st with size_ := usub st.size_ 1 }
    let st := if st.size_ = 0 then { st with is_empty_ := true } else st
    let t ← st.heap.read st.tail_
    let h1 ← destroy_t st.heap st.tail_ (usub t.node_size 1)
    let h2 ← set_node_size h1 st.tail_ (usub t.node_size 1)
    check_node_empty NodeMaxSize { st with heap := h2 } st.tail_

/-- The loop of `insert`:
`while (it != pos) { *it = *(it - 1); --it; }`; returns the final `it`. -/
def insert_shift {T : Type} [Element T] (NodeMaxSize : Nat) :
    Nat → Heap T → ul_iterator → ul_iterator → Option (Heap T × ul_iterator)
  | 0, _, _, _ => none
  | fuel + 1, h, it, pos =>
    if it ≠ pos then do
      let before ← minus h (fuel + 1) it 1
      let v ← deref h before
      let h1 ← store h it v
      let it1 ← decr NodeMaxSize h1 it
      insert_shift NodeMaxSize fuel h1 it1 pos
    else
      pure (h, it)

/-- The statements the two overloads of `insert(position, value)` have in
common: `++size_;` and everything after the initialisation of `pos` (the `try`
block of the `iterator` overload, the rest of the body of the `const_iterator`
overload), as a function of `pos`.  The parameter `value` is a reference: it
is read where the source reads it, after the elements have been shifted. -/
def insert_body {T : Type} [Element T] (NodeMaxSize fuel : Nat) (st : State T)
    (pos : ul_iterator) (value : ConstRef T) : Option (ul_iterator × State T) := do
  let st := { st with size_ := st.size_ + 1 }
  let e ← end_ st
  if pos = e then
    let v ← value.get st.heap
    let st1 ← push_back NodeMaxSize st v
    let t ← st1.heap.read st1.tail_
    pure (⟨st1.tail_, usub t.node_size 1⟩, st1)
  else do
    let cn ← st.heap.read pos.current_node
    let current_node := pos.current_node
    let current_node_size := cn.node_size
    if current_node_size ≠ NodeMaxSize then
      let last ← load_t st.heap current_node (usub current_node_size 1)
      let h1 ← construct_t st.heap current_node current_node_size last
      let h2 ←
        if pos.current_index = usub current_node_size 1 then do
          let v ← value.get h1
          store h1 pos v
        else do
          let (h, it) ← insert_shift NodeMaxSize fuel h1
            ⟨current_node, usub current_node_size 1⟩ pos
          let v ← value.get h
          store h it v
      let cn2 ← h2.read current_node
      let h3 ← set_node_size h2 current_node (cn2.node_size + 1)
      pure (⟨current_node, usub (cn2.node_size + 1) 1⟩, { st with heap := h3 })
    else do
      let (new_node, st1) ← create_node_after NodeMaxSize st current_node 1
      let last ← load_t st1.heap current_node (usub NodeMaxSize 1)
      let h1 ← construct_t st1.heap new_node 0 last
      let h2 ←
        if pos.current_index = usub current_node_size 1 then do
          let last2 ← load_t h1 current_node (usub NodeMaxSize 1)
          let h ← construct_t h1 new_node 0 last2
          let v ← value.get h
          assign_t h current_node (usub NodeMaxSize 1) v
        else do
          let (h, it) ← insert_shift NodeMaxSize fuel h1
            ⟨current_node, usub current_node_size 1⟩ pos
          let v ← value.get h
          store h it v
      let cn2 ← h2.read current_node
      pure (⟨current_node, usub cn2.node_size 1⟩, { st1 with heap := h2 })

/-- Source `insert(iterator position, const T& value)`.  It reads
`position.current_node->next` before anything else; the rest is `insert_body`
applied to `pos = position`. -/
def insert {T : Type} [Element T] (NodeMaxSize fuel : Nat) (st : State T)
    (position : ul_iterator) (value : ConstRef T) : Option (ul_iterator × State T) := do
  let _prev_next_value_node ← (st.heap.read position.current_node).map (·.next)
  insert_body NodeMaxSize fuel st position value

/-- Source `insert(const_iterator position, const T& value)`: its body initialises
`ul_iterator<> pos = position;`, which is ill-formed (`iterator_from_const`), so
the member has no instance and no call of it has a result. -/
def insert_const {T : Type} [Element T] (NodeMaxSize fuel : Nat) (st : State T)
    (position : ul_iterator) (value : ConstRef T) : Option (ul_iterator × State T) := do
  let pos ← iterator_from_const position
  insert_body NodeMaxSize fuel st pos value

/-- The loop of `erase`:
`while (it.current_index != current_node_size - 1) { *it = *(it + 1); ++it; }`,
where `current_node_size` is the reference `current_node->node_size`. -/
def erase_shift {T : Type} [Element T] (current_node : Ptr) :
    Nat → Heap T → ul_iterator → Option (Heap T)
  | 0, _, _ => none
  | fuel + 1, h, it => do
    let cn ← h.read current_node
    if it.current_index ≠ usub cn.node_size 1 then do
      let after ← plus h (fuel + 1) it 1
      let v ← deref h after
      let h1 ← store h it v
      let it1 ← incr h1 it
      erase_shift current_node fuel h1 it1
    else
      pure h

/-- The statements of `erase(const_iterator position)` other than the
initialisation of `pos`, as a function of `pos`: `--size_;` and everything
after `ul_iterator<> pos = position;`. -/
def erase_body {T : Type} [Element T] (NodeMaxSize fuel : Nat) (st : State T)
    (pos : ul_iterator) : Option (ul_iterator × State T) := do
  let st := { st with size_ := usub st.size_ 1 }
  let cn ← st.heap.read pos.current_node
  let current_node := pos.current_node
  if pos.current_index = usub cn.node_size 1 then
    let h1 ← destroy_t st.heap pos.current_node pos.current_index
    let h2 ← set_node_size h1 current_node (usub cn.node_size 1)
    let st1 := { st with heap := h2 }
    if current_node = st1.tail_ then do
      let e ← end_ st1
      pure (e, st1)
    else do
      let cn1 ← st1.heap.read current_node
      let result : ul_iterator := ⟨cn1.next, 0⟩
      let st2 ← check_node_empty NodeMaxSize st1 current_node
      pure (result, st2)
  else do
    let h1 ← erase_shift current_node fuel st.heap pos
    let cn1 ← h1.read current_node
    let h2 ← destroy_t h1 current_node (usub cn1.node_size 1)
    let h3 ← set_node_size h2 current_node (usub cn1.node_size 1)
    pure (pos, { st with heap := h3 })

/-- Source `clear()`: the loop over the chain. -/
def clear_loop {T : Type} [Element T] (NodeMaxSize : Nat) :
    Nat → Heap T → Ptr → Option (Heap T)
  | 0, _, _ => none
  | fuel + 1, h, current_node =>
    if current_node ≠ none then do
      let temp := current_node
      let n ← h.read current_node
      let h1 ← delete_node NodeMaxSize h temp
      clear_loop NodeMaxSize fuel h1 n.next
    else
      pure h

/-- Source `clear()`. -/
def clear {T : Type} [Element T] (NodeMaxSize fuel : Nat) (st : State T) : Option (State T) := do
  let h1 ← clear_loop NodeMaxSize fuel st.heap st.head_
  pure { st with heap := h1, is_empty_ := true, size_ := 0, head_ := none, tail_ := none }

/-- Source `pop_front()`: the loop
`while (it.current_index != head_->node_size - 1) { *it = *(it + 1); ++it; }`. -/
def pop_front_shift {T : Type} [Element T] (head_ : Ptr) :
    Nat → Heap T → ul_iterator → Option (Heap T)
  | 0, _, _ => none
  | fuel + 1, h, it => do
    let hd ← h.read head_
    if it.current_index ≠ usub hd.node_size 1 then do
      let after ← plus h (fuel + 1) it 1
      let v ← deref h after
      let h1 ← store h it v
      let it1 ← incr h1 it
      pop_front_shift head_ fuel h1 it1
    else
      pure h

/-- Source `pop_front()`. -/
def pop_front {T : Type} [Element T] (NodeMaxSize fuel : Nat) (st : State T) : Option (State T) :=
  if st.size_ = 0 then pure st
  else do
    let st := { st with size_ := usub st.size_ 1 }
    let st := if st.size_ = 0 then { st with is_empty_ := true } else st
    let it := begin st
    let h1 ← pop_front_shift st.head_ fuel st.heap it
    let hd ← h1.read st.head_
    let h2 ← destroy_t h1 st.head_ (usub hd.node_size 1)
    let h3 ← set_node_size h2 st.head_ (usub hd.node_size 1)
    check_node_empty NodeMaxSize { st with heap := h3 } st.head_

/-! ## Traversal -/

/-- Forward iteration `for (it = first; it != last; ++it) visit(*it)`: the
elements dereferenced, in order. -/
def collect {T : Type} (h : Heap T) (last : ul_iterator) :
    Nat → ul_iterator → Option (List T)
  | 0, _ => none
  | fuel + 1, it =>
    if it ≠ last then do
      let v ← deref h it
      let it1 ← incr h it
      let rest ← collect h last fuel it1
      pure (v :: rest)
    else
      pure []

/-- Forward iteration over the whole container, from `begin()` to `end()`. -/
def to_list {T : Type} (fuel : Nat) (st : State T) : Option (List T) := do
  let e ← end_ st
  collect st.heap e fuel (begin st)

/-- Number of elements met walking the chain from `p` by forward links:
the sum of the `node_size` of the nodes visited, and the last node visited. -/
def walk_forward {T : Type} (h : Heap T) : Nat → Ptr → Ptr → Option (Nat × Ptr)
  | 0, _, _ => none
  | fuel + 1, p, last =>
    match p with
    | none => pure (0, last)
    | some a => do
      let n ← h.read (some a)
      let (k, l) ← walk_forward h fuel n.next (some a)
      pure (n.node_size + k, l)

/-- Number of elements met walking the chain from `p` by backward links, and
the last node visited. -/
def walk_backward {T : Type} (h : Heap T) : Nat → Ptr → Ptr → Option (Nat × Ptr)
  | 0, _, _ => none
  | fuel + 1, p, last =>
    match p with
    | none => pure (0, last)
    | some a => do
      let n ← h.read (some a)
      let (k, l) ← walk_backward h fuel n.prev (some a)
      pure (n.node_size + k, l)

/-- The `node_size` of the nodes of the chain, walking from `p` by forward links. -/
def node_counts {T : Type} (h : Heap T) : Nat → Ptr → Option (List Nat)
  | 0, _ => none
  | fuel + 1, p =>
    match p with
    | none => pure []
    | some a => do
      let n ← h.read (some a)
      let rest ← node_counts h fuel n.next
      pure (n.node_size :: rest)

/-! ## Construction from a range and from a count -/

/-- The inner `for (int i = 0; i < NodeMaxSize; ++i)` loop of the range
constructor, entered at index `i` with `k` rounds left; `first` is the unread
part of the source range (`first == last` when it is empty).  Returns the store,
the rest of the range, `ul_size` and `tail_`. -/
def range_ctor_fill {T : Type} (new_node prev_node : Ptr) :
    Nat → Nat → Heap T → List T → Nat → Ptr → Option (Heap T × List T × Nat × Ptr)
  | 0, _, h, first, ul_size, tail_ => pure (h, first, ul_size, tail_)
  | k + 1, i, h, first, ul_size, tail_ =>
    match first with
    | [] => none
    | x :: rest => do
      let h1 ← construct_t h new_node i x
      let n ← h1.read new_node
      let h2 ← set_node_size h1 new_node (n.node_size + 1)
      if rest.isEmpty then
        let h3 ← if prev_node ≠ none then set_next h2 prev_node new_node else pure h2
        pure (h3, rest, ul_size + 1, new_node)
      else
        range_ctor_fill new_node prev_node k (i + 1) h2 rest (ul_size + 1) tail_

/-- The outer `while (first != last)` loop of the range constructor.  Returns
the store, `head_`, `tail_` and `ul_size`. -/
def range_ctor_loop {T : Type} (NodeMaxSize : Nat) :
    Nat → Heap T → List T → Ptr → Bool → Ptr → Ptr → Nat → Option (Heap T × Ptr × Ptr × Nat)
  | 0, _, _, _, _, _, _, _ => none
  | fuel + 1, h, first, prev_node, is_first_it, head_, tail_, ul_size =>
    if first.isEmpty then pure (h, head_, tail_, ul_size)
    else do
      let (a, h1) := allocate_node h
      let new_node : Ptr := some a
      let h2 ← construct_node h1 new_node 0 [] none prev_node
      let head1 := if is_first_it then new_node else head_
      let h3 ← set_data h2 new_node (allocate_t NodeMaxSize)
      let (h4, first1, ul_size1, tail1) ←
        range_ctor_fill new_node prev_node NodeMaxSize 0 h3 first ul_size tail_
      let h5 ← if prev_node ≠ none then set_next h4 prev_node new_node else pure h4
      range_ctor_loop NodeMaxSize fuel h5 first1 new_node false head1 tail1 ul_size1

/-- Source `unrolled_list(InputIterator first, InputIterator last)`, the source
range given as the list of its elements.  The member `sentinel_` is built by
`Node()`; `head_` and `tail_` start indeterminate in the source and are written
before they are read, so they start as null here. -/
def range_ctor {T : Type} (NodeMaxSize fuel : Nat) (h : Heap T) (first : List T) :
    Option (State T) :=
  let (s, h0) := h.alloc (⟨0, [], none, none⟩ : Node T)
  if first.isEmpty then
    pure { heap := h0, sentinel_ := s, tail_ := none, head_ := none, size_ := 0,
           is_empty_ := true }
  else do
    let (h1, head1, tail1, ul_size) ←
      range_ctor_loop NodeMaxSize fuel h0 first none true none none 0
    pure { heap := h1, sentinel_ := s, tail_ := tail1, head_ := head1, size_ := ul_size,
           is_empty_ := false }

/-- Source `unrolled_list(std::initializer_list<T> list)`: it delegates to the
range constructor on `list.begin()`, `list.end()`. -/
def initializer_list_ctor {T : Type} (NodeMaxSize fuel : Nat) (h : Heap T) (list : List T) :
    Option (State T) :=
  range_ctor NodeMaxSize fuel h list

/-- The loops `for (j = 0; j < n; j++) { construct(data + j, value); ++node_size; }`
of the fill constructor, entered at index `j` with `k` rounds left. -/
def fill_slots {T : Type} (p : Ptr) (value : T) : Nat → Nat → Heap T → Option (Heap T)
  | 0, _, h => pure h
  | k + 1, j, h => do
    let h1 ← construct_t h p j value
    let n ← h1.read p
    let h2 ← set_node_size h1 p (n.node_size + 1)
    fill_slots p value k (j + 1) h2

/-- The `for (i = 0; i < node_count; ++i)` loop of the fill constructor, entered
at index `i` with `k` rounds left.  Returns the store, `head_` and `tail_`. -/
def fill_ctor_loop {T : Type} (NodeMaxSize : Nat) (value : T) (node_count rem : Nat) :
    Nat → Nat → Heap T → Ptr → Ptr → Ptr → Option (Heap T × Ptr × Ptr)
  | 0, _, h, _, head_, tail_ => pure (h, head_, tail_)
  | k + 1, i, h, prev_node, head_, tail_ => do
    let (a, h1) := allocate_node h
    let new_node : Ptr := some a
    let h2 ← construct_node h1 new_node 0 [] none prev_node
    let h3 ← set_data h2 new_node (allocate_t NodeMaxSize)
    let head1 := if i = 0 then new_node else head_
    if i = usub node_count 1 ∧ rem ≠ 0 then
      let h4 ← fill_slots new_node value rem 0 h3
      let h5 ← set_next h4 prev_node new_node
      pure (h5, head1, new_node)
    else do
      let h4 ← fill_slots new_node value NodeMaxSize 0 h3
      let tail1 := if i = usub node_count 1 then new_node else tail_
      let h5 ← if prev_node ≠ none then set_next h4 prev_node new_node else pure h4
      fill_ctor_loop NodeMaxSize value node_count rem k (i + 1) h5 new_node head1 tail1

/-- Source `unrolled_list(const size_t count, const T& value)`.  `is_empty_`
keeps its default member initialiser `false` unless `count` is 0; `head_` and
`tail_` start as in `range_ctor`.  `count % NodeMaxSize` with `NodeMaxSize`
equal to 0 is undefined. -/
def fill_ctor {T : Type} (NodeMaxSize : Nat) (h : Heap T) (count : Nat) (value : T) :
    Option (State T) :=
  let (s, h0) := h.alloc (⟨0, [], none, none⟩ : Node T)
  if count = 0 then
    pure { heap := h0, sentinel_ := s, tail_ := none, head_ := none, size_ := 0,
           is_empty_ := true }
  else if NodeMaxSize = 0 then none
  else do
    let rem := count % NodeMaxSize
    let node_count := count / NodeMaxSize
    let ul_size := node_count * NodeMaxSize
    let node_count := if rem ≠ 0 then node_count + 1 else node_count
    let ul_size := if rem ≠ 0 then ul_size + rem else ul_size
    let (h1, head1, tail1) ←
      fill_ctor_loop NodeMaxSize value node_count rem node_count 0 h0 none none none
    pure { heap := h1, sentinel_ := s, tail_ := tail1, head_ := head1, size_ := ul_size,
           is_empty_ := false }

/-! ## Copy, assignment, comparison, destruction -/

/-- The loop `for (auto& i : other) push_back(i);` of the copy constructors:
`it` runs over the source from `other.begin()` to `last`, the value of
`other.end()` taken before the loop, and `st` is the container under
construction.  Both containers live in the store `st.heap`. -/
def copy_loop {T : Type} (NodeMaxSize : Nat) (last : ul_iterator) :
    Nat → State T → ul_iterator → Option (State T)
  | 0, _, _ => none
  | fuel + 1, st, it =>
    if it ≠ last then do
      let i ← deref st.heap it
      let st1 ← push_back NodeMaxSize st i
      let it1 ← incr st1.heap it
      copy_loop NodeMaxSize last fuel st1 it1
    else
      pure st

/-- Source `unrolled_list(const unrolled_list& other)`.  The constructor has no
member initialiser list: `sentinel_` is built by `Node()`, `size_` and
`is_empty_` take their default member initialisers 0 and `false`, and `tail_`
and `head_` are left uninitialised.  `tail0` and `head0` are the indeterminate
values these two members hold when the body starts.  The new container is built
in the store of `other`. -/
def copy_ctor {T : Type} (NodeMaxSize fuel : Nat) (tail0 head0 : Ptr) (other : State T) :
    Option (State T) := do
  let (s, h0) := other.heap.alloc (⟨0, [], none, none⟩ : Node T)
  let src : State T := { other with heap := h0 }
  let this : State T := ⟨h0, s, tail0, head0, 0, false⟩
  let e ← end_ src
  copy_loop NodeMaxSize e fuel this (begin src)

/-- Source `unrolled_list(const unrolled_list& other, const allocator_type& alloc)`:
the same loop, after the member initialisers
`tail_(nullptr), head_(nullptr), size_(0), is_empty_(true)`. -/
def copy_ctor_alloc {T : Type} (NodeMaxSize fuel : Nat) (other : State T) :
    Option (State T) := do
  let (s, h0) := other.heap.alloc (⟨0, [], none, none⟩ : Node T)
  let src : State T := { other with heap := h0 }
  let this : State T := ⟨h0, s, none, none, 0, true⟩
  let e ← end_ src
  copy_loop NodeMaxSize e fuel this (begin src)

/-- The loop of the destructor `~unrolled_list()`: for each node of the chain,
`destroy` on its first `node_size` slots, then the buffer and the record are
deallocated. -/
def destructor_loop {T : Type} [Element T] : Nat → Heap T → Ptr → Option (Heap T)
  | 0, _, _ => none
  | fuel + 1, h, current_node =>
    if current_node ≠ none then do
      let n ← h.read current_node
      let temp := n.next
      let h1 ← destroy_slots h current_node 0 n.node_size
      let h2 ← h1.free current_node
      destructor_loop fuel h2 temp
    else
      pure h

/-- Source `~unrolled_list()`, followed by the end of the lifetime of the
member `sentinel_`.  Returns the store. -/
def destructor {T : Type} [Element T] (fuel : Nat) (st : State T) : Option (Heap T) := do
  let h1 ← destructor_loop fuel st.heap st.head_
  h1.free (some st.sentinel_)

/-- Source `swap(unrolled_list& other)`: it exchanges `tail_`, `head_` and
`size_`, and nothing else.  Returns `*this` and `other`. -/
def swap {T : Type} (st other : State T) : State T × State T :=
  ({ st with tail_ := other.tail_, head_ := other.head_, size_ := other.size_ },
   { other with tail_ := st.tail_, head_ := st.head_, size_ := st.size_ })

/-- Source `operator=(const unrolled_list& other)` on two distinct objects
(`this != &other`).  Both live in the store `st.heap`.  The temporary is built
by the range constructor from the cursors `other.cbegin()`, `other.cend()`: the
constructor writes only to the nodes it allocates, so the range it reads is the
sequence forward iteration over `other` yields.  After `swap(temp)` the
temporary goes out of scope and its destructor runs.  Returns `*this` and
`other`, in the store they then share. -/
def operator_assign {T : Type} [Element T] (NodeMaxSize fuel : Nat) (st other : State T) :
    Option (State T × State T) := do
  let src : State T := { other with heap := st.heap }
  let first ← to_list fuel src
  let temp ← range_ctor NodeMaxSize fuel st.heap first
  let (st1, temp1) := swap { st with heap := temp.heap } temp
  let h ← destructor fuel temp1
  pure ({ st1 with heap := h }, { other with heap := h })

/-- The algorithm `std::equal(first1, last1, first2)`:
`for (; first1 != last1; ++first1, ++first2) if (!(*first1 == *first2)) return false;`
`return true;`.  The first range is read in the store `h1`, the second in `h2`. -/
def equal {T : Type} [DecidableEq T] (h1 h2 : Heap T) (last1 : ul_iterator) :
    Nat → ul_iterator → ul_iterator → Option Bool
  | 0, _, _ => none
  | fuel + 1, first1, first2 =>
    if first1 ≠ last1 then do
      let x ← deref h1 first1
      let y ← deref h2 first2
      if x ≠ y then pure false
      else do
        let f1 ← incr h1 first1
        let f2 ← incr h2 first2
        equal h1 h2 last1 fuel f1 f2
    else
      pure true

/-- Source `operator==(const unrolled_list& other)`.  Each container is read in
the store of its own state (the two stores are the same one when both
containers live together). -/
def operator_eq {T : Type} [DecidableEq T] (fuel : Nat) (st other : State T) : Option Bool :=
  if st.size_ ≠ other.size_ then pure false
  else do
    let e ← end_ st
    equal st.heap other.heap e fuel (begin st) (begin other)

/-- Repeated `operator++`: the cursor after `k` increments. -/
def advance {T : Type} (h : Heap T) : Nat → ul_iterator → Option ul_iterator
  | 0, it => pure it
  | k + 1, it => do
    let it1 ← incr h it
    advance h k it1

/-- Backward traversal with `operator--`: dereference the cursor, then `k`
times retreat by one and dereference.  Returns the elements dereferenced, in
that order, and the final cursor. -/
def retreat_walk {T : Type} (NodeMaxSize : Nat) (h : Heap T) :
    Nat → ul_iterator → Option (List T × ul_iterator)
  | 0, it => do
    let v ← deref h it
    pure ([v], it)
  | k + 1, it => do
    let v ← deref h it
    let it1 ← decr NodeMaxSize h it
    let (vs, e) ← retreat_walk NodeMaxSize h k it1
    pure (v :: vs, e)

/-- Source `rbegin()`, `reverse_iterator(end())`.  A `std::reverse_iterator` is
given by its base cursor `current`. -/
def rbegin {T : Type} (st : State T) : Option ul_iterator := end_ st

/-- Source `rend()`, `reverse_iterator(begin())`. -/
def rend {T : Type} (st : State T) : ul_iterator := begin st

/-- Dereference of a `std::reverse_iterator`: `Iter tmp = current; return *--tmp;`. -/
def reverse_deref {T : Type} (NodeMaxSize : Nat) (h : Heap T) (current : ul_iterator) :
    Option T := do
  let tmp ← decr NodeMaxSize h current
  deref h tmp

/-- Reverse traversal `for (rit = first; rit != last; ++rit) visit(*rit)` with
`std::reverse_iterator`, whose `++` is `--current`; `last` is the base cursor of
the end of the traversal. -/
def reverse_collect {T : Type} (NodeMaxSize : Nat) (h : Heap T) (last : ul_iterator) :
    Nat → ul_iterator → Option (List T)
  | 0, _ => none
  | fuel + 1, current =>
    if current ≠ last then do
      let v ← reverse_deref NodeMaxSize h current
      let current1 ← decr NodeMaxSize h current
      let rest ← reverse_collect NodeMaxSize h last fuel current1
      pure (v :: rest)
    else
      pure []

/-- Reverse traversal over the whole container, from `rbegin()` to `rend()`. -/
def reverse_to_list {T : Type} (NodeMaxSize fuel : Nat) (st : State T) : Option (List T) := do
  let rb ← rbegin st
  reverse_collect NodeMaxSize st.heap (rend st) fuel rb

/-! ## Insertion of a range -/

/-- The loop `while (last != first) { insert(pos, *last); --last; }` of the
range `insert`: `vs` holds the elements it inserts, in the order it inserts
them (from the last element of the source range down to the second). -/
def insert_range_loop {T : Type} [Element T] (NodeMaxSize fuel : Nat) (pos : ul_iterator) :
    State T → List T → Option (State T)
  | st, [] => pure st
  | st, v :: vs => do
    let (_, st1) ← insert NodeMaxSize fuel st pos (ConstRef.object v)
    insert_range_loop NodeMaxSize fuel pos st1 vs

/-- The statements of
`insert(const_iterator position, InputIterator first, InputIterator last)` after
the initialisation of `pos`, as a function of `pos`; the source range is given
as the list of its elements, which are objects outside the container.
`--last` on an empty range steps before its first element: undefined. -/
def insert_range_body {T : Type} [Element T] (NodeMaxSize fuel : Nat) (st : State T)
    (pos : ul_iterator) : List T → Option (ul_iterator × State T)
  | [] => none
  | x :: rest => do
    let st1 ← insert_range_loop NodeMaxSize fuel pos st rest.reverse
    let (_, st2) ← insert NodeMaxSize fuel st1 pos (ConstRef.object x)
    pure (pos, st2)

/-- The step of a call that throws, if any.  A call of `push_back` runs at most
one step of each kind. -/
inductive Fault where
  | none
  | allocate_node
  | allocate_t
  | construct_t
deriving DecidableEq

/-- How a call ends: it returns, or an exception leaves it. -/
inductive Outcome (ε α : Type) where
  | thrown : ε → Outcome ε α
  | returned : α → Outcome ε α
deriving DecidableEq

/-- Source `create_node_after(current_node, size)` when `allocate_node()` or
`allocate_t()` may throw: the state at the throw, or the new node and the state. -/
def create_node_after_throwing {T : Type} (NodeMaxSize : Nat) (fault : Fault) (st : State T)
    (current_node : Ptr) (size : Nat) : Option (Outcome (State T) (Ptr × State T)) := do
  let cn ← st.heap.read current_node
  let prev_next := cn.next
  if fault = Fault.allocate_node then pure (Outcome.thrown st)
  else do
    let (a, h1) := allocate_node st.heap
    let h2 ← set_next h1 current_node (some a)
    let h3 ← if prev_next ≠ none then set_prev h2 prev_next (some a) else pure h2
    let h4 ← construct_node h3 (some a) size [] prev_next current_node
    let new_node : Ptr := some a
    if fault = Fault.allocate_t then pure (Outcome.thrown { st with heap := h4 })
    else do
      let h5 ← set_data h4 new_node (allocate_t NodeMaxSize)
      let tail1 := if st.tail_ = current_node then new_node else st.tail_
      pure (Outcome.returned (new_node, { st with heap := h5, tail_ := tail1 }))

/-- The `catch (...)` block of `push_back`, entered in the state `st`:
`if (allocated_node) { allocated_node->prev->next = nullptr; delete_node(allocated_node); }`
`tail_ = prev_tail;` and the exception is thrown again.  Returns the state in
which the exception leaves `push_back`. -/
def push_back_catch {T : Type} [Element T] (NodeMaxSize : Nat) (allocated_node prev_tail : Ptr)
    (st : State T) : Option (State T) := do
  let st1 ←
    if allocated_node ≠ none then do
      let an ← st.heap.read allocated_node
      let h1 ← set_next st.heap an.prev none
      let h2 ← delete_node NodeMaxSize h1 allocated_node
      pure { st with heap := h2 }
    else pure st
  pure { st1 with tail_ := prev_tail }

/-- Source `push_back(value)` when the step `fault` throws: the `try` block up
to the throw, then the `catch` block.  `allocated_node` is only assigned on the
path of the empty container. -/
def push_back_throwing {T : Type} [Element T] (NodeMaxSize : Nat) (fault : Fault) (st : State T)
    (value : T) : Option (Outcome (State T) (State T)) := do
  let prev_tail := st.tail_
  let st := { st with size_ := st.size_ + 1 }
  if st.tail_ = none ∧ st.head_ = none then
    if fault = Fault.allocate_node then do
      let st' ← push_back_catch NodeMaxSize none prev_tail st
      pure (Outcome.thrown st')
    else do
      let (a, h1) := allocate_node st.heap
      let new_node : Ptr := some a
      let allocated_node := new_node
      let h2 ← construct_node h1 new_node 1 [] none none
      if fault = Fault.allocate_t then do
        let st' ← push_back_catch NodeMaxSize allocated_node prev_tail { st with heap := h2 }
        pure (Outcome.thrown st')
      else do
        let h3 ← set_data h2 new_node (allocate_t NodeMaxSize)
        if fault = Fault.construct_t then do
          let st' ← push_back_catch NodeMaxSize allocated_node prev_tail { st with heap := h3 }
          pure (Outcome.thrown st')
        else do
          let h4 ← construct_t h3 new_node 0 value
          pure (Outcome.returned
            { st with heap := h4, tail_ := new_node, head_ := new_node, is_empty_ := false })
  else do
    let t ← st.heap.read st.tail_
    if t.node_size ≠ NodeMaxSize then
      if fault = Fault.construct_t then do
        let st' ← push_back_catch NodeMaxSize none prev_tail st
        pure (Outcome.thrown st')
      else do
        let h1 ← construct_t st.heap st.tail_ t.node_size value
        let h2 ← set_node_size h1 st.tail_ (t.node_size + 1)
        pure (Outcome.returned { st with heap := h2 })
    else do
      let r ← create_node_after_throwing NodeMaxSize fault st st.tail_ 1
      match r with
      | Outcome.thrown st1 => do
        let st' ← push_back_catch NodeMaxSize none prev_tail st1
        pure (Outcome.thrown st')
      | Outcome.returned (new_node, st1) =>
        if fault = Fault.construct_t then do
          let st' ← push_back_catch NodeMaxSize none prev_tail st1
          pure (Outcome.thrown st')
        else do
          let h1 ← construct_t st1.heap new_node 0 value
          pure (Outcome.returned { st1 with heap := h1 })

/-- The inner `for` loop of the allocator-taking range constructor, entered at
index `i` with `k` rounds left.  `sc` is `sucussfull_construct`; the
construction that throws is the one reached with `sc` equal to `fail_at`.
Thrown: the store and `sucussfull_construct`.  Returned: the store, the rest of
the range, `ul_size`, `tail_` and `sucussfull_construct`. -/
def range_alloc_fill_throwing {T : Type} (new_node prev_node : Ptr) (fail_at : Nat) :
    Nat → Nat → Heap T → List T → Nat → Ptr → Nat →
      Option (Outcome (Heap T × Nat) (Heap T × List T × Nat × Ptr × Nat))
  | 0, _, h, first, ul_size, tail_, sc => pure (Outcome.returned (h, first, ul_size, tail_, sc))
  | k + 1, i, h, first, ul_size, tail_, sc =>
    match first with
    | [] => none
    | x :: rest =>
      if sc = fail_at then pure (Outcome.thrown (h, sc))
      else do
        let h1 ← construct_t h new_node i x
        let n ← h1.read new_node
        let h2 ← set_node_size h1 new_node (n.node_size + 1)
        if rest.isEmpty then
          let h3 ← if prev_node ≠ none then set_next h2 prev_node new_node else pure h2
          pure (Outcome.returned (h3, rest, ul_size + 1, new_node, sc + 1))
        else
          range_alloc_fill_throwing new_node prev_node fail_at k (i + 1) h2 rest (ul_size + 1)
            tail_ (sc + 1)

/-- The outer `while (first != last)` loop of the allocator-taking range
constructor; `allocated_nodes` is the vector of that name.  Thrown: the store,
`allocated_nodes` and `sucussfull_construct`.  Returned: the store, `head_`,
`tail_` and `ul_size`. -/
def range_alloc_loop_throwing {T : Type} (NodeMaxSize fail_at : Nat) :
    Nat → Heap T → List T → Ptr → Bool → Ptr → Ptr → Nat → List Ptr → Nat →
      Option (Outcome (Heap T × List Ptr × Nat) (Heap T × Ptr × Ptr × Nat))
  | 0, _, _, _, _, _, _, _, _, _ => none
  | fuel + 1, h, first, prev_node, is_first_it, head_, tail_, ul_size, allocated_nodes, sc =>
    if first.isEmpty then pure (Outcome.returned (h, head_, tail_, ul_size))
    else do
      let (a, h1) := allocate_node h
      let new_node : Ptr := some a
      let allocated_nodes := allocated_nodes ++ [new_node]
      let h2 ← construct_node h1 new_node 0 [] none prev_node
      let head1 := if is_first_it then new_node else head_
      let h3 ← set_data h2 new_node (allocate_t NodeMaxSize)
      let r ← range_alloc_fill_throwing new_node prev_node fail_at NodeMaxSize 0 h3 first
        ul_size tail_ sc
      match r with
      | Outcome.thrown (h4, sc1) => pure (Outcome.thrown (h4, allocated_nodes, sc1))
      | Outcome.returned (h4, first1, ul_size1, tail1, sc1) => do
        let h5 ← if prev_node ≠ none then set_next h4 prev_node new_node else pure h4
        range_alloc_loop_throwing NodeMaxSize fail_at fuel h5 first1 new_node false head1 tail1
          ul_size1 allocated_nodes sc1

/-- The loop `while (it != full_destroyed_nodes)` of the `catch` block of the
allocator-taking range constructor, with `k` rounds left: the node
`allocated_nodes[it]` has all its `NodeMaxSize` slots destroyed and is
deallocated, buffer and record. -/
def range_alloc_catch_loop {T : Type} [Element T] (NodeMaxSize : Nat) (allocated_nodes : List Ptr) :
    Nat → Nat → Heap T → Option (Heap T)
  | 0, _, h => pure h
  | k + 1, it, h => do
    let node ← allocated_nodes[it]?
    let h1 ← destroy_slots h node 0 NodeMaxSize
    let h2 ← h1.free node
    range_alloc_catch_loop NodeMaxSize allocated_nodes k (it + 1) h2

/-- The `catch (...)` block of the allocator-taking range constructor.
`sucussfull_construct / NodeMaxSize` nodes are released in full; the node after
them is released, with its first `rem` slots destroyed, only `if (rem != 0)`. -/
def range_alloc_catch {T : Type} [Element T] (NodeMaxSize : Nat) (h : Heap T)
    (allocated_nodes : List Ptr)
    (sucussfull_construct : Nat) : Option (Heap T) :=
  if NodeMaxSize = 0 then none
  else do
    let full_destroyed_nodes := sucussfull_construct / NodeMaxSize
    let rem := sucussfull_construct % NodeMaxSize
    let h1 ← range_alloc_catch_loop NodeMaxSize allocated_nodes full_destroyed_nodes 0 h
    if rem ≠ 0 then do
      let node ← allocated_nodes[full_destroyed_nodes]?
      let h2 ← destroy_slots h1 node 0 rem
      h2.free node
    else
      pure h1

/-- Source `unrolled_list(InputIterator first, InputIterator last, const allocator_type alloc)`
when the construction of the element reached after `fail_at` successful ones
throws.  Thrown: the store in which the exception leaves the constructor (the
member `sentinel_`, built before the body ran, ends its lifetime with the
object).  Returned: the container. -/
def range_ctor_alloc_throwing {T : Type} [Element T] (NodeMaxSize fuel fail_at : Nat) (h : Heap T)
    (first : List T) : Option (Outcome (Heap T) (State T)) :=
  let (s, h0) := h.alloc (⟨0, [], none, none⟩ : Node T)
  if first.isEmpty then
    pure (Outcome.returned ⟨h0, s, none, none, 0, true⟩)
  else do
    let r ← range_alloc_loop_throwing NodeMaxSize fail_at fuel h0 first none true none none 0 [] 0
    match r with
    | Outcome.thrown (h1, allocated_nodes, sc) => do
      let h2 ← range_alloc_catch NodeMaxSize h1 allocated_nodes sc
      let h3 ← h2.free (some s)
      pure (Outcome.thrown h3)
    | Outcome.returned (h1, head1, tail1, ul_size) =>
      pure (Outcome.returned ⟨h1, s, tail1, head1, ul_size, false⟩)

/-- Number of live node records of the store. -/
def live_records {T : Type} (h : Heap T) : Nat := (h.filter Option.isSome).length

/-! ## Well-formed containers

The abstract view of a container is its `Layout`: the nodes of the chain from
`head_` to `tail_`, each given by its address and the elements it holds. -/

/-- The nodes of a chain in order: address and elements held. -/
abbrev Layout (T : Type) := List (Nat × List T)

/-- The element sequence of a layout: the node contents, concatenated. -/
def elems {T : Type} : Layout T → List T
  | [] => []
  | (_, c) :: r => c ++ elems r

/-- The element counts of the nodes of a layout, in order. -/
def counts {T : Type} (nodes : Layout T) : List Nat := nodes.map (fun x => x.2.length)

/-- The addresses of the nodes of a layout, in order. -/
def addrs {T : Type} (nodes : Layout T) : List Nat := nodes.map Prod.fst

/-- Pointer to the first node of a layout, `nx` when there is none. -/
def headPtr {T : Type} (nx : Ptr) : Layout T → Ptr
  | [] => nx
  | (a, _) :: _ => some a

/-- Pointer to the last node of a layout, `pv` when there is none. -/
def lastPtr {T : Type} (pv : Ptr) : Layout T → Ptr
  | [] => pv
  | (a, _) :: r => lastPtr (some a) r

/-- The record `n` is a node of the chain holding exactly the elements `c`
(between 1 and `NodeMaxSize` of them, live in the first slots of a buffer of
`NodeMaxSize` slots) and linked to `nx` and `pv`. -/
def NodeOK {T : Type} (NodeMaxSize : Nat) (n : Node T) (c : List T) (nx pv : Ptr) : Prop :=
  n.node_size = c.length ∧ n.data.length = NodeMaxSize ∧ n.data.take c.length = c.map some ∧
  n.next = nx ∧ n.prev = pv ∧ 0 < c.length ∧ c.length ≤ NodeMaxSize

/-- The store holds at address `a` a record that is `NodeOK`. -/
def NodeAt {T : Type} (NodeMaxSize : Nat) (h : Heap T) (a : Nat) (c : List T) (nx pv : Ptr) :
    Prop :=
  ∃ n, h.read (some a) = some n ∧ NodeOK NodeMaxSize n c nx pv

/-- The store holds the nodes of `nodes` as a doubly linked segment: the first
node's back link is `pv`, each forward link leads to the next node of the
layout, and the last forward link is `nx`. -/
def Chain {T : Type} (NodeMaxSize : Nat) (h : Heap T) : Ptr → Layout T → Ptr → Prop
  | _, [], _ => True
  | pv, (a, c) :: r, nx =>
    NodeAt NodeMaxSize h a c (headPtr nx r) pv ∧ Chain NodeMaxSize h (some a) r nx

/-- A well-formed container with layout `nodes`: the chain runs from `head_` to
`tail_` with null links at both ends, its nodes are distinct, every node holds
between 1 and `NodeMaxSize` elements, and `size_` is the sum of the node counts. -/
def WF {T : Type} (NodeMaxSize : Nat) (st : State T) (nodes : Layout T) : Prop :=
  Chain NodeMaxSize st.heap none nodes none ∧ (addrs nodes).Nodup ∧
  st.head_ = headPtr none nodes ∧ st.tail_ = lastPtr none nodes ∧
  st.size_ = (counts nodes).sum

instance NodeOK.instDecidable {T : Type} [DecidableEq T] (N : Nat) (n : Node T) (c : List T)
    (nx pv : Ptr) : Decidable (NodeOK N n c nx pv) := by
  unfold NodeOK
  exact inferInstance

instance NodeAt.instDecidable {T : Type} [DecidableEq T] (N : Nat) (h : Heap T) (a : Nat)
    (c : List T) (nx pv : Ptr) : Decidable (NodeAt N h a c nx pv) :=
  match hr : h.read (some a) with
  | some n =>
    if hn : NodeOK N n c nx pv then isTrue ⟨n, hr, hn⟩
    else isFalse (fun ⟨m, hm, hk⟩ => hn (by rw [hr] at hm; cases hm; exact hk))
  | none => isFalse (fun ⟨m, hm, _⟩ => by rw [hr] at hm; cases hm)

instance Chain.instDecidable {T : Type} [DecidableEq T] (N : Nat) (h : Heap T) :
    (pv : Ptr) → (nodes : Layout T) → (nx : Ptr) → Decidable (Chain N h pv nodes nx)
  | _, [], _ => isTrue trivial
  | pv, (a, c) :: r, nx =>
    match NodeAt.instDecidable N h a c (headPtr nx r) pv, Chain.instDecidable N h (some a) r nx with
    | isTrue h1, isTrue h2 => isTrue ⟨h1, h2⟩
    | isFalse h1, _ => isFalse (fun hc => h1 hc.1)
    | _, isFalse h2 => isFalse (fun hc => h2 hc.2)

instance WF.instDecidable {T : Type} [DecidableEq T] (N : Nat) (st : State T)
    (nodes : Layout T) : Decidable (WF N st nodes) := by
  unfold WF
  exact inferInstance

/-- Repeated `push_back`, one call per element of `xs`, in order. -/
def push_back_all {T : Type} (NodeMaxSize : Nat) (st : State T) : List T → Option (State T)
  | [] => pure st
  | x :: xs => do
    let st1 ← push_back NodeMaxSize st x
    push_back_all NodeMaxSize st1 xs

/-- The layout after `push_back` of `v`: the last node grows while it has room,
otherwise a new node at address `L` is appended. -/
def push_back_layout {T : Type} (NodeMaxSize L : Nat) (v : T) : Layout T → Layout T
  | [] => [(L, [v])]
  | [(t, cs)] => if cs.length < NodeMaxSize then [(t, cs ++ [v])] else [(t, cs), (L, [v])]
  | x :: y :: r => x :: push_back_layout NodeMaxSize L v (y :: r)

/-- A container of `NodeMaxSize` 3 holding `1, 2, 3 | 4, 5` in two nodes at the
addresses 1 and 2 (the sentinel is at address 0). -/
def example_state : State Nat :=
  { heap := [some ⟨0, [], none, none⟩,
             some ⟨3, [some 1, some 2, some 3], some 2, none⟩,
             some ⟨2, [some 4, some 5, none], none, some 1⟩],
    sentinel_ := 0, tail_ := some 2, head_ := some 1, size_ := 5, is_empty_ := false }

/-- With `NodeMaxSize` 2: `push_back` of 1, 2, 3 onto an empty container, giving
the nodes `1, 2 | 3`. -/
def erase_tail_before : Option (State Nat) :=
  push_back_all 2 (default_ctor ([] : Heap Nat)) [1, 2, 3]

/-- The container `erase_tail_before` after the statements of `erase` that
follow the initialisation of `pos` (`erase_body`), run with `pos` the cursor to
its last element 3, which is the last occupied slot of the tail node. -/
def erase_tail_after : Option (State Nat) := do
  let st ← erase_tail_before
  let (_, st') ← erase_body 2 5 st ⟨st.tail_, 0⟩
  pure st'

/-- With `NodeMaxSize` 3: `push_back` of 1, 2 onto an empty container. -/
def insert_end_before : Option (State Nat) :=
  push_back_all 3 (default_ctor ([] : Heap Nat)) [1, 2]

/-- The container `insert_end_before` after the statements of
`insert(const_iterator, const T&)` that follow the initialisation of `pos`
(`insert_body`), run with `pos = end()` and the value 9. -/
def insert_end_after_const : Option (State Nat) := do
  let st ← insert_end_before
  let e ← end_ st
  let (_, st') ← insert_body 3 5 st e (ConstRef.object 9)
  pure st'

/-- The container `insert_end_before` after `insert(end(), 9)` through the
`iterator` overload. -/
def insert_end_after : Option (State Nat) := do
  let st ← insert_end_before
  let e ← end_ st
  let (_, st') ← insert 3 5 st e (ConstRef.object 9)
  pure st'

/-- The container `insert_end_before` after `push_back(9)`. -/
def insert_end_push_back : Option (State Nat) := do
  let st ← insert_end_before
  push_back 3 st 9

/-- With `NodeMaxSize` 3: an empty container after `push_back(1)` and then
the statements of `insert(const_iterator, const T&)` that follow the
initialisation of `pos` (`insert_body`), run with `pos = end()` and the
value 2. -/
def push_then_insert_end : Option (State Nat) := do
  let st ← push_back 3 (default_ctor ([] : Heap Nat)) 1
  let e ← end_ st
  let (_, st') ← insert_body 3 5 st e (ConstRef.object 2)
  pure st'

/-- With `NodeMaxSize` 3: an empty container after `push_front(1)`. -/
def push_front_once : Option (State Nat) :=
  push_front 3 (default_ctor ([] : Heap Nat)) (ConstRef.object 1)

/-- The same calls as `push_then_insert_end`, the `insert` going through the
`iterator` overload. -/
def push_then_insert_end_it : Option (State Nat) := do
  let st ← push_back 3 (default_ctor ([] : Heap Nat)) 1
  let e ← end_ st
  let (_, st') ← insert 3 5 st e (ConstRef.object 2)
  pure st'

/-- A container of `NodeMaxSize` 3 holding `1, 2, 3 | 4` in two nodes at the
addresses 1 and 2: its tail node holds a single element. -/
def example_single_tail : State Nat :=
  { heap := [some ⟨0, [], none, none⟩,
             some ⟨3, [some 1, some 2, some 3], some 2, none⟩,
             some ⟨1, [some 4, none, none], none, some 1⟩],
    sentinel_ := 0, tail_ := some 2, head_ := some 1, size_ := 4, is_empty_ := false }

/-- The cursor at logical position `i` of a layout: node and offset of the
`i`-th element, and `(nx, 0)` once `i` is past the last element. -/
def cursor {T : Type} (nx : Ptr) : Layout T → Nat → ul_iterator
  | [], _ => ⟨nx, 0⟩
  | (a, c) :: r, i => if i < c.length then ⟨some a, i⟩ else cursor nx r (i - c.length)

/-- A layout in which every node but the last holds exactly `NodeMaxSize` elements. -/
def packed {T : Type} (NodeMaxSize : Nat) : Layout T → Prop
  | [] => True
  | [_] => True
  | (_, c) :: y :: r => c.length = NodeMaxSize ∧ packed NodeMaxSize (y :: r)

/-- The record at address `b` of the store holds an element buffer (its `data`
is not null). -/
def has_buffer {T : Type} (h : Heap T) (b : Nat) : Bool :=
  match h.read (some b) with
  | some n => !n.data.isEmpty
  | none => false

/-- Number of element buffers held by the records of the store. -/
def buffer_count {T : Type} (h : Heap T) : Nat :=
  ((List.range h.length).filter (has_buffer h)).length

/-- A container of `NodeMaxSize` 3 holding `1, 2 | 3, 4, 5` in two nodes at the
addresses 1 and 2: the elements of `example_state` with another node boundary. -/
def example_resplit : State Nat :=
  { heap := [some ⟨0, [], none, none⟩,
             some ⟨2, [some 1, some 2, none], some 2, none⟩,
             some ⟨3, [some 3, some 4, some 5], none, some 1⟩],
    sentinel_ := 0, tail_ := some 2, head_ := some 1, size_ := 5, is_empty_ := false }

/-- A store holding two containers of `NodeMaxSize` 3: one with sentinel at
address 0 and the nodes `1, 2, 3 | 4, 5` at the addresses 1 and 2, the other
with sentinel at address 3 and the single node `7, 8` at address 4. -/
def example_store : Heap Nat :=
  [some ⟨0, [], none, none⟩,
   some ⟨3, [some 1, some 2, some 3], some 2, none⟩,
   some ⟨2, [some 4, some 5, none], none, some 1⟩,
   some ⟨0, [], none, none⟩,
   some ⟨2, [some 7, some 8, none], none, none⟩]

/-- The first container of `example_store`. -/
def example_a : State Nat := ⟨example_store, 0, some 2, some 1, 5, false⟩

/-- The second container of `example_store`. -/
def example_b : State Nat := ⟨example_store, 3, some 4, some 4, 2, false⟩

/-- With `NodeMaxSize` 3: the container built from `1, 2, 3` by the range
constructor. -/
def example_range : Option (State Nat) := range_ctor 3 6 ([] : Heap Nat) [1, 2, 3]

/-- With `NodeMaxSize` 3: the container built by `push_back` of `1, 2, 3, 4`. -/
def example_pushed : Option (State Nat) :=
  push_back_all 3 (default_ctor ([] : Heap Nat)) [1, 2, 3, 4]

/-- With `NodeMaxSize` 3: the container built by `push_back` of `1, 2, 3, 4, 5`,
holding `1, 2, 3 | 4, 5`. -/
def insert_mid_before : Option (State Nat) :=
  push_back_all 3 (default_ctor ([] : Heap Nat)) [1, 2, 3, 4, 5]

/-- The cursor returned by, and the container left by, `insert(pos, 9)` on
`insert_mid_before` through the `iterator` overload, `pos` being the cursor to
the element 2 (offset 1 of the head node, which is full). -/
def insert_mid_result : Option (ul_iterator × State Nat) :=
  insert_mid_before.bind (fun st => insert 3 6 st ⟨st.head_, 1⟩ (ConstRef.object 9))

/-- The statements of `insert(const_iterator, const T&)` that follow the
initialisation of `pos` (`insert_body`), run on the arguments of
`insert_mid_result`. -/
def insert_mid_result_const : Option (ul_iterator × State Nat) :=
  insert_mid_before.bind (fun st => insert_body 3 6 st ⟨st.head_, 1⟩ (ConstRef.object 9))

/-- The cursor returned by, and the container left by, `insert(begin(), 9)` on
`insert_end_before`, whose single node holds `1, 2` and has room. -/
def insert_room_result : Option (ul_iterator × State Nat) :=
  insert_end_before.bind (fun st => insert 3 6 st ⟨st.head_, 0⟩ (ConstRef.object 9))

/-- With `NodeMaxSize` 3: the container built by `push_back` of `1, ..., 6`
after the statements of `erase` that follow the initialisation of `pos`
(`erase_body`), run with `pos` the cursor to 3 (offset 2 of the head node):
`1, 2 | 4, 5, 6`. -/
def retreat_erased : Option (State Nat) :=
  (push_back_all 3 (default_ctor ([] : Heap Nat)) [1, 2, 3, 4, 5, 6]).bind
    (fun st => (erase_body 3 6 st ⟨st.head_, 2⟩).map Prod.snd)

/-- With `NodeMaxSize` 3: the container built by `push_back` of `1, ..., 5`
after `insert` of 9 at the cursor to 2, which splits the full head node:
`1, 9, 2 | 3 | 4, 5`. -/
def retreat_split : Option (State Nat) :=
  (push_back_all 3 (default_ctor ([] : Heap Nat)) [1, 2, 3, 4, 5]).bind
    (fun st => (insert 3 6 st ⟨st.head_, 1⟩ (ConstRef.object 9)).map Prod.snd)

/-- Advancing the cursor `c` by one and retreating the result by one. -/
def incr_then_decr {T : Type} (NodeMaxSize : Nat) (h : Heap T) (c : ul_iterator) :
    Option ul_iterator :=
  (incr h c).bind (decr NodeMaxSize h)

/-- With `NodeMaxSize` 3: a default-constructed container after `push_back(1)`
and then the statements of `erase` that follow the initialisation of `pos`
(`erase_body`), run with `pos = begin()`. -/
def erase_only_element : Option (State Nat) :=
  (push_back 3 (default_ctor ([] : Heap Nat)) 1).bind
    (fun st => (erase_body 3 6 st ⟨st.head_, 0⟩).map Prod.snd)

/-- With `NodeMaxSize` 3 and two containers in one store, the first
default-constructed and the second holding 1 after `push_back(1)`: the two
containers after `swap`. -/
def swap_empty_with_one : Option (State Nat × State Nat) := do
  let a := default_ctor ([] : Heap Nat)
  let b ← push_back 3 (default_ctor a.heap) 1
  pure (swap { a with heap := b.heap } b)

/-- With `NodeMaxSize` 3: the container built by `push_back` of `1, 2, 3, 4`
(`1, 2, 3 | 4`) after the statements of `erase` that follow the initialisation
of `pos` (`erase_body`), run with `pos` the cursor to 4, the only element of
the tail. -/
def erase_tail_single : Option (State Nat) :=
  example_pushed.bind (fun st => (erase_body 3 6 st ⟨st.tail_, 0⟩).map Prod.snd)

/-- The node counts met from `p` along the backward links, at most `fuel` nodes. -/
def node_counts_back {T : Type} (h : Heap T) : Nat → Ptr → Option (List Nat)
  | _, none => some []
  | 0, some _ => none
  | fuel + 1, some a => do
    let n ← h.read (some a)
    let r ← node_counts_back h fuel n.prev
    pure (n.node_size :: r)

/-- The state in which an exception left the call, when one did. -/
def thrown_state {ε α : Type} : Outcome ε α → Option ε
  | Outcome.thrown e => some e
  | Outcome.returned _ => none

/-- With `NodeMaxSize` 3: the container built by `push_back` of `1, 2, 3`, whose
single node is full. -/
def push_back_full_before : Option (State Nat) :=
  push_back_all 3 (default_ctor ([] : Heap Nat)) [1, 2, 3]

/-- The state in which the exception leaves `push_back(9)` on
`insert_end_before` (`1, 2` in a node with room) when the step `fault` throws. -/
def push_back_fails_room (fault : Fault) : Option (State Nat) :=
  insert_end_before.bind (fun st => (push_back_throwing 3 fault st 9).bind thrown_state)

/-- The state in which the exception leaves `push_back(9)` on
`push_back_full_before` when the step `fault` throws. -/
def push_back_fails_full (fault : Fault) : Option (State Nat) :=
  push_back_full_before.bind (fun st => (push_back_throwing 3 fault st 9).bind thrown_state)

/-- The outcome of `push_back(9)` on a default-constructed container when the
step `fault` throws. -/
def push_back_fails_empty (fault : Fault) : Option (Outcome (State Nat) (State Nat)) :=
  push_back_throwing 3 fault (default_ctor ([] : Heap Nat)) 9

/-- With `NodeMaxSize` 3: the store in which the exception leaves the
allocator-taking range constructor on the range `xs`, starting from an empty
store, when the construction of the element of index `j` throws. -/
def range_ctor_fails (j : Nat) (xs : List Nat) : Option (Heap Nat) :=
  (range_ctor_alloc_throwing 3 6 j ([] : Heap Nat) xs).bind thrown_state

/-- With `NodeMaxSize` 3: `ul.insert(ul.begin(), ul.back())` on the container
`insert_end_before`, which holds `1, 2` in one node with room: the argument is
the element in slot 1 of the tail node. -/
def insert_back_at_begin : Option (ul_iterator × State Nat) :=
  insert_end_before.bind (fun st => insert 3 6 st ⟨st.head_, 0⟩ (ConstRef.element st.tail_ 1))

/-- With `NodeMaxSize` 3: the container built by `push_back` of `1, 2, 3`,
whose single node is full. -/
def insert_full_before : Option (State Nat) :=
  push_back_all 3 (default_ctor ([] : Heap Nat)) [1, 2, 3]

/-- With `NodeMaxSize` 3: `ul.insert(ul.begin(), ul.back())` on the container
`insert_full_before`: the argument is the element in slot 2 of the tail node. -/
def insert_back_at_begin_full : Option (ul_iterator × State Nat) :=
  insert_full_before.bind
    (fun st => insert 3 6 st ⟨st.head_, 0⟩ (ConstRef.element st.tail_ 2))

/-- With `NodeMaxSize` 3: `ul.push_front(ul.back())` on the container
`insert_end_before`, which holds `1, 2`. -/
def push_front_back : Option (State Nat) :=
  insert_end_before.bind (fun st => push_front 3 st (ConstRef.element st.tail_ 1))

/-- With `NodeMaxSize` 3 and an element type that is not trivial: the container
after `push_back` of the one object `1`. -/
def obj_one : Option (State Obj) :=
  push_back 3 (default_ctor ([] : Heap Obj)) ⟨1⟩

/-- With `NodeMaxSize` 3 and an element type that is not trivial: the container
after `push_back` of the objects `1, 2`. -/
def obj_two : Option (State Obj) :=
  push_back_all 3 (default_ctor ([] : Heap Obj)) [⟨1⟩, ⟨2⟩]

/-- With `NodeMaxSize` 3 and an element type that is not trivial: the container
after `push_back` of the objects `1, 2, 3`, whose single node is full. -/
def obj_three : Option (State Obj) :=
  push_back_all 3 (default_ctor ([] : Heap Obj)) [⟨1⟩, ⟨2⟩, ⟨3⟩]

/-- With `NodeMaxSize` 1 and an element type that is not trivial: the container
after `push_back` of the objects `1, 2`, each in a node of its own. -/
def obj_unit_nodes : Option (State Obj) :=
  push_back_all 1 (default_ctor ([] : Heap Obj)) [⟨1⟩, ⟨2⟩]

/-- A container of `NodeMaxSize` 3 over an element type that is not trivial,
holding the one object `1` in a node at address 1 (the sentinel is at
address 0). -/
def example_obj : State Obj :=
  { heap := [some ⟨0, [], none, none⟩, some ⟨1, [some ⟨1⟩, none, none], none, none⟩],
    sentinel_ := 0, tail_ := some 1, head_ := some 1, size_ := 1, is_empty_ := false }

theorem usub_of_le {a b : Nat} (h : b ≤ a) : usub a b = a - b := by
  simp [usub, h]

theorem read_lt {T : Type} {h : Heap T} {a : Nat} {n : Node T}
    (hr : h.read (some a) = some n) : a < h.length := by
  by_contra hlt
  have : h[a]? = none := List.getElem?_eq_none (by omega)
  simp [Heap.read, this] at hr

theorem read_upd_same {T : Type} {h : Heap T} {a : Nat} (n : Node T) (hlt : a < h.length) :
    (h.upd a n).read (some a) = some n := by
  simp [Heap.read, Heap.upd, List.getElem?_set_self hlt]

theorem read_upd_ne {T : Type} (h : Heap T) {a b : Nat} (n : Node T) (hne : a ≠ b) :
    (h.upd a n).read (some b) = h.read (some b) := by
  simp [Heap.read, Heap.upd, List.getElem?_set_ne hne]

theorem length_upd {T : Type} (h : Heap T) (a : Nat) (n : Node T) :
    (h.upd a n).length = h.length := by
  simp [Heap.upd]

theorem upd_upd {T : Type} (h : Heap T) (a : Nat) (n m : Node T) :
    (h.upd a n).upd a m = h.upd a m := by
  simp [Heap.upd, List.set_set]

theorem write_of_lt {T : Type} {h : Heap T} {a : Nat} (n : Node T) {m : Node T}
    (hr : h.read (some a) = some m) : h.write (some a) n = some (h.upd a n) := by
  simp [Heap.write, hr]

theorem read_alloc_new {T : Type} (h : Heap T) (n : Node T) :
    (h.alloc n).2.read (some h.length) = some n := by
  simp [Heap.read, Heap.alloc]

theorem read_alloc_old {T : Type} (h : Heap T) (n : Node T) {a : Nat} (hne : a ≠ h.length) :
    (h.alloc n).2.read (some a) = h.read (some a) := by
  simp only [Heap.read, Heap.alloc]
  rcases Nat.lt_or_ge a h.length with hlt | hge
  · rw [List.getElem?_append_left hlt]
  · rw [List.getElem?_eq_none (l := h) hge, List.getElem?_eq_none]
    simp; omega

theorem length_alloc {T : Type} (h : Heap T) (n : Node T) :
    (h.alloc n).2.length = h.length + 1 := by
  simp [Heap.alloc]

/-! ## Verification: chains -/

theorem take_eq_map_some_iff {T : Type} (d : List (Option T)) (cs : List T) :
    d.take cs.length = cs.map some ↔ ∀ j, j < cs.length → d[j]? = some (cs[j]?) := by
  constructor
  · intro h j hj
    have h1 : (d.take cs.length)[j]? = (cs.map some)[j]? := by rw [h]
    rw [List.getElem?_take_of_lt hj, List.getElem?_map] at h1
    rw [h1, List.getElem?_eq_getElem hj]
    simp
  · intro h
    apply List.ext_getElem?
    intro j
    rcases Nat.lt_or_ge j cs.length with hj | hj
    · rw [List.getElem?_take_of_lt hj, List.getElem?_map, h j hj, List.getElem?_eq_getElem hj]
      simp
    · rw [List.getElem?_take_eq_none hj, List.getElem?_eq_none]
      simpa using hj

theorem NodeOK.slot {T : Type} {N : Nat} {n : Node T} {cs : List T} {nx pv : Ptr}
    (h : NodeOK N n cs nx pv) {j : Nat} (hj : j < cs.length) :
    n.data[j]? = some (some (cs[j])) := by
  have := (take_eq_map_some_iff n.data cs).1 h.2.2.1 j hj
  rw [this, List.getElem?_eq_getElem hj]

theorem Chain.congr {T : Type} {N : Nat} {h h' : Heap T} :
    ∀ {nodes : Layout T} {pv nx : Ptr},
      (∀ a, a ∈ addrs nodes → h'.read (some a) = h.read (some a)) →
      Chain N h pv nodes nx → Chain N h' pv nodes nx
  | [], _, _, _, _ => trivial
  | (a, c) :: r, pv, nx, hrd, hc => by
    obtain ⟨⟨n, hn, hok⟩, hr⟩ := hc
    refine ⟨⟨n, ?_, hok⟩, Chain.congr (fun b hb => hrd b ?_) hr⟩
    · rw [hrd a (by simp [addrs])]; exact hn
    · simp only [addrs, List.map_cons, List.mem_cons] at hb ⊢
      exact Or.inr hb

theorem Chain.append {T : Type} {N : Nat} {h : Heap T} :
    ∀ {xs ys : Layout T} {pv nx : Ptr},
      Chain N h pv (xs ++ ys) nx ↔
        Chain N h pv xs (headPtr nx ys) ∧ Chain N h (lastPtr pv xs) ys nx
  | [], ys, pv, nx => by simp [Chain, lastPtr]
  | (a, c) :: r, ys, pv, nx => by
    have ih := @Chain.append T N h r ys (some a) nx
    have hp : headPtr nx (r ++ ys) = headPtr (headPtr nx ys) r := by
      cases r <;> simp [headPtr]
    show (NodeAt N h a c (headPtr nx (r ++ ys)) pv ∧ Chain N h (some a) (r ++ ys) nx) ↔
      (NodeAt N h a c (headPtr (headPtr nx ys) r) pv ∧ Chain N h (some a) r (headPtr nx ys)) ∧
        Chain N h (lastPtr (some a) r) ys nx
    rw [hp, ih]
    tauto

theorem Chain.lt {T : Type} {N : Nat} {h : Heap T} :
    ∀ {nodes : Layout T} {pv nx : Ptr}, Chain N h pv nodes nx →
      ∀ a, a ∈ addrs nodes → a < h.length
  | [], _, _, _, a, ha => by simp [addrs] at ha
  | (b, c) :: r, pv, nx, hc, a, ha => by
    obtain ⟨⟨n, hn, _⟩, hr⟩ := hc
    simp only [addrs, List.map_cons, List.mem_cons] at ha
    rcases ha with rfl | ha
    · exact read_lt hn
    · exact Chain.lt hr a ha

theorem counts_pos {T : Type} {N : Nat} {h : Heap T} :
    ∀ {nodes : Layout T} {pv nx : Ptr}, Chain N h pv nodes nx →
      ∀ k, k ∈ counts nodes → 1 ≤ k ∧ k ≤ N
  | [], _, _, _, k, hk => by simp [counts] at hk
  | (b, c) :: r, pv, nx, hc, k, hk => by
    obtain ⟨⟨n, _, hok⟩, hr⟩ := hc
    simp only [counts, List.map_cons, List.mem_cons] at hk
    rcases hk with rfl | hk
    · exact ⟨hok.2.2.2.2.2.1, hok.2.2.2.2.2.2⟩
    · exact counts_pos hr k hk

theorem counts_sum {T : Type} : ∀ (nodes : Layout T), (counts nodes).sum = (elems nodes).length
  | [] => rfl
  | (a, c) :: r => by
    have := counts_sum r
    simp only [counts, List.map_cons, List.sum_cons, elems, List.length_append] at this ⊢
    omega

theorem elems_append {T : Type} : ∀ (xs ys : Layout T), elems (xs ++ ys) = elems xs ++ elems ys
  | [], ys => rfl
  | (a, c) :: r, ys => by simp [elems, elems_append r ys]

theorem addrs_append {T : Type} (xs ys : Layout T) : addrs (xs ++ ys) = addrs xs ++ addrs ys := by
  simp [addrs]

theorem lastPtr_append_cons {T : Type} : ∀ (xs : Layout T) (pv : Ptr) (a : Nat) (c : List T)
    (ys : Layout T), lastPtr pv (xs ++ (a, c) :: ys) = lastPtr (some a) ys
  | [], _, _, _, _ => rfl
  | (b, d) :: r, _, a, c, ys => by
    simp only [List.cons_append, lastPtr]
    exact lastPtr_append_cons r (some b) a c ys

theorem headPtr_append_cons {T : Type} : ∀ (xs : Layout T) (nx : Ptr) (a : Nat) (c : List T)
    (ys : Layout T), headPtr nx (xs ++ (a, c) :: ys) = headPtr (some a) xs
  | [], _, _, _, _ => rfl
  | _ :: _, _, _, _, _ => rfl

/-! ## Verification: forward iteration -/

theorem deref_of_nodeAt {T : Type} {N : Nat} {h : Heap T} {a : Nat} {cs : List T} {nx pv : Ptr}
    (hn : NodeAt N h a cs nx pv) {i : Nat} (hi : i < cs.length) :
    deref h ⟨some a, i⟩ = some (cs[i]) := by
  obtain ⟨n, hr, hok⟩ := hn
  simp [deref, load_t, hr, hok.slot hi]

theorem incr_of_nodeAt {T : Type} {N : Nat} {h : Heap T} {a : Nat} {cs : List T} {nx pv : Ptr}
    (hn : NodeAt N h a cs nx pv) (i : Nat) :
    incr h ⟨some a, i⟩ = some (if i + 1 < cs.length then ⟨some a, i + 1⟩ else ⟨nx, 0⟩) := by
  obtain ⟨n, hr, hok⟩ := hn
  simp only [incr, hr, Option.bind_eq_bind, Option.some_bind, hok.1, hok.2.2.2.1]
  split <;> rfl

theorem collect_chain {T : Type} {N : Nat} {h : Heap T} :
    ∀ (fuel : Nat) {pv : Ptr} {a : Nat} {cs : List T} {r : Layout T} {i : Nat},
      Chain N h pv ((a, cs) :: r) none → i < cs.length →
      (cs.length - i) + (counts r).sum < fuel →
      collect h ⟨none, 0⟩ fuel ⟨some a, i⟩ = some (cs.drop i ++ elems r)
  | 0, _, _, _, _, _, _, _, hf => by omega
  | fuel + 1, pv, a, cs, r, i, hc, hi, hf => by
    obtain ⟨hn, hr⟩ := hc
    have hne : (⟨some a, i⟩ : ul_iterator) ≠ ⟨none, 0⟩ := by simp
    rw [collect, if_pos hne, deref_of_nodeAt hn hi, incr_of_nodeAt hn i]
    simp only [Option.bind_eq_bind, Option.some_bind]
    by_cases h1 : i + 1 < cs.length
    · rw [if_pos h1, collect_chain fuel ⟨hn, hr⟩ h1 (by omega)]
      simp only [Option.some_bind, Option.pure_def, Option.some.injEq]
      rw [← List.cons_append, ← List.drop_eq_getElem_cons hi]
    · rw [if_neg h1]
      have hd : cs.drop i = [cs[i]] := by
        rw [List.drop_eq_getElem_cons hi, List.drop_eq_nil_of_le (by omega)]
      cases r with
      | nil =>
        have hf1 : fuel = (fuel - 1) + 1 := by omega
        rw [hf1]
        simp [headPtr, collect, hd, elems]
      | cons x r' =>
        obtain ⟨b, d⟩ := x
        have hb : 0 < d.length := hr.1.choose_spec.2.2.2.2.2.2.1
        have := collect_chain fuel (i := 0) hr hb (by
          simp only [counts, List.map_cons, List.sum_cons] at hf ⊢; omega)
        simp only [headPtr, this, Option.some_bind, Option.pure_def, hd, elems, List.drop_zero]
        simp

theorem end_of_WF {T : Type} {N : Nat} {st : State T} {nodes : Layout T}
    (hw : WF N st nodes) (hne : nodes ≠ []) : end_ st = some ⟨none, 0⟩ := by
  obtain ⟨hc, _, _, ht, hs⟩ := hw
  obtain ⟨ini, ⟨t, cs⟩, rfl⟩ : ∃ ini x, nodes = ini ++ [x] := by
    rcases List.eq_nil_or_concat nodes with h | ⟨l, x, h⟩
    · exact absurd h hne
    · exact ⟨l, x, by simpa using h⟩
  rw [Chain.append] at hc
  obtain ⟨n, hr, hok⟩ := hc.2.1
  have hpos : 0 < cs.length := hok.2.2.2.2.2.1
  have hsz : st.size_ ≠ 0 := by
    have h1 : (counts (ini ++ [(t, cs)])).sum = (counts ini).sum + cs.length := by
      simp [counts]
    omega
  rw [lastPtr_append_cons] at ht
  simp [end_, hsz, ht, lastPtr, hr, hok.2.2.2.1, headPtr]

/-- Forward iteration over a well-formed container yields the elements of its
layout, given fuel for one round per element and the final test. -/
theorem to_list_of_WF {T : Type} {N : Nat} {st : State T} {nodes : Layout T}
    (hw : WF N st nodes) {fuel : Nat} (hf : st.size_ < fuel) :
    to_list fuel st = some (elems nodes) := by
  cases nodes with
  | nil =>
    have hs : st.size_ = 0 := by simpa [counts] using hw.2.2.2.2
    obtain ⟨k, rfl⟩ : ∃ k, fuel = k + 1 := ⟨fuel - 1, by omega⟩
    simp [to_list, end_, begin, hs, collect, elems]
  | cons x r =>
    obtain ⟨a, cs⟩ := x
    have he := end_of_WF hw (by simp)
    have hs : st.size_ = cs.length + (counts r).sum := by simpa [counts] using hw.2.2.2.2
    have hpos : 0 < cs.length := hw.1.1.choose_spec.2.2.2.2.2.2.1
    have hb : begin st = ⟨some a, 0⟩ := by
      simp [begin, hw.2.2.1, headPtr]; omega
    simp only [to_list, he, hb, Option.bind_eq_bind, Option.some_bind]
    rw [collect_chain fuel hw.1 hpos (by omega)]
    simp [elems]

/-! ## Verification: primitive steps -/

theorem upd_alloc_new {T : Type} (h : Heap T) (m n : Node T) :
    (h.alloc m).2.upd h.length n = (h.alloc n).2 := by
  simp [Heap.alloc, Heap.upd]

theorem set_next_eq {T : Type} {h : Heap T} {a : Nat} {n : Node T}
    (hr : h.read (some a) = some n) (q : Ptr) :
    set_next h (some a) q = some (h.upd a { n with next := q }) := by
  simp [set_next, hr, Heap.write]

theorem set_prev_eq {T : Type} {h : Heap T} {a : Nat} {n : Node T}
    (hr : h.read (some a) = some n) (q : Ptr) :
    set_prev h (some a) q = some (h.upd a { n with prev := q }) := by
  simp [set_prev, hr, Heap.write]

theorem set_node_size_eq {T : Type} {h : Heap T} {a : Nat} {n : Node T}
    (hr : h.read (some a) = some n) (k : Nat) :
    set_node_size h (some a) k = some (h.upd a { n with node_size := k }) := by
  simp [set_node_size, hr, Heap.write]

theorem set_data_eq {T : Type} {h : Heap T} {a : Nat} {n : Node T}
    (hr : h.read (some a) = some n) (d : List (Option T)) :
    set_data h (some a) d = some (h.upd a { n with data := d }) := by
  simp [set_data, hr, Heap.write]

theorem construct_t_eq {T : Type} {h : Heap T} {a : Nat} {n : Node T}
    (hr : h.read (some a) = some n) {i : Nat} (hi : i < n.data.length) (v : T) :
    construct_t h (some a) i v = some (h.upd a { n with data := n.data.set i (some v) }) := by
  simp [construct_t, hr, Heap.write, hi]

theorem assign_t_eq {T : Type} [Element T] {h : Heap T} {a : Nat} {n : Node T}
    (hr : h.read (some a) = some n) {i : Nat} (hi : i < n.data.length)
    (hl : Element.is_trivial T = true ∨ ∃ w, n.data[i]? = some (some w)) (v : T) :
    assign_t h (some a) i v = some (h.upd a { n with data := n.data.set i (some v) }) := by
  have hc : Element.is_trivial T = true ∨ (n.data[i]?).join.isSome = true := by
    rcases hl with h1 | ⟨w, hw⟩
    · exact Or.inl h1
    · exact Or.inr (by rw [hw]; rfl)
  simp only [assign_t, hr, Option.bind_eq_bind, Option.some_bind, if_pos hi, if_pos hc,
    Heap.write, Option.isSome_some, if_true]

theorem store_eq {T : Type} [Element T] {h : Heap T} {a : Nat} {n : Node T}
    (hr : h.read (some a) = some n) {i : Nat} (hi : i < n.data.length)
    (hl : Element.is_trivial T = true ∨ ∃ w, n.data[i]? = some (some w)) (v : T) :
    store h ⟨some a, i⟩ v = some (h.upd a { n with data := n.data.set i (some v) }) :=
  assign_t_eq hr hi hl v

theorem destroy_t_eq {T : Type} [Element T] {h : Heap T} {a : Nat} {n : Node T}
    (hr : h.read (some a) = some n) {i : Nat} (hi : i < n.data.length)
    (hl : Element.is_trivial T = true ∨ ∃ w, n.data[i]? = some (some w)) :
    destroy_t h (some a) i = some (h.upd a { n with data := n.data.set i none }) := by
  have hc : Element.is_trivial T = true ∨ (n.data[i]?).join.isSome = true := by
    rcases hl with h1 | ⟨w, hw⟩
    · exact Or.inl h1
    · exact Or.inr (by rw [hw]; rfl)
  simp only [destroy_t, hr, Option.bind_eq_bind, Option.some_bind, if_pos hi, if_pos hc,
    Heap.write, Option.isSome_some, if_true]

/-- For a type that is not trivial, `destroy` on a slot that holds no object is
undefined. -/
theorem destroy_t_dead {T : Type} [Element T] (htv : Element.is_trivial T = false)
    {h : Heap T} {a : Nat} {n : Node T} (hr : h.read (some a) = some n) {i : Nat}
    (hd : n.data[i]? = some none) : destroy_t h (some a) i = none := by
  have hi : i < n.data.length := by
    by_contra hc
    rw [List.getElem?_eq_none (by omega)] at hd
    cases hd
  have hc : ¬ (Element.is_trivial T = true ∨ (n.data[i]?).join.isSome = true) := by
    rw [htv, hd]
    simp
  simp only [destroy_t, hr, Option.bind_eq_bind, Option.some_bind, if_pos hi, if_neg hc]

/-- For a type that is not trivial, assignment to a slot that holds no object
is undefined. -/
theorem assign_t_dead {T : Type} [Element T] (htv : Element.is_trivial T = false)
    {h : Heap T} {a : Nat} {n : Node T} (hr : h.read (some a) = some n) {i : Nat}
    (hd : n.data[i]? = some none) (v : T) : assign_t h (some a) i v = none := by
  have hi : i < n.data.length := by
    by_contra hc
    rw [List.getElem?_eq_none (by omega)] at hd
    cases hd
  have hc : ¬ (Element.is_trivial T = true ∨ (n.data[i]?).join.isSome = true) := by
    rw [htv, hd]
    simp
  simp only [assign_t, hr, Option.bind_eq_bind, Option.some_bind, if_pos hi, if_neg hc]

theorem load_t_eq {T : Type} {h : Heap T} {a : Nat} {n : Node T}
    (hr : h.read (some a) = some n) {i : Nat} {v : T} (hv : n.data[i]? = some (some v)) :
    load_t h (some a) i = some v := by
  simp [load_t, hr, hv]

/-- A fresh node built by `allocate_node`, `construct_node`, `allocate_t` and
one `construct_t` at slot 0. -/
theorem new_node_eq {T : Type} (N : Nat) (hN : 1 ≤ N) (h : Heap T) (k : Nat) (nx pv : Ptr) (v : T) :
    (do
      let h2 ← construct_node (allocate_node h).2 (some h.length) k [] nx pv
      let h3 ← set_data h2 (some h.length) (allocate_t N)
      construct_t h3 (some h.length) 0 v) =
    some (h.alloc ⟨k, (allocate_t N).set 0 (some v), nx, pv⟩).2 := by
  have h0 : (allocate_node h).2.read (some h.length) = some ⟨0, [], none, none⟩ :=
    read_alloc_new h _
  have hl : h.length < (allocate_node h).2.length := by simp [allocate_node, Heap.alloc]
  simp only [construct_node, write_of_lt _ h0, Option.bind_eq_bind, Option.some_bind]
  rw [set_data_eq (read_upd_same _ hl)]
  simp only [Option.some_bind, upd_upd]
  rw [construct_t_eq (read_upd_same _ hl) (by simp [allocate_t]; omega)]
  simp only [upd_upd, allocate_node, upd_alloc_new]

theorem NodeOK_single {T : Type} (N : Nat) (hN : 1 ≤ N) (v : T) (nx pv : Ptr) (k : Nat)
    (hk : k = 1) :
    NodeOK N (⟨k, (allocate_t N).set 0 (some v), nx, pv⟩ : Node T) [v] nx pv := by
  subst hk
  refine ⟨rfl, by simp [allocate_t], ?_, rfl, rfl, by simp, by simpa using hN⟩
  obtain ⟨m, rfl⟩ : ∃ m, N = m + 1 := ⟨N - 1, by omega⟩
  simp [allocate_t, List.replicate_succ]

theorem Chain.alloc {T : Type} {N : Nat} {h : Heap T} {nodes : Layout T} {pv nx : Ptr}
    (hc : Chain N h pv nodes nx) (m : Node T) : Chain N (h.alloc m).2 pv nodes nx :=
  Chain.congr (fun a ha => read_alloc_old h m (Nat.ne_of_lt (Chain.lt hc a ha))) hc

theorem Chain.upd_other {T : Type} {N : Nat} {h : Heap T} {nodes : Layout T} {pv nx : Ptr}
    (hc : Chain N h pv nodes nx) {a : Nat} (ha : a ∉ addrs nodes) (m : Node T) :
    Chain N (h.upd a m) pv nodes nx :=
  Chain.congr (fun _ hb => read_upd_ne h m (fun e => ha (e ▸ hb))) hc

/-- Replacing the record of one node of a chain by a record that is `NodeOK`
for new contents and the same neighbours. -/
theorem Chain.update_node {T : Type} {N : Nat} {h : Heap T} {pre post : Layout T} {pv nx : Ptr}
    {a : Nat} {cs cs' : List T} (hc : Chain N h pv (pre ++ (a, cs) :: post) nx)
    (hnd : (addrs (pre ++ (a, cs) :: post)).Nodup) {n' : Node T}
    (hok : NodeOK N n' cs' (headPtr nx post) (lastPtr pv pre)) :
    Chain N (h.upd a n') pv (pre ++ (a, cs') :: post) nx := by
  rw [Chain.append] at hc ⊢
  rw [addrs_append, List.nodup_append] at hnd
  obtain ⟨hpre, ⟨n, hr, _⟩, hpost⟩ := hc
  have hnd2 : a ∉ addrs post := by
    have := hnd.2.1
    simp only [addrs, List.map_cons, List.nodup_cons] at this ⊢
    exact this.1
  have hnd1 : a ∉ addrs pre := fun hmem => hnd.2.2 hmem (by simp [addrs])
  exact ⟨hpre.upd_other hnd1 _, ⟨n', read_upd_same _ (read_lt hr), hok⟩, hpost.upd_other hnd2 _⟩

/-! ## Verification: push_front -/

theorem allocate_node_fst {T : Type} (h : Heap T) : (allocate_node h).1 = h.length := rfl

theorem Option.bind_assoc_some3 {α β : Type} {x : Option α} {y : α → Option α}
    {z : α → Option α} {r : α} {f : α → Option β}
    (h : (x.bind fun a => (y a).bind fun b => z b) = some r) :
    (x.bind fun a => (y a).bind fun b => (z b).bind f) = f r := by
  cases x with
  | none => simp at h
  | some a =>
    simp only [Option.some_bind] at h ⊢
    cases hy : y a with
    | none => simp [hy] at h
    | some b =>
      simp only [hy, Option.some_bind] at h ⊢
      rw [h]; rfl

theorem shift_right_spec {T : Type} [Element T] :
    ∀ (k : Nat) (h : Heap T) (a : Nat) (n : Node T), h.read (some a) = some n →
      k < n.data.length → (∀ j, j < k → ∃ v, n.data[j]? = some (some v)) →
      (Element.is_trivial T = true ∨ ∃ w, n.data[k]? = some (some w)) →
      ∃ d, shift_right h (some a) k = some (h.upd a { n with data := d }) ∧
        d.length = n.data.length ∧
        ∀ j, d[j]? = if 1 ≤ j ∧ j ≤ k then n.data[j - 1]? else n.data[j]?
  | 0, h, a, n, hr, _, _, _ => by
    refine ⟨n.data, ?_, rfl, fun j => by rw [if_neg (by omega)]⟩
    simp only [shift_right, Option.pure_def, Option.some.injEq]
    apply List.ext_getElem?
    intro i
    simp only [Heap.upd]
    by_cases hi : i = a
    · subst hi
      rw [List.getElem?_set_self (read_lt hr)]
      have := hr
      simp only [Heap.read] at this
      rcases hx : h[i]? with _ | x
      · simp [hx] at this
      · simp [hx] at this; simp [this]
    · rw [List.getElem?_set_ne (Ne.symm hi)]
  | k + 1, h, a, n, hr, hk, hlive, htl => by
    obtain ⟨v, hv⟩ := hlive k (by omega)
    have hlt := read_lt hr
    let n1 : Node T := { n with data := n.data.set (k + 1) (some v) }
    have hr1 : (h.upd a n1).read (some a) = some n1 := read_upd_same _ hlt
    have hlive1 : ∀ j, j < k → ∃ w, n1.data[j]? = some (some w) := by
      intro j hj
      obtain ⟨w, hw⟩ := hlive j (by omega)
      exact ⟨w, by simp only [n1]; rw [List.getElem?_set_ne (by omega)]; exact hw⟩
    obtain ⟨d, hd, hlen, hpt⟩ := shift_right_spec k (h.upd a n1) a n1 hr1
      (by simp only [n1, List.length_set]; omega) hlive1
      (Or.inr ⟨v, by simp only [n1]; rw [List.getElem?_set_ne (by omega)]; exact hv⟩)
    refine ⟨d, ?_, by simpa [n1] using hlen, ?_⟩
    · rw [shift_right, load_t_eq hr hv]
      simp only [Option.bind_eq_bind, Option.some_bind]
      rw [assign_t_eq hr hk htl]
      simp only [Option.some_bind]
      rw [hd, upd_upd]
    · intro j
      rw [hpt j]
      simp only [n1]
      by_cases h1 : 1 ≤ j ∧ j ≤ k
      · rw [if_pos h1, if_pos (by omega), List.getElem?_set_ne (by omega)]
      · rw [if_neg h1]
        by_cases h2 : j = k + 1
        · subst h2
          rw [if_pos (by omega), List.getElem?_set_self (by omega)]
          simpa using hv.symm
        · rw [if_neg (by omega), List.getElem?_set_ne (by omega)]

theorem WF_nil_iff {T : Type} {N : Nat} {st : State T} :
    WF N st [] ↔ st.head_ = none ∧ st.tail_ = none ∧ st.size_ = 0 := by
  simp [WF, Chain, addrs, headPtr, lastPtr, counts]

/-- The layout after `push_front` of an object that is no element of the
container, when `T` is trivial or the head node has no room. -/
theorem push_front_spec {T : Type} [Element T] {N : Nat} (hN : 1 ≤ N) {st : State T}
    {nodes : Layout T} (hw : WF N st nodes)
    (htv : Element.is_trivial T = true ∨ ∀ a cs r, nodes = (a, cs) :: r → ¬ cs.length < N)
    (v : T) :
    ∃ st', push_front N st (ConstRef.object v) = some st' ∧ st'.size_ = st.size_ + 1 ∧
      st'.is_empty_ = st.is_empty_ ∧ st'.sentinel_ = st.sentinel_ ∧
      WF N st' (match nodes with
        | [] => [(st.heap.length, [v])]
        | (a, cs) :: r =>
          if cs.length < N then (a, v :: cs) :: r
          else (st.heap.length, [v]) :: (a, cs) :: r) := by
  cases nodes with
  | nil =>
    obtain ⟨hh, ht, hs⟩ := WF_nil_iff.1 hw
    have := new_node_eq N hN st.heap 1 none none v
    simp only [Option.bind_eq_bind] at this
    simp only [push_front, hh, ht, and_self, if_true, Option.bind_eq_bind, allocate_node_fst,
      ConstRef.get, Option.some_bind]
    rw [Option.bind_assoc_some3 this]
    refine ⟨_, rfl, rfl, rfl, rfl, ?_⟩
    refine ⟨⟨⟨_, read_alloc_new _ _, NodeOK_single N hN v none none 1 rfl⟩, trivial⟩, ?_, rfl,
      rfl, ?_⟩
    · simp [addrs]
    · simp [counts, hs]
  | cons x r =>
    obtain ⟨a, cs⟩ := x
    obtain ⟨hc, hnd, hh, ht, hs⟩ := hw
    obtain ⟨⟨n, hr, hok⟩, hcr⟩ := hc
    simp only [headPtr] at hh
    have hlt := read_lt hr
    simp only [push_front, hh]
    rw [if_neg (by simp)]
    simp only [hr, Option.bind_eq_bind, Option.some_bind]
    by_cases hfull : cs.length < N
    · have hsz : n.node_size ≠ N := by rw [hok.1]; omega
      have htv' : Element.is_trivial T = true := by
        rcases htv with h1 | h2
        · exact h1
        · exact absurd hfull (h2 a cs r rfl)
      obtain ⟨d, hd, hlen, hpt⟩ := shift_right_spec n.node_size st.heap a n hr
        (by rw [hok.1, hok.2.1]; exact hfull)
        (fun j hj => by
          have hj' : j < cs.length := by rw [← hok.1]; exact hj
          exact ⟨cs[j], hok.slot hj'⟩) (Or.inl htv')
      simp only [hsz, ne_eq, not_false_eq_true, if_true, hd, Option.some_bind, ConstRef.get]
      rw [assign_t_eq (read_upd_same _ hlt) (by simp only [hlen, hok.2.1]; omega) (Or.inl htv')]
      simp only [Option.some_bind, upd_upd, read_upd_same _ hlt]
      rw [set_node_size_eq (read_upd_same _ hlt)]
      simp only [Option.some_bind, upd_upd, Option.pure_def, if_pos hfull]
      refine ⟨_, rfl, rfl, rfl, rfl, ?_, ?_, rfl, ?_, ?_⟩
      · refine Chain.update_node
          (show Chain N st.heap none ([] ++ (a, cs) :: r) none from ⟨⟨n, hr, hok⟩, hcr⟩) hnd ?_
        refine ⟨by simp [hok.1], by simp [hlen, hok.2.1], ?_, hok.2.2.2.1, hok.2.2.2.2.1,
          by simp, by simp; omega⟩
        rw [take_eq_map_some_iff]
        intro j hj
        rcases j with _ | j
        · simp; rw [List.getElem?_set_self (by rw [hlen, hok.2.1]; omega)]
        · simp only [List.length_cons] at hj
          have hj' : j < cs.length := by omega
          simp only [List.getElem?_cons_succ]
          rw [List.getElem?_set_ne (by omega), hpt, if_pos (by rw [hok.1]; omega)]
          simp only [Nat.add_sub_cancel]
          rw [hok.slot hj', List.getElem?_eq_getElem hj']
      · simpa [addrs] using hnd
      · simpa [lastPtr] using ht
      · simp only [counts, List.map_cons, List.sum_cons, List.length_cons] at hs ⊢
        omega
    · have hsz : n.node_size = N := by rw [hok.1]; have := hok.2.2.2.2.2.2; omega
      have hnew := new_node_eq N hN st.heap 1 (some a) none v
      simp only [Option.bind_eq_bind] at hnew
      simp only [hsz, ne_eq, not_true_eq_false, if_false, allocate_node_fst, ConstRef.get,
        Option.some_bind]
      rw [Option.bind_assoc_some3 hnew]
      have hne : a ≠ st.heap.length := Nat.ne_of_lt hlt
      rw [set_prev_eq (n := n) (by rw [read_alloc_old _ _ hne]; exact hr)]
      simp only [Option.some_bind, Option.pure_def, if_neg hfull]
      have hnd' : a ∉ addrs r := by
        simp only [addrs, List.map_cons, List.nodup_cons] at hnd ⊢
        exact hnd.1
      have hall : ∀ b, b ∈ addrs ((a, cs) :: r) → b < st.heap.length :=
        Chain.lt (show Chain N st.heap none ((a, cs) :: r) none from ⟨⟨n, hr, hok⟩, hcr⟩)
      refine ⟨_, rfl, rfl, rfl, rfl, ⟨⟨_, ?_, NodeOK_single N hN v (some a) none 1 rfl⟩,
        ⟨_, read_upd_same _ (by rw [length_alloc]; omega), ?_⟩, ?_⟩, ?_, rfl, ?_, ?_⟩
      · rw [read_upd_ne _ _ hne]; exact read_alloc_new _ _
      · exact ⟨hok.1, hok.2.1, hok.2.2.1, hok.2.2.2.1, rfl, hok.2.2.2.2.2⟩
      · exact (hcr.alloc _).upd_other hnd' _
      · simp only [addrs, List.map_cons, List.nodup_cons] at hnd ⊢
        refine ⟨?_, hnd⟩
        intro hmem
        have := hall st.heap.length (by simpa [addrs] using hmem)
        omega
      · simpa [lastPtr] using ht
      · simp only [counts, List.map_cons, List.sum_cons, List.length_cons, List.length_nil] at hs ⊢
        omega

/-! ## Verification: create_node_after and push_back -/

/-- What `create_node_after` does to the store: a new record at the next free
address linked after `a`, the forward link of `a` and the back link of the
former successor redirected to it, every other record untouched. -/
theorem create_node_after_spec {T : Type} (N : Nat) (st : State T) {a : Nat} {n : Node T}
    (hr : st.heap.read (some a) = some n) (k : Nat)
    (hnext : n.next = none ∨ ∃ b nb, n.next = some b ∧ st.heap.read (some b) = some nb ∧ b ≠ a) :
    ∃ h', create_node_after N st (some a) k =
        some (some st.heap.length,
          { st with heap := h',
                    tail_ := if st.tail_ = some a then some st.heap.length else st.tail_ }) ∧
      h'.length = st.heap.length + 1 ∧
      h'.read (some st.heap.length) = some ⟨k, allocate_t N, n.next, some a⟩ ∧
      h'.read (some a) = some { n with next := some st.heap.length } ∧
      (∀ b nb, n.next = some b → st.heap.read (some b) = some nb →
        h'.read (some b) = some { nb with prev := some st.heap.length }) ∧
      (∀ b, b ≠ a → some b ≠ n.next → b ≠ st.heap.length →
        h'.read (some b) = st.heap.read (some b)) := by
  have hlt := read_lt hr
  have hne : a ≠ st.heap.length := Nat.ne_of_lt hlt
  have hr1 : (allocate_node st.heap).2.read (some a) = some n := by
    rw [allocate_node, read_alloc_old _ _ hne]; exact hr
  have hl1 : (allocate_node st.heap).2.length = st.heap.length + 1 := length_alloc _ _
  simp only [create_node_after, hr, Option.bind_eq_bind, Option.some_bind, allocate_node_fst]
  rw [set_next_eq hr1]
  simp only [Option.some_bind]
  rcases hnext with hnone | ⟨b, nb, hb, hrb, hba⟩
  · simp only [hnone, ne_eq, not_true_eq_false, if_false, Option.pure_def, Option.some_bind,
      construct_node]
    have hL : ((allocate_node st.heap).2.upd a { n with next := some st.heap.length }).read
        (some st.heap.length) = some ⟨0, [], none, none⟩ := by
      rw [read_upd_ne _ _ hne]; exact read_alloc_new _ _
    rw [write_of_lt _ hL]
    simp only [Option.some_bind]
    rw [set_data_eq (read_upd_same _ (by rw [length_upd, hl1]; omega))]
    simp only [Option.some_bind, upd_upd]
    refine ⟨_, rfl, ?_, ?_, ?_, ?_, ?_⟩
    · simp [length_upd, hl1]
    · exact read_upd_same _ (by rw [length_upd, hl1]; omega)
    · rw [read_upd_ne _ _ (Ne.symm hne)]
      exact read_upd_same _ (by rw [hl1]; omega)
    · intro b nb hb; simp at hb
    · intro b hba _ hbL
      rw [read_upd_ne _ _ (Ne.symm hbL), read_upd_ne _ _ (Ne.symm hba), allocate_node,
        read_alloc_old _ _ hbL]
  · have hbL : b ≠ st.heap.length := Nat.ne_of_lt (read_lt hrb)
    have hrb1 : ((allocate_node st.heap).2.upd a { n with next := some st.heap.length }).read
        (some b) = some nb := by
      rw [read_upd_ne _ _ (Ne.symm hba), allocate_node, read_alloc_old _ _ hbL]; exact hrb
    simp only [hb, ne_eq, reduceCtorEq, not_false_eq_true, if_true]
    rw [set_prev_eq hrb1]
    simp only [Option.some_bind, construct_node]
    have hL : (((allocate_node st.heap).2.upd a { n with next := some st.heap.length }).upd b
        { nb with prev := some st.heap.length }).read (some st.heap.length) =
        some ⟨0, [], none, none⟩ := by
      rw [read_upd_ne _ _ hbL, read_upd_ne _ _ hne]; exact read_alloc_new _ _
    rw [write_of_lt _ hL]
    simp only [Option.some_bind]
    rw [set_data_eq (read_upd_same _ (by simp only [length_upd, hl1]; omega))]
    simp only [Option.some_bind, upd_upd, Option.pure_def]
    refine ⟨_, rfl, ?_, ?_, ?_, ?_, ?_⟩
    · simp [length_upd, hl1]
    · exact read_upd_same _ (by simp only [length_upd, hl1]; omega)
    · rw [read_upd_ne _ _ (Ne.symm hne), read_upd_ne _ _ hba]
      exact read_upd_same _ (by rw [hl1]; omega)
    · intro b' nb' hb' hrb'
      have hbb : b' = b := (Option.some.inj hb').symm
      rw [hbb] at hrb' ⊢
      rw [hrb] at hrb'
      cases hrb'
      have hblt := read_lt hrb
      rw [read_upd_ne _ _ (Ne.symm hbL)]
      exact read_upd_same _ (by simp only [length_upd, hl1]; omega)
    · intro b' hba' hbn hbL'
      have hbb : b' ≠ b := fun e => hbn (by rw [e])
      rw [read_upd_ne _ _ (Ne.symm hbL'), read_upd_ne _ _ (Ne.symm hbb),
        read_upd_ne _ _ (Ne.symm hba'), allocate_node, read_alloc_old _ _ hbL']

/-- Linking a new node `L` after the node `a` of a chain. -/
theorem Chain.split {T : Type} {N : Nat} {h h' : Heap T} {pre post : Layout T} {pv : Ptr}
    {a L : Nat} {cs cs' csL : List T}
    (hc : Chain N h pv (pre ++ (a, cs) :: post) none)
    (hnd : (addrs (pre ++ (a, cs) :: post)).Nodup)
    (hL : ∀ x, x ∈ addrs (pre ++ (a, cs) :: post) → x ≠ L)
    (hnewL : NodeAt N h' L csL (headPtr none post) (some a))
    (hnewa : NodeAt N h' a cs' (some L) (lastPtr pv pre))
    (hsucc : ∀ b nb, headPtr none post = some b → h.read (some b) = some nb →
      h'.read (some b) = some { nb with prev := some L })
    (hframe : ∀ b, b ≠ a → some b ≠ headPtr none post → b ≠ L →
      h'.read (some b) = h.read (some b)) :
    Chain N h' pv (pre ++ (a, cs') :: (L, csL) :: post) none := by
  rw [Chain.append] at hc ⊢
  obtain ⟨hpre, _, hpost⟩ := hc
  rw [addrs_append, List.nodup_append] at hnd
  obtain ⟨_, hnd2, hdisj⟩ := hnd
  have hnd2' : a ∉ addrs post ∧ (addrs post).Nodup := by
    simpa [addrs] using hnd2
  refine ⟨Chain.congr (fun x hx => hframe x ?_ ?_ ?_) hpre, hnewa, hnewL, ?_⟩
  · intro e; subst e; exact hdisj hx (by simp [addrs])
  · cases post with
    | nil => simp [headPtr]
    | cons y r =>
      simp only [headPtr]
      intro e
      have : x = y.1 := by simpa using e
      exact hdisj hx (by simp [addrs, this])
  · exact hL x (by rw [addrs_append]; exact List.mem_append_left _ hx)
  · cases post with
    | nil => trivial
    | cons y r =>
      obtain ⟨b, cb⟩ := y
      obtain ⟨⟨nb, hrb, hokb⟩, hr⟩ := hpost
      have hndr : b ∉ addrs r ∧ (addrs r).Nodup := by simpa [addrs] using hnd2'.2
      refine ⟨⟨_, hsucc b nb rfl hrb, hokb.1, hokb.2.1, hokb.2.2.1, hokb.2.2.2.1, rfl,
        hokb.2.2.2.2.2⟩, Chain.congr (fun x hx => hframe x ?_ ?_ ?_) hr⟩
      · intro e; subst e; exact hnd2'.1 (by simp only [addrs, List.map_cons, List.mem_cons]; exact Or.inr hx)
      · simp only [headPtr]
        intro e
        have : x = b := by simpa using e
        subst this; exact hndr.1 hx
      · apply hL x
        rw [addrs_append]
        apply List.mem_append_right
        simp only [addrs, List.map_cons, List.mem_cons]
        exact Or.inr (Or.inr hx)

theorem push_back_layout_concat {T : Type} (N L : Nat) (v : T) :
    ∀ (ini : Layout T) (t : Nat) (cs : List T),
      push_back_layout N L v (ini ++ [(t, cs)]) =
        ini ++ (if cs.length < N then [(t, cs ++ [v])] else [(t, cs), (L, [v])])
  | [], t, cs => by simp [push_back_layout]
  | [x], t, cs => by
    have := push_back_layout_concat N L v [] t cs
    simp only [List.nil_append] at this
    simp [push_back_layout, this]
  | x :: y :: r, t, cs => by
    have := push_back_layout_concat N L v (y :: r) t cs
    simp only [List.cons_append] at this
    simp [push_back_layout, this]

theorem elems_push_back_layout {T : Type} (N L : Nat) (v : T) (nodes : Layout T) :
    elems (push_back_layout N L v nodes) = elems nodes ++ [v] := by
  rcases List.eq_nil_or_concat nodes with h | ⟨ini, x, h⟩
  · subst h; simp [push_back_layout, elems]
  · obtain ⟨t, cs⟩ := x
    have h' : nodes = ini ++ [(t, cs)] := by simpa using h
    subst h'
    rw [push_back_layout_concat]
    split <;> simp [elems_append, elems]

/-- The layout after `push_back`. -/
theorem push_back_spec {T : Type} {N : Nat} (hN : 1 ≤ N) {st : State T} {nodes : Layout T}
    (hw : WF N st nodes) (v : T) :
    ∃ st', push_back N st v = some st' ∧ st'.size_ = st.size_ + 1 ∧
      st'.sentinel_ = st.sentinel_ ∧ st.heap.length ≤ st'.heap.length ∧
      WF N st' (push_back_layout N st.heap.length v nodes) ∧
      st'.heap.length = st.heap.length +
        ((push_back_layout N st.heap.length v nodes).length - nodes.length) ∧
      (∀ b, b ∉ addrs nodes → b < st.heap.length →
        st'.heap.read (some b) = st.heap.read (some b)) ∧
      st'.is_empty_ = (!nodes.isEmpty && st.is_empty_) := by
  rcases List.eq_nil_or_concat nodes with h | ⟨ini, x, h⟩
  · subst h
    obtain ⟨hh, ht, hs⟩ := WF_nil_iff.1 hw
    have := new_node_eq N hN st.heap 1 none none v
    simp only [Option.bind_eq_bind] at this
    simp only [push_back, hh, ht, and_self, if_true, Option.bind_eq_bind, allocate_node_fst]
    rw [Option.bind_assoc_some3 this]
    refine ⟨_, rfl, rfl, rfl, by simp [Heap.alloc], ?_, ?_, ?_, rfl⟩
    · show WF N _ [(st.heap.length, [v])]
      refine ⟨⟨⟨_, read_alloc_new _ _, NodeOK_single N hN v none none 1 rfl⟩, trivial⟩, ?_, rfl,
        rfl, ?_⟩
      · simp [addrs]
      · simp [counts, hs]
    · simp [push_back_layout, Heap.alloc]
    · intro b _ hb
      exact read_alloc_old _ _ (Nat.ne_of_lt hb)
  · obtain ⟨t, cs⟩ := x
    have h' : nodes = ini ++ [(t, cs)] := by simpa using h
    subst h'
    obtain ⟨hc, hnd, hh, ht, hs⟩ := hw
    have hc' := hc
    rw [Chain.append] at hc'
    obtain ⟨hini, ⟨n, hr, hok⟩, _⟩ := hc'
    rw [lastPtr_append_cons] at ht
    simp only [lastPtr] at ht
    simp only [headPtr] at hok
    have hlt := read_lt hr
    have hsum : (counts (ini ++ [(t, cs)])).sum = (counts ini).sum + cs.length := by
      simp [counts]
    rw [push_back_layout_concat]
    simp only [push_back, ht]
    rw [if_neg (by simp)]
    simp only [hr, Option.bind_eq_bind, Option.some_bind]
    by_cases hfull : cs.length < N
    · have hsz : n.node_size ≠ N := by rw [hok.1]; omega
      simp only [hsz, ne_eq, not_false_eq_true, if_true, if_pos hfull]
      rw [construct_t_eq hr (by rw [hok.1, hok.2.1]; exact hfull)]
      simp only [Option.some_bind]
      rw [set_node_size_eq (read_upd_same _ hlt)]
      simp only [Option.some_bind, upd_upd, Option.pure_def]
      have hbt : ∀ b, b ∉ addrs (ini ++ [(t, cs)]) → b ≠ t := fun b hb e =>
        hb (by rw [e, addrs_append]; simp [addrs])
      refine ⟨_, rfl, rfl, rfl, by simp [length_upd], ⟨?_, ?_, ?_, ?_, ?_⟩, by simp [length_upd],
        fun b hb _ => read_upd_ne _ _ (Ne.symm (hbt b hb)), by simp⟩
      · refine Chain.update_node hc hnd ?_
        refine ⟨by simp [hok.1], by simp [hok.2.1], ?_, hok.2.2.2.1, hok.2.2.2.2.1,
          by simp, by simp; omega⟩
        rw [take_eq_map_some_iff]
        intro j hj
        simp only [List.length_append, List.length_singleton] at hj
        by_cases hj' : j < cs.length
        · rw [List.getElem?_set_ne (by rw [hok.1]; omega), hok.slot hj',
            List.getElem?_append_left hj', List.getElem?_eq_getElem hj']
        · have hje : j = cs.length := by omega
          subst hje
          rw [hok.1, List.getElem?_set_self (by rw [hok.2.1]; exact hfull)]
          simp
      · simpa [addrs] using hnd
      · simpa [headPtr_append_cons] using hh
      · simp [lastPtr_append_cons, lastPtr]
      · have : (counts (ini ++ [(t, cs ++ [v])])).sum = (counts ini).sum + (cs.length + 1) := by
          simp [counts]
        simp only [this]; omega
    · have hsz : n.node_size = N := by rw [hok.1]; have := hok.2.2.2.2.2.2; omega
      simp only [hsz, ne_eq, not_true_eq_false, if_false, if_neg hfull]
      obtain ⟨h', hcna, hlen, hrL, hra, hsucc, hframe⟩ :=
        create_node_after_spec N { st with size_ := st.size_ + 1, tail_ := some t } hr 1
          (Or.inl hok.2.2.2.1)
      simp only at hcna hlen hrL hra hsucc hframe
      rw [hcna]
      simp only [Option.some_bind]
      rw [construct_t_eq hrL (by simp [allocate_t]; omega)]
      simp only [Option.some_bind, Option.pure_def, ht, if_true]
      have hall := Chain.lt hc
      have hLne : ∀ x, x ∈ addrs (ini ++ [(t, cs)]) → x ≠ st.heap.length :=
        fun x hx => Nat.ne_of_lt (hall x hx)
      have htL : t ≠ st.heap.length := Nat.ne_of_lt hlt
      have hbt : ∀ b, b ∉ addrs (ini ++ [(t, cs)]) → b ≠ t := fun b hb e =>
        hb (by rw [e, addrs_append]; simp [addrs])
      refine ⟨_, rfl, rfl, rfl, by simp [length_upd, hlen], ⟨?_, ?_, ?_, ?_, ?_⟩,
        by simp [length_upd, hlen], fun b hb hbl => ?_, by simp⟩
      rotate_right
      · rw [read_upd_ne _ _ (Ne.symm (Nat.ne_of_lt hbl))]
        exact hframe b (hbt b hb) (by rw [hok.2.2.2.1]; simp) (Nat.ne_of_lt hbl)
      · refine Chain.split hc hnd hLne ?_ ?_ ?_ ?_
        · refine ⟨_, read_upd_same _ (by rw [hlen]; omega), ?_⟩
          rw [hok.2.2.2.1]
          exact NodeOK_single N hN v none (some t) 1 rfl
        · refine ⟨{ n with next := some st.heap.length }, ?_, hok.1, hok.2.1, hok.2.2.1, rfl,
            hok.2.2.2.2⟩
          rw [read_upd_ne _ _ (Ne.symm htL), hra]
        · intro b nb hb; simp [headPtr] at hb
        · intro b hbt hbn hbL
          rw [read_upd_ne _ _ (Ne.symm hbL)]
          exact hframe b hbt (by rw [hok.2.2.2.1]; simp) hbL
      · rw [addrs_append] at hnd ⊢
        simp only [addrs, List.map_cons, List.map_nil] at hnd ⊢
        rw [show [t, st.heap.length] = [t] ++ [st.heap.length] from rfl, ← List.append_assoc]
        rw [List.nodup_append]
        refine ⟨hnd, by simp, ?_⟩
        intro x hx hx'
        have : x = st.heap.length := by simpa using hx'
        exact hLne x (by rw [addrs_append]; simpa [addrs] using hx) this
      · simpa [headPtr_append_cons] using hh
      · simp [lastPtr_append_cons, lastPtr]
      · have : (counts (ini ++ [(t, cs), (st.heap.length, [v])])).sum =
            (counts ini).sum + (cs.length + 1) := by
          simp [counts]
        simp only [this]; omega

/-! ## Verification: C1, push_back round trip -/

theorem WF_default_ctor {T : Type} (N : Nat) (h : Heap T) : WF N (default_ctor h) [] := by
  simp [WF_nil_iff, default_ctor, Heap.alloc]

theorem push_back_all_spec {T : Type} {N : Nat} (hN : 1 ≤ N) :
    ∀ (xs : List T) {st : State T} {nodes : Layout T}, WF N st nodes →
      ∃ st' nodes', push_back_all N st xs = some st' ∧ WF N st' nodes' ∧
        elems nodes' = elems nodes ++ xs ∧ st'.size_ = st.size_ + xs.length
  | [], st, nodes, hw => ⟨st, nodes, rfl, hw, by simp, by simp⟩
  | x :: xs, st, nodes, hw => by
    obtain ⟨st1, h1, hs1, _, _, hw1, _⟩ := push_back_spec hN hw x
    obtain ⟨st', nodes', h2, hw2, he, hs2⟩ := push_back_all_spec hN xs hw1
    refine ⟨st', nodes', ?_, hw2, ?_, ?_⟩
    · simp [push_back_all, h1, h2]
    · rw [he, elems_push_back_layout]; simp
    · rw [hs2, hs1, List.length_cons]; omega

/-! ## Verification: insert -/

theorem upd_self {T : Type} {h : Heap T} {a : Nat} {n : Node T}
    (hr : h.read (some a) = some n) : h.upd a n = h := by
  apply List.ext_getElem?
  intro i
  simp only [Heap.upd]
  by_cases hi : i = a
  · subst hi
    rw [List.getElem?_set_self (read_lt hr)]
    have := hr
    simp only [Heap.read] at this
    rcases hx : h[i]? with _ | x
    · simp [hx] at this
    · simp [hx] at this; simp [this]
  · rw [List.getElem?_set_ne (Ne.symm hi)]

theorem end_of_chain {T : Type} {N : Nat} (st : State T) {pre post : Layout T} {a : Nat}
    {cs : List T} (hc : Chain N st.heap none (pre ++ (a, cs) :: post) none)
    (ht : st.tail_ = lastPtr none (pre ++ (a, cs) :: post)) (hs : st.size_ ≠ 0) :
    end_ st = some ⟨none, 0⟩ := by
  obtain ⟨ini, ⟨t, ct⟩, hx⟩ : ∃ ini x, pre ++ (a, cs) :: post = ini ++ [x] := by
    rcases List.eq_nil_or_concat (pre ++ (a, cs) :: post) with h | ⟨l, x, h⟩
    · simp at h
    · exact ⟨l, x, by simpa using h⟩
  rw [hx] at hc ht
  rw [Chain.append] at hc
  obtain ⟨n, hr, hok⟩ := hc.2.1
  rw [lastPtr_append_cons] at ht
  simp [end_, hs, ht, lastPtr, hr, hok.2.2.2.1, headPtr]

theorem insert_shift_spec {T : Type} [Element T] (N : Nat) (a p : Nat) :
    ∀ (fuel j : Nat) (h : Heap T) (n : Node T), h.read (some a) = some n →
      p ≤ j → j < n.data.length → j - p < fuel →
      (∀ x, p ≤ x → x ≤ j → ∃ w, n.data[x]? = some (some w)) →
      ∃ d, insert_shift N fuel h ⟨some a, j⟩ ⟨some a, p⟩ =
          some (h.upd a { n with data := d }, ⟨some a, p⟩) ∧
        d.length = n.data.length ∧
        ∀ x, d[x]? = if p < x ∧ x ≤ j then n.data[x - 1]? else n.data[x]?
  | 0, _, _, _, _, _, _, hf, _ => by omega
  | fuel + 1, j, h, n, hr, hpj, hj, hf, hlive => by
    by_cases hjp : j = p
    · subst hjp
      refine ⟨n.data, ?_, rfl, fun x => by rw [if_neg (by omega)]⟩
      simp [insert_shift, upd_self hr]
    · have hlt := read_lt hr
      obtain ⟨w, hw⟩ := hlive (j - 1) (by omega) (by omega)
      let n1 : Node T := { n with data := n.data.set j (some w) }
      have hr1 : (h.upd a n1).read (some a) = some n1 := read_upd_same _ hlt
      obtain ⟨d, hd, hlen, hpt⟩ := insert_shift_spec N a p fuel (j - 1) (h.upd a n1) n1 hr1
        (by omega) (by simp only [n1, List.length_set]; omega) (by omega)
        (fun x hx1 hx2 => by
          obtain ⟨u, hu⟩ := hlive x hx1 (by omega)
          exact ⟨u, by simp only [n1]; rw [List.getElem?_set_ne (by omega)]; exact hu⟩)
      refine ⟨d, ?_, by simpa [n1] using hlen, ?_⟩
      · have hne : (⟨some a, j⟩ : ul_iterator) ≠ ⟨some a, p⟩ := by simp [hjp]
        have hj1 : 1 ≤ j := by omega
        have hm : minus h (fuel + 1) ⟨some a, j⟩ 1 = some ⟨some a, j - 1⟩ := by
          simp [minus, hj1]
        have hdr : deref h ⟨some a, j - 1⟩ = some w := load_t_eq hr hw
        have hst : store h ⟨some a, j⟩ w = some (h.upd a n1) :=
          store_eq hr hj (Or.inr (hlive j (by omega) (Nat.le_refl j))) w
        have hdc : decr N (h.upd a n1) ⟨some a, j⟩ = some ⟨some a, j - 1⟩ := by
          have hj0 : 0 < j := by omega
          simp [decr, hj0]
        rw [insert_shift, if_pos hne, hm]
        simp only [Option.bind_eq_bind, Option.some_bind, hdr, hst, hdc, hd, upd_upd]
      · intro x
        rw [hpt x]
        simp only [n1]
        by_cases h1 : p < x ∧ x ≤ j - 1
        · rw [if_pos h1, if_pos (by omega), List.getElem?_set_ne (by omega)]
        · rw [if_neg h1]
          by_cases h2 : x = j
          · subst h2
            rw [if_pos (by omega), List.getElem?_set_self (by omega)]
            exact hw.symm
          · rw [if_neg (by omega), List.getElem?_set_ne (by omega)]

theorem ins_getElem? {T : Type} (cs : List T) (i : Nat) (v : T) (hi : i ≤ cs.length) (x : Nat) :
    (cs.take i ++ v :: cs.drop i)[x]? =
      if x < i then cs[x]? else if x = i then some v else cs[x - 1]? := by
  have hl : (cs.take i).length = i := by simp [List.length_take]; omega
  by_cases h1 : x < i
  · rw [if_pos h1, List.getElem?_append_left (by omega), List.getElem?_take_of_lt h1]
  · rw [if_neg h1, List.getElem?_append_right (by omega), hl]
    by_cases h2 : x = i
    · subst h2; simp
    · rw [if_neg h2]
      obtain ⟨k, hk⟩ : ∃ k, x - i = k + 1 := ⟨x - i - 1, by omega⟩
      rw [hk, List.getElem?_cons_succ, List.getElem?_drop]
      congr 1; omega

/-- The buffer of a node after `insert` has shifted its tail and written `v`. -/
theorem insert_data_ok {T : Type} {cs : List T} {d D : List (Option T)} {i : Nat} {v : T}
    (hi : i < cs.length) (hd : ∀ x, x < cs.length → d[x]? = some (cs[x]?)) (m : Nat)
    (hm : m ≤ cs.length + 1)
    (hD : ∀ x, x < m → D[x]? =
      if x = i then some (some v) else if i < x then d[x - 1]? else d[x]?) :
    ∀ x, x < m → D[x]? = some ((cs.take i ++ v :: cs.drop i)[x]?) := by
  intro x hx
  rw [hD x hx, ins_getElem? cs i v (by omega)]
  by_cases h1 : x = i
  · subst h1; simp
  · rw [if_neg h1]
    by_cases h2 : i < x
    · rw [if_pos h2, if_neg (by omega), if_neg h1, hd (x - 1) (by omega)]
    · rw [if_neg h2, if_pos (by omega), hd x (by omega)]

theorem lastPtr_cons_irrel {T : Type} (pv pv' : Ptr) (x : Nat × List T) (r : Layout T) :
    lastPtr pv (x :: r) = lastPtr pv' (x :: r) := rfl

theorem lastPtr_mem {T : Type} : ∀ (r : Layout T) (x : Nat × List T) (pv : Ptr),
    ∃ b, lastPtr pv (x :: r) = some b ∧ b ∈ addrs (x :: r)
  | [], x, _ => ⟨x.1, rfl, by simp [addrs]⟩
  | y :: r, x, _ => by
    obtain ⟨b, hb, hm⟩ := lastPtr_mem r y (some x.1)
    exact ⟨b, hb, by simp only [addrs, List.map_cons, List.mem_cons] at hm ⊢; exact Or.inr hm⟩

theorem ins_length {T : Type} (cs : List T) (i : Nat) (v : T) (hi : i ≤ cs.length) :
    (cs.take i ++ v :: cs.drop i).length = cs.length + 1 := by
  simp [List.length_take, List.length_drop]; omega

theorem ins_drop_last {T : Type} (cs : List T) (i : Nat) (v : T) (hi : i < cs.length) :
    (cs.take i ++ v :: cs.drop i).drop cs.length = [cs[cs.length - 1]] := by
  apply List.ext_getElem?
  intro x
  rw [List.getElem?_drop, ins_getElem? cs i v (by omega)]
  rcases x with _ | x
  · rw [if_neg (by omega), if_neg (by omega)]
    simp only [Nat.add_zero, List.getElem?_cons_zero]
    rw [List.getElem?_eq_getElem (by omega)]
  · rw [if_neg (by omega), if_neg (by omega)]
    simp only [List.getElem?_cons_succ, List.getElem?_nil]
    rw [List.getElem?_eq_none (by omega)]

theorem set_eq_self {α : Type} {l : List α} {i : Nat} {x : α} (h : l[i]? = some x) :
    l.set i x = l := by
  apply List.ext_getElem?
  intro j
  by_cases hj : i = j
  · subst hj
    have hlt : i < l.length := by
      by_contra hc
      rw [List.getElem?_eq_none (by omega)] at h
      cases h
    rw [List.getElem?_set_self hlt, h]
  · rw [List.getElem?_set_ne hj]

/-- The two branches of `insert` on a full node, once the new node `L` holds a
copy of the last element: both leave `v` at slot `i` of the node `a` and the
elements from `i` on moved one slot up. -/
theorem insert_full_branch {T : Type} [Element T] (N : Nat) {h1 : Heap T} {a L : Nat}
    {na nL : Node T}
    (i fuel : Nat) (last : T) (v : T)
    (hra : h1.read (some a) = some na) (hrL : h1.read (some L) = some nL)
    (hLz : nL.data[0]? = some (some last)) (hlast : na.data[N - 1]? = some (some last))
    (hlen : na.data.length = N) (hi : i < N) (hf : N ≤ fuel)
    (hlive : ∀ x, x < N → ∃ w, na.data[x]? = some (some w)) :
    ∃ D, D.length = N ∧
      (∀ x, x < N → D[x]? =
        if x = i then some (some v) else if i < x then na.data[x - 1]? else na.data[x]?) ∧
      ∀ {β : Type} (k : Heap T → Option β),
        (if i = N - 1 then
          (load_t h1 (some a) (N - 1)).bind fun a_3 =>
            (construct_t h1 (some L) 0 a_3).bind fun a_4 =>
              (assign_t a_4 (some a) (N - 1) v).bind k
        else
          (insert_shift N fuel h1 ⟨some a, N - 1⟩ ⟨some a, i⟩).bind fun x =>
            (store x.1 x.2 v).bind k) =
        k (h1.upd a { na with data := D }) := by
  have hlt := read_lt hra
  by_cases hil : i = N - 1
  · refine ⟨na.data.set (N - 1) (some v), by simp [hlen], ?_, ?_⟩
    · intro x hx
      by_cases h1 : x = i
      · subst h1
        rw [if_pos rfl, ← hil, List.getElem?_set_self (by rw [hlen]; omega)]
      · rw [if_neg h1, if_neg (by omega), List.getElem?_set_ne (by omega)]
    · intro β k
      have hL0 : 0 < nL.data.length := by
        by_contra hc
        rw [List.getElem?_eq_none (by omega)] at hLz
        cases hLz
      have hself : h1.upd L { nL with data := nL.data.set 0 (some last) } = h1 := by
        rw [set_eq_self hLz]
        exact upd_self hrL
      rw [if_pos hil, load_t_eq hra hlast]
      simp only [Option.some_bind]
      rw [construct_t_eq hrL hL0]
      simp only [Option.some_bind, hself]
      rw [assign_t_eq hra (by rw [hlen]; omega) (Or.inr ⟨last, hlast⟩)]
      simp only [Option.some_bind]
  · obtain ⟨d, hd, hdl, hpt⟩ := insert_shift_spec N a i fuel (N - 1) h1 na hra
      (by omega) (by rw [hlen]; omega) (by omega)
      (fun x _ hx2 => hlive x (by omega))
    refine ⟨d.set i (some v), by simp [hdl, hlen], ?_, ?_⟩
    · intro x hx
      by_cases h1 : x = i
      · subst h1
        rw [if_pos rfl, List.getElem?_set_self (by rw [hdl, hlen]; omega)]
      · rw [if_neg h1, List.getElem?_set_ne (Ne.symm h1), hpt x]
        by_cases h2 : i < x
        · rw [if_pos h2, if_pos ⟨h2, by omega⟩]
        · rw [if_neg h2, if_neg (by omega)]
    · intro β k
      rw [if_neg hil, hd]
      simp only [Option.some_bind]
      rw [store_eq (read_upd_same _ hlt) (by simp only [hdl, hlen]; omega)
        (Or.inr (by
          obtain ⟨w, hw⟩ := hlive i hi
          exact ⟨w, by simp only; rw [hpt i, if_neg (by omega)]; exact hw⟩))]
      simp only [upd_upd, Option.some_bind]

theorem insert_const_room {T : Type} [Element T] {N : Nat} {st : State T} {pre post : Layout T}
    {a : Nat} {cs : List T} (hw : WF N st (pre ++ (a, cs) :: post)) {i : Nat}
    (hi : i < cs.length) (v : T) {fuel : Nat} (hf : cs.length ≤ fuel) (hroom : cs.length < N) :
    ∃ st', insert_body N fuel st ⟨some a, i⟩ (ConstRef.object v) =
        some (⟨some a, cs.length⟩, st') ∧
      st'.size_ = st.size_ + 1 ∧ st'.is_empty_ = st.is_empty_ ∧
      st'.sentinel_ = st.sentinel_ ∧
      WF N st' (pre ++ [(a, cs.take i ++ v :: cs.drop i)] ++ post) ∧
      st'.heap.length = st.heap.length ∧
      ∀ b, b ≠ a → st'.heap.read (some b) = st.heap.read (some b) := by
  obtain ⟨hc, hnd, hh, ht, hs⟩ := hw
  have hc' := hc
  rw [Chain.append] at hc'
  obtain ⟨hpre, ⟨n, hr, hok⟩, hpost⟩ := hc'
  have hlt := read_lt hr
  have hlen1 : 1 ≤ cs.length := by omega
  have hend : end_ { st with size_ := st.size_ + 1 } = some ⟨none, 0⟩ :=
    end_of_chain { st with size_ := st.size_ + 1 } hc ht (by simp)
  have hu : usub cs.length 1 = cs.length - 1 := usub_of_le hlen1
  have hsum : ∀ (mid : Layout T), (counts (pre ++ mid ++ post)).sum =
      (counts pre).sum + (counts mid).sum + (counts post).sum := by
    intro mid; simp [counts, Nat.add_assoc]
  have hs' : st.size_ = (counts pre).sum + cs.length + (counts post).sum := by
    have := hsum [(a, cs)]
    simp only [List.append_assoc, List.singleton_append] at this
    rw [hs, this]; simp [counts]
  have hslot : ∀ x, x < cs.length → n.data[x]? = some (cs[x]?) := fun x hx => by
    rw [hok.slot hx, List.getElem?_eq_getElem hx]
  have hlast : n.data[cs.length - 1]? = some (some (cs[cs.length - 1])) := hok.slot (by omega)
  simp only [insert_body, hend, Option.bind_eq_bind, Option.some_bind, ConstRef.get]
  rw [if_neg (by simp)]
  simp only [hr, Option.some_bind, hok.1, hu]
  · have hne : cs.length ≠ N := by omega
    simp only [hne, ne_eq, not_false_eq_true, if_true]
    rw [load_t_eq hr hlast]
    simp only [Option.some_bind]
    rw [construct_t_eq hr (by rw [hok.2.1]; exact hroom)]
    simp only [Option.some_bind]
    have hr1 := read_upd_same (h := st.heap)
      { n with data := n.data.set cs.length (some (cs[cs.length - 1])) } hlt
    -- both branches store `v` at slot `i` of a buffer `d` that is the old one shifted
    have hbr : ∃ D, D.length = N ∧
        (∀ x, x < cs.length + 1 → D[x]? =
          if x = i then some (some v) else if i < x then n.data[x - 1]? else n.data[x]?) ∧
        ∀ {β : Type} (k : Heap T → Option β), (if i = cs.length - 1 then
          (store (st.heap.upd a
            { n with data := n.data.set cs.length (some (cs[cs.length - 1])) })
            ⟨some a, i⟩ v).bind k
        else
          (insert_shift N fuel
            (st.heap.upd a { n with data := n.data.set cs.length (some (cs[cs.length - 1])) })
            ⟨some a, cs.length - 1⟩ ⟨some a, i⟩).bind fun x => (store x.1 x.2 v).bind k) =
          k (st.heap.upd a { n with data := D }) := by
      by_cases hil : i = cs.length - 1
      · refine ⟨(n.data.set cs.length (some (cs[cs.length - 1]))).set i (some v), ?_, ?_, ?_⟩
        · simp [hok.2.1]
        · intro x hx
          by_cases h1 : x = i
          · subst h1
            rw [if_pos rfl, List.getElem?_set_self (by simp only [List.length_set, hok.2.1]; omega)]
          · rw [if_neg h1, List.getElem?_set_ne (Ne.symm h1)]
            by_cases h2 : i < x
            · have hx' : x = cs.length := by omega
              subst hx'
              rw [if_pos h2, List.getElem?_set_self (by rw [hok.2.1]; omega), hlast]
            · rw [if_neg h2, List.getElem?_set_ne (by omega)]
        · intro β k
          rw [if_pos hil, store_eq hr1 (by simp only [List.length_set, hok.2.1]; omega)
            (Or.inr ⟨cs[i], by
              simp only
              rw [List.getElem?_set_ne (by omega)]
              exact hok.slot hi⟩)]
          simp only [upd_upd, Option.some_bind]
      · obtain ⟨d, hd, hdl, hpt⟩ := insert_shift_spec N a i fuel (cs.length - 1) _ _ hr1
          (by omega) (by simp only [List.length_set, hok.2.1]; omega) (by omega)
          (fun x hx1 hx2 => by
            have hx' : x < cs.length := by omega
            refine ⟨cs[x], ?_⟩
            simp only
            rw [List.getElem?_set_ne (by omega)]
            exact hok.slot hx')
        simp only [List.length_set] at hdl
        refine ⟨d.set i (some v), by simp [hdl, hok.2.1], ?_, ?_⟩
        · intro x hx
          by_cases h1 : x = i
          · subst h1
            rw [if_pos rfl, List.getElem?_set_self (by simp only [hdl, hok.2.1]; omega)]
          · rw [if_neg h1, List.getElem?_set_ne (Ne.symm h1), hpt x]
            by_cases h2 : i < x
            · rw [if_pos h2]
              by_cases h3 : x ≤ cs.length - 1
              · rw [if_pos ⟨h2, h3⟩, List.getElem?_set_ne (by omega)]
              · have hx' : x = cs.length := by omega
                subst hx'
                rw [if_neg (by omega), List.getElem?_set_self (by rw [hok.2.1]; omega), hlast]
            · rw [if_neg h2, if_neg (by omega), List.getElem?_set_ne (by omega)]
        · intro β k
          rw [if_neg hil, hd]
          simp only [Option.some_bind, upd_upd]
          rw [store_eq (read_upd_same _ hlt) (by simp only [hdl, hok.2.1]; omega)
            (Or.inr ⟨cs[i], by
              simp only
              rw [hpt i, if_neg (by omega), List.getElem?_set_ne (by omega)]
              exact hok.slot hi⟩)]
          simp only [upd_upd, Option.some_bind]
    obtain ⟨D, hDl, hDp, hD⟩ := hbr
    rw [hD]
    simp only [Option.some_bind, read_upd_same _ hlt, Option.bind_eq_bind]
    rw [set_node_size_eq (read_upd_same _ hlt)]
    simp only [Option.some_bind, upd_upd, Option.pure_def, hok.1]
    have hu2 : usub (cs.length + 1) 1 = cs.length := by rw [usub_of_le (by omega)]; omega
    rw [hu2]
    refine ⟨_, rfl, rfl, rfl, rfl, ⟨?_, ?_, ?_, ?_, ?_⟩, by simp [length_upd],
      fun b hb => read_upd_ne _ _ (Ne.symm hb)⟩
    · simp only [List.append_assoc, List.singleton_append]
      refine Chain.update_node hc hnd ?_
      refine ⟨by rw [ins_length cs i v (by omega)], hDl, ?_, hok.2.2.2.1, hok.2.2.2.2.1,
        by rw [ins_length cs i v (by omega)]; omega, by rw [ins_length cs i v (by omega)]; omega⟩
      rw [take_eq_map_some_iff, ins_length cs i v (by omega)]
      exact insert_data_ok hi hslot (cs.length + 1) (Nat.le_refl _) hDp
    · simpa [addrs] using hnd
    · simpa [headPtr_append_cons] using hh
    · simpa [lastPtr_append_cons] using ht
    · have h1 : (counts [(a, cs.take i ++ v :: cs.drop i)]).sum = cs.length + 1 := by
        simp only [counts, List.map_cons, List.map_nil, List.sum_cons, List.sum_nil,
          ins_length cs i v (Nat.le_of_lt hi)]
        omega
      show st.size_ + 1 = _
      rw [hsum, h1, hs']; omega

theorem insert_const_full {T : Type} [Element T] {N : Nat} {st : State T} {pre post : Layout T}
    {a : Nat} {cs : List T} (hw : WF N st (pre ++ (a, cs) :: post)) {i : Nat}
    (hi : i < cs.length) (v : T) {fuel : Nat} (hf : cs.length ≤ fuel) (hroom : ¬ cs.length < N) :
    ∃ st', insert_body N fuel st ⟨some a, i⟩ (ConstRef.object v) =
        some (⟨some a, N - 1⟩, st') ∧
      st'.size_ = st.size_ + 1 ∧ st'.is_empty_ = st.is_empty_ ∧
      st'.sentinel_ = st.sentinel_ ∧
      WF N st' (pre ++ [(a, (cs.take i ++ v :: cs.drop i).take N),
              (st.heap.length, (cs.take i ++ v :: cs.drop i).drop N)] ++ post) ∧
      st'.heap.length = st.heap.length + 1 ∧
      ∀ b, b ≠ a → some b ≠ headPtr none post → b ≠ st.heap.length →
        st'.heap.read (some b) = st.heap.read (some b) := by
  obtain ⟨hc, hnd, hh, ht, hs⟩ := hw
  have hc' := hc
  rw [Chain.append] at hc'
  obtain ⟨hpre, ⟨n, hr, hok⟩, hpost⟩ := hc'
  have hlt := read_lt hr
  have hlen1 : 1 ≤ cs.length := by omega
  have hfull : cs.length = N := by have := hok.2.2.2.2.2.2; omega
  have hN1 : 1 ≤ N := by omega
  have hend : end_ { st with size_ := st.size_ + 1 } = some ⟨none, 0⟩ :=
    end_of_chain { st with size_ := st.size_ + 1 } hc ht (by simp)
  have hu : usub N 1 = N - 1 := usub_of_le hN1
  have hsum : ∀ (mid : Layout T), (counts (pre ++ mid ++ post)).sum =
      (counts pre).sum + (counts mid).sum + (counts post).sum := by
    intro mid; simp [counts, Nat.add_assoc]
  have hs' : st.size_ = (counts pre).sum + cs.length + (counts post).sum := by
    have := hsum [(a, cs)]
    simp only [List.append_assoc, List.singleton_append] at this
    rw [hs, this]; simp [counts]
  have hslot : ∀ x, x < cs.length → n.data[x]? = some (cs[x]?) := fun x hx => by
    rw [hok.slot hx, List.getElem?_eq_getElem hx]
  obtain ⟨last, hlastv⟩ : ∃ last, last = cs[cs.length - 1] := ⟨_, rfl⟩
  have hlast : n.data[N - 1]? = some (some last) := by
    have h0 : n.data[cs.length - 1]? = some (some last) := by
      rw [hlastv]; exact hok.slot (by omega)
    rw [← hfull]; exact h0
  have hnd' := hnd
  rw [addrs_append, List.nodup_append] at hnd'
  have hndp : a ∉ addrs post ∧ (addrs post).Nodup := by simpa [addrs] using hnd'.2.1
  have hnext : n.next = none ∨
      ∃ b nb, n.next = some b ∧ st.heap.read (some b) = some nb ∧ b ≠ a := by
    rw [hok.2.2.2.1]
    cases post with
    | nil => exact Or.inl rfl
    | cons y r =>
      obtain ⟨b, cb⟩ := y
      obtain ⟨nb, hrb, _⟩ := hpost.1
      refine Or.inr ⟨b, nb, rfl, hrb, ?_⟩
      intro e; subst e
      exact hndp.1 (by simp [addrs])
  obtain ⟨h', hcna, hlen, hrL, hra, hsucc, hframe⟩ :=
    create_node_after_spec N { st with size_ := st.size_ + 1 } hr 1 hnext
  simp only at hcna hlen hrL hra hsucc hframe
  have haL : a ≠ st.heap.length := Nat.ne_of_lt hlt
  simp only [insert_body, hend, Option.bind_eq_bind, Option.some_bind, ConstRef.get]
  rw [if_neg (by simp)]
  simp only [hr, Option.some_bind, hok.1, hfull, ne_eq, not_true_eq_false, if_false, hcna, hu]
  rw [load_t_eq hra hlast]
  simp only [Option.some_bind]
  rw [construct_t_eq hrL (by simp [allocate_t]; omega)]
  simp only [Option.some_bind]
  obtain ⟨nL, hnL⟩ : ∃ nL : Node T, nL =
      { node_size := 1, data := (allocate_t N).set 0 (some last), next := n.next,
        prev := some a } := ⟨_, rfl⟩
  rw [← hnL]
  have hrL1 : (h'.upd st.heap.length nL).read (some st.heap.length) = some nL :=
    read_upd_same _ (by rw [hlen]; omega)
  have hra1 : (h'.upd st.heap.length nL).read (some a) =
      some { n with next := some st.heap.length } := by
    rw [read_upd_ne _ _ (Ne.symm haL)]; exact hra
  obtain ⟨D, hDl, hDp, hD⟩ := insert_full_branch N i fuel last v hra1 hrL1
    (by rw [hnL]; simp only; rw [List.getElem?_set_self (by simp [allocate_t]; omega)])
    hlast hok.2.1 (by omega) (by omega)
    (fun x hx => by
      have hx' : x < cs.length := by omega
      exact ⟨cs[x], hok.slot hx'⟩)
  simp only at hDp hD
  rw [hD]
  have hlt1 : a < (h'.upd st.heap.length nL).length := by rw [length_upd, hlen]; omega
  simp only [read_upd_same _ hlt1, Option.some_bind, Option.pure_def, hok.1, hfull, hu]
  have hall := Chain.lt hc
  have hLne : ∀ x, x ∈ addrs (pre ++ (a, cs) :: post) → x ≠ st.heap.length :=
    fun x hx => Nat.ne_of_lt (hall x hx)
  have hil : (cs.take i ++ v :: cs.drop i).length = N + 1 := by
    rw [ins_length cs i v (by omega), hfull]
  have hdrop : (cs.take i ++ v :: cs.drop i).drop N = [last] := by
    rw [← hfull, ins_drop_last cs i v hi, hlastv]
  have hshape : pre ++ [(a, (cs.take i ++ v :: cs.drop i).take N),
      (st.heap.length, (cs.take i ++ v :: cs.drop i).drop N)] ++ post =
      pre ++ (a, (cs.take i ++ v :: cs.drop i).take N) ::
        (st.heap.length, (cs.take i ++ v :: cs.drop i).drop N) :: post := by
    simp
  rw [hshape]
  refine ⟨_, rfl, rfl, rfl, rfl, ⟨?_, ?_, ?_, ?_, ?_⟩, by simp [length_upd, hlen],
    fun b hba hbn hbL => ?_⟩
  rotate_right
  · rw [read_upd_ne _ _ (Ne.symm hba), read_upd_ne _ _ (Ne.symm hbL)]
    exact hframe b hba (by rw [hok.2.2.2.1]; exact hbn) hbL
  · refine Chain.split hc hnd hLne ?_ ?_ ?_ ?_
    · refine ⟨nL, ?_, ?_⟩
      · rw [read_upd_ne _ _ haL]; exact hrL1
      · rw [hdrop, hnL, hok.2.2.2.1]
        exact NodeOK_single N hN1 last _ (some a) 1 rfl
    · refine ⟨_, read_upd_same _ hlt1, ?_⟩
      refine ⟨by simp only [List.length_take, hil, hok.1, hfull]; omega, hDl, ?_, rfl, hok.2.2.2.2.1,
        by simp only [List.length_take, hil]; omega, by simp only [List.length_take, hil]; omega⟩
      rw [take_eq_map_some_iff]
      intro x hx
      have hxN : x < N := by simp only [List.length_take, hil] at hx; omega
      rw [List.getElem?_take_of_lt hxN]
      exact insert_data_ok hi hslot N (by omega) hDp x hxN
    · intro b nb hb hrb
      have hba : b ≠ a := by
        intro e; subst e
        cases post with
        | nil => simp [headPtr] at hb
        | cons y r =>
          simp only [headPtr, Option.some.injEq] at hb
          exact hndp.1 (by simp [addrs, hb])
      have hbL : b ≠ st.heap.length := Nat.ne_of_lt (read_lt hrb)
      rw [read_upd_ne _ _ (Ne.symm hba), read_upd_ne _ _ (Ne.symm hbL)]
      exact hsucc b nb (by rw [hok.2.2.2.1]; exact hb) hrb
    · intro b hba hbn hbL
      rw [read_upd_ne _ _ (Ne.symm hba), read_upd_ne _ _ (Ne.symm hbL)]
      exact hframe b hba (by rw [hok.2.2.2.1]; exact hbn) hbL
  · have h1 : addrs (pre ++ (a, (cs.take i ++ v :: cs.drop i).take N) ::
        (st.heap.length, (cs.take i ++ v :: cs.drop i).drop N) :: post) =
        addrs pre ++ a :: st.heap.length :: addrs post := by simp [addrs]
    have h2 : addrs (pre ++ (a, cs) :: post) = addrs pre ++ a :: addrs post := by simp [addrs]
    rw [h1]
    rw [h2] at hnd hLne
    have hLn : st.heap.length ∉ addrs pre ++ a :: addrs post := fun hm => hLne _ hm rfl
    rw [List.nodup_append] at hnd ⊢
    simp only [List.mem_append, List.mem_cons, not_or] at hLn
    refine ⟨hnd.1, ?_, ?_⟩
    · simp only [List.nodup_cons, List.mem_cons, not_or] at hnd ⊢
      exact ⟨⟨haL, hnd.2.1.1⟩, hLn.2.2, hnd.2.1.2⟩
    · intro x hx hx'
      simp only [List.mem_cons] at hx'
      rcases hx' with e | e | e
      · exact hnd.2.2 hx (by simp [e])
      · exact hLn.1 (e ▸ hx)
      · exact hnd.2.2 hx (by simp [e])
  · simpa [headPtr_append_cons] using hh
  · show (if st.tail_ = some a then some st.heap.length else st.tail_) = _
    rw [lastPtr_append_cons] at ht ⊢
    cases post with
    | nil =>
      simp only [lastPtr] at ht ⊢
      rw [if_pos ht]
    | cons y r =>
      simp only [lastPtr] at ht ⊢
      obtain ⟨b, hb, hm⟩ := lastPtr_mem r y (some a)
      have hb' : lastPtr (some y.1) r = some b := by simpa [lastPtr] using hb
      rw [if_neg, ht]
      rw [ht, hb']
      intro e
      have : b = a := by simpa using e
      exact hndp.1 (this ▸ hm)
  · have h1 : (counts [(a, (cs.take i ++ v :: cs.drop i).take N),
        (st.heap.length, (cs.take i ++ v :: cs.drop i).drop N)]).sum = cs.length + 1 := by
      simp only [counts, List.map_cons, List.map_nil, List.sum_cons, List.sum_nil,
        List.length_take, List.length_drop, hil]
      omega
    show st.size_ + 1 = _
    rw [← hshape, hsum, h1, hs']; omega

/-- The layout after `insert(pos, v)` at the element `i` of the node `a`:
with `ins` the contents of the node with `v` put before element `i`, the node
holds `ins` if it had room, and otherwise its first `NodeMaxSize` elements
while a new node at address `L` linked after it holds the rest. -/
theorem insert_const_spec {T : Type} [Element T] {N : Nat} {st : State T} {pre post : Layout T}
    {a : Nat} {cs : List T} (hw : WF N st (pre ++ (a, cs) :: post)) {i : Nat}
    (hi : i < cs.length) (v : T) {fuel : Nat} (hf : cs.length ≤ fuel) :
    ∃ st', insert_body N fuel st ⟨some a, i⟩ (ConstRef.object v) =
        some (⟨some a, if cs.length < N then cs.length else N - 1⟩, st') ∧
      st'.size_ = st.size_ + 1 ∧ st'.is_empty_ = st.is_empty_ ∧
      st'.sentinel_ = st.sentinel_ ∧
      WF N st' (pre ++ (if cs.length < N then [(a, cs.take i ++ v :: cs.drop i)]
        else [(a, (cs.take i ++ v :: cs.drop i).take N),
              (st.heap.length, (cs.take i ++ v :: cs.drop i).drop N)]) ++ post) := by
  by_cases hroom : cs.length < N
  · simp only [if_pos hroom]
    obtain ⟨st', h1, h2, h3, h4, h5, _⟩ := insert_const_room hw hi v hf hroom
    exact ⟨st', h1, h2, h3, h4, h5⟩
  · simp only [if_neg hroom]
    obtain ⟨st', h1, h2, h3, h4, h5, _⟩ := insert_const_full hw hi v hf hroom
    exact ⟨st', h1, h2, h3, h4, h5⟩

/-! ## Verification: erase -/

theorem erase_shift_spec {T : Type} [Element T] (a m : Nat) :
    ∀ (fuel x : Nat) (h : Heap T) (n : Node T), h.read (some a) = some n →
      n.node_size = m → x < m → m ≤ n.data.length → m - x ≤ fuel →
      (∀ y, x ≤ y → y < m → ∃ w, n.data[y]? = some (some w)) →
      ∃ d, erase_shift (some a) fuel h ⟨some a, x⟩ = some (h.upd a { n with data := d }) ∧
        d.length = n.data.length ∧
        ∀ y, d[y]? = if x ≤ y ∧ y < m - 1 then n.data[y + 1]? else n.data[y]?
  | 0, _, _, _, _, _, _, _, hf, _ => by omega
  | fuel + 1, x, h, n, hr, hm, hx, hml, hf, hlive => by
    have hu : usub n.node_size 1 = m - 1 := by rw [hm, usub_of_le (by omega)]
    by_cases hxm : x = m - 1
    · refine ⟨n.data, ?_, rfl, fun y => by rw [if_neg (by omega)]⟩
      simp [erase_shift, hr, hu, hxm, upd_self hr]
    · have hlt := read_lt hr
      obtain ⟨w, hw⟩ := hlive (x + 1) (by omega) (by omega)
      let n1 : Node T := { n with data := n.data.set x (some w) }
      have hr1 : (h.upd a n1).read (some a) = some n1 := read_upd_same _ hlt
      obtain ⟨d, hd, hlen, hpt⟩ := erase_shift_spec a m fuel (x + 1) (h.upd a n1) n1 hr1
        hm (by omega) (by simp only [n1, List.length_set]; omega) (by omega)
        (fun y hy1 hy2 => by
          obtain ⟨u, hu⟩ := hlive y (by omega) hy2
          exact ⟨u, by simp only [n1]; rw [List.getElem?_set_ne (by omega)]; exact hu⟩)
      refine ⟨d, ?_, by simpa [n1] using hlen, ?_⟩
      · have hrem : usub n.node_size x = m - x := by rw [hm, usub_of_le (by omega)]
        have h1lt : 1 < m - x := by omega
        have hp : plus h (fuel + 1) ⟨some a, x⟩ 1 = some ⟨some a, x + 1⟩ := by
          simp [plus, hr, hrem, h1lt]
        have hdr : deref h ⟨some a, x + 1⟩ = some w := load_t_eq hr hw
        have hst : store h ⟨some a, x⟩ w = some (h.upd a n1) :=
          store_eq hr (show x < n.data.length by omega) (Or.inr (hlive x (Nat.le_refl x) hx)) w
        have hin : incr (h.upd a n1) ⟨some a, x⟩ = some ⟨some a, x + 1⟩ := by
          have hx1 : x + 1 < n1.node_size := by show x + 1 < n.node_size; omega
          simp only [incr, hr1, Option.bind_eq_bind, Option.some_bind]
          rw [if_pos hx1]; rfl
        rw [erase_shift]
        simp only [hr, Option.bind_eq_bind, Option.some_bind, hu]
        rw [if_pos hxm, hp]
        simp only [Option.some_bind, hdr, hst, hin, hd, upd_upd]
      · intro y
        rw [hpt y]
        simp only [n1]
        by_cases h1 : x + 1 ≤ y ∧ y < m - 1
        · rw [if_pos h1, if_pos (by omega), List.getElem?_set_ne (by omega)]
        · rw [if_neg h1]
          by_cases h2 : y = x
          · subst h2
            rw [if_pos (by omega), List.getElem?_set_self (by omega)]
            exact hw.symm
          · rw [if_neg (by omega), List.getElem?_set_ne (by omega)]

/-- The layout after the statements of `erase` that follow the initialisation
of `pos` (`erase_body`), run at an element that is not the last of its node. -/
theorem erase_inner_spec {T : Type} [Element T] {N : Nat} {st : State T} {pre post : Layout T}
    {a : Nat} {cs : List T} (hw : WF N st (pre ++ (a, cs) :: post)) {i : Nat}
    (hi : i + 1 < cs.length) {fuel : Nat} (hf : cs.length ≤ fuel) :
    ∃ st', erase_body N fuel st ⟨some a, i⟩ = some (⟨some a, i⟩, st') ∧
      st'.size_ + 1 = st.size_ ∧ st'.is_empty_ = st.is_empty_ ∧
      st'.sentinel_ = st.sentinel_ ∧
      WF N st' (pre ++ (a, cs.eraseIdx i) :: post) ∧
      deref st'.heap ⟨some a, i⟩ = some (cs[i + 1]) ∧
      ∀ b, b ≠ a → st'.heap.read (some b) = st.heap.read (some b) := by
  obtain ⟨hc, hnd, hh, ht, hs⟩ := hw
  have hc' := hc
  rw [Chain.append] at hc'
  obtain ⟨hpre, ⟨n, hr, hok⟩, hpost⟩ := hc'
  have hlt := read_lt hr
  have hu : usub cs.length 1 = cs.length - 1 := usub_of_le (by omega)
  have hsum : ∀ (mid : List T), (counts (pre ++ (a, mid) :: post)).sum =
      (counts pre).sum + mid.length + (counts post).sum := by
    intro mid; simp [counts, Nat.add_assoc]
  have hel : (cs.eraseIdx i).length = cs.length - 1 := List.length_eraseIdx_of_lt (by omega)
  obtain ⟨d, hd, hdl, hpt⟩ := erase_shift_spec a cs.length fuel i st.heap n hr hok.1 (by omega)
    (by rw [hok.2.1]; exact hok.2.2.2.2.2.2) (by omega)
    (fun y _ hy => ⟨cs[y], hok.slot hy⟩)
  simp only [erase_body, hr, Option.bind_eq_bind, Option.some_bind, hok.1, hu]
  rw [if_neg (by omega), hd]
  simp only [Option.some_bind, read_upd_same _ hlt, hok.1, hu]
  rw [destroy_t_eq (read_upd_same _ hlt)
    (by simp only [hdl, hok.2.1]; have := hok.2.2.2.2.2.2; omega)
    (Or.inr ⟨cs[cs.length - 1], by
      simp only
      rw [hpt (cs.length - 1), if_neg (by omega)]
      exact hok.slot (by omega)⟩)]
  simp only [Option.some_bind, upd_upd]
  rw [set_node_size_eq (read_upd_same _ hlt)]
  simp only [Option.some_bind, upd_upd, Option.pure_def]
  have hslotD : ∀ y, y < cs.length - 1 →
      (d.set (cs.length - 1) none)[y]? = some ((cs.eraseIdx i)[y]?) := by
    intro y hy
    rw [List.getElem?_set_ne (by omega), hpt y, List.getElem?_eraseIdx]
    by_cases h1 : y < i
    · rw [if_neg (by omega), if_pos h1, hok.slot (by omega), List.getElem?_eq_getElem (by omega)]
    · rw [if_pos (by omega), if_neg h1, hok.slot (by omega), List.getElem?_eq_getElem (by omega)]
  refine ⟨_, rfl, ?_, rfl, rfl, ⟨?_, ?_, ?_, ?_, ?_⟩, ?_,
    fun b hb => read_upd_ne _ _ (Ne.symm hb)⟩
  · show usub st.size_ 1 + 1 = st.size_
    have := hsum cs
    rw [usub_of_le (by omega)]; omega
  · refine Chain.update_node hc hnd ?_
    refine ⟨by rw [hel], by simp [hdl, hok.2.1], ?_, hok.2.2.2.1, hok.2.2.2.2.1,
      by omega, by have := hok.2.2.2.2.2.2; omega⟩
    rw [take_eq_map_some_iff, hel]
    exact hslotD
  · simpa [addrs] using hnd
  · simpa [headPtr_append_cons] using hh
  · simpa [lastPtr_append_cons] using ht
  · show usub st.size_ 1 = _
    rw [hsum, hel, usub_of_le (by have := hsum cs; omega), hs, hsum]; omega
  · have hslot := hslotD i (by omega)
    rw [List.getElem?_eraseIdx_of_ge _ _ _ (Nat.le_refl i), List.getElem?_eq_getElem hi] at hslot
    exact load_t_eq (read_upd_same _ hlt) hslot

/-! ## Claims -/

theorem insert_eq_insert_const {T : Type} [Element T] (N fuel : Nat) (st : State T)
    (a i : Nat) (v : ConstRef T) {n : Node T} (hr : st.heap.read (some a) = some n) :
    insert N fuel st ⟨some a, i⟩ v = insert_body N fuel st ⟨some a, i⟩ v := by
  simp [insert, hr]

theorem take_insert_drop {T : Type} (A B cs : List T) (i : Nat) (v : T) (hi : i ≤ cs.length) :
    (A ++ cs ++ B).take (A.length + i) ++ v :: (A ++ cs ++ B).drop (A.length + i) =
      A ++ (cs.take i ++ v :: cs.drop i) ++ B := by
  rw [List.append_assoc, List.take_append, List.drop_append,
    List.take_append_of_le_length hi, List.drop_append_of_le_length hi]
  simp

theorem eraseIdx_middle {T : Type} (A B cs : List T) (i : Nat) (hi : i < cs.length) :
    (A ++ cs ++ B).eraseIdx (A.length + i) = A ++ cs.eraseIdx i ++ B := by
  rw [List.append_assoc, List.eraseIdx_append_of_length_le (by omega)]
  simp only [Nat.add_sub_cancel_left]
  rw [List.eraseIdx_append_of_lt_length hi, List.append_assoc]

theorem elems_middle {T : Type} (pre post : Layout T) (a : Nat) (cs : List T) :
    elems (pre ++ (a, cs) :: post) = elems pre ++ cs ++ elems post := by
  simp [elems_append, elems]

/-- C1: for every NodeMaxSize of at least 1 and every sequence `xs`, pushing the
elements of `xs` with `push_back` onto a default-constructed container succeeds,
leaves `size()` equal to the length of `xs`, and forward iteration from
`begin()` to `end()` then dereferences exactly `xs`, in order. -/
theorem push_back_round_trip {T : Type} (N : Nat) (hN : 1 ≤ N) (h : Heap T) (xs : List T) :
    ∃ st, push_back_all N (default_ctor h) xs = some st ∧ size st = xs.length ∧
      ∀ fuel, xs.length < fuel → to_list fuel st = some xs := by
  obtain ⟨st, nodes, hp, hw, he, hs⟩ := push_back_all_spec hN xs (WF_default_ctor N h)
  have hs' : st.size_ = xs.length := by simpa [default_ctor] using hs
  refine ⟨st, hp, hs', fun fuel hf => ?_⟩
  rw [to_list_of_WF hw (by omega), he]
  simp [elems]

theorem push_back_round_trip_witness :
    1 ≤ 2 ∧ ∃ st, push_back_all 2 (default_ctor ([] : Heap Nat)) [7, 8, 9] = some st ∧
      size st = [7, 8, 9].length ∧
      ∀ fuel, [7, 8, 9].length < fuel → to_list fuel st = some [7, 8, 9] :=
  ⟨by decide, push_back_round_trip 2 (by decide) [] [7, 8, 9]⟩

/-- What `insert(pos, value)` does when `value` refers to an object that is no
element of the container: in a well-formed container, at a dereferenceable
cursor (element `i` of the node at `a`), the call succeeds, increases `size()`
by exactly 1, leaves a well-formed container, and forward iteration then yields
the former sequence with `v` put immediately before the element `pos` referred
to.  With `ins` the contents of the node of `pos` with `v` put before element
`i`: when that node had room it now holds `ins`; when it was full it holds the
first `NodeMaxSize` elements of `ins` and a new node linked right after it
holds the last one. -/
theorem insert_before_cursor {T : Type} [Element T] {N : Nat} {st : State T}
    {pre post : Layout T} {a : Nat} {cs : List T} {i : Nat}
    (hw : WF N st (pre ++ (a, cs) :: post)) (hi : i < cs.length) (v : T) (fuel : Nat)
    (hf : cs.length ≤ fuel) :
    ∃ r st', insert N fuel st ⟨some a, i⟩ (ConstRef.object v) = some (r, st') ∧
      size st' = size st + 1 ∧
      WF N st' (pre ++ (if cs.length < N then [(a, cs.take i ++ v :: cs.drop i)]
        else [(a, (cs.take i ++ v :: cs.drop i).take N),
              (st.heap.length, (cs.take i ++ v :: cs.drop i).drop N)]) ++ post) ∧
      ∀ k, size st' < k → to_list k st' =
        some ((elems (pre ++ (a, cs) :: post)).take ((elems pre).length + i) ++
          v :: (elems (pre ++ (a, cs) :: post)).drop ((elems pre).length + i)) := by
  obtain ⟨st', hins, hsz, _, _, hw'⟩ := insert_const_spec hw hi v hf
  obtain ⟨n, hr, _⟩ := (Chain.append.1 hw.1).2.1
  refine ⟨⟨some a, if cs.length < N then cs.length else N - 1⟩, st', ?_, hsz, hw',
    fun k hk => ?_⟩
  · rw [insert_eq_insert_const N fuel st a i _ hr]; exact hins
  · rw [to_list_of_WF hw' hk, elems_middle, take_insert_drop _ _ _ _ _ (Nat.le_of_lt hi)]
    rw [elems_append, elems_append]
    congr 2
    split
    · simp [elems]
    · simp [elems]

theorem insert_before_cursor_witness :
    WF 3 example_state ([] ++ (1, [1, 2, 3]) :: [(2, [4, 5])]) ∧ 1 < [1, 2, 3].length ∧
      [1, 2, 3].length ≤ 3 ∧
      ∃ r st', insert 3 3 example_state ⟨some 1, 1⟩ (ConstRef.object 9) = some (r, st') ∧
        size st' = size example_state + 1 ∧
        WF 3 st' ([] ++ (if [1, 2, 3].length < 3 then
            [(1, [1, 2, 3].take 1 ++ 9 :: [1, 2, 3].drop 1)]
          else [(1, ([1, 2, 3].take 1 ++ 9 :: [1, 2, 3].drop 1).take 3),
                (example_state.heap.length,
                  ([1, 2, 3].take 1 ++ 9 :: [1, 2, 3].drop 1).drop 3)]) ++ [(2, [4, 5])]) ∧
        ∀ k, size st' < k → to_list k st' =
          some ((elems ([] ++ (1, [1, 2, 3]) :: [(2, [4, 5])])).take
              ((elems ([] : Layout Nat)).length + 1) ++
            9 :: (elems ([] ++ (1, [1, 2, 3]) :: [(2, [4, 5])])).drop
              ((elems ([] : Layout Nat)).length + 1)) :=
  ⟨by decide, by decide, by decide, insert_before_cursor (by decide) (by decide) 9 3 (by decide)⟩

/-- What the statements of `erase` that follow the initialisation of `pos` do
(`erase_body`; no call reaches them, see `erase`): in a well-formed container,
at an element that is not in the last occupied slot of its node, they decrease
`size()` by 1, return a cursor equal to `pos` that now dereferences to the
element that followed the erased one, change no record but that of the node of
`pos`, whose later elements move one slot left, and forward iteration then
yields the former sequence without the erased element. -/
theorem erase_inner {T : Type} [Element T] {N : Nat} {st : State T} {pre post : Layout T}
    {a : Nat} {cs : List T} {i : Nat} (hw : WF N st (pre ++ (a, cs) :: post))
    (hi : i + 1 < cs.length) (fuel : Nat) (hf : cs.length ≤ fuel) :
    ∃ st', erase_body N fuel st ⟨some a, i⟩ = some (⟨some a, i⟩, st') ∧
      size st' + 1 = size st ∧
      WF N st' (pre ++ (a, cs.eraseIdx i) :: post) ∧
      (∀ b, b ≠ a → st'.heap.read (some b) = st.heap.read (some b)) ∧
      deref st'.heap ⟨some a, i⟩ = some (cs[i + 1]) ∧
      ∀ k, size st' < k → to_list k st' =
        some ((elems (pre ++ (a, cs) :: post)).eraseIdx ((elems pre).length + i)) := by
  obtain ⟨st', her, hsz, _, _, hw', hd, hfr⟩ := erase_inner_spec hw hi hf
  refine ⟨st', her, hsz, hw', hfr, hd, fun k hk => ?_⟩
  rw [to_list_of_WF hw' hk, elems_middle, elems_middle, eraseIdx_middle _ _ _ _ (by omega)]

theorem erase_inner_witness :
    WF 3 example_state ([] ++ (1, [1, 2, 3]) :: [(2, [4, 5])]) ∧ 0 + 1 < [1, 2, 3].length ∧
      [1, 2, 3].length ≤ 3 ∧
      ∃ st', erase_body 3 3 example_state ⟨some 1, 0⟩ = some (⟨some 1, 0⟩, st') ∧
        size st' + 1 = size example_state ∧
        WF 3 st' ([] ++ (1, [1, 2, 3].eraseIdx 0) :: [(2, [4, 5])]) ∧
        (∀ b, b ≠ 1 → st'.heap.read (some b) = example_state.heap.read (some b)) ∧
        deref st'.heap ⟨some 1, 0⟩ = some 2 ∧
        ∀ k, size st' < k → to_list k st' =
          some ((elems ([] ++ (1, [1, 2, 3]) :: [(2, [4, 5])])).eraseIdx
            ((elems ([] : Layout Nat)).length + 0)) :=
  ⟨by decide, by decide, by decide, erase_inner (by decide) (by decide) 3 (by decide)⟩

/-- What `push_front(value)` does when `value` refers to an object that is no
element of the container, and `T` is trivial or the head node has no room: in
a well-formed container with element sequence `s` the call succeeds, increases
`size()` by 1, and forward iteration then yields `v` followed by `s`; the head
node is grown in place (`v` before its elements) when it has room, and a new
head node holding only `v` is linked before the old head exactly when the old
head was full or the container was empty. -/
theorem push_front_correct {T : Type} [Element T] {N : Nat} (hN : 1 ≤ N) {st : State T}
    {nodes : Layout T} (hw : WF N st nodes)
    (htv : Element.is_trivial T = true ∨ ∀ a cs r, nodes = (a, cs) :: r → ¬ cs.length < N)
    (v : T) :
    ∃ st', push_front N st (ConstRef.object v) = some st' ∧ size st' = size st + 1 ∧
      WF N st' (match nodes with
        | [] => [(st.heap.length, [v])]
        | (a, cs) :: r =>
          if cs.length < N then (a, v :: cs) :: r
          else (st.heap.length, [v]) :: (a, cs) :: r) ∧
      ∀ k, size st' < k → to_list k st' = some (v :: elems nodes) := by
  obtain ⟨st', hp, hsz, _, _, hw'⟩ := push_front_spec hN hw htv v
  refine ⟨st', hp, hsz, hw', fun k hk => ?_⟩
  rw [to_list_of_WF hw' hk]
  cases nodes with
  | nil => simp [elems]
  | cons x r =>
    obtain ⟨a, cs⟩ := x
    simp only
    split <;> simp [elems]

theorem push_front_correct_witness :
    1 ≤ 3 ∧ WF 3 example_state [(1, [1, 2, 3]), (2, [4, 5])] ∧
      (Element.is_trivial Nat = true ∨
        ∀ a cs r, [(1, [1, 2, 3]), (2, [4, 5])] = (a, cs) :: r → ¬ cs.length < 3) ∧
      ∃ st', push_front 3 example_state (ConstRef.object 9) = some st' ∧
        size st' = size example_state + 1 ∧
        WF 3 st' (match [(1, [1, 2, 3]), (2, [4, 5])] with
          | [] => [(example_state.heap.length, [9])]
          | (a, cs) :: r =>
            if cs.length < 3 then (a, 9 :: cs) :: r
            else (example_state.heap.length, [9]) :: (a, cs) :: r) ∧
        ∀ k, size st' < k → to_list k st' = some (9 :: elems [(1, [1, 2, 3]), (2, [4, 5])]) :=
  ⟨by decide, by decide, Or.inl rfl,
    @push_front_correct Nat _ 3 (by decide) example_state [(1, [1, 2, 3]), (2, [4, 5])]
      (by decide) (Or.inl rfl) 9⟩

/-! ## Verification: range construction -/

theorem range_ctor_fill_spec {T : Type} (L : Nat) (prev_node : Ptr) :
    ∀ (k i : Nat) (h : Heap T) (n : Node T) (first : List T) (ul_size : Nat) (tail_ : Ptr)
      (m : Nat), m = min k first.length →
      h.read (some L) = some n → n.node_size = i → i + k ≤ n.data.length → first ≠ [] →
      (prev_node = none ∨ ∃ p np, prev_node = some p ∧ h.read (some p) = some np ∧ p ≠ L) →
      ∃ h' d, range_ctor_fill (some L) prev_node k i h first ul_size tail_ =
          some (h', first.drop m, ul_size + m, if first.length ≤ k then some L else tail_) ∧
        h'.read (some L) = some { n with node_size := i + m, data := d } ∧
        d.length = n.data.length ∧
        (∀ x, d[x]? = if i ≤ x ∧ x < i + m then some (first[x - i]?) else n.data[x]?) ∧
        (∀ b, b ≠ L → some b ≠ prev_node → h'.read (some b) = h.read (some b)) ∧
        (∀ p np, prev_node = some p → h.read (some p) = some np →
          h'.read (some p) = some np ∨ h'.read (some p) = some { np with next := some L })
  | 0, i, h, n, first, ul_size, tail_, m, hm, hr, hn, _, hne, _ => by
    have hlen : 0 < first.length := List.length_pos.2 hne
    have hm0 : m = 0 := by omega
    subst hm0
    refine ⟨h, n.data, ?_, ?_, rfl, ?_, fun _ _ _ => rfl, fun p np _ hp => Or.inl hp⟩
    · simp only [range_ctor_fill, List.drop_zero, Nat.add_zero, Option.pure_def]
      rw [if_neg (by omega)]
    · rw [hr, Nat.add_zero, ← hn]
    · intro x; rw [if_neg (by omega)]
  | k + 1, i, h, n, first, ul_size, tail_, m, hm, hr, hn, hik, hne, hprev => by
    obtain ⟨x, rest, rfl⟩ := List.exists_cons_of_ne_nil hne
    have hlt := read_lt hr
    have hi : i < n.data.length := by omega
    have hr1 := read_upd_same (h := h) { n with data := n.data.set i (some x) } hlt
    have hr2 := read_upd_same (h := h)
      { n with node_size := i + 1, data := n.data.set i (some x) } hlt
    rw [range_ctor_fill]
    simp only [Option.bind_eq_bind]
    rw [construct_t_eq hr hi]
    simp only [Option.some_bind, hr1]
    rw [set_node_size_eq hr1]
    simp only [Option.some_bind, upd_upd, hn]
    by_cases hrest : rest = []
    · subst hrest
      have hm1 : m = 1 := by simp only [List.length_singleton] at hm; omega
      subst hm1
      simp only [List.isEmpty_nil, if_true, List.length_singleton]
      rw [if_pos (show 1 ≤ k + 1 by omega)]
      rcases hprev with hnone | ⟨p, np, hp, hrp, hpL⟩
      · subst hnone
        simp only [ne_eq, not_true_eq_false, if_false, Option.pure_def, Option.some_bind]
        refine ⟨_, n.data.set i (some x), rfl, hr2, by simp, ?_, ?_, ?_⟩
        · intro y
          by_cases hy : y = i
          · subst hy
            rw [if_pos (by omega), List.getElem?_set_self hi]; simp
          · rw [if_neg (by omega), List.getElem?_set_ne (Ne.symm hy)]
        · intro b hb _
          exact read_upd_ne _ _ (Ne.symm hb)
        · intro p np hp; cases hp
      · subst hp
        have hrp2 : (h.upd L { n with node_size := i + 1, data := n.data.set i (some x) }).read
            (some p) = some np := by rw [read_upd_ne _ _ (Ne.symm hpL)]; exact hrp
        simp only [ne_eq, reduceCtorEq, not_false_eq_true, if_true]
        rw [set_next_eq hrp2]
        simp only [Option.some_bind, Option.pure_def]
        refine ⟨_, n.data.set i (some x), rfl, ?_, by simp, ?_, ?_, ?_⟩
        · rw [read_upd_ne _ _ hpL]; exact hr2
        · intro y
          by_cases hy : y = i
          · subst hy
            rw [if_pos (by omega), List.getElem?_set_self hi]; simp
          · rw [if_neg (by omega), List.getElem?_set_ne (Ne.symm hy)]
        · intro b hb hbp
          have hbp' : b ≠ p := fun e => hbp (by rw [e])
          rw [read_upd_ne _ _ (Ne.symm hbp'), read_upd_ne _ _ (Ne.symm hb)]
        · intro p' np' hp' hrp'
          have : p' = p := (Option.some.inj hp').symm
          subst this
          rw [hrp] at hrp'
          cases hrp'
          exact Or.inr (read_upd_same _ (by rw [length_upd]; exact read_lt hrp))
    · have hprev2 : prev_node = none ∨ ∃ p np, prev_node = some p ∧
          (h.upd L { n with node_size := i + 1, data := n.data.set i (some x) }).read (some p) =
            some np ∧ p ≠ L := by
        rcases hprev with hnone | ⟨p, np, hp, hrp, hpL⟩
        · exact Or.inl hnone
        · exact Or.inr ⟨p, np, hp, by rw [read_upd_ne _ _ (Ne.symm hpL)]; exact hrp, hpL⟩
      obtain ⟨m', rfl⟩ : ∃ m', m = m' + 1 := ⟨m - 1, by
        have : 0 < rest.length := List.length_pos.2 hrest
        simp only [List.length_cons] at hm; omega⟩
      obtain ⟨h', d, hres, hrL, hdl, hpt, hfr, hpv⟩ :=
        range_ctor_fill_spec L prev_node k (i + 1) _ _ rest (ul_size + 1) tail_ m'
          (by simp only [List.length_cons] at hm; omega) hr2 rfl
          (by simp only [List.length_set]; omega) hrest hprev2
      have hie : rest.isEmpty = false := by
        cases rest with
        | nil => exact absurd rfl hrest
        | cons _ _ => rfl
      simp only [hie, Bool.false_eq_true, if_false, hres, List.length_cons]
      simp only [List.length_set] at hdl
      simp only at hrL hpt
      refine ⟨h', d, ?_, ?_, hdl, ?_, ?_, ?_⟩
      · have e1 : ul_size + 1 + m' = ul_size + (m' + 1) := by omega
        have e2 : (rest.length ≤ k) = (rest.length + 1 ≤ k + 1) := by
          apply propext; omega
        simp only [List.drop_succ_cons, e1, e2]
      · rw [hrL]
        have e1 : i + 1 + m' = i + (m' + 1) := by omega
        simp only [e1]
      · intro y
        rw [hpt y]
        by_cases h1 : i + 1 ≤ y ∧ y < i + 1 + m'
        · rw [if_pos h1, if_pos (by omega)]
          obtain ⟨z, hz⟩ : ∃ z, y - i = z + 1 := ⟨y - i - 1, by omega⟩
          rw [hz, List.getElem?_cons_succ]
          congr 2; omega
        · rw [if_neg h1]
          by_cases hy : y = i
          · subst hy
            rw [if_pos (by omega)]
            simp only [List.getElem?_set_self hi, Nat.sub_self, List.getElem?_cons_zero]
          · rw [if_neg (by omega)]
            rw [List.getElem?_set_ne (Ne.symm hy)]
      · intro b hb hbp
        rw [hfr b hb hbp, read_upd_ne _ _ (Ne.symm hb)]
      · intro p np hp hrp
        have hpL : p ≠ L := by
          rcases hprev with hnone | ⟨p', np', hp', _, hpL'⟩
          · rw [hnone] at hp; cases hp
          · rw [hp'] at hp; cases hp; exact hpL'
        exact hpv p np hp (by rw [read_upd_ne _ _ (Ne.symm hpL)]; exact hrp)

theorem headPtr_ne_nil {T : Type} (x y : Ptr) : ∀ (l : Layout T), l ≠ [] → headPtr x l = headPtr y l
  | [], h => absurd rfl h
  | _ :: _, _ => rfl

theorem lastPtr_ne_nil {T : Type} (x y : Ptr) : ∀ (l : Layout T), l ≠ [] → lastPtr x l = lastPtr y l
  | [], h => absurd rfl h
  | _ :: _, _ => rfl

/-- A fresh node built by `allocate_node`, `construct_node` and `allocate_t`. -/
theorem fresh_node_eq {T : Type} (N : Nat) (h : Heap T) (k : Nat) (nx pv : Ptr) :
    (do
      let h2 ← construct_node (allocate_node h).2 (some h.length) k [] nx pv
      set_data h2 (some h.length) (allocate_t N)) =
    some (h.alloc ⟨k, allocate_t N, nx, pv⟩).2 := by
  have h0 : (allocate_node h).2.read (some h.length) = some ⟨0, [], none, none⟩ :=
    read_alloc_new h _
  have hl : h.length < (allocate_node h).2.length := by simp [allocate_node, Heap.alloc]
  simp only [construct_node, write_of_lt _ h0, Option.bind_eq_bind, Option.some_bind]
  rw [set_data_eq (read_upd_same _ hl)]
  simp only [upd_upd, allocate_node, upd_alloc_new]

theorem Option.bind_assoc_some2 {α β : Type} {x : Option α} {y : α → Option α}
    {r : α} {f : α → Option β}
    (h : (x.bind fun a => y a) = some r) :
    (x.bind fun a => (y a).bind f) = f r := by
  cases x with
  | none => simp at h
  | some a =>
    simp only [Option.some_bind] at h ⊢
    rw [h]; rfl

theorem chunk_counts (N len m : Nat) (hN : 1 ≤ N) (hlen : 1 ≤ len) (hm : m = min N len) :
    m :: (List.replicate ((len - m) / N) N ++
        (if (len - m) % N = 0 then [] else [(len - m) % N])) =
      List.replicate (len / N) N ++ (if len % N = 0 then [] else [len % N]) := by
  by_cases hle : len ≤ N
  · have hml : m = len := by omega
    subst hml
    simp only [Nat.sub_self, Nat.zero_div, List.replicate_zero, Nat.zero_mod, if_true,
      List.nil_append]
    by_cases he : m = N
    · subst he
      simp [Nat.div_self (by omega : 0 < m)]
    · have hlt : m < N := by omega
      rw [Nat.div_eq_of_lt hlt, Nat.mod_eq_of_lt hlt, if_neg (by omega)]
      simp
  · have hmN : m = N := by omega
    subst hmN
    obtain ⟨r, hr⟩ : ∃ r, len = r + m := ⟨len - m, by omega⟩
    subst hr
    simp only [Nat.add_sub_cancel, Nat.add_div_right _ (by omega : 0 < m), Nat.add_mod_right,
      List.replicate_succ, List.cons_append]

theorem range_ctor_loop_spec {T : Type} {N : Nat} (hN : 1 ≤ N) :
    ∀ (fuel : Nat) (h : Heap T) (first : List T) (done : Layout T) (head_ tail_ : Ptr)
      (ul_size : Nat),
      Chain N h none done none → (addrs done).Nodup → first.length < fuel →
      (done ≠ [] → head_ = headPtr none done) →
      (first = [] → done ≠ [] → tail_ = lastPtr none done) →
      ∃ h' news, range_ctor_loop N fuel h first (lastPtr none done) done.isEmpty head_ tail_
            ul_size =
          some (h', headPtr head_ (done ++ news), lastPtr tail_ (done ++ news),
            ul_size + first.length) ∧
        Chain N h' none (done ++ news) none ∧ (addrs (done ++ news)).Nodup ∧
        elems news = first ∧
        counts news = List.replicate (first.length / N) N ++
          (if first.length % N = 0 then [] else [first.length % N]) ∧
        (∀ b nb, h.read (some b) = some nb → b ∉ addrs done → h'.read (some b) = some nb) ∧
        ∀ x, x ∈ addrs news → h.length ≤ x
  | 0, _, _, _, _, _, _, _, _, hf, _, _ => by omega
  | fuel + 1, h, [], done, head_, tail_, ul_size, hc, hnd, _, hhead, htail => by
    refine ⟨h, [], ?_, by simpa using hc, by simpa using hnd, rfl, by simp [counts],
      fun _ _ hb _ => hb, fun x hx => by simp [addrs] at hx⟩
    simp only [range_ctor_loop, List.isEmpty_nil, if_true, Option.pure_def, List.append_nil,
      List.length_nil, Nat.add_zero]
    by_cases hd : done = []
    · subst hd; rfl
    · rw [headPtr_ne_nil head_ none done hd, lastPtr_ne_nil tail_ none done hd, ← hhead hd,
        ← htail rfl hd]
  | fuel + 1, h, x :: rest, done, head_, tail_, ul_size, hc, hnd, hf, hhead, _ => by
    obtain ⟨first, hfirst⟩ : ∃ first, first = x :: rest := ⟨_, rfl⟩
    have hne : first ≠ [] := by rw [hfirst]; simp
    have hlen : 1 ≤ first.length := by rw [hfirst]; simp
    rw [← hfirst] at hf ⊢
    obtain ⟨m, hm⟩ : ∃ m, m = min N first.length := ⟨_, rfl⟩
    have hall := Chain.lt hc
    -- the node allocated in this round
    obtain ⟨nA, hnA⟩ : ∃ nA : Node T, nA = ⟨0, allocate_t N, none, lastPtr none done⟩ :=
      ⟨_, rfl⟩
    have hfresh := fresh_node_eq N h 0 none (lastPtr none done)
    rw [← hnA] at hfresh
    simp only [Option.bind_eq_bind] at hfresh
    have hrA : (h.alloc nA).2.read (some h.length) = some nA := read_alloc_new _ _
    have hprev : lastPtr none done = none ∨ ∃ p np, lastPtr none done = some p ∧
        (h.alloc nA).2.read (some p) = some np ∧ p ≠ h.length := by
      rcases List.eq_nil_or_concat done with hd | ⟨ini, y, hd⟩
      · subst hd; exact Or.inl rfl
      · obtain ⟨p, cp⟩ := y
        have hd' : done = ini ++ [(p, cp)] := by simpa using hd
        subst hd'
        obtain ⟨np, hrp, _⟩ := (Chain.append.1 hc).2.1
        have hpL : p ≠ h.length := Nat.ne_of_lt (read_lt hrp)
        exact Or.inr ⟨p, np, by rw [lastPtr_append_cons]; rfl,
          by rw [read_alloc_old _ _ hpL]; exact hrp, hpL⟩
    obtain ⟨h4, d, hfill, hr4, hdl, hpt, hfr4, hpv4⟩ :=
      range_ctor_fill_spec h.length (lastPtr none done) N 0 (h.alloc nA).2 nA first ul_size
        tail_ m hm hrA (by rw [hnA]) (by rw [hnA]; simp [allocate_t]) hne hprev
    have hie : first.isEmpty = false := by rw [hfirst]; rfl
    rw [range_ctor_loop]
    simp only [hie, Bool.false_eq_true, if_false, Option.bind_eq_bind, allocate_node_fst]
    rw [Option.bind_assoc_some2 hfresh, hfill]
    simp only [Option.some_bind]
    have hmpos : 1 ≤ m := by omega
    have hmN : m ≤ N := by omega
    have hml : m ≤ first.length := by omega
    have hchunk : (first.take m).length = m := by rw [List.length_take]; omega
    have hokL : ∀ pv, NodeOK N (⟨0 + m, d, nA.next, pv⟩ : Node T) (first.take m) none pv := by
      intro pv
      refine ⟨by simp only [hchunk]; omega, by rw [hdl, hnA]; simp [allocate_t], ?_,
        by rw [hnA], rfl, by omega, by omega⟩
      rw [take_eq_map_some_iff, hchunk]
      intro y hy
      rw [hpt y, if_pos (by omega), Nat.sub_zero, List.getElem?_take_of_lt hy]
    have hLnot : h.length ∉ addrs done := fun hmem => Nat.lt_irrefl _ (hall _ hmem)
    -- the store after the link `prev_node->next = new_node`
    have hlink : ∃ h5, (∀ {β : Type} (k : Heap T → Option β),
          (if lastPtr none done ≠ none then
            (set_next h4 (lastPtr none done) (some h.length)).bind k
          else (pure h4 : Option (Heap T)).bind k) = k h5) ∧
        Chain N h5 none (done ++ [(h.length, first.take m)]) none ∧
        ∀ b nb, h.read (some b) = some nb → b ∉ addrs done → h5.read (some b) = some nb := by
      rcases List.eq_nil_or_concat done with hd | ⟨ini, y, hd⟩
      · subst hd
        refine ⟨h4, ?_, ?_, ?_⟩
        · intro β k
          simp [lastPtr]
        · refine ⟨⟨⟨0 + m, d, nA.next, nA.prev⟩, hr4, ?_⟩, trivial⟩
          have h1 := hokL nA.prev
          have e : nA.prev = none := by rw [hnA]; rfl
          rw [e] at h1 ⊢
          exact h1
        · intro b nb hb _
          have hbL : b ≠ h.length := Nat.ne_of_lt (read_lt hb)
          rw [hfr4 b hbL (by simp [lastPtr]), read_alloc_old _ _ hbL]
          exact hb
      · obtain ⟨p, cp⟩ := y
        have hd' : done = ini ++ [(p, cp)] := by simpa using hd
        subst hd'
        obtain ⟨np, hrp, hokp⟩ := (Chain.append.1 hc).2.1
        have hpL : p ≠ h.length := Nat.ne_of_lt (read_lt hrp)
        have hlp : lastPtr none (ini ++ [(p, cp)]) = some p := by
          rw [lastPtr_append_cons]; rfl
        have hrpA : (h.alloc nA).2.read (some p) = some np := by
          rw [read_alloc_old _ _ hpL]; exact hrp
        have hp4lt : p < h4.length := by
          rcases hpv4 p np hlp hrpA with e | e <;> exact read_lt e
        have hsn : set_next h4 (some p) (some h.length) =
            some (h4.upd p { np with next := some h.length }) := by
          rcases hpv4 p np hlp hrpA with e | e
          · exact set_next_eq e _
          · rw [set_next_eq e]
        refine ⟨h4.upd p { np with next := some h.length }, ?_, ?_, ?_⟩
        · intro β k
          rw [hlp, if_pos (by simp), hsn]
          rfl
        · rw [List.append_assoc]
          refine Chain.split hc hnd (fun x hx => Nat.ne_of_lt (hall x hx)) ?_ ?_ ?_ ?_
          · refine ⟨⟨0 + m, d, nA.next, nA.prev⟩, ?_, ?_⟩
            · rw [read_upd_ne _ _ hpL]; exact hr4
            · have h1 := hokL nA.prev
              have e : nA.prev = some p := by rw [hnA]; exact hlp
              rw [e] at h1 ⊢
              exact h1
          · exact ⟨_, read_upd_same _ hp4lt, hokp.1, hokp.2.1, hokp.2.2.1, rfl, hokp.2.2.2.2⟩
          · intro b nb hb; simp [headPtr] at hb
          · intro b hbp _ hbL
            rw [read_upd_ne _ _ (Ne.symm hbp), hfr4 b hbL (by rw [hlp]; simpa using hbp),
              read_alloc_old _ _ hbL]
        · intro b nb hb hbd
          have hbL : b ≠ h.length := Nat.ne_of_lt (read_lt hb)
          have hbp : b ≠ p := fun e => hbd (by rw [e, addrs_append]; simp [addrs])
          rw [read_upd_ne _ _ (Ne.symm hbp), hfr4 b hbL (by rw [hlp]; simpa using hbp),
            read_alloc_old _ _ hbL]
          exact hb
    obtain ⟨h5, hk5, hc5, hfr5⟩ := hlink
    rw [hk5]
    -- the remaining rounds
    have hnd5 : (addrs (done ++ [(h.length, first.take m)])).Nodup := by
      rw [addrs_append, List.nodup_append]
      refine ⟨hnd, by simp [addrs], ?_⟩
      intro a ha ha'
      have : a = h.length := by simpa [addrs] using ha'
      exact hLnot (this ▸ ha)
    have hdne : done ++ [(h.length, first.take m)] ≠ [] := by simp
    obtain ⟨h', news, hloop, hc', hnd', hel, hcnt, hfr', hfresh'⟩ :=
      range_ctor_loop_spec hN fuel h5 (first.drop m) (done ++ [(h.length, first.take m)])
        (if done.isEmpty = true then some h.length else head_)
        (if first.length ≤ N then some h.length else tail_) (ul_size + m) hc5 hnd5
        (by rw [List.length_drop]; omega)
        (fun _ => by
          by_cases hd : done = []
          · subst hd; rfl
          · have hie' : done.isEmpty = false := by
              cases done with
              | nil => exact absurd rfl hd
              | cons _ _ => rfl
            rw [hie', hhead hd]
            simp only [Bool.false_eq_true, if_false]
            cases done with
            | nil => exact absurd rfl hd
            | cons _ _ => rfl)
        (fun hdrop _ => by
          have : first.length ≤ N := by
            have h0 := congrArg List.length hdrop
            rw [List.length_drop] at h0
            simp only [List.length_nil] at h0
            omega
          rw [if_pos this, lastPtr_append_cons]; rfl)
    have hlp' : lastPtr none (done ++ [(h.length, first.take m)]) = some h.length := by
      rw [lastPtr_append_cons]; rfl
    have hie' : (done ++ [(h.length, first.take m)]).isEmpty = false := by
      cases done <;> rfl
    rw [hlp', hie'] at hloop
    refine ⟨h', (h.length, first.take m) :: news, ?_, ?_, ?_, ?_, ?_, ?_, ?_⟩
    rotate_right
    · intro x hx
      have h5lt : h.length < h5.length :=
        Chain.lt hc5 h.length (by rw [addrs_append]; simp [addrs])
      simp only [addrs, List.map_cons, List.mem_cons] at hx
      rcases hx with e | hx
      · omega
      · have := hfresh' x hx
        omega
    · rw [hloop]
      have e1 : done ++ (h.length, first.take m) :: news =
          (done ++ [(h.length, first.take m)]) ++ news := by simp
      have e2 : ul_size + m + (first.drop m).length = ul_size + first.length := by
        rw [List.length_drop]; omega
      rw [e1, e2, headPtr_ne_nil _ head_ _ (by simp), lastPtr_ne_nil _ tail_ _ (by simp)]
    · simpa using hc'
    · simpa using hnd'
    · simp only [elems, hel, List.take_append_drop]
    · have hc0 : counts ((h.length, first.take m) :: news) = m :: counts news := by
        simp [counts, hchunk]
      rw [hc0, hcnt, List.length_drop]
      exact chunk_counts N first.length m hN hlen hm
    · intro b nb hb hbd
      have hbL : b ≠ h.length := Nat.ne_of_lt (read_lt hb)
      exact hfr' b nb (hfr5 b nb hb hbd) (by
        rw [addrs_append]
        simp only [addrs, List.map_cons, List.map_nil, List.mem_append, List.mem_singleton,
          not_or]
        exact ⟨hbd, hbL⟩)

theorem ceil_div_eq (n N : Nat) (hN : 1 ≤ N) :
    (n + N - 1) / N = n / N + (if n % N = 0 then 0 else 1) := by
  have hdm := Nat.div_add_mod n N
  have hr : n % N < N := Nat.mod_lt n (by omega)
  have hpos : 0 < N := by omega
  by_cases h0 : n % N = 0
  · have e : n + N - 1 = (N - 1) + N * (n / N) := by omega
    rw [if_pos h0, e, Nat.add_mul_div_left _ _ hpos, Nat.div_eq_of_lt (by omega)]
    omega
  · have e : n + N - 1 = (n % N - 1) + N * (n / N + 1) := by
      rw [Nat.mul_add, Nat.mul_one]; omega
    rw [if_neg h0, e, Nat.add_mul_div_left _ _ hpos, Nat.div_eq_of_lt (by omega)]
    omega

/-- C7: for every NodeMaxSize `N` of at least 1 and every source range `xs`,
range construction (which the initializer-list constructor delegates to)
succeeds and yields a well-formed container (so `head_` is the first node of
the chain and `tail_` the last) with `size()` equal to the length of `xs`,
whose forward iteration dereferences `xs` in source order, stored in
`ceil(n / N)` nodes of which `n / N` hold exactly `N` elements, followed, when
`N` does not divide `n`, by a last node holding the remainder `n % N`. -/
theorem range_ctor_correct {T : Type} (N : Nat) (hN : 1 ≤ N) (h : Heap T) (xs : List T)
    (fuel : Nat) (hf : xs.length < fuel) :
    ∃ st nodes, range_ctor N fuel h xs = some st ∧
      initializer_list_ctor N fuel h xs = some st ∧ WF N st nodes ∧
      size st = xs.length ∧
      (∀ k, xs.length < k → to_list k st = some xs) ∧
      counts nodes = List.replicate (xs.length / N) N ++
        (if xs.length % N = 0 then [] else [xs.length % N]) ∧
      nodes.length = (xs.length + N - 1) / N := by
  have hlen_of_counts : ∀ (nodes : Layout T), counts nodes = List.replicate (xs.length / N) N ++
      (if xs.length % N = 0 then [] else [xs.length % N]) →
      nodes.length = (xs.length + N - 1) / N := by
    intro nodes hc
    have h1 : nodes.length = (counts nodes).length := by simp [counts]
    rw [h1, hc, ceil_div_eq _ _ hN]
    split <;> simp
  cases xs with
  | nil =>
    refine ⟨_, [], rfl, rfl, ?_, rfl, ?_, ?_, ?_⟩
    · simp [WF_nil_iff]
    · intro k hk
      obtain ⟨j, rfl⟩ : ∃ j, k = j + 1 := ⟨k - 1, by simp at hk; omega⟩
      simp [to_list, end_, begin, collect]
    · simp [counts]
    · exact hlen_of_counts [] (by simp [counts])
  | cons x rest =>
    obtain ⟨h', news, hloop, hc, hnd, hel, hcnt, _⟩ :=
      range_ctor_loop_spec hN fuel (h.alloc (⟨0, [], none, none⟩ : Node T)).2 (x :: rest) []
        none none 0 trivial (by simp [addrs]) hf (fun hd => absurd rfl hd)
        (fun hd => by cases hd)
    simp only [lastPtr, List.isEmpty_nil, List.nil_append, Nat.zero_add] at hloop hc hnd
    obtain ⟨st, hstdef⟩ : ∃ st : State T, st =
        ⟨h', h.length, lastPtr none news, headPtr none news, (x :: rest).length, false⟩ :=
      ⟨_, rfl⟩
    have hst : range_ctor N fuel h (x :: rest) = some st := by
      rw [hstdef]
      simp only [range_ctor, List.isEmpty_cons, Bool.false_eq_true, if_false, hloop,
        Option.bind_eq_bind, Option.some_bind, Option.pure_def]
      rfl
    have hw : WF N st news := by
      rw [hstdef]
      refine ⟨hc, hnd, rfl, rfl, ?_⟩
      rw [counts_sum, hel]
    have hsz : st.size_ = (x :: rest).length := by rw [hstdef]
    refine ⟨st, news, hst, hst, hw, hsz, fun k hk => ?_, hcnt, hlen_of_counts news hcnt⟩
    rw [to_list_of_WF hw (by rw [hsz]; exact hk), hel]

theorem range_ctor_correct_witness :
    1 ≤ 3 ∧ [1, 2, 3, 4, 5].length < 6 ∧
      ∃ st nodes, range_ctor 3 6 ([] : Heap Nat) [1, 2, 3, 4, 5] = some st ∧
        initializer_list_ctor 3 6 ([] : Heap Nat) [1, 2, 3, 4, 5] = some st ∧ WF 3 st nodes ∧
        size st = [1, 2, 3, 4, 5].length ∧
        (∀ k, [1, 2, 3, 4, 5].length < k → to_list k st = some [1, 2, 3, 4, 5]) ∧
        counts nodes = List.replicate ([1, 2, 3, 4, 5].length / 3) 3 ++
          (if [1, 2, 3, 4, 5].length % 3 = 0 then [] else [[1, 2, 3, 4, 5].length % 3]) ∧
        nodes.length = ([1, 2, 3, 4, 5].length + 3 - 1) / 3 :=
  ⟨by decide, by decide, range_ctor_correct 3 (by decide) [] [1, 2, 3, 4, 5] 6 (by decide)⟩

/-- The statements of `erase` that follow the initialisation of `pos`
(`erase_body`; no call reaches them, see `erase`), with NodeMaxSize 2 on the
container built by `push_back` of 1, 2, 3, whose nodes are `1, 2 | 3`.  Run at
the cursor to 3, the last occupied slot of the tail node, they return early
through `return end()` and never call `check_node_empty`: `size()` drops to
2, but the emptied node is still `tail_`, still linked after the head, with
`node_size` 0 (the node counts along the chain are 2, 0), and forward iteration
from `begin()` runs into that node and dereferences a destroyed slot instead
of yielding 1, 2. -/
theorem erase_tail_last_keeps_empty_node :
    erase_tail_before.bind (to_list 5) = some [1, 2, 3] ∧
      erase_tail_after.map size = some 2 ∧
      erase_tail_after.map (fun st => st.tail_) = erase_tail_before.map (fun st => st.tail_) ∧
      erase_tail_after.bind (fun st => (st.heap.read st.tail_).map (fun t => t.node_size)) =
        some 0 ∧
      erase_tail_after.bind (fun st => node_counts st.heap 5 st.head_) = some [2, 0] ∧
      erase_tail_after.bind (to_list 5) = none := by
  decide

/-- C5 (failing input): with NodeMaxSize 3 and the container holding 1, 2,
`insert(end(), 9)` by the statements of the `const_iterator` overload
(`insert_body`; the overload itself has no instance) increments `size_`
before it delegates to `push_back`, which increments it again: the elements and
the store are those `push_back(9)` leaves, but `size()` is 4, not 3.  Through
the `iterator` overload the call reads `position.current_node->next` with
`position.current_node` null, which is undefined. -/
theorem insert_at_end_double_counts :
    insert_end_before.map size = some 2 ∧
      insert_end_push_back.map size = some 3 ∧
      insert_end_after_const.map size = some 4 ∧
      insert_end_after_const.bind (to_list 5) = some [1, 2, 9] ∧
      insert_end_push_back.bind (to_list 5) = some [1, 2, 9] ∧
      insert_end_after_const.map (fun st => st.heap) =
        insert_end_push_back.map (fun st => st.heap) ∧
      insert_end_after = none := by
  decide

/-- C6 (failing input): from the empty container, `push_back(1)` and then
`insert(end(), 2)` by the statements of the `const_iterator` overload
(`insert_body`; the overload itself has no instance) leave `size()` equal
to 3 while the walk from `head_` by forward links (which ends at `tail_`) and
the walk from `tail_` by backward links (which ends at `head_`) both meet 2
elements; through the `iterator` overload the same call is undefined. -/
theorem size_exceeds_walk_after_insert_at_end :
    push_then_insert_end.map size = some 3 ∧
      push_then_insert_end.bind (fun st => walk_forward st.heap 5 st.head_ none) =
        push_then_insert_end.map (fun st => (2, st.tail_)) ∧
      push_then_insert_end.bind (fun st => walk_backward st.heap 5 st.tail_ none) =
        push_then_insert_end.map (fun st => (2, st.head_)) ∧
      push_then_insert_end_it = none := by
  decide

/-- C8 (failing input): with NodeMaxSize 3, `unrolled_list(2, 9)` allocates its
only node, constructs the two elements and then executes
`prev_node->next = new_node` with `prev_node` still null: the construction is
undefined (a null pointer is dereferenced) and yields no container, while with
7 or 3 elements it completes. -/
theorem fill_ctor_partial_single_node_undefined :
    fill_ctor 3 ([] : Heap Nat) 2 9 = none ∧
      (fill_ctor 3 ([] : Heap Nat) 7 9).bind (to_list 8) = some [9, 9, 9, 9, 9, 9, 9] ∧
      (fill_ctor 3 ([] : Heap Nat) 3 9).bind (to_list 8) = some [9, 9, 9] := by
  decide

/-- The defect behind C8 in general: whenever `0 < count < NodeMaxSize` the fill
constructor is undefined. -/
theorem fill_ctor_undefined_of_lt {T : Type} (N count : Nat) (h : Heap T) (v : T)
    (h0 : 0 < count) (hlt : count < N) : fill_ctor N h count v = none := by
  have hmod : count % N = count := Nat.mod_eq_of_lt hlt
  have hdiv : count / N = 0 := Nat.div_eq_of_lt hlt
  have hc : count ≠ 0 := by omega
  have hN : N ≠ 0 := by omega
  simp only [fill_ctor, hc, hN, if_false, hmod, hdiv, ne_eq, not_false_eq_true, if_true,
    Nat.zero_add, Nat.zero_mul, fill_ctor_loop, usub, Nat.le_refl, Nat.sub_self, and_self,
    Option.bind_eq_bind]
  cases hx : construct_node (allocate_node (h.alloc (⟨0, [], none, none⟩ : Node T)).2).2
      (some (allocate_node (h.alloc (⟨0, [], none, none⟩ : Node T)).2).1) 0 [] none none with
  | none => simp
  | some h2 =>
    simp only [Option.some_bind]
    cases hy : set_data h2 (some (allocate_node (h.alloc (⟨0, [], none, none⟩ : Node T)).2).1)
        (allocate_t N) with
    | none => simp
    | some h3 =>
      simp only [Option.some_bind]
      cases hz : fill_slots (some (allocate_node (h.alloc (⟨0, [], none, none⟩ : Node T)).2).1)
          v count 0 h3 with
      | none => simp
      | some h4 => simp [set_next, Heap.read]

theorem fill_ctor_undefined_of_lt_witness :
    0 < 2 ∧ 2 < 3 ∧ fill_ctor 3 ([] : Heap Nat) 2 9 = none :=
  ⟨by decide, by decide, fill_ctor_undefined_of_lt 3 2 [] 9 (by decide) (by decide)⟩

/-- C10 (failing input): `push_front(1)` on a default-constructed container
leaves `is_empty_` true (only `push_back` clears it), so the following
`pop_back()` returns at its first test and removes nothing: `size()` is still 1
and the element is still there. -/
theorem pop_back_ignored_after_push_front :
    push_front_once.map size = some 1 ∧
      push_front_once.map empty = some true ∧
      push_front_once.bind (pop_back 3) = push_front_once ∧
      (push_front_once.bind (pop_back 3)).bind (to_list 5) = some [1] := by
  decide

/-! ## Verification: pruning an emptied node -/

theorem read_free_ne {T : Type} (h : Heap T) {a b : Nat} (hne : a ≠ b) :
    Heap.read (h.set a none) (some b) = h.read (some b) := by
  simp [Heap.read, List.getElem?_set_ne hne]

theorem read_free_same {T : Type} (h : Heap T) (a : Nat) :
    Heap.read (h.set a none) (some a) = none := by
  simp only [Heap.read]
  by_cases hlt : a < h.length
  · rw [List.getElem?_set_self hlt]; rfl
  · rw [List.getElem?_eq_none (by simp; omega)]; rfl

theorem free_eq {T : Type} {h : Heap T} {a : Nat} {n : Node T}
    (hr : h.read (some a) = some n) : h.free (some a) = some (h.set a none) := by
  simp [Heap.free, hr]

theorem destroy_slots_spec {T : Type} [Element T] (a : Nat) :
    ∀ (k i : Nat) (h : Heap T) (n : Node T), h.read (some a) = some n →
      i + k ≤ n.data.length →
      (Element.is_trivial T = true ∨
        ∀ x, i ≤ x → x < i + k → ∃ w, n.data[x]? = some (some w)) →
      ∃ d, destroy_slots h (some a) i k = some (h.upd a { n with data := d }) ∧
        d.length = n.data.length
  | 0, _, h, n, hr, _, _ => ⟨n.data, by simp [destroy_slots, upd_self hr], rfl⟩
  | k + 1, i, h, n, hr, hik, hlive => by
    have hlt := read_lt hr
    obtain ⟨d, hd, hl⟩ := destroy_slots_spec a k (i + 1)
      (h.upd a { n with data := n.data.set i none }) { n with data := n.data.set i none }
      (read_upd_same _ hlt) (by simp only [List.length_set]; omega)
      (by
        rcases hlive with h1 | h2
        · exact Or.inl h1
        · refine Or.inr (fun x hx1 hx2 => ?_)
          obtain ⟨w, hw⟩ := h2 x (by omega) (by omega)
          exact ⟨w, by simp only; rw [List.getElem?_set_ne (by omega)]; exact hw⟩)
    refine ⟨d, ?_, by simpa using hl⟩
    rw [destroy_slots, destroy_t_eq hr (by omega)
      (by
        rcases hlive with h1 | h2
        · exact Or.inl h1
        · exact Or.inr (h2 i (Nat.le_refl i) (by omega)))]
    simp only [Option.bind_eq_bind, Option.some_bind, hd, upd_upd]

/-- `delete_node` frees the record at `a` and touches no other record. -/
theorem delete_node_spec {T : Type} [Element T] {N : Nat} {h : Heap T} {a : Nat} {n : Node T}
    (hr : h.read (some a) = some n) (hl : n.data.length = N)
    (htv : Element.is_trivial T = true ∨ ∀ x, x < N → ∃ w, n.data[x]? = some (some w)) :
    ∃ h', delete_node N h (some a) = some h' ∧ h'.read (some a) = none ∧
      ∀ b, b ≠ a → h'.read (some b) = h.read (some b) := by
  have hlt := read_lt hr
  obtain ⟨d, hd, _⟩ := destroy_slots_spec a N 0 h n hr (by omega)
    (by
      rcases htv with h1 | h2
      · exact Or.inl h1
      · exact Or.inr (fun x _ hx => h2 x (by omega)))
  refine ⟨(h.upd a { n with data := d }).set a none, ?_, read_free_same _ _, ?_⟩
  · rw [delete_node]
    simp only [Option.bind_eq_bind, hd, Option.some_bind]
    exact free_eq (read_upd_same _ hlt)
  · intro b hb
    rw [read_free_ne _ (Ne.symm hb), read_upd_ne _ _ (Ne.symm hb)]

/-- Redirecting the forward link of the last node of a segment. -/
theorem Chain.set_exit {T : Type} {N : Nat} {h h' : Heap T} {ini : Layout T} {pv nx nx' : Ptr}
    {p : Nat} {cp : List T} (hc : Chain N h pv (ini ++ [(p, cp)]) nx)
    (hp : ∀ np, h.read (some p) = some np → h'.read (some p) = some { np with next := nx' })
    (hframe : ∀ b, b ∈ addrs ini → h'.read (some b) = h.read (some b)) :
    Chain N h' pv (ini ++ [(p, cp)]) nx' := by
  rw [Chain.append] at hc ⊢
  obtain ⟨hini, ⟨np, hrp, hok⟩, _⟩ := hc
  refine ⟨Chain.congr hframe hini, ⟨_, hp np hrp, hok.1, hok.2.1, hok.2.2.1, rfl, hok.2.2.2.2⟩,
    trivial⟩

/-- Redirecting the back link of the first node of a segment. -/
theorem Chain.set_entry {T : Type} {N : Nat} {h h' : Heap T} {r : Layout T} {pv pv' nx : Ptr}
    {b : Nat} {cb : List T} (hc : Chain N h pv ((b, cb) :: r) nx)
    (hb : ∀ nb, h.read (some b) = some nb → h'.read (some b) = some { nb with prev := pv' })
    (hframe : ∀ x, x ∈ addrs r → h'.read (some x) = h.read (some x)) :
    Chain N h' pv' ((b, cb) :: r) nx := by
  obtain ⟨⟨nb, hrb, hok⟩, hr⟩ := hc
  exact ⟨⟨_, hb nb hrb, hok.1, hok.2.1, hok.2.2.1, hok.2.2.2.1, rfl, hok.2.2.2.2.2⟩,
    Chain.congr hframe hr⟩

theorem mem_addrs_head {T : Type} (b : Nat) (cb : List T) (r : Layout T) :
    b ∈ addrs ((b, cb) :: r) := by
  simp [addrs]

theorem mem_addrs_tail {T : Type} {x : Nat} (y : Nat × List T) {r : Layout T}
    (hx : x ∈ addrs r) : x ∈ addrs (y :: r) := by
  simp only [addrs, List.map_cons, List.mem_cons] at hx ⊢
  exact Or.inr hx

theorem mem_addrs_left {T : Type} {x : Nat} {l : Layout T} (r : Layout T)
    (hx : x ∈ addrs l) : x ∈ addrs (l ++ r) := by
  rw [addrs_append]; exact List.mem_append_left _ hx

theorem mem_addrs_right {T : Type} {x : Nat} (l : Layout T) {r : Layout T}
    (hx : x ∈ addrs r) : x ∈ addrs (l ++ r) := by
  rw [addrs_append]; exact List.mem_append_right _ hx

theorem headPtr_mem {T : Type} : ∀ (r : Layout T) (x : Nat × List T) (nx : Ptr),
    headPtr nx (x :: r) = some x.1 ∧ x.1 ∈ addrs (x :: r)
  | _, _, _ => ⟨rfl, by simp [addrs]⟩

/-- `check_node_empty` on a node of the chain whose count has reached 0: the
node is unlinked (head, tail and the neighbours' links are fixed) and freed,
and the rest of the chain is untouched. -/
theorem check_node_empty_unlink {T : Type} [Element T] {N : Nat} (st : State T)
    {pre post : Layout T}
    {a : Nat} {na : Node T}
    (hpre : Chain N st.heap none pre (some a)) (hpost : Chain N st.heap (some a) post none)
    (hra : st.heap.read (some a) = some na) (hsz : na.node_size = 0)
    (hdl : na.data.length = N)
    (hnx : na.next = headPtr none post) (hpv : na.prev = lastPtr none pre)
    (hnd : (addrs pre ++ a :: addrs post).Nodup)
    (hh : st.head_ = headPtr (some a) pre) (ht : st.tail_ = lastPtr (some a) post)
    (htv : Element.is_trivial T = true) :
    ∃ h', check_node_empty N st (some a) =
        some { st with heap := h', head_ := headPtr none (pre ++ post),
                       tail_ := lastPtr none (pre ++ post) } ∧
      Chain N h' none (pre ++ post) none ∧ h'.read (some a) = none ∧
      ∀ b, b ≠ a → b ∉ addrs pre → b ∉ addrs post →
        h'.read (some b) = st.heap.read (some b) := by
  rw [List.nodup_append] at hnd
  obtain ⟨hndpre, hnd2, hdisj⟩ := hnd
  have hapost : a ∉ addrs post := (List.nodup_cons.1 hnd2).1
  have hndpost : (addrs post).Nodup := (List.nodup_cons.1 hnd2).2
  have hapre : a ∉ addrs pre := fun hm => hdisj hm (List.mem_cons_self _ _)
  have hlt := read_lt hra
  rcases List.eq_nil_or_concat pre with hp | ⟨ini, y, hp⟩
  · subst hp
    cases post with
    | nil =>
      -- the only node
      simp only [headPtr, lastPtr] at hh ht hnx hpv
      obtain ⟨h', hdel, hnone, hfr⟩ := delete_node_spec hra hdl (Or.inl htv)
      refine ⟨h', ?_, trivial, hnone, fun b hb _ _ => hfr b hb⟩
      simp only [check_node_empty, hra, Option.bind_eq_bind, Option.some_bind, hsz, hh, ht,
        and_self, if_true, reduceCtorEq, if_false, hnx, hpv, ne_eq, not_true_eq_false,
        Option.pure_def, hdel, List.append_nil, headPtr, lastPtr]
    | cons y r =>
      -- the head, with a successor
      obtain ⟨b, cb⟩ := y
      obtain ⟨t, htl, htm⟩ := lastPtr_mem r (b, cb) (some a)
      have hta : t ≠ a := fun e => hapost (e ▸ htm)
      obtain ⟨nb, hrb, hokb⟩ := hpost.1
      have hba : b ≠ a := fun e => hapost (e ▸ mem_addrs_head b cb r)
      have hbr : b ∉ addrs r ∧ (addrs r).Nodup := by simpa [addrs] using hndpost
      simp only [headPtr, lastPtr] at hh hnx hpv
      rw [htl] at ht
      have hra' : (st.heap.upd b { nb with prev := none }).read (some a) = some na := by
        rw [read_upd_ne _ _ hba]; exact hra
      obtain ⟨h', hdel, hnone, hfr⟩ := delete_node_spec hra' hdl (Or.inl htv)
      refine ⟨h', ?_, ?_, hnone, ?_⟩
      · have c2 : ¬ (a = t) := fun hc => hta hc.symm
        simp only [check_node_empty, hra, Option.bind_eq_bind, Option.some_bind, hsz, hh, ht,
          c2, if_true, if_false, hnx, hpv, ne_eq, reduceCtorEq, not_false_eq_true,
          set_prev_eq hrb, Option.pure_def, hdel, List.nil_append, headPtr, and_false,
          Option.some.injEq, not_true_eq_false]
        rw [lastPtr_cons_irrel none (some a), htl]
      · refine Chain.set_entry hpost ?_ ?_
        · intro nb' hrb'
          rw [hrb] at hrb'; cases hrb'
          rw [hfr b hba]
          exact read_upd_same _ (read_lt hrb)
        · intro x hx
          have hxa : x ≠ a := fun e => hapost (e ▸ mem_addrs_tail _ hx)
          have hxb : x ≠ b := fun e => hbr.1 (e ▸ hx)
          rw [hfr x hxa, read_upd_ne _ _ (Ne.symm hxb)]
      · intro x hxa _ hxp
        have hxb : x ≠ b := fun e => hxp (e ▸ mem_addrs_head b cb r)
        rw [hfr x hxa, read_upd_ne _ _ (Ne.symm hxb)]
  · obtain ⟨p, cp⟩ := y
    have hp' : pre = ini ++ [(p, cp)] := by simpa using hp
    subst hp'
    obtain ⟨np, hrp, hokp⟩ := (Chain.append.1 hpre).2.1
    have hpa : p ≠ a := fun e => hapre (e ▸ mem_addrs_right ini (mem_addrs_head p cp []))
    have hlp : lastPtr none (ini ++ [(p, cp)]) = some p := by rw [lastPtr_append_cons]; rfl
    have hhd : ∃ f, headPtr (some a) (ini ++ [(p, cp)]) = some f ∧ f ≠ a ∧
        headPtr none (ini ++ [(p, cp)]) = some f := by
      cases ini with
      | nil => exact ⟨p, rfl, hpa, rfl⟩
      | cons z _ =>
        refine ⟨z.1, rfl, ?_, rfl⟩
        intro e
        exact hapre (e ▸ mem_addrs_head z.1 z.2 _)
    obtain ⟨f, hf1, hfa, hf2⟩ := hhd
    rw [hf1] at hh
    rw [hlp] at hpv
    have hpini : p ∉ addrs ini := by
      rw [addrs_append, List.nodup_append] at hndpre
      intro hm
      exact hndpre.2.2 hm (mem_addrs_head p cp [])
    cases post with
    | nil =>
      -- the tail, with a predecessor
      simp only [headPtr, lastPtr] at ht hnx
      have hra' : (st.heap.upd p { np with next := none }).read (some a) = some na := by
        rw [read_upd_ne _ _ hpa]; exact hra
      obtain ⟨h', hdel, hnone, hfr⟩ := delete_node_spec hra' hdl (Or.inl htv)
      refine ⟨h', ?_, ?_, hnone, ?_⟩
      · have c1 : ¬ (a = f) := fun hc => hfa hc.symm
        simp only [check_node_empty, hra, Option.bind_eq_bind, Option.some_bind, hsz, hh, ht,
          c1, if_true, if_false, hnx, hpv, ne_eq, reduceCtorEq, not_false_eq_true,
          set_next_eq hrp, Option.pure_def, hdel, List.append_nil, hf2, hlp, false_and,
          Option.some.injEq, not_true_eq_false]
      · rw [List.append_nil]
        refine Chain.set_exit hpre ?_ ?_
        · intro np' hrp'
          rw [hrp] at hrp'; cases hrp'
          rw [hfr p hpa]
          exact read_upd_same _ (read_lt hrp)
        · intro x hx
          have hxa : x ≠ a := fun e => hapre (e ▸ mem_addrs_left _ hx)
          have hxp : x ≠ p := fun e => hpini (e ▸ hx)
          rw [hfr x hxa, read_upd_ne _ _ (Ne.symm hxp)]
      · intro x hxa hxp _
        have hxp' : x ≠ p := fun e =>
          hxp (by rw [e]; exact mem_addrs_right ini (mem_addrs_head p cp []))
        rw [hfr x hxa, read_upd_ne _ _ (Ne.symm hxp')]
    | cons y r =>
      -- a node in the middle
      obtain ⟨b, cb⟩ := y
      obtain ⟨t, htl, htm⟩ := lastPtr_mem r (b, cb) (some a)
      have hta : t ≠ a := fun e => hapost (e ▸ htm)
      obtain ⟨nb, hrb, hokb⟩ := hpost.1
      have hba : b ≠ a := fun e => hapost (e ▸ mem_addrs_head b cb r)
      have hpmem : p ∈ addrs (ini ++ [(p, cp)]) := mem_addrs_right ini (mem_addrs_head p cp [])
      have hbp : b ≠ p := fun e =>
        hdisj hpmem (List.mem_cons_of_mem _ (e ▸ mem_addrs_head b cb r))
      have hbr : b ∉ addrs r ∧ (addrs r).Nodup := by simpa [addrs] using hndpost
      simp only [headPtr] at hnx
      rw [htl] at ht
      have hrb1 : (st.heap.upd p { np with next := some b }).read (some b) = some nb := by
        rw [read_upd_ne _ _ (Ne.symm hbp)]; exact hrb
      have hra' : ((st.heap.upd p { np with next := some b }).upd b
          { nb with prev := some p }).read (some a) = some na := by
        rw [read_upd_ne _ _ hba, read_upd_ne _ _ hpa]; exact hra
      obtain ⟨h', hdel, hnone, hfr⟩ := delete_node_spec hra' hdl (Or.inl htv)
      have hrp' : h'.read (some p) = some { np with next := some b } := by
        rw [hfr p hpa, read_upd_ne _ _ hbp]
        exact read_upd_same _ (read_lt hrp)
      have hrb' : h'.read (some b) = some { nb with prev := some p } := by
        rw [hfr b hba]
        exact read_upd_same _ (by rw [length_upd]; exact read_lt hrb)
      have hframe : ∀ x, x ≠ a → x ≠ p → x ≠ b → h'.read (some x) = st.heap.read (some x) := by
        intro x hxa hxp hxb
        rw [hfr x hxa, read_upd_ne _ _ (Ne.symm hxb), read_upd_ne _ _ (Ne.symm hxp)]
      refine ⟨h', ?_, ?_, hnone, ?_⟩
      · have c2 : ¬ (a = t) := fun hc => hta hc.symm
        have c3 : ¬ (a = f) := fun hc => hfa hc.symm
        simp only [check_node_empty, hra, Option.bind_eq_bind, Option.some_bind, hsz, hh, ht,
          c2, c3, if_true, if_false, hnx, hpv, ne_eq, reduceCtorEq, not_false_eq_true,
          set_next_eq hrp, set_prev_eq hrb1, Option.pure_def, hdel, false_and, and_false,
          Option.some.injEq, not_true_eq_false]
        have e1 : headPtr none (ini ++ [(p, cp)] ++ (b, cb) :: r) = some f := by
          rw [headPtr_append_cons]
          rw [headPtr_ne_nil (some b) (some a) _ (by simp)]; exact hf1
        have e2 : lastPtr none (ini ++ [(p, cp)] ++ (b, cb) :: r) = some t := by
          rw [lastPtr_append_cons, ← htl]; rfl
        rw [e1, e2]
      · rw [Chain.append]
        constructor
        · refine Chain.set_exit hpre ?_ ?_
          · intro np' hrp0
            rw [hrp] at hrp0; cases hrp0
            exact hrp'
          · intro x hx
            have hxa : x ≠ a := fun e => hapre (e ▸ mem_addrs_left _ hx)
            have hxp : x ≠ p := fun e => hpini (e ▸ hx)
            have hxb : x ≠ b := fun e =>
              hdisj (mem_addrs_left _ hx) (List.mem_cons_of_mem _ (e ▸ mem_addrs_head b cb r))
            exact hframe x hxa hxp hxb
        · rw [hlp]
          refine Chain.set_entry hpost ?_ ?_
          · intro nb' hrb0
            rw [hrb] at hrb0; cases hrb0
            exact hrb'
          · intro x hx
            have hxa : x ≠ a := fun e => hapost (e ▸ mem_addrs_tail _ hx)
            have hxb : x ≠ b := fun e => hbr.1 (e ▸ hx)
            have hxp : x ≠ p := fun e =>
              hdisj hpmem (List.mem_cons_of_mem _ (e ▸ mem_addrs_tail _ hx))
            exact hframe x hxa hxp hxb
      · intro x hxa hxp hxb
        exact hframe x hxa (fun e => hxp (e ▸ hpmem)) (fun e => hxb (e ▸ mem_addrs_head b cb r))

theorem dropLast_slot {T : Type} {N : Nat} {n : Node T} {cs : List T} {nx pv : Ptr}
    (hok : NodeOK N n cs nx pv) (h2 : 2 ≤ cs.length) :
    NodeOK N { n with node_size := cs.length - 1, data := n.data.set (cs.length - 1) none }
      cs.dropLast nx pv := by
  have hl : cs.dropLast.length = cs.length - 1 := by simp
  refine ⟨by rw [hl], by simp [hok.2.1], ?_, hok.2.2.2.1, hok.2.2.2.2.1, by omega,
    by have := hok.2.2.2.2.2.2; omega⟩
  rw [take_eq_map_some_iff, hl]
  intro x hx
  rw [List.getElem?_set_ne (by omega), hok.slot (by omega), List.dropLast_eq_take,
    List.getElem?_take_of_lt hx, List.getElem?_eq_getElem (by omega)]

/-- The layout after the statements of `erase` that follow the initialisation
of `pos` (`erase_body`), run at the last occupied slot of a node, when the node
holds at least two elements or is not the tail, and `T` is trivial or the node
keeps an element: the element is removed,
a node left empty is unlinked, and the returned cursor is the first element of
the next node, or `end()` after the tail. -/
theorem erase_last_spec {T : Type} [Element T] {N : Nat} {st : State T} {pre post : Layout T}
    {a : Nat} {cs : List T} (hw : WF N st (pre ++ (a, cs) :: post)) {i : Nat}
    (hi : i + 1 = cs.length) (hcase : 2 ≤ cs.length ∨ post ≠ [])
    (htv : Element.is_trivial T = true ∨ 2 ≤ cs.length) (fuel : Nat) :
    ∃ st', erase_body N fuel st ⟨some a, i⟩ = some (⟨headPtr none post, 0⟩, st') ∧
      st'.size_ + 1 = st.size_ ∧ st'.is_empty_ = st.is_empty_ ∧
      st'.sentinel_ = st.sentinel_ ∧
      WF N st' (if cs.length = 1 then pre ++ post else pre ++ (a, cs.dropLast) :: post) := by
  obtain ⟨hc, hnd, hh, ht, hs⟩ := hw
  have hc' := hc
  rw [Chain.append] at hc'
  obtain ⟨hpre, ⟨n, hr, hok⟩, hpost⟩ := hc'
  have hlt := read_lt hr
  have hu : usub cs.length 1 = cs.length - 1 := usub_of_le (by omega)
  have hil : i = cs.length - 1 := by omega
  have hsum : ∀ (mid : List T), (counts (pre ++ (a, mid) :: post)).sum =
      (counts pre).sum + mid.length + (counts post).sum := by
    intro mid; simp [counts, Nat.add_assoc]
  have hsum2 : (counts (pre ++ post)).sum = (counts pre).sum + (counts post).sum := by
    simp [counts]
  have hs1 : 1 ≤ st.size_ := by rw [hs, hsum]; omega
  have hus : usub st.size_ 1 = st.size_ - 1 := usub_of_le hs1
  have hnd' := hnd
  rw [addrs_append, List.nodup_append] at hnd'
  have hndp : a ∉ addrs post ∧ (addrs post).Nodup := by simpa [addrs] using hnd'.2.1
  have hapre : a ∉ addrs pre := fun hm => hnd'.2.2 hm (mem_addrs_head a cs post)
  rw [lastPtr_append_cons] at ht
  rw [headPtr_append_cons] at hh
  obtain ⟨nA, hnA⟩ : ∃ nA : Node T, nA =
      { n with node_size := cs.length - 1, data := n.data.set (cs.length - 1) none } :=
    ⟨_, rfl⟩
  simp only [erase_body, hr, Option.bind_eq_bind, Option.some_bind, hok.1, hu, hus]
  rw [if_pos hil, destroy_t_eq hr (by rw [hok.2.1, hil]; have := hok.2.2.2.2.2.2; omega)
    (Or.inr ⟨cs[i], hok.slot (by omega)⟩)]
  simp only [Option.some_bind]
  rw [set_node_size_eq (read_upd_same _ hlt)]
  simp only [Option.some_bind, upd_upd, hil, ← hnA]
  have hrA : (st.heap.upd a nA).read (some a) = some nA := read_upd_same _ hlt
  by_cases h1 : cs.length = 1
  · -- the node is left empty and is not the tail
    have hpne : post ≠ [] := by
      rcases hcase with h2 | h2
      · omega
      · exact h2
    obtain ⟨y, r, rfl⟩ := List.exists_cons_of_ne_nil hpne
    obtain ⟨t, htl, htm⟩ := lastPtr_mem r y (some a)
    have hta : t ≠ a := fun e => hndp.1 (e ▸ htm)
    rw [htl] at ht
    have hne : ¬ (some a = st.tail_) := by rw [ht]; intro e; exact hta (Option.some.inj e).symm
    rw [if_neg hne]
    simp only [hrA, Option.some_bind]
    obtain ⟨h', hcne, hc2, _, _⟩ := check_node_empty_unlink
      { st with heap := st.heap.upd a nA, size_ := st.size_ - 1 }
      (hpre.upd_other hapre nA) (hpost.upd_other hndp.1 nA) hrA
      (by rw [hnA]; simp only; omega) (by rw [hnA]; simp [hok.2.1])
      (by rw [hnA]; exact hok.2.2.2.1) (by rw [hnA]; exact hok.2.2.2.2.1)
      (by rw [addrs_append] at hnd; simpa [addrs] using hnd)
      hh (by simp only; rw [ht, htl])
      (by
        rcases htv with h3 | h3
        · exact h3
        · omega)
    rw [hcne]
    simp only [Option.some_bind, Option.pure_def, if_pos h1]
    have hnx : nA.next = headPtr none (y :: r) := by rw [hnA]; exact hok.2.2.2.1
    rw [hnx]
    refine ⟨_, rfl, ?_, rfl, rfl, hc2, ?_, rfl, rfl, ?_⟩
    · show st.size_ - 1 + 1 = st.size_
      omega
    · rw [addrs_append] at hnd ⊢
      rw [List.nodup_append] at hnd ⊢
      refine ⟨hnd.1, hndp.2, fun x hx hx' => hnd.2.2 hx (mem_addrs_tail _ hx')⟩
    · show st.size_ - 1 = _
      rw [hsum2, hs, hsum]; omega
  · -- the node keeps at least one element
    have h2 : 2 ≤ cs.length := by omega
    have hokA : NodeOK N nA cs.dropLast (headPtr none post) (lastPtr none pre) := by
      rw [hnA]; exact dropLast_slot hok h2
    have hcA : Chain N (st.heap.upd a nA) none (pre ++ (a, cs.dropLast) :: post) none :=
      Chain.update_node hc hnd hokA
    have hszA : (counts (pre ++ (a, cs.dropLast) :: post)).sum + 1 = st.size_ := by
      rw [hsum, hs, hsum, List.length_dropLast]; omega
    have hwA : WF N { st with heap := st.heap.upd a nA, size_ := st.size_ - 1 }
        (pre ++ (a, cs.dropLast) :: post) := by
      refine ⟨hcA, by simpa [addrs] using hnd, ?_, ?_, ?_⟩
      · rw [headPtr_append_cons]; exact hh
      · rw [lastPtr_append_cons]; exact ht
      · show st.size_ - 1 = _
        omega
    have hsz2 : 2 ≤ st.size_ := by rw [hs, hsum]; omega
    rw [if_neg h1]
    by_cases htail : some a = st.tail_
    · rw [if_pos htail]
      have hpost_nil : post = [] := by
        cases post with
        | nil => rfl
        | cons y r =>
          obtain ⟨t, htl, htm⟩ := lastPtr_mem r y (some a)
          rw [ht, htl] at htail
          exact absurd ((Option.some.inj htail) ▸ htm) hndp.1
      subst hpost_nil
      have hend := end_of_chain { st with heap := st.heap.upd a nA, size_ := st.size_ - 1 }
        hcA (by rw [lastPtr_append_cons]; exact ht) (by show st.size_ - 1 ≠ 0; omega)
      rw [hend]
      simp only [Option.some_bind, Option.pure_def, headPtr]
      exact ⟨_, rfl, by show st.size_ - 1 + 1 = st.size_; omega, rfl, rfl, hwA⟩
    · rw [if_neg htail]
      have hsz0 : nA.node_size ≠ 0 := by rw [hnA]; simp only; omega
      have hnx : nA.next = headPtr none post := by rw [hnA]; exact hok.2.2.2.1
      simp only [hrA, Option.some_bind, check_node_empty, hsz0, if_false, Option.pure_def,
        Option.bind_eq_bind, hnx]
      exact ⟨_, rfl, by show st.size_ - 1 + 1 = st.size_; omega, rfl, rfl, hwA⟩

/-- The layout after `pop_back()` on a non-empty well-formed container whose
`is_empty_` flag is clear: the last element is removed and a tail node left
empty is unlinked, its predecessor becoming the tail. -/
theorem pop_back_spec {T : Type} [Element T] {N : Nat} {st : State T} {ini : Layout T} {t : Nat}
    {cs : List T} (hw : WF N st (ini ++ [(t, cs)])) (he : st.is_empty_ = false)
    (htv : Element.is_trivial T = true ∨ 2 ≤ cs.length) :
    ∃ st', pop_back N st = some st' ∧ st'.size_ + 1 = st.size_ ∧
      st'.sentinel_ = st.sentinel_ ∧
      WF N st' (if cs.length = 1 then ini else ini ++ [(t, cs.dropLast)]) := by
  obtain ⟨hc, hnd, hh, ht, hs⟩ := hw
  have hc' := hc
  rw [Chain.append] at hc'
  obtain ⟨hpre, ⟨n, hr, hok⟩, _⟩ := hc'
  have hlt := read_lt hr
  have hlen1 : 1 ≤ cs.length := hok.2.2.2.2.2.1
  have hu : usub cs.length 1 = cs.length - 1 := usub_of_le hlen1
  have hsum : ∀ (mid : List T), (counts (ini ++ [(t, mid)])).sum =
      (counts ini).sum + mid.length := by
    intro mid; simp [counts]
  have hs1 : 1 ≤ st.size_ := by rw [hs, hsum]; omega
  have hus : usub st.size_ 1 = st.size_ - 1 := usub_of_le hs1
  have hnd' := hnd
  rw [addrs_append, List.nodup_append] at hnd'
  have hapre : t ∉ addrs ini := fun hm => hnd'.2.2 hm (mem_addrs_head t cs [])
  rw [lastPtr_append_cons] at ht
  simp only [lastPtr] at ht
  rw [headPtr_append_cons] at hh
  obtain ⟨nA, hnA⟩ : ∃ nA : Node T, nA =
      { n with node_size := cs.length - 1, data := n.data.set (cs.length - 1) none } :=
    ⟨_, rfl⟩
  have hrA : (st.heap.upd t nA).read (some t) = some nA := read_upd_same _ hlt
  obtain ⟨e', he'⟩ : ∃ e' : Bool, e' = (if st.size_ - 1 = 0 then true else st.is_empty_) :=
    ⟨_, rfl⟩
  -- the state handed to `check_node_empty`
  have hstep : pop_back N st = check_node_empty N
      { st with heap := st.heap.upd t nA, size_ := st.size_ - 1, is_empty_ := e' }
      (some t) := by
    rw [pop_back, he]
    simp only [Bool.false_eq_true, if_false, hus, Option.bind_eq_bind]
    by_cases hz : st.size_ - 1 = 0
    · simp only [hz, if_true, ht, hr, Option.some_bind, hok.1, hu]
      rw [destroy_t_eq hr (by rw [hok.2.1]; have := hok.2.2.2.2.2.2; omega)
        (Or.inr ⟨cs[cs.length - 1], hok.slot (by omega)⟩)]
      simp only [Option.some_bind]
      rw [set_node_size_eq (read_upd_same _ hlt)]
      simp only [Option.some_bind, upd_upd, ← hnA, he', hz, if_true]
    · simp only [hz, if_false, ht, hr, Option.some_bind, hok.1, hu]
      rw [destroy_t_eq hr (by rw [hok.2.1]; have := hok.2.2.2.2.2.2; omega)
        (Or.inr ⟨cs[cs.length - 1], hok.slot (by omega)⟩)]
      simp only [Option.some_bind]
      rw [set_node_size_eq (read_upd_same _ hlt)]
      simp only [Option.some_bind, upd_upd, ← hnA, he', hz, if_false, he]
  rw [hstep]
  by_cases h1 : cs.length = 1
  · obtain ⟨h', hcne, hc2, _, _⟩ := check_node_empty_unlink
      { st with heap := st.heap.upd t nA, size_ := st.size_ - 1, is_empty_ := e' }
      (hpre.upd_other hapre nA)
      (show Chain N (st.heap.upd t nA) (some t) [] none from trivial) hrA
      (by rw [hnA]; simp only; omega) (by rw [hnA]; simp [hok.2.1])
      (by rw [hnA]; exact hok.2.2.2.1) (by rw [hnA]; exact hok.2.2.2.2.1)
      (by rw [addrs_append] at hnd; simpa [addrs] using hnd)
      hh ht
      (by
        rcases htv with h3 | h3
        · exact h3
        · omega)
    rw [hcne, if_pos h1]
    simp only [List.append_nil] at hc2 ⊢
    refine ⟨_, rfl, by show st.size_ - 1 + 1 = st.size_; omega, rfl, hc2, hnd'.1, rfl, rfl, ?_⟩
    show st.size_ - 1 = _
    rw [hs, hsum]; omega
  · have h2 : 2 ≤ cs.length := by omega
    have hokA : NodeOK N nA cs.dropLast none (lastPtr none ini) := by
      rw [hnA]; exact dropLast_slot hok h2
    have hsz0 : nA.node_size ≠ 0 := by rw [hnA]; simp only; omega
    simp only [check_node_empty, hrA, Option.bind_eq_bind, Option.some_bind, hsz0, if_false,
      Option.pure_def, if_neg h1]
    refine ⟨_, rfl, by show st.size_ - 1 + 1 = st.size_; omega, rfl,
      Chain.update_node hc hnd hokA, by simpa [addrs] using hnd, ?_, ?_, ?_⟩
    · rw [headPtr_append_cons]; exact hh
    · rw [lastPtr_append_cons]; exact ht
    · show st.size_ - 1 = _
      rw [hsum, hs, hsum, List.length_dropLast]; omega

/-! ## What holds around the defects of `erase` and `pop_back` -/

theorem eraseIdx_last {T : Type} (cs : List T) (i : Nat) (hi : i + 1 = cs.length) :
    cs.eraseIdx i = cs.dropLast := by
  apply List.ext_getElem?
  intro x
  rw [List.getElem?_eraseIdx, List.dropLast_eq_take]
  by_cases hx : x < i
  · rw [if_pos hx, List.getElem?_take_of_lt (by omega)]
  · rw [if_neg hx, List.getElem?_eq_none (by omega), List.getElem?_eq_none]
    simp only [List.length_take]; omega

/-- The statements of `erase` that follow the initialisation of `pos`
(`erase_body`; no call reaches them, see `erase`), run at the last occupied slot
of a node, remove that element whenever the node holds at least two elements
or is not the tail, and `T` is trivial or the node keeps an element: `size()` drops by 1, the
container stays well formed (a node left empty is unlinked, so every node of
the chain still holds at least one element), and forward iteration yields the
former sequence without the erased element. -/
theorem erase_last_correct {T : Type} [Element T] {N : Nat} {st : State T} {pre post : Layout T}
    {a : Nat} {cs : List T} {i : Nat} (hw : WF N st (pre ++ (a, cs) :: post))
    (hi : i + 1 = cs.length) (hcase : 2 ≤ cs.length ∨ post ≠ [])
    (htv : Element.is_trivial T = true ∨ 2 ≤ cs.length) (fuel : Nat) :
    ∃ st', erase_body N fuel st ⟨some a, i⟩ = some (⟨headPtr none post, 0⟩, st') ∧
      size st' + 1 = size st ∧
      WF N st' (if cs.length = 1 then pre ++ post else pre ++ (a, cs.dropLast) :: post) ∧
      ∀ k, size st' < k → to_list k st' =
        some ((elems (pre ++ (a, cs) :: post)).eraseIdx ((elems pre).length + i)) := by
  obtain ⟨st', her, hsz, _, _, hw'⟩ := erase_last_spec hw hi hcase htv fuel
  refine ⟨st', her, hsz, hw', fun k hk => ?_⟩
  rw [to_list_of_WF hw' hk, elems_middle, eraseIdx_middle _ _ _ _ (by omega),
    eraseIdx_last cs i hi]
  by_cases h1 : cs.length = 1
  · rw [if_pos h1, elems_append]
    have : cs.dropLast = [] := by
      apply List.eq_nil_of_length_eq_zero
      rw [List.length_dropLast]; omega
    rw [this, List.append_nil]
  · rw [if_neg h1, elems_middle]

theorem erase_last_correct_witness :
    WF 3 example_state ([] ++ (1, [1, 2, 3]) :: [(2, [4, 5])]) ∧ 2 + 1 = [1, 2, 3].length ∧
      (2 ≤ [1, 2, 3].length ∨ [((2 : Nat), [4, 5])] ≠ []) ∧
      (Element.is_trivial Nat = true ∨ 2 ≤ [1, 2, 3].length) ∧
      ∃ st', erase_body 3 0 example_state ⟨some 1, 2⟩ =
          some (⟨headPtr none [((2 : Nat), [4, 5])], 0⟩, st') ∧
        size st' + 1 = size example_state ∧
        WF 3 st' (if [1, 2, 3].length = 1 then [] ++ [(2, [4, 5])]
          else [] ++ (1, [1, 2, 3].dropLast) :: [(2, [4, 5])]) ∧
        ∀ k, size st' < k → to_list k st' =
          some ((elems ([] ++ (1, [1, 2, 3]) :: [(2, [4, 5])])).eraseIdx
            ((elems ([] : Layout Nat)).length + 2)) :=
  ⟨by decide, by decide, by decide, Or.inl rfl,
    erase_last_correct (by decide) (by decide) (by decide) (Or.inl rfl) 0⟩

/-- The early return of the statements of `erase` (`erase_body`) in general: in
every well-formed container whose tail node holds a single element, run at
that element they leave the node in place as `tail_` with `node_size` 0. -/
theorem erase_single_tail_keeps_node {T : Type} [Element T] {N : Nat} {st : State T}
    {pre : Layout T}
    {a : Nat} {x : T} (hw : WF N st (pre ++ [(a, [x])])) (fuel : Nat) :
    ∃ r st', erase_body N fuel st ⟨some a, 0⟩ = some (r, st') ∧ st'.tail_ = some a ∧
      ∃ n, st'.heap.read (some a) = some n ∧ n.node_size = 0 := by
  obtain ⟨hc, hnd, hh, ht, hs⟩ := hw
  obtain ⟨n, hr, hok⟩ := (Chain.append.1 hc).2.1
  have hlt := read_lt hr
  rw [lastPtr_append_cons] at ht
  simp only [lastPtr] at ht
  have hsz : n.node_size = 1 := hok.1
  have hdl : 0 < n.data.length := by rw [hok.2.1]; exact hok.2.2.2.2.2.2
  have hu : usub 1 1 = 0 := by decide
  simp only [erase_body, hr, Option.bind_eq_bind, Option.some_bind, hsz, hu, if_true]
  rw [destroy_t_eq hr hdl (Or.inr ⟨x, hok.slot (show 0 < [x].length by simp)⟩)]
  simp only [Option.some_bind]
  rw [set_node_size_eq (read_upd_same _ hlt)]
  simp only [Option.some_bind, upd_upd, ht, if_true]
  have hrA := read_upd_same (h := st.heap)
    { n with node_size := 0, data := n.data.set 0 none } hlt
  by_cases hz : usub st.size_ 1 = 0
  · simp only [end_, hz, if_true, Option.pure_def, Option.some_bind]
    exact ⟨_, _, rfl, rfl, _, hrA, rfl⟩
  · simp only [end_, hz, if_false, hrA, Option.bind_eq_bind, Option.some_bind, Option.pure_def]
    exact ⟨_, _, rfl, rfl, _, hrA, rfl⟩

theorem erase_single_tail_keeps_node_witness :
    WF 3 example_single_tail ([(1, [1, 2, 3])] ++ [(2, [4])]) ∧
      ∃ r st', erase_body 3 0 example_single_tail ⟨some 2, 0⟩ = some (r, st') ∧
        st'.tail_ = some 2 ∧ ∃ n, st'.heap.read (some 2) = some n ∧ n.node_size = 0 :=
  ⟨by decide,
    @erase_single_tail_keeps_node Nat _ 3 example_single_tail [(1, [1, 2, 3])] 2 4 (by decide)
      0⟩

/-- `pop_back()` is correct on a non-empty well-formed container whenever the
flag `is_empty_` is clear, and `T` is trivial or the tail node holds at least
two elements: `size()` drops by 1, a tail node left empty is unlinked so that
its predecessor becomes the tail, and forward iteration yields the former
sequence without its last element. -/
theorem pop_back_correct {T : Type} [Element T] {N : Nat} {st : State T} {ini : Layout T} {t : Nat}
    {cs : List T} (hw : WF N st (ini ++ [(t, cs)])) (he : empty st = false)
    (htv : Element.is_trivial T = true ∨ 2 ≤ cs.length) :
    ∃ st', pop_back N st = some st' ∧ size st' + 1 = size st ∧
      WF N st' (if cs.length = 1 then ini else ini ++ [(t, cs.dropLast)]) ∧
      ∀ k, size st' < k → to_list k st' = some (elems (ini ++ [(t, cs)])).dropLast := by
  obtain ⟨st', hp, hsz, _, hw'⟩ := pop_back_spec hw he htv
  have hpos : 0 < cs.length := ((Chain.append.1 hw.1).2.1).choose_spec.2.2.2.2.2.2.1
  have hne : cs ≠ [] := List.ne_nil_of_length_pos hpos
  refine ⟨st', hp, hsz, hw', fun k hk => ?_⟩
  rw [to_list_of_WF hw' hk, elems_append]
  have he1 : elems [(t, cs)] = cs := by simp [elems]
  rw [he1, List.dropLast_append_of_ne_nil _ hne]
  by_cases h1 : cs.length = 1
  · rw [if_pos h1]
    have : cs.dropLast = [] := by
      apply List.eq_nil_of_length_eq_zero
      rw [List.length_dropLast]; omega
    rw [this, List.append_nil]
  · rw [if_neg h1, elems_append]
    simp [elems]

theorem pop_back_correct_witness :
    WF 3 example_state ([(1, [1, 2, 3])] ++ [(2, [4, 5])]) ∧ empty example_state = false ∧
      (Element.is_trivial Nat = true ∨ 2 ≤ [4, 5].length) ∧
      ∃ st', pop_back 3 example_state = some st' ∧ size st' + 1 = size example_state ∧
        WF 3 st' (if [4, 5].length = 1 then [(1, [1, 2, 3])]
          else [(1, [1, 2, 3])] ++ [(2, [4, 5].dropLast)]) ∧
        ∀ k, size st' < k → to_list k st' =
          some (elems ([(1, [1, 2, 3])] ++ [(2, [4, 5])])).dropLast :=
  ⟨by decide, by decide, Or.inl rfl,
    @pop_back_correct Nat _ 3 example_state [(1, [1, 2, 3])] 2 [4, 5] (by decide) (by decide)
      (Or.inl rfl)⟩

/-- The defect of `pop_back` in general: while the flag `is_empty_` is set,
`pop_back()` changes nothing, whatever the container holds; and `push_front`
on a well-formed container never changes the flag. -/
theorem pop_back_noop_while_flag_set {T : Type} [Element T] (N : Nat) (st : State T)
    (he : empty st = true) : pop_back N st = some st := by
  simp only [empty] at he
  simp [pop_back, he]

theorem pop_back_noop_while_flag_set_witness :
    empty (default_ctor ([] : Heap Nat)) = true ∧
      pop_back 3 (default_ctor ([] : Heap Nat)) = some (default_ctor ([] : Heap Nat)) :=
  ⟨by decide, pop_back_noop_while_flag_set 3 _ (by decide)⟩

/-! ## Verification: cursors and logical positions -/

theorem cursor_mid {T : Type} (nx : Ptr) (a : Nat) (cs : List T) (post : Layout T) {idx : Nat}
    (hidx : idx < cs.length) :
    ∀ (pre : Layout T),
      cursor nx (pre ++ (a, cs) :: post) ((elems pre).length + idx) = ⟨some a, idx⟩
  | [] => by simp [cursor, elems, hidx]
  | (b, cb) :: r => by
    have ih := cursor_mid nx a cs post hidx r
    simp only [List.cons_append, cursor, elems, List.length_append]
    rw [if_neg (by omega)]
    rw [show cb.length + (elems r).length + idx - cb.length = (elems r).length + idx by omega]
    exact ih

theorem cursor_past {T : Type} (nx : Ptr) :
    ∀ (nodes : Layout T) (i : Nat), (elems nodes).length ≤ i → cursor nx nodes i = ⟨nx, 0⟩
  | [], _, _ => rfl
  | (b, cb) :: r, i, hi => by
    simp only [elems, List.length_append] at hi
    simp only [cursor]
    rw [if_neg (by omega)]
    exact cursor_past nx r _ (by omega)

theorem position_split {T : Type} :
    ∀ (nodes : Layout T) (i : Nat), i < (elems nodes).length →
      ∃ pre a cs post idx, nodes = pre ++ (a, cs) :: post ∧ idx < cs.length ∧
        i = (elems pre).length + idx
  | [], i, hi => by simp [elems] at hi
  | (b, cb) :: r, i, hi => by
    by_cases h : i < cb.length
    · exact ⟨[], b, cb, r, i, rfl, h, by simp [elems]⟩
    · simp only [elems, List.length_append] at hi
      obtain ⟨pre, a, cs, post, idx, hn, hidx, hi'⟩ := position_split r (i - cb.length) (by omega)
      refine ⟨(b, cb) :: pre, a, cs, post, idx, by rw [hn]; rfl, hidx, ?_⟩
      simp only [elems, List.length_append]
      omega

theorem nodeAt_of_chain {T : Type} {N : Nat} {h : Heap T} {pre post : Layout T} {pv nx : Ptr}
    {a : Nat} {cs : List T} (hc : Chain N h pv (pre ++ (a, cs) :: post) nx) :
    NodeAt N h a cs (headPtr nx post) (lastPtr pv pre) :=
  ((Chain.append.1 hc).2).1

theorem cursor_next_start {T : Type} {N : Nat} {h : Heap T} {pre post : Layout T} {pv nx : Ptr}
    {a : Nat} {cs : List T} (hc : Chain N h pv (pre ++ (a, cs) :: post) nx) :
    cursor nx (pre ++ (a, cs) :: post) ((elems pre).length + cs.length) =
      ⟨headPtr nx post, 0⟩ := by
  cases post with
  | nil =>
    apply cursor_past
    rw [elems_append]
    simp [elems]
  | cons y post' =>
    obtain ⟨b, cb⟩ := y
    have e : pre ++ (a, cs) :: (b, cb) :: post' = (pre ++ [(a, cs)]) ++ (b, cb) :: post' := by
      simp
    have hc' := hc
    rw [e] at hc'
    have hpos : 0 < cb.length := (nodeAt_of_chain hc').choose_spec.2.2.2.2.2.2.1
    have := cursor_mid nx b cb post' hpos (pre ++ [(a, cs)])
    rw [e]
    rw [elems_append] at this
    simp only [elems, List.append_nil, List.length_append, Nat.add_zero] at this
    exact this

theorem elems_length_middle {T : Type} (pre post : Layout T) (a : Nat) (cs : List T) :
    (elems (pre ++ (a, cs) :: post)).length =
      (elems pre).length + cs.length + (elems post).length := by
  rw [elems_middle]
  simp only [List.length_append]

theorem elems_getElem_middle {T : Type} (pre post : Layout T) (a : Nat) (cs : List T)
    {idx : Nat} (hidx : idx < cs.length) :
    (elems (pre ++ (a, cs) :: post))[(elems pre).length + idx]? = some (cs[idx]) := by
  rw [elems_middle, List.append_assoc, List.getElem?_append_right (by omega)]
  rw [show (elems pre).length + idx - (elems pre).length = idx by omega]
  rw [List.getElem?_append_left hidx, List.getElem?_eq_getElem hidx]

theorem deref_cursor {T : Type} {N : Nat} {h : Heap T} {nodes : Layout T} {pv nx : Ptr}
    (hc : Chain N h pv nodes nx) {i : Nat} (hi : i < (elems nodes).length) :
    deref h (cursor nx nodes i) = (elems nodes)[i]? := by
  obtain ⟨pre, a, cs, post, idx, hn, hidx, hi'⟩ := position_split nodes i hi
  subst hn
  subst hi'
  rw [cursor_mid nx a cs post hidx, deref_of_nodeAt (nodeAt_of_chain hc) hidx,
    elems_getElem_middle pre post a cs hidx]

theorem incr_cursor {T : Type} {N : Nat} {h : Heap T} {nodes : Layout T} {pv nx : Ptr}
    (hc : Chain N h pv nodes nx) {i : Nat} (hi : i < (elems nodes).length) :
    incr h (cursor nx nodes i) = some (cursor nx nodes (i + 1)) := by
  obtain ⟨pre, a, cs, post, idx, hn, hidx, hi'⟩ := position_split nodes i hi
  subst hn
  subst hi'
  rw [cursor_mid nx a cs post hidx, incr_of_nodeAt (nodeAt_of_chain hc)]
  by_cases h1 : idx + 1 < cs.length
  · rw [if_pos h1, Nat.add_assoc, cursor_mid nx a cs post h1]
  · rw [if_neg h1, Nat.add_assoc, show idx + 1 = cs.length by omega, cursor_next_start hc]

theorem cursor_zero {T : Type} {N : Nat} {h : Heap T} {nodes : Layout T} {pv nx : Ptr}
    (hc : Chain N h pv nodes nx) : cursor nx nodes 0 = ⟨headPtr nx nodes, 0⟩ := by
  cases nodes with
  | nil => rfl
  | cons y r =>
    obtain ⟨b, cb⟩ := y
    have hpos : 0 < cb.length := hc.1.choose_spec.2.2.2.2.2.2.1
    simp [cursor, headPtr, hpos]

theorem advance_cursor {T : Type} {N : Nat} {h : Heap T} {nodes : Layout T} {pv nx : Ptr}
    (hc : Chain N h pv nodes nx) :
    ∀ (k i : Nat), i + k ≤ (elems nodes).length →
      advance h k (cursor nx nodes i) = some (cursor nx nodes (i + k))
  | 0, i, _ => rfl
  | k + 1, i, hi => by
    rw [advance, incr_cursor hc (by omega)]
    simp only [Option.bind_eq_bind, Option.some_bind]
    rw [advance_cursor hc k (i + 1) (by omega)]
    rw [show i + 1 + k = i + (k + 1) by omega]

theorem begin_of_WF {T : Type} {N : Nat} {st : State T} {nodes : Layout T}
    (hw : WF N st nodes) (hne : nodes ≠ []) : begin st = cursor none nodes 0 := by
  obtain ⟨hc, _, hh, _, hs⟩ := hw
  rw [cursor_zero hc, ← hh]
  cases nodes with
  | nil => exact absurd rfl hne
  | cons y r =>
    obtain ⟨b, cb⟩ := y
    have hpos : 0 < cb.length := hc.1.choose_spec.2.2.2.2.2.2.1
    have : st.size_ ≠ 0 := by
      rw [hs]
      simp only [counts, List.map_cons, List.sum_cons]
      omega
    simp [begin, this]

theorem plus_cursor {T : Type} {N : Nat} {h : Heap T} {nodes : Layout T} {pv nx : Ptr}
    (hc : Chain N h pv nodes nx) :
    ∀ (fuel i k : Nat), i + k ≤ (elems nodes).length → (elems nodes).length - i < fuel →
      plus h fuel (cursor nx nodes i) k = some (cursor nx nodes (i + k))
  | 0, _, _, _, hf => by omega
  | fuel + 1, i, k, hik, hf => by
    by_cases hk : k = 0
    · subst hk
      simp [plus]
    · have hi : i < (elems nodes).length := by omega
      obtain ⟨pre, a, cs, post, idx, hn, hidx, hi'⟩ := position_split nodes i hi
      subst hn
      subst hi'
      obtain ⟨n, hr, hok⟩ := nodeAt_of_chain hc
      have hrem : usub n.node_size idx = cs.length - idx := by
        rw [hok.1, usub_of_le (by omega)]
      rw [cursor_mid nx a cs post hidx]
      simp only [plus, gt_iff_lt, Nat.pos_of_ne_zero hk, if_true, hr, Option.bind_eq_bind,
        Option.some_bind, hrem, Option.pure_def]
      by_cases hlt : k < cs.length - idx
      · rw [if_pos hlt, Nat.add_assoc, cursor_mid nx a cs post (by omega)]
      · rw [if_neg hlt, hok.2.2.2.1, usub_of_le (by omega), ← cursor_next_start hc]
        have := plus_cursor hc fuel ((elems pre).length + cs.length) (k - (cs.length - idx))
          (by omega) (by omega)
        rw [this]
        congr 2
        omega

theorem minus_cursor {T : Type} {N : Nat} {h : Heap T} {nodes : Layout T} {pv nx : Ptr}
    (hc : Chain N h pv nodes nx) :
    ∀ (fuel i k : Nat), i < (elems nodes).length → k ≤ i → i < fuel →
      minus h fuel (cursor nx nodes i) k = some (cursor nx nodes (i - k))
  | 0, _, _, _, _, hf => by omega
  | fuel + 1, i, k, hi, hki, hf => by
    by_cases hk : k = 0
    · subst hk
      simp [minus]
    · obtain ⟨pre, a, cs, post, idx, hn, hidx, hi'⟩ := position_split nodes i hi
      subst hn
      subst hi'
      obtain ⟨n, hr, hok⟩ := nodeAt_of_chain hc
      rw [cursor_mid nx a cs post hidx]
      simp only [minus, gt_iff_lt, Nat.pos_of_ne_zero hk, if_true, ge_iff_le]
      by_cases hge : k ≤ idx
      · rw [if_pos hge]
        simp only [Option.pure_def]
        rw [show (elems pre).length + idx - k = (elems pre).length + (idx - k) by omega,
          cursor_mid nx a cs post (by omega)]
      · rw [if_neg hge]
        rcases List.eq_nil_or_concat pre with hp | ⟨ini, y, hp⟩
        · subst hp
          simp only [elems, List.length_nil] at hki
          omega
        · obtain ⟨p, cp⟩ := y
          have hp' : pre = ini ++ [(p, cp)] := by simpa using hp
          subst hp'
          have hc2 : Chain N h pv (ini ++ (p, cp) :: (a, cs) :: post) nx := by
            simpa using hc
          obtain ⟨np, hrp, hokp⟩ := nodeAt_of_chain hc2
          have hprev : n.prev = some p := by
            rw [hok.2.2.2.2.1, lastPtr_append_cons]; rfl
          have hcp : 0 < cp.length := hokp.2.2.2.2.2.1
          have hle : (elems (ini ++ [(p, cp)])).length = (elems ini).length + cp.length := by
            rw [elems_append]; simp [elems]
          rw [hle] at hki hf ⊢
          simp only [hr, Option.bind_eq_bind, Option.some_bind, hprev, hrp, hokp.1,
            usub_of_le hcp, usub_of_le (show idx + 1 ≤ k by omega)]
          rw [if_neg (by simp)]
          have e : ini ++ [(p, cp)] ++ (a, cs) :: post = ini ++ (p, cp) :: (a, cs) :: post := by
            simp
          have hi2 : (elems ini).length + (cp.length - 1) <
              (elems (ini ++ (p, cp) :: (a, cs) :: post)).length := by
            rw [elems_length_middle]; omega
          have := minus_cursor hc2 fuel ((elems ini).length + (cp.length - 1)) (k - (idx + 1))
            hi2 (by omega) (by omega)
          rw [cursor_mid nx p cp ((a, cs) :: post) (by omega)] at this
          rw [e, this]
          congr 2
          omega

theorem packed_middle {T : Type} {N : Nat} :
    ∀ (ini : Layout T) (p : Nat) (cp : List T) (y : Nat × List T) (post : Layout T),
      packed N (ini ++ (p, cp) :: y :: post) → cp.length = N
  | [], _, _, _, _, hp => hp.1
  | [_], p, cp, y, post, hp => packed_middle [] p cp y post hp.2
  | _ :: z :: r, p, cp, y, post, hp => packed_middle (z :: r) p cp y post hp.2

theorem decr_cursor {T : Type} {N : Nat} (hN : 1 ≤ N) {h : Heap T} {nodes : Layout T}
    {pv nx : Ptr} (hc : Chain N h pv nodes nx) (hp : packed N nodes) {i : Nat}
    (hi : i + 1 < (elems nodes).length) :
    decr N h (cursor nx nodes (i + 1)) = some (cursor nx nodes i) := by
  obtain ⟨pre, a, cs, post, idx, hn, hidx, hi'⟩ := position_split nodes (i + 1) hi
  subst hn
  rw [hi', cursor_mid nx a cs post hidx]
  by_cases h0 : 0 < idx
  · simp only [decr, gt_iff_lt, h0, if_true, Option.pure_def]
    rw [show i = (elems pre).length + (idx - 1) by omega, cursor_mid nx a cs post (by omega)]
  · have hz : idx = 0 := by omega
    subst hz
    obtain ⟨n, hr, hok⟩ := nodeAt_of_chain hc
    rcases List.eq_nil_or_concat pre with hpre | ⟨ini, y, hpre⟩
    · subst hpre
      simp only [elems, List.length_nil] at hi'
      omega
    · obtain ⟨p, cp⟩ := y
      have hp' : pre = ini ++ [(p, cp)] := by simpa using hpre
      subst hp'
      have e : ini ++ [(p, cp)] ++ (a, cs) :: post = ini ++ (p, cp) :: (a, cs) :: post := by
        simp
      rw [e] at hp hc ⊢
      have hfull : cp.length = N := packed_middle ini p cp (a, cs) post hp
      have hprev : n.prev = some p := by
        rw [hok.2.2.2.2.1, lastPtr_append_cons]; rfl
      have hle : (elems (ini ++ [(p, cp)])).length = (elems ini).length + cp.length := by
        rw [elems_append]; simp [elems]
      rw [hle] at hi'
      simp only [decr, gt_iff_lt, Nat.lt_irrefl, if_false, hr, Option.bind_eq_bind,
        Option.some_bind, Option.pure_def, hprev, usub_of_le hN]
      rw [show i = (elems ini).length + (N - 1) by omega,
        cursor_mid nx p cp ((a, cs) :: post) (by omega)]

theorem retreat_walk_cursor {T : Type} {N : Nat} (hN : 1 ≤ N) {h : Heap T} {nodes : Layout T}
    {pv nx : Ptr} (hc : Chain N h pv nodes nx) (hp : packed N nodes) :
    ∀ (k i : Nat), i < (elems nodes).length → k ≤ i →
      retreat_walk N h k (cursor nx nodes i) =
        some ((((elems nodes).take (i + 1)).drop (i - k)).reverse, cursor nx nodes (i - k))
  | 0, i, hi, _ => by
    rw [retreat_walk, deref_cursor hc hi, List.getElem?_eq_getElem hi]
    simp only [Option.bind_eq_bind, Option.some_bind, Option.pure_def, Nat.sub_zero,
      Option.some.injEq, Prod.mk.injEq, and_true]
    rw [List.take_succ, List.getElem?_eq_getElem hi, List.drop_append_of_le_length
      (by rw [List.length_take]; omega), List.drop_eq_nil_of_le (by rw [List.length_take]; omega)]
    simp
  | k + 1, i, hi, hk => by
    obtain ⟨j, rfl⟩ : ∃ j, i = j + 1 := ⟨i - 1, by omega⟩
    rw [retreat_walk, deref_cursor hc hi, List.getElem?_eq_getElem hi]
    simp only [Option.bind_eq_bind, Option.some_bind]
    rw [decr_cursor hN hc hp hi]
    simp only [Option.some_bind]
    rw [retreat_walk_cursor hN hc hp k j (by omega) (by omega)]
    simp only [Option.some_bind, Option.pure_def, Option.some.injEq, Prod.mk.injEq]
    refine ⟨?_, by congr 1; omega⟩
    have e : List.take (j + 1 + 1) (elems nodes) =
        List.take (j + 1) (elems nodes) ++ [(elems nodes)[j + 1]] := by
      rw [List.take_succ, List.getElem?_eq_getElem hi]
      rfl
    rw [e, List.drop_append_of_le_length (by rw [List.length_take]; omega)]
    simp only [List.reverse_append, List.reverse_cons, List.reverse_nil,
      List.nil_append, List.singleton_append]
    congr 3
    omega

theorem equal_chain {T : Type} [DecidableEq T] {N : Nat} {ha hb : Heap T} {la lb : Layout T}
    {pva pvb : Ptr} (hca : Chain N ha pva la none) (hcb : Chain N hb pvb lb none)
    (hlen : (elems la).length = (elems lb).length) :
    ∀ (fuel i : Nat), i ≤ (elems la).length → (elems la).length - i < fuel →
      equal ha hb ⟨none, 0⟩ fuel (cursor none la i) (cursor none lb i) =
        some (decide ((elems la).drop i = (elems lb).drop i))
  | 0, _, _, hf => by omega
  | fuel + 1, i, hi, hf => by
    by_cases hin : i = (elems la).length
    · subst hin
      rw [cursor_past none la _ (Nat.le_refl _)]
      simp only [equal, ne_eq, not_true_eq_false, if_false, Option.pure_def]
      rw [List.drop_eq_nil_of_le (Nat.le_refl _), List.drop_eq_nil_of_le (by omega)]
      simp
    · have hia : i < (elems la).length := by omega
      have hib : i < (elems lb).length := by omega
      have hne : cursor none la i ≠ ⟨none, 0⟩ := by
        obtain ⟨pre, a, cs, post, idx, hn, hidx, hi'⟩ := position_split la i hia
        subst hn
        subst hi'
        rw [cursor_mid none a cs post hidx]
        simp
      have hda : (elems la).drop i = (elems la)[i] :: (elems la).drop (i + 1) :=
        List.drop_eq_getElem_cons hia
      have hdb : (elems lb).drop i = (elems lb)[i] :: (elems lb).drop (i + 1) :=
        List.drop_eq_getElem_cons hib
      rw [equal, if_pos hne, deref_cursor hca hia, deref_cursor hcb hib,
        List.getElem?_eq_getElem hia, List.getElem?_eq_getElem hib]
      simp only [Option.bind_eq_bind, Option.some_bind]
      by_cases hxy : (elems la)[i] = (elems lb)[i]
      · have key : (elems la).drop i = (elems lb).drop i ↔
            (elems la).drop (i + 1) = (elems lb).drop (i + 1) := by
          rw [hda, hdb, hxy]
          exact ⟨fun e => (List.cons_eq_cons.1 e).2, fun e => by rw [e]⟩
        rw [if_neg (by simpa using hxy), incr_cursor hca hia, incr_cursor hcb hib]
        simp only [Option.some_bind]
        rw [equal_chain hca hcb hlen fuel (i + 1) (by omega) (by omega)]
        simp only [key]
      · have key : ¬ (elems la).drop i = (elems lb).drop i := by
          rw [hda, hdb]
          intro e
          injection e with e1 _
          exact hxy e1
        rw [if_pos (by simpa using hxy)]
        simp [key]

theorem operator_eq_spec {T : Type} [DecidableEq T] {N : Nat} {a b : State T}
    {la lb : Layout T} (ha : WF N a la) (hb : WF N b lb) {fuel : Nat} (hf : a.size_ < fuel) :
    operator_eq fuel a b = some (decide (elems la = elems lb)) := by
  have hsa : a.size_ = (elems la).length := by rw [ha.2.2.2.2, counts_sum]
  have hsb : b.size_ = (elems lb).length := by rw [hb.2.2.2.2, counts_sum]
  by_cases hsz : a.size_ = b.size_
  · rw [operator_eq, if_neg (by simpa using hsz)]
    by_cases hla : la = []
    · subst hla
      have hz : a.size_ = 0 := by rw [hsa]; rfl
      have hlb : elems lb = [] := by
        apply List.eq_nil_of_length_eq_zero
        rw [← hsb, ← hsz, hz]
      obtain ⟨j, rfl⟩ : ∃ j, fuel = j + 1 := ⟨fuel - 1, by omega⟩
      simp [end_, hz, begin, equal, elems, hlb]
    · have hlbne : lb ≠ [] := by
        intro e
        subst e
        have : (elems la).length = 0 := by rw [← hsa, hsz, hsb]; rfl
        cases la with
        | nil => exact hla rfl
        | cons y r =>
          obtain ⟨c, cc⟩ := y
          have hpos : 0 < cc.length := ha.1.1.choose_spec.2.2.2.2.2.2.1
          simp only [elems, List.length_append] at this
          omega
      rw [end_of_WF ha hla, begin_of_WF ha hla, begin_of_WF hb hlbne]
      simp only [Option.bind_eq_bind, Option.some_bind]
      rw [equal_chain ha.1 hb.1 (by rw [← hsa, ← hsb, hsz]) fuel 0 (by omega) (by omega)]
      simp
  · rw [operator_eq, if_pos (by simpa using hsz)]
    have : elems la ≠ elems lb := by
      intro e
      apply hsz
      rw [hsa, hsb, e]
    simp [this]

/-! ## Verification: repeated push_back -/

theorem push_back_layout_addrs {T : Type} (N L : Nat) (v : T) :
    ∀ (nodes : Layout T),
      addrs (push_back_layout N L v nodes) = addrs nodes ∨
        addrs (push_back_layout N L v nodes) = addrs nodes ++ [L]
  | [] => Or.inr rfl
  | [(t, cs)] => by
    by_cases h : cs.length < N
    · left; simp [push_back_layout, h, addrs]
    · right; simp [push_back_layout, h, addrs]
  | x :: y :: r => by
    rcases push_back_layout_addrs N L v (y :: r) with h | h
    · left
      simp only [push_back_layout, addrs, List.map_cons] at h ⊢
      rw [h]
    · right
      simp only [push_back_layout, addrs, List.map_cons] at h ⊢
      rw [h]
      rfl

theorem length_eq_addrs {T : Type} (nodes : Layout T) : nodes.length = (addrs nodes).length := by
  simp [addrs]

theorem packed_push_back_layout {T : Type} (N L : Nat) (v : T) :
    ∀ (nodes : Layout T), packed N nodes → (∀ k, k ∈ counts nodes → k ≤ N) →
      packed N (push_back_layout N L v nodes)
  | [], _, _ => trivial
  | [(t, cs)], _, hle => by
    by_cases h : cs.length < N
    · simp [push_back_layout, h, packed]
    · have : cs.length ≤ N := hle _ (by simp [counts])
      simp only [push_back_layout, h, if_false, packed, and_true]
      omega
  | x :: y :: r, hp, hle => by
    have ih := packed_push_back_layout N L v (y :: r) hp.2
      (fun k hk => hle k (by simp only [counts, List.map_cons, List.mem_cons] at hk ⊢
                             exact Or.inr hk))
    have hx := hp.1
    obtain ⟨a, c⟩ := x
    simp only [push_back_layout]
    cases hq : push_back_layout N L v (y :: r) with
    | nil =>
      have := elems_push_back_layout N L v (y :: r)
      rw [hq] at this
      simp [elems] at this
    | cons z q =>
      rw [hq] at ih
      exact ⟨hx, ih⟩

theorem packed_of_counts {T : Type} (N : Nat) :
    ∀ (q : Nat) (nodes : Layout T) (t : List Nat), t.length ≤ 1 →
      counts nodes = List.replicate q N ++ t → packed N nodes
  | 0, nodes, t, ht, hc => by
    have hl : nodes.length ≤ 1 := by
      have : (counts nodes).length = nodes.length := by simp [counts]
      rw [← this, hc]
      simpa using ht
    match nodes, hl with
    | [], _ => trivial
    | [_], _ => trivial
  | q + 1, nodes, t, ht, hc => by
    match nodes, hc with
    | [], hc => trivial
    | (a, c) :: r, hc =>
      simp only [counts, List.map_cons, List.replicate_succ, List.cons_append,
        List.cons.injEq] at hc
      have ih := packed_of_counts N q r t ht hc.2
      match r, ih with
      | [], _ => trivial
      | y :: r', ih => exact ⟨hc.1, ih⟩

theorem packed_counts {T : Type} {N : Nat} (hN : 1 ≤ N) :
    ∀ (nodes : Layout T), packed N nodes → (∀ k, k ∈ counts nodes → 1 ≤ k ∧ k ≤ N) →
      counts nodes = List.replicate ((elems nodes).length / N) N ++
        (if (elems nodes).length % N = 0 then [] else [(elems nodes).length % N])
  | [], _, _ => by simp [counts, elems]
  | [(a, c)], _, hk => by
    have h1 := hk c.length (by simp [counts])
    simp only [counts, List.map_cons, List.map_nil, elems, List.append_nil]
    by_cases hc : c.length = N
    · rw [hc, Nat.div_self (by omega), Nat.mod_self]
      simp
    · have hlt : c.length < N := by omega
      rw [Nat.div_eq_of_lt hlt, Nat.mod_eq_of_lt hlt, if_neg (by omega)]
      simp
  | (a, c) :: y :: r, hp, hk => by
    have ih := packed_counts hN (y :: r) hp.2
      (fun k hk' => hk k (by simp only [counts, List.map_cons, List.mem_cons] at hk' ⊢
                             exact Or.inr hk'))
    have hc : c.length = N := hp.1
    have hl : (elems ((a, c) :: y :: r)).length = N + (elems (y :: r)).length := by
      simp only [elems, List.length_append] at *
      omega
    have hcs : counts ((a, c) :: y :: r) = N :: counts (y :: r) := by
      simp [counts, hc]
    rw [hcs, ih, hl, Nat.add_div_left _ (by omega), Nat.add_mod_left, List.replicate_succ]
    rfl

theorem has_buffer_of_nodeAt {T : Type} {N : Nat} (hN : 1 ≤ N) {h : Heap T} {a : Nat}
    {cs : List T} {nx pv : Ptr} (hn : NodeAt N h a cs nx pv) : has_buffer h a = true := by
  obtain ⟨n, hr, hok⟩ := hn
  have : n.data ≠ [] := by
    intro e
    have := hok.2.1
    rw [e] at this
    simp at this
    omega
  simp only [has_buffer, hr]
  cases hd : n.data with
  | nil => exact absurd hd this
  | cons _ _ => rfl

theorem nodeAt_of_mem {T : Type} {N : Nat} {h : Heap T} :
    ∀ {nodes : Layout T} {pv nx : Ptr}, Chain N h pv nodes nx → ∀ x, x ∈ addrs nodes →
      ∃ cs nx' pv', NodeAt N h x cs nx' pv'
  | [], _, _, _, x, hx => by simp [addrs] at hx
  | (a, c) :: r, pv, nx, hc, x, hx => by
    simp only [addrs, List.map_cons, List.mem_cons] at hx
    rcases hx with e | hx
    · subst e
      exact ⟨_, _, _, hc.1⟩
    · exact nodeAt_of_mem hc.2 x hx

theorem buffer_count_eq {T : Type} {h h' : Heap T} (hl : h'.length = h.length)
    (hb : ∀ b, b < h.length → has_buffer h' b = has_buffer h b) :
    buffer_count h' = buffer_count h := by
  simp only [buffer_count, hl]
  congr 1
  apply List.filter_congr
  intro x hx
  exact hb x (List.mem_range.1 hx)

theorem buffer_count_succ {T : Type} {h h' : Heap T} (hl : h'.length = h.length + 1)
    (hb : ∀ b, b < h.length → has_buffer h' b = has_buffer h b)
    (hnew : has_buffer h' h.length = true) :
    buffer_count h' = buffer_count h + 1 := by
  simp only [buffer_count, hl, List.range_succ, List.filter_append, List.length_append]
  have e : (List.range h.length).filter (has_buffer h') =
      (List.range h.length).filter (has_buffer h) := by
    apply List.filter_congr
    intro x hx
    exact hb x (List.mem_range.1 hx)
  rw [e]
  simp [hnew]

theorem has_buffer_congr {T : Type} {h h' : Heap T} {b : Nat}
    (hr : h'.read (some b) = h.read (some b)) : has_buffer h' b = has_buffer h b := by
  simp only [has_buffer, hr]

/-- One `push_back` on a well-formed container: what it does to the store. -/
theorem push_back_grow {T : Type} {N : Nat} (hN : 1 ≤ N) {st : State T} {nodes : Layout T}
    (hw : WF N st nodes) (hp : packed N nodes) (v : T) :
    ∃ st' nodes', push_back N st v = some st' ∧ WF N st' nodes' ∧
      elems nodes' = elems nodes ++ [v] ∧ packed N nodes' ∧
      st'.sentinel_ = st.sentinel_ ∧ st'.size_ = st.size_ + 1 ∧
      nodes.length ≤ nodes'.length ∧
      st'.heap.length = st.heap.length + (nodes'.length - nodes.length) ∧
      buffer_count st'.heap = buffer_count st.heap + (nodes'.length - nodes.length) ∧
      (∀ b, b ∉ addrs nodes → b < st.heap.length →
        st'.heap.read (some b) = st.heap.read (some b)) ∧
      (∀ x, x ∈ addrs nodes' → x ∈ addrs nodes ∨ st.heap.length ≤ x) ∧
      (∀ x, x ∈ addrs nodes → x ∈ addrs nodes') := by
  obtain ⟨st', hpb, hsz, hsen, _, hw', hlen, hframe, _⟩ := push_back_spec hN hw v
  have hle : ∀ k, k ∈ counts nodes → k ≤ N := fun k hk => (counts_pos hw.1 k hk).2
  have hbuf : ∀ b, b < st.heap.length → has_buffer st'.heap b = has_buffer st.heap b := by
    intro b hb
    by_cases hmem : b ∈ addrs nodes
    · obtain ⟨cs, nx, pv, hn⟩ := nodeAt_of_mem hw.1 b hmem
      have hmem' : b ∈ addrs (push_back_layout N st.heap.length v nodes) := by
        rcases push_back_layout_addrs N st.heap.length v nodes with e | e
        · rw [e]; exact hmem
        · rw [e]; exact List.mem_append_left _ hmem
      obtain ⟨cs', nx', pv', hn'⟩ := nodeAt_of_mem hw'.1 b hmem'
      rw [has_buffer_of_nodeAt hN hn, has_buffer_of_nodeAt hN hn']
    · exact has_buffer_congr (hframe b hmem hb)
  refine ⟨st', push_back_layout N st.heap.length v nodes, hpb, hw',
    elems_push_back_layout N _ v nodes, packed_push_back_layout N _ v nodes hp hle, hsen, hsz,
    ?_, hlen, ?_, hframe, ?_, ?_⟩
  · rw [length_eq_addrs, length_eq_addrs (push_back_layout N st.heap.length v nodes)]
    rcases push_back_layout_addrs N st.heap.length v nodes with e | e <;> simp [e]
  · rcases push_back_layout_addrs N st.heap.length v nodes with e | e
    · have hl : (push_back_layout N st.heap.length v nodes).length = nodes.length := by
        rw [length_eq_addrs, e, ← length_eq_addrs]
      rw [hl, Nat.sub_self, Nat.add_zero] at hlen ⊢
      exact buffer_count_eq hlen hbuf
    · have hl : (push_back_layout N st.heap.length v nodes).length = nodes.length + 1 := by
        rw [length_eq_addrs, e, List.length_append, ← length_eq_addrs]
        rfl
      rw [hl, Nat.add_sub_cancel_left] at hlen ⊢
      have hmem' : st.heap.length ∈ addrs (push_back_layout N st.heap.length v nodes) := by
        rw [e]; simp
      obtain ⟨cs', nx', pv', hn'⟩ := nodeAt_of_mem hw'.1 _ hmem'
      exact buffer_count_succ hlen hbuf (has_buffer_of_nodeAt hN hn')
  · intro x hx
    rcases push_back_layout_addrs N st.heap.length v nodes with e | e
    · rw [e] at hx; exact Or.inl hx
    · rw [e] at hx
      rcases List.mem_append.1 hx with h1 | h1
      · exact Or.inl h1
      · right
        have : x = st.heap.length := by simpa using h1
        omega
  · intro x hx
    rcases push_back_layout_addrs N st.heap.length v nodes with e | e
    · rw [e]; exact hx
    · rw [e]; exact List.mem_append_left _ hx

theorem push_back_all_grow {T : Type} {N : Nat} (hN : 1 ≤ N) :
    ∀ (xs : List T) {st : State T} {nodes : Layout T}, WF N st nodes → packed N nodes →
      ∃ st' nodes', push_back_all N st xs = some st' ∧ WF N st' nodes' ∧
        elems nodes' = elems nodes ++ xs ∧ packed N nodes' ∧
        st'.sentinel_ = st.sentinel_ ∧ st'.size_ = st.size_ + xs.length ∧
        nodes.length ≤ nodes'.length ∧
        st'.heap.length = st.heap.length + (nodes'.length - nodes.length) ∧
        buffer_count st'.heap = buffer_count st.heap + (nodes'.length - nodes.length) ∧
        (∀ b, b ∉ addrs nodes → b < st.heap.length →
          st'.heap.read (some b) = st.heap.read (some b)) ∧
        (∀ x, x ∈ addrs nodes' → x ∈ addrs nodes ∨ st.heap.length ≤ x) ∧
        (∀ x, x ∈ addrs nodes → x ∈ addrs nodes')
  | [], st, nodes, hw, hp =>
    ⟨st, nodes, rfl, hw, by simp, hp, rfl, by simp, Nat.le_refl _, by simp, by simp,
      fun _ _ _ => rfl, fun _ hx => Or.inl hx, fun _ hx => hx⟩
  | x :: xs, st, nodes, hw, hp => by
    obtain ⟨st1, nodes1, h1, hw1, he1, hp1, hsen1, hsz1, hle1, hlen1, hbc1, hfr1, hnew1, hold1⟩ :=
      push_back_grow hN hw hp x
    obtain ⟨st', nodes', h2, hw2, he2, hp2, hsen2, hsz2, hle2, hlen2, hbc2, hfr2, hnew2, hold2⟩ :=
      push_back_all_grow hN xs hw1 hp1
    refine ⟨st', nodes', ?_, hw2, ?_, hp2, by rw [hsen2, hsen1], ?_, by omega, by omega,
      by omega, ?_, ?_, fun y hy => hold2 y (hold1 y hy)⟩
    · simp [push_back_all, h1, h2]
    · rw [he2, he1]; simp
    · rw [hsz2, hsz1, List.length_cons]; omega
    · intro b hb hbl
      have hb1 : b ∉ addrs nodes1 := by
        intro hm
        rcases hnew1 b hm with h | h
        · exact hb h
        · omega
      rw [hfr2 b hb1 (by omega), hfr1 b hb hbl]
    · intro y hy
      rcases hnew2 y hy with h | h
      · exact hnew1 y h
      · right; omega

theorem range_ctor_spec {T : Type} {N : Nat} (hN : 1 ≤ N) (h : Heap T) (xs : List T)
    {fuel : Nat} (hf : xs.length < fuel) :
    ∃ st nodes, range_ctor N fuel h xs = some st ∧ WF N st nodes ∧ elems nodes = xs ∧
      packed N nodes ∧ st.sentinel_ = h.length ∧
      st.heap.read (some h.length) = some ⟨0, [], none, none⟩ ∧
      (∀ b nb, h.read (some b) = some nb → st.heap.read (some b) = some nb) ∧
      (∀ x, x ∈ addrs nodes → h.length < x) ∧ st.is_empty_ = xs.isEmpty := by
  cases xs with
  | nil =>
    refine ⟨_, [], rfl, ?_, rfl, trivial, rfl, read_alloc_new _ _, ?_, ?_, rfl⟩
    · simp [WF_nil_iff]
    · intro b nb hb
      show (h.alloc _).2.read (some b) = some nb
      rw [read_alloc_old _ _ (Nat.ne_of_lt (read_lt hb))]
      exact hb
    · intro x hx
      simp [addrs] at hx
  | cons x rest =>
    obtain ⟨h', news, hloop, hc, hnd, hel, hcnt, hfr, hfresh⟩ :=
      range_ctor_loop_spec hN fuel (h.alloc (⟨0, [], none, none⟩ : Node T)).2 (x :: rest) []
        none none 0 trivial (by simp [addrs]) hf (fun hd => absurd rfl hd)
        (fun hd => by cases hd)
    simp only [lastPtr, List.isEmpty_nil, List.nil_append, Nat.zero_add] at hloop hc hnd
    obtain ⟨st, hstdef⟩ : ∃ st : State T, st =
        ⟨h', h.length, lastPtr none news, headPtr none news, (x :: rest).length, false⟩ :=
      ⟨_, rfl⟩
    have hst : range_ctor N fuel h (x :: rest) = some st := by
      rw [hstdef]
      simp only [range_ctor, List.isEmpty_cons, Bool.false_eq_true, if_false, hloop,
        Option.bind_eq_bind, Option.some_bind, Option.pure_def]
      rfl
    have hw : WF N st news := by
      rw [hstdef]
      refine ⟨hc, hnd, rfl, rfl, ?_⟩
      rw [counts_sum, hel]
    refine ⟨st, news, hst, hw, hel, ?_, by rw [hstdef], ?_, ?_, ?_, by rw [hstdef]; rfl⟩
    · refine packed_of_counts N _ news _ ?_ hcnt
      split <;> simp
    · rw [hstdef]
      exact hfr _ _ (read_alloc_new _ _) (by simp [addrs])
    · intro b nb hb
      rw [hstdef]
      refine hfr b nb ?_ (by simp [addrs])
      rw [read_alloc_old _ _ (Nat.ne_of_lt (read_lt hb))]
      exact hb
    · intro y hy
      have := hfresh y hy
      simp only [Heap.alloc, List.length_append, List.length_singleton] at this
      omega

theorem size_of_WF {T : Type} {N : Nat} {st : State T} {nodes : Layout T}
    (hw : WF N st nodes) : size st = (elems nodes).length := by
  rw [size, hw.2.2.2.2, counts_sum]

theorem nil_of_elems_nil {T : Type} {N : Nat} {h : Heap T} {nodes : Layout T} {pv nx : Ptr}
    (hc : Chain N h pv nodes nx) (he : elems nodes = []) : nodes = [] := by
  cases nodes with
  | nil => rfl
  | cons y r =>
    obtain ⟨b, cb⟩ := y
    have hpos : 0 < cb.length := hc.1.choose_spec.2.2.2.2.2.2.1
    have := congrArg List.length he
    simp only [elems, List.length_append, List.length_nil] at this
    omega

theorem ne_nil_of_size_pos {T : Type} {N : Nat} {st : State T} {nodes : Layout T}
    (hw : WF N st nodes) (hs : 0 < size st) : nodes ≠ [] := by
  intro e
  subst e
  rw [size_of_WF hw] at hs
  simp [elems] at hs

theorem advance_begin {T : Type} {N : Nat} {st : State T} {nodes : Layout T}
    (hw : WF N st nodes) {i : Nat} (hi : i ≤ (elems nodes).length) (hne : nodes ≠ []) :
    advance st.heap i (begin st) = some (cursor none nodes i) := by
  rw [begin_of_WF hw hne, advance_cursor hw.1 i 0 (by omega), Nat.zero_add]

/-! ## Claims on cursors and comparison -/

/-- C14: for well-formed containers `a` and `b`, `a == b` returns a result, and
the result is `true` exactly when `a.size() == b.size()` and the `i`-th
elements that forward iteration over `a` and over `b` yields are equal for
every `i`, that is, exactly when both iterations yield the same sequence: the
node boundaries play no part. -/
theorem operator_eq_correct {T : Type} [DecidableEq T] {N : Nat} {a b : State T}
    {la lb : Layout T} (ha : WF N a la) (hb : WF N b lb) (fuel : Nat)
    (hfa : size a < fuel) (hfb : size b < fuel) :
    ∃ r xs ys, operator_eq fuel a b = some r ∧ to_list fuel a = some xs ∧
      to_list fuel b = some ys ∧
      (r = true ↔ size a = size b ∧ ∀ i, i < size a → xs[i]? = ys[i]?) ∧
      (r = true ↔ xs = ys) := by
  refine ⟨decide (elems la = elems lb), elems la, elems lb, operator_eq_spec ha hb hfa,
    to_list_of_WF ha hfa, to_list_of_WF hb hfb, ?_, by simp⟩
  rw [size_of_WF ha, size_of_WF hb]
  simp only [decide_eq_true_eq]
  constructor
  · intro e
    rw [e]
    exact ⟨rfl, fun _ _ => rfl⟩
  · rintro ⟨hl, hi⟩
    apply List.ext_getElem? 
    intro i
    by_cases h : i < (elems la).length
    · exact hi i h
    · rw [List.getElem?_eq_none (by omega), List.getElem?_eq_none (by omega)]

theorem operator_eq_correct_witness :
    WF 3 example_state [(1, [1, 2, 3]), (2, [4, 5])] ∧
      WF 3 example_resplit [(1, [1, 2]), (2, [3, 4, 5])] ∧ size example_state < 6 ∧
      size example_resplit < 6 ∧
      ∃ r xs ys, operator_eq 6 example_state example_resplit = some r ∧
        to_list 6 example_state = some xs ∧ to_list 6 example_resplit = some ys ∧
        (r = true ↔ size example_state = size example_resplit ∧
          ∀ i, i < size example_state → xs[i]? = ys[i]?) ∧
        (r = true ↔ xs = ys) :=
  ⟨by decide, by decide, by decide, by decide,
    @operator_eq_correct Nat _ 3 example_state example_resplit [(1, [1, 2, 3]), (2, [4, 5])]
      [(1, [1, 2]), (2, [3, 4, 5])] (by decide) (by decide) 6 (by decide) (by decide)⟩

/-- C17: in a well-formed container with elements `e0 .. e(n-1)`, whatever the
node layout, let `it` be the cursor at logical position `i < n` (`begin()`
incremented `i` times).  For every `k` with `i + k <= n`, `it + k` is the
cursor at logical position `i + k` (`begin()` incremented `i + k` times); it
dereferences to `e(i+k)` when `i + k < n` and equals `end()` when `i + k == n`. -/
theorem plus_advances {T : Type} {N : Nat} {st : State T} {nodes : Layout T}
    (hw : WF N st nodes) (i k fuel : Nat) (hi : i < size st) (hik : i + k ≤ size st)
    (hf : size st < fuel) :
    ∃ it es, advance st.heap i (begin st) = some it ∧ to_list fuel st = some es ∧
      it = cursor none nodes i ∧
      plus st.heap fuel it k = advance st.heap (i + k) (begin st) ∧
      plus st.heap fuel it k = some (cursor none nodes (i + k)) ∧
      (i + k < size st → (plus st.heap fuel it k).bind (deref st.heap) = es[i + k]? ∧
        (es[i + k]?).isSome) ∧
      (i + k = size st → plus st.heap fuel it k = end_ st) := by
  have hne : nodes ≠ [] := ne_nil_of_size_pos hw (by omega)
  have hsz := size_of_WF hw
  rw [hsz] at hi hik hf
  have hp := plus_cursor hw.1 fuel i k hik (by omega)
  refine ⟨cursor none nodes i, elems nodes, advance_begin hw (by omega) hne,
    to_list_of_WF hw (by rw [← size, hsz]; exact hf), rfl, ?_, hp, ?_, ?_⟩
  · rw [hp, advance_begin hw hik hne]
  · intro hlt
    rw [hsz] at hlt
    rw [hp]
    simp only [Option.some_bind]
    rw [deref_cursor hw.1 hlt, List.getElem?_eq_getElem hlt]
    exact ⟨rfl, rfl⟩
  · intro he
    rw [hsz] at he
    rw [hp, end_of_WF hw hne, he, cursor_past none nodes _ (Nat.le_refl _)]

theorem plus_advances_witness :
    WF 3 example_resplit [(1, [1, 2]), (2, [3, 4, 5])] ∧ 1 < size example_resplit ∧
      1 + 3 ≤ size example_resplit ∧ size example_resplit < 6 ∧
      ∃ it es, advance example_resplit.heap 1 (begin example_resplit) = some it ∧
        to_list 6 example_resplit = some es ∧
        it = cursor none [(1, [1, 2]), (2, [3, 4, 5])] 1 ∧
        plus example_resplit.heap 6 it 3 =
          advance example_resplit.heap (1 + 3) (begin example_resplit) ∧
        plus example_resplit.heap 6 it 3 =
          some (cursor none [(1, [1, 2]), (2, [3, 4, 5])] (1 + 3)) ∧
        (1 + 3 < size example_resplit →
          (plus example_resplit.heap 6 it 3).bind (deref example_resplit.heap) = es[1 + 3]? ∧
          (es[1 + 3]?).isSome) ∧
        (1 + 3 = size example_resplit → plus example_resplit.heap 6 it 3 = end_ example_resplit) :=
  ⟨by decide, by decide, by decide, by decide,
    @plus_advances Nat 3 example_resplit [(1, [1, 2]), (2, [3, 4, 5])] (by decide) 1 3 6
      (by decide) (by decide) (by decide)⟩

/-- C18: in a well-formed container, whatever the node layout (partially filled
interior nodes included), let `it` be the cursor at logical position `i`
(`begin()` incremented `i` times).  If `it + k` is still dereferenceable
(`i + k < n`) then `(it + k) - k == it`; and for every `j <= i`, `it - j` is
the cursor at logical position `i - j`. -/
theorem minus_undoes_plus {T : Type} {N : Nat} {st : State T} {nodes : Layout T}
    (hw : WF N st nodes) (i k j fuel : Nat) (hik : i + k < size st) (hj : j ≤ i)
    (hf : size st < fuel) :
    ∃ it, advance st.heap i (begin st) = some it ∧ it = cursor none nodes i ∧
      (∃ it2, plus st.heap fuel it k = some it2 ∧ minus st.heap fuel it2 k = some it) ∧
      minus st.heap fuel it j = advance st.heap (i - j) (begin st) ∧
      minus st.heap fuel it j = some (cursor none nodes (i - j)) := by
  have hne : nodes ≠ [] := ne_nil_of_size_pos hw (by omega)
  have hsz := size_of_WF hw
  rw [hsz] at hik hf
  have hp := plus_cursor hw.1 fuel i k (by omega) (by omega)
  have hm := minus_cursor hw.1 fuel (i + k) k hik (by omega) (by omega)
  have hm2 := minus_cursor hw.1 fuel i j (by omega) hj (by omega)
  refine ⟨cursor none nodes i, advance_begin hw (by omega) hne, rfl,
    ⟨_, hp, by rw [hm, Nat.add_sub_cancel]⟩, ?_, hm2⟩
  rw [hm2, advance_begin hw (by omega) hne]

theorem minus_undoes_plus_witness :
    WF 3 example_resplit [(1, [1, 2]), (2, [3, 4, 5])] ∧ 1 + 3 < size example_resplit ∧
      1 ≤ 1 ∧ size example_resplit < 6 ∧
      ∃ it, advance example_resplit.heap 1 (begin example_resplit) = some it ∧
        it = cursor none [(1, [1, 2]), (2, [3, 4, 5])] 1 ∧
        (∃ it2, plus example_resplit.heap 6 it 3 = some it2 ∧
          minus example_resplit.heap 6 it2 3 = some it) ∧
        minus example_resplit.heap 6 it 1 =
          advance example_resplit.heap (1 - 1) (begin example_resplit) ∧
        minus example_resplit.heap 6 it 1 =
          some (cursor none [(1, [1, 2]), (2, [3, 4, 5])] (1 - 1)) :=
  ⟨by decide, by decide, by decide, by decide,
    @minus_undoes_plus Nat 3 example_resplit [(1, [1, 2]), (2, [3, 4, 5])] (by decide) 1 3 1 6
      (by decide) (by decide) (by decide)⟩

theorem retreat_of_packed {T : Type} {N : Nat} (hN : 1 ≤ N) {st : State T} {nodes : Layout T}
    (hw : WF N st nodes) (hp : packed N nodes) (hne : elems nodes ≠ []) {fuel : Nat}
    (hf : (elems nodes).length < fuel) :
    ∃ it, plus st.heap fuel (begin st) ((elems nodes).length - 1) = some it ∧
      deref st.heap it = (elems nodes).getLast? ∧
      retreat_walk N st.heap ((elems nodes).length - 1) it =
        some ((elems nodes).reverse, begin st) := by
  have hpos : 0 < (elems nodes).length := List.length_pos.2 hne
  have hnn : nodes ≠ [] := by
    intro e
    subst e
    exact hne rfl
  have hb := begin_of_WF hw hnn
  have hpl := plus_cursor hw.1 fuel 0 ((elems nodes).length - 1) (by omega) (by omega)
  rw [Nat.zero_add] at hpl
  refine ⟨_, by rw [hb]; exact hpl, ?_, ?_⟩
  · rw [deref_cursor hw.1 (by omega), List.getLast?_eq_getElem?]
  · rw [retreat_walk_cursor hN hw.1 hp _ _ (by omega) (Nat.le_refl _), Nat.sub_self, hb,
      List.drop_zero, show (elems nodes).length - 1 + 1 = (elems nodes).length by omega,
      List.take_length]

theorem node_counts_chain {T : Type} {N : Nat} {h : Heap T} :
    ∀ (fuel : Nat) {nodes : Layout T} {pv : Ptr}, Chain N h pv nodes none →
      nodes.length < fuel → node_counts h fuel (headPtr none nodes) = some (counts nodes)
  | 0, _, _, _, hf => by omega
  | fuel + 1, [], _, _, _ => rfl
  | fuel + 1, (a, c) :: r, _, hc, hf => by
    obtain ⟨⟨n, hr, hok⟩, hrest⟩ := hc
    simp only [List.length_cons] at hf
    have ih := node_counts_chain fuel hrest (by omega)
    rw [show headPtr none ((a, c) :: r) = some a from rfl, node_counts]
    simp only [hr, Option.bind_eq_bind, Option.some_bind, hok.2.2.2.1, ih,
      Option.pure_def, hok.1]
    simp [counts]

theorem counts_ceil_form (n N : Nat) (hN : 1 ≤ N) (hn : 1 ≤ n) :
    List.replicate (n / N) N ++ (if n % N = 0 then [] else [n % N]) =
      List.replicate ((n + N - 1) / N - 1) N ++ [n - N * ((n + N - 1) / N - 1)] := by
  have hdm := Nat.div_add_mod n N
  rw [ceil_div_eq n N hN]
  by_cases h0 : n % N = 0
  · rw [if_pos h0, if_pos h0, Nat.add_zero, List.append_nil]
    have hq : 1 ≤ n / N := by
      rcases Nat.eq_zero_or_pos (n / N) with hz | hz
      · rw [hz, h0] at hdm
        simp at hdm
        omega
      · exact hz
    have e : N * (n / N - 1) = N * (n / N) - N := by
      rw [Nat.mul_sub, Nat.mul_one]
    have hge : N ≤ N * (n / N) := Nat.le_mul_of_pos_right N hq
    rw [e, show n - (N * (n / N) - N) = N by omega]
    obtain ⟨q, hq'⟩ : ∃ q, n / N = q + 1 := ⟨n / N - 1, by omega⟩
    rw [hq', Nat.add_sub_cancel, List.replicate_succ']
  · rw [if_neg h0, if_neg h0, Nat.add_sub_cancel, show n - N * (n / N) = n % N by omega]

/-! ## Claims on backward traversal, the empty container and allocation -/

/-- C15: for every NodeMaxSize `N` of at least 1 and every `e1 .. en` with
`n >= 1`, in the container built from it by range (or initializer-list)
construction, and in the one built by successive `push_back` onto an empty
container, `begin() + (n - 1)` is the cursor to the last element, and starting
there, dereferencing and retreating by one (`operator--`) `n - 1` times
dereferences `en, ..., e1` in that order and ends at a cursor equal to
`begin()`. -/
theorem retreat_from_last {T : Type} (N : Nat) (hN : 1 ≤ N) (h : Heap T) (xs : List T)
    (hne : xs ≠ []) (fuel : Nat) (hf : xs.length < fuel) :
    (∃ st it, range_ctor N fuel h xs = some st ∧ initializer_list_ctor N fuel h xs = some st ∧
      plus st.heap fuel (begin st) (xs.length - 1) = some it ∧
      deref st.heap it = xs.getLast? ∧
      retreat_walk N st.heap (xs.length - 1) it = some (xs.reverse, begin st)) ∧
    (∃ st it, push_back_all N (default_ctor h) xs = some st ∧
      plus st.heap fuel (begin st) (xs.length - 1) = some it ∧
      deref st.heap it = xs.getLast? ∧
      retreat_walk N st.heap (xs.length - 1) it = some (xs.reverse, begin st)) := by
  constructor
  · obtain ⟨st, nodes, hr, hw, hel, hp, _⟩ := range_ctor_spec hN h xs hf
    obtain ⟨it, h1, h2, h3⟩ := retreat_of_packed hN hw hp (by rw [hel]; exact hne)
      (show (elems nodes).length < fuel by rw [hel]; exact hf)
    rw [hel] at h1 h2 h3
    exact ⟨st, it, hr, hr, h1, h2, h3⟩
  · obtain ⟨st, nodes, hr, hw, hel, hp, _⟩ :=
      push_back_all_grow hN xs (WF_default_ctor N h) trivial
    simp only [elems, List.nil_append] at hel
    obtain ⟨it, h1, h2, h3⟩ := retreat_of_packed hN hw hp (by rw [hel]; exact hne)
      (show (elems nodes).length < fuel by rw [hel]; exact hf)
    rw [hel] at h1 h2 h3
    exact ⟨st, it, hr, h1, h2, h3⟩

theorem retreat_from_last_witness :
    1 ≤ 3 ∧ [10, 20, 30, 40, 50] ≠ [] ∧ [10, 20, 30, 40, 50].length < 6 ∧
    ((∃ st it, range_ctor 3 6 ([] : Heap Nat) [10, 20, 30, 40, 50] = some st ∧
      initializer_list_ctor 3 6 ([] : Heap Nat) [10, 20, 30, 40, 50] = some st ∧
      plus st.heap 6 (begin st) ([10, 20, 30, 40, 50].length - 1) = some it ∧
      deref st.heap it = [10, 20, 30, 40, 50].getLast? ∧
      retreat_walk 3 st.heap ([10, 20, 30, 40, 50].length - 1) it =
        some ([10, 20, 30, 40, 50].reverse, begin st)) ∧
    (∃ st it, push_back_all 3 (default_ctor ([] : Heap Nat)) [10, 20, 30, 40, 50] = some st ∧
      plus st.heap 6 (begin st) ([10, 20, 30, 40, 50].length - 1) = some it ∧
      deref st.heap it = [10, 20, 30, 40, 50].getLast? ∧
      retreat_walk 3 st.heap ([10, 20, 30, 40, 50].length - 1) it =
        some ([10, 20, 30, 40, 50].reverse, begin st))) :=
  ⟨by decide, by decide, by decide,
    retreat_from_last 3 (by decide) [] [10, 20, 30, 40, 50] (by decide) 6 (by decide)⟩

/-- C19: for every container obtained from a default-constructed one by
`push_back` of `xs` (zero or more calls), `begin() == end()` holds exactly when
the container holds no elements; and when it holds exactly one element,
`++begin()` equals `end()`. -/
theorem begin_eq_end_iff_empty {T : Type} (N : Nat) (hN : 1 ≤ N) (h : Heap T) (xs : List T) :
    ∃ st e, push_back_all N (default_ctor h) xs = some st ∧ end_ st = some e ∧
      size st = xs.length ∧ (begin st = e ↔ size st = 0) ∧
      (size st = 1 → incr st.heap (begin st) = some e) := by
  obtain ⟨st, nodes, hr, hw, hel, hs⟩ := push_back_all_spec hN xs (WF_default_ctor N h)
  simp only [elems, List.nil_append] at hel
  have hsz : size st = xs.length := by rw [size_of_WF hw, hel]
  by_cases hx : xs = []
  · subst hx
    have hz : st.size_ = 0 := by simpa [size] using hsz
    refine ⟨st, ⟨some st.sentinel_, 0⟩, hr, by simp [end_, hz], hsz, ?_, ?_⟩
    · simp [begin, hz, size]
    · intro h1
      rw [hsz] at h1
      simp at h1
  · have hnn : nodes ≠ [] := by
      intro e
      subst e
      exact hx hel.symm
    have hpos : 0 < (elems nodes).length := by
      rw [hel]; exact List.length_pos.2 hx
    refine ⟨st, ⟨none, 0⟩, hr, end_of_WF hw hnn, hsz, ?_, ?_⟩
    · rw [begin_of_WF hw hnn]
      obtain ⟨pre, a, cs, post, idx, hn, hidx, hi'⟩ := position_split nodes 0 hpos
      have hidx0 : idx = 0 := by omega
      have hpre : (elems pre).length = 0 := by omega
      subst hn
      subst hidx0
      have := cursor_mid none a cs post hidx pre
      rw [hpre] at this
      rw [this, hsz]
      constructor
      · intro e
        simp at e
      · intro e
        exact absurd (List.length_eq_zero.1 e) hx
    · intro h1
      rw [size_of_WF hw] at h1
      rw [begin_of_WF hw hnn, incr_cursor hw.1 hpos, cursor_past none nodes _ (by omega)]

theorem begin_eq_end_iff_empty_witness :
    1 ≤ 3 ∧ ∃ st e, push_back_all 3 (default_ctor ([] : Heap Nat)) [7] = some st ∧
      end_ st = some e ∧ size st = [7].length ∧ (begin st = e ↔ size st = 0) ∧
      (size st = 1 → incr st.heap (begin st) = some e) :=
  ⟨by decide, begin_eq_end_iff_empty 3 (by decide) [] [7]⟩

/-- C20: for every NodeMaxSize `N` of at least 1 and every `n >= 1`, `push_back`
of `n` elements onto an empty container allocates exactly `ceil(n / N)` node
records (the store grows by that many records) and `ceil(n / N)` element
buffers, and leaves a well-formed chain of `ceil(n / N)` nodes, in which every
node but the last holds `N` elements and the last holds
`n - N * (ceil(n / N) - 1)`; walking the chain from `head_` reads these counts. -/
theorem push_back_allocations {T : Type} (N : Nat) (hN : 1 ≤ N) (h : Heap T) (xs : List T)
    (hn : 1 ≤ xs.length) (fuel : Nat) (hf : xs.length < fuel) :
    ∃ st nodes, push_back_all N (default_ctor h) xs = some st ∧ WF N st nodes ∧
      st.heap.length = (default_ctor h).heap.length + (xs.length + N - 1) / N ∧
      buffer_count st.heap = buffer_count (default_ctor h).heap + (xs.length + N - 1) / N ∧
      nodes.length = (xs.length + N - 1) / N ∧
      counts nodes = List.replicate ((xs.length + N - 1) / N - 1) N ++
        [xs.length - N * ((xs.length + N - 1) / N - 1)] ∧
      node_counts st.heap fuel st.head_ = some (counts nodes) := by
  obtain ⟨st, nodes, hr, hw, hel, hp, _, _, _, hlen, hbc, _⟩ :=
    push_back_all_grow hN xs (WF_default_ctor N h) trivial
  simp only [elems, List.nil_append, List.length_nil, Nat.sub_zero] at hel hlen hbc
  have hcnt := packed_counts hN nodes hp (counts_pos hw.1)
  rw [hel] at hcnt
  have hnl : nodes.length = (xs.length + N - 1) / N := by
    have h1 : nodes.length = (counts nodes).length := by simp [counts]
    rw [h1, hcnt, ceil_div_eq _ _ hN]
    split <;> simp
  have hnf : nodes.length < fuel := by
    have h1 : nodes.length = (counts nodes).length := by simp [counts]
    have h2 : (counts nodes).length ≤ (counts nodes).sum := by
      have hp1 := counts_pos hw.1
      generalize counts nodes = l at hp1
      induction l with
      | nil => simp
      | cons a r ih =>
        have ha := (hp1 a (by simp)).1
        have := ih (fun k hk => hp1 k (by simp [hk]))
        simp only [List.length_cons, List.sum_cons]
        omega
    rw [counts_sum, hel] at h2
    omega
  refine ⟨st, nodes, hr, hw, by rw [hlen, hnl], by rw [hbc, hnl], hnl, ?_, ?_⟩
  · rw [hcnt, counts_ceil_form _ _ hN hn]
  · rw [hw.2.2.1]
    exact node_counts_chain fuel hw.1 hnf

theorem push_back_allocations_witness :
    1 ≤ 5 ∧ 1 ≤ (List.range 11).length ∧ (List.range 11).length < 12 ∧
      ∃ st nodes, push_back_all 5 (default_ctor ([] : Heap Nat)) (List.range 11) = some st ∧
        WF 5 st nodes ∧
        st.heap.length = (default_ctor ([] : Heap Nat)).heap.length +
          ((List.range 11).length + 5 - 1) / 5 ∧
        buffer_count st.heap = buffer_count (default_ctor ([] : Heap Nat)).heap +
          ((List.range 11).length + 5 - 1) / 5 ∧
        nodes.length = ((List.range 11).length + 5 - 1) / 5 ∧
        counts nodes = List.replicate (((List.range 11).length + 5 - 1) / 5 - 1) 5 ++
          [(List.range 11).length - 5 * (((List.range 11).length + 5 - 1) / 5 - 1)] ∧
        node_counts st.heap 12 st.head_ = some (counts nodes) :=
  ⟨by decide, by decide, by decide,
    push_back_allocations 5 (by decide) [] (List.range 11) (by decide) 12 (by decide)⟩

/-! ## Verification: pop_front -/

theorem pop_front_shift_eq {T : Type} [Element T] (p : Ptr) :
    ∀ (fuel : Nat) (h : Heap T) (it : ul_iterator),
      pop_front_shift p fuel h it = erase_shift p fuel h it
  | 0, _, _ => rfl
  | fuel + 1, h, it => by
    simp only [pop_front_shift, erase_shift]
    congr 1
    funext hd
    split
    · congr 1
      funext after
      congr 1
      funext v
      congr 1
      funext h1
      congr 1
      funext it1
      exact pop_front_shift_eq p fuel h1 it1
    · rfl

theorem pop_front_spec {T : Type} [Element T] {N : Nat} {st : State T} {a : Nat} {cs : List T}
    {post : Layout T} (hw : WF N st ((a, cs) :: post)) {fuel : Nat} (hf : cs.length ≤ fuel)
    (htv : Element.is_trivial T = true ∨ 2 ≤ cs.length) :
    ∃ st', pop_front N fuel st = some st' ∧ st'.size_ + 1 = st.size_ ∧
      st'.sentinel_ = st.sentinel_ ∧
      st'.is_empty_ = (if st.size_ = 1 then true else st.is_empty_) ∧
      WF N st' (if cs.length = 1 then post else (a, cs.tail) :: post) ∧
      (cs.length = 1 → st'.heap.read (some a) = none) ∧
      ∀ b, b ≠ a → b ∉ addrs post → st'.heap.read (some b) = st.heap.read (some b) := by
  obtain ⟨hc, hnd, hh, ht, hs⟩ := hw
  obtain ⟨⟨n, hr, hok⟩, hpost⟩ := hc
  have hc : Chain N st.heap none ([] ++ (a, cs) :: post) none := ⟨⟨n, hr, hok⟩, hpost⟩
  have hlt := read_lt hr
  have hpos : 0 < cs.length := hok.2.2.2.2.2.1
  have hu : usub cs.length 1 = cs.length - 1 := usub_of_le (by omega)
  have hsum : ∀ (mid : List T), (counts ((a, mid) :: post)).sum =
      mid.length + (counts post).sum := by
    intro mid; simp [counts]
  have hs1 : 1 ≤ st.size_ := by rw [hs, hsum]; omega
  have hus : usub st.size_ 1 = st.size_ - 1 := usub_of_le hs1
  have hndp : a ∉ addrs post ∧ (addrs post).Nodup := by simpa [addrs] using hnd
  simp only [headPtr] at hh
  have hfpos : 0 < fuel := by omega
  obtain ⟨f, rfl⟩ : ∃ f, fuel = f + 1 := ⟨fuel - 1, by omega⟩
  rw [pop_front, if_neg (by omega)]
  simp only [hus, hh, Option.bind_eq_bind, pop_front_shift_eq]
  by_cases h1 : cs.length = 1
  · -- the head node holds one element: no shift, the node is pruned
    have hidx : ∀ (s : State T), (begin s).current_index = 0 := by
      intro s
      simp only [begin]
      split <;> rfl
    have hloop : ∀ (s : State T), erase_shift (some a) (f + 1) st.heap (begin s) =
        some st.heap := by
      intro s
      simp only [erase_shift, hr, Option.bind_eq_bind, Option.some_bind, hok.1, h1, hidx s]
      simp [usub]
    obtain ⟨nA, hnA⟩ : ∃ nA : Node T, nA =
        { n with node_size := 0, data := n.data.set 0 none } := ⟨_, rfl⟩
    have hrA : (st.heap.upd a nA).read (some a) = some nA := read_upd_same _ hlt
    have hstep : ∀ (sz : Nat) (em : Bool),
        ((erase_shift (some a) (f + 1) st.heap
            (begin ⟨st.heap, st.sentinel_, st.tail_, some a, sz, em⟩)).bind fun h1 =>
          (h1.read (some a)).bind fun hd =>
            (destroy_t h1 (some a) (usub hd.node_size 1)).bind fun h2 =>
              (set_node_size h2 (some a) (usub hd.node_size 1)).bind fun h3 =>
                check_node_empty N ⟨h3, st.sentinel_, st.tail_, some a, sz, em⟩ (some a)) =
        check_node_empty N ⟨st.heap.upd a nA, st.sentinel_, st.tail_, some a, sz, em⟩
          (some a) := by
      intro sz em
      rw [hloop]
      simp only [Option.some_bind, hr, hok.1, h1, show usub 1 1 = 0 by decide]
      rw [destroy_t_eq hr (by rw [hok.2.1]; have := hok.2.2.2.2.2.2; omega)
        (Or.inr ⟨cs[0], hok.slot hpos⟩)]
      simp only [Option.some_bind]
      rw [set_node_size_eq (read_upd_same _ hlt)]
      simp only [Option.some_bind, upd_upd, ← hnA]
    have hunlink : ∀ (sz : Nat) (em : Bool),
        ∃ h', check_node_empty N ⟨st.heap.upd a nA, st.sentinel_, st.tail_, some a, sz, em⟩
            (some a) =
            some ⟨h', st.sentinel_, lastPtr none post, headPtr none post, sz, em⟩ ∧
          Chain N h' none post none ∧ h'.read (some a) = none ∧
          ∀ b, b ≠ a → b ∉ addrs post → h'.read (some b) = st.heap.read (some b) := by
      intro sz em
      obtain ⟨h', hcne, hc2, hfree, hfr⟩ := @check_node_empty_unlink T _ N
        ⟨st.heap.upd a nA, st.sentinel_, st.tail_, some a, sz, em⟩ [] post a nA
        trivial (hpost.upd_other hndp.1 nA) hrA
        (by rw [hnA]) (by rw [hnA]; simp [hok.2.1])
        (by rw [hnA]; exact hok.2.2.2.1) (by rw [hnA]; exact hok.2.2.2.2.1)
        (by simpa [addrs] using hnd) rfl (by show st.tail_ = _; rw [ht]; rfl)
        (by
          rcases htv with h3 | h3
          · exact h3
          · omega)
      refine ⟨h', by simpa using hcne, by simpa using hc2, hfree, fun b hba hbp => ?_⟩
      rw [hfr b hba (by simp [addrs]) hbp]
      exact read_upd_ne _ _ (Ne.symm hba)
    rw [if_pos h1]
    by_cases hz : st.size_ - 1 = 0
    · simp only [hz, if_true]
      rw [hstep 0 true]
      obtain ⟨h', hcne, hc2, hfree, hfr⟩ := hunlink 0 true
      refine ⟨_, hcne, by show 0 + 1 = st.size_; omega, rfl, ?_, ⟨hc2, hndp.2, rfl, rfl, ?_⟩,
        fun _ => hfree, hfr⟩
      · rw [if_pos (by omega)]
      · show 0 = _
        rw [hs, hsum] at hz
        omega
    · simp only [hz, if_false]
      rw [hstep (st.size_ - 1) st.is_empty_]
      obtain ⟨h', hcne, hc2, hfree, hfr⟩ := hunlink (st.size_ - 1) st.is_empty_
      refine ⟨_, hcne, by show st.size_ - 1 + 1 = st.size_; omega, rfl, ?_,
        ⟨hc2, hndp.2, rfl, rfl, ?_⟩, fun _ => hfree, hfr⟩
      · rw [if_neg (by omega)]
      · show st.size_ - 1 = _
        rw [hs, hsum]
        omega
  · -- the head node keeps at least one element
    have h2 : 2 ≤ cs.length := by omega
    have hsz2 : 2 ≤ st.size_ := by rw [hs, hsum]; omega
    have hz : ¬ (st.size_ - 1 = 0) := by omega
    have hel : cs.tail.length = cs.length - 1 := by simp
    obtain ⟨d, hd, hdl, hpt⟩ := erase_shift_spec a cs.length (f + 1) 0 st.heap n hr hok.1
      (by omega) (by rw [hok.2.1]; exact hok.2.2.2.2.2.2) (by omega)
      (fun y _ hy => ⟨cs[y], hok.slot hy⟩)
    simp only [hz, if_false, begin, hh, hd, Option.some_bind, read_upd_same _ hlt, hok.1, hu]
    rw [destroy_t_eq (read_upd_same _ hlt)
      (by simp only [hdl, hok.2.1]; have := hok.2.2.2.2.2.2; omega)
      (Or.inr ⟨cs[cs.length - 1], by
        simp only
        rw [hpt (cs.length - 1), if_neg (by omega)]
        exact hok.slot (by omega)⟩)]
    simp only [Option.some_bind, upd_upd]
    rw [set_node_size_eq (read_upd_same _ hlt)]
    simp only [Option.some_bind, upd_upd]
    have hne0 : cs.length - 1 ≠ 0 := by omega
    simp only [check_node_empty, read_upd_same _ hlt, Option.bind_eq_bind, Option.some_bind,
      hne0, if_false, Option.pure_def, if_neg h1]
    have hslotD : ∀ y, y < cs.length - 1 →
        (d.set (cs.length - 1) none)[y]? = some (cs.tail[y]?) := by
      intro y hy
      rw [List.getElem?_set_ne (by omega), hpt y, if_pos (by omega), hok.slot (by omega),
        List.getElem?_tail, List.getElem?_eq_getElem (by omega)]
    refine ⟨_, rfl, by show st.size_ - 1 + 1 = st.size_; omega, rfl, ?_,
      ⟨?_, ?_, rfl, ?_, ?_⟩, fun e => absurd e h1,
      fun b hb _ => read_upd_ne _ _ (Ne.symm hb)⟩
    · rw [if_neg (by omega)]
    · have := Chain.update_node hc (by simpa using hnd)
        (show NodeOK N (⟨cs.length - 1, d.set (cs.length - 1) none, n.next, n.prev⟩ : Node T)
            cs.tail (headPtr none post) (lastPtr none []) from
          ⟨by rw [hel], by simp [hdl, hok.2.1], by
            rw [take_eq_map_some_iff, hel]; exact hslotD, hok.2.2.2.1, hok.2.2.2.2.1,
            by omega, by have := hok.2.2.2.2.2.2; omega⟩)
      simpa using this
    · simpa [addrs] using hnd
    · exact ht
    · show st.size_ - 1 = _
      rw [hsum, hel, hs, hsum]
      omega

/-- What `pop_front()` does when `T` is trivial or the head node holds at least
two elements: on a well-formed container with `size() > 0` it removes exactly
the first element: `size()` drops by 1 and forward iteration yields the
former sequence without its first element.  When the head node held several
elements it keeps the others, shifted one slot left; when it held one, the
node is unlinked and freed, its successor becomes the head with a null back
link, and `head_` and `tail_` are both null when it was the only node. -/
theorem pop_front_correct {T : Type} [Element T] {N : Nat} {st : State T} {nodes : Layout T}
    (hw : WF N st nodes) (hs : 0 < size st)
    (htv : Element.is_trivial T = true ∨ ∀ a cs r, nodes = (a, cs) :: r → 2 ≤ cs.length)
    (fuel : Nat) (hf : N ≤ fuel) :
    ∃ st', pop_front N fuel st = some st' ∧ size st' + 1 = size st ∧
      (∀ k, size st' < k → to_list k st' = some (elems nodes).tail) ∧
      ∃ a cs post, nodes = (a, cs) :: post ∧
        WF N st' (if cs.length = 1 then post else (a, cs.tail) :: post) ∧
        (cs.length = 1 → st'.head_ = headPtr none post ∧ st'.tail_ = lastPtr none post ∧
          st'.heap.read (some a) = none ∧
          (post = [] → st'.head_ = none ∧ st'.tail_ = none) ∧
          ∀ b nb, st'.head_ = some b → st'.heap.read (some b) = some nb → nb.prev = none) := by
  have hne := ne_nil_of_size_pos hw hs
  obtain ⟨y, post, rfl⟩ := List.exists_cons_of_ne_nil hne
  obtain ⟨a, cs⟩ := y
  have hcs : 1 ≤ cs.length ∧ cs.length ≤ N := counts_pos hw.1 cs.length (by simp [counts])
  obtain ⟨st', hp, hsz, _, _, hw', hfree, _⟩ :=
    pop_front_spec hw (show cs.length ≤ fuel by omega)
      (by
        rcases htv with h3 | h3
        · exact Or.inl h3
        · exact Or.inr (h3 a cs post rfl))
  refine ⟨st', hp, hsz, fun k hk => ?_, a, cs, post, rfl, hw', fun h1 => ?_⟩
  · rw [to_list_of_WF hw' hk]
    have hcne : cs ≠ [] := List.ne_nil_of_length_pos (by omega)
    by_cases h1 : cs.length = 1
    · rw [if_pos h1]
      obtain ⟨x, rfl⟩ := List.length_eq_one.1 h1
      simp [elems]
    · rw [if_neg h1]
      simp only [elems]
      rw [List.tail_append_of_ne_nil hcne]
  · rw [if_pos h1] at hw'
    refine ⟨hw'.2.2.1, hw'.2.2.2.1, hfree h1, fun hp0 => ?_, fun b nb hb hrb => ?_⟩
    · subst hp0
      exact ⟨hw'.2.2.1, hw'.2.2.2.1⟩
    · cases post with
      | nil =>
        rw [hw'.2.2.1] at hb
        simp [headPtr] at hb
      | cons z r =>
        obtain ⟨c, cc⟩ := z
        rw [hw'.2.2.1] at hb
        simp only [headPtr, Option.some.injEq] at hb
        subst hb
        obtain ⟨n, hn, hok⟩ := hw'.1.1
        rw [hrb] at hn
        cases hn
        exact hok.2.2.2.2.1

theorem pop_front_correct_witness :
    WF 3 example_single_tail [(1, [1, 2, 3]), (2, [4])] ∧ 0 < size example_single_tail ∧
      (Element.is_trivial Nat = true ∨
        ∀ a cs r, [(1, [1, 2, 3]), (2, [4])] = (a, cs) :: r → 2 ≤ cs.length) ∧
      3 ≤ 3 ∧
      ∃ st', pop_front 3 3 example_single_tail = some st' ∧
        size st' + 1 = size example_single_tail ∧
        (∀ k, size st' < k →
          to_list k st' = some (elems [(1, [1, 2, 3]), (2, [4])]).tail) ∧
        ∃ a cs post, [(1, [1, 2, 3]), (2, [4])] = (a, cs) :: post ∧
          WF 3 st' (if cs.length = 1 then post else (a, cs.tail) :: post) ∧
          (cs.length = 1 → st'.head_ = headPtr none post ∧ st'.tail_ = lastPtr none post ∧
            st'.heap.read (some a) = none ∧
            (post = [] → st'.head_ = none ∧ st'.tail_ = none) ∧
            ∀ b nb, st'.head_ = some b → st'.heap.read (some b) = some nb → nb.prev = none) :=
  ⟨by decide, by decide, Or.inl rfl, by decide,
    @pop_front_correct Nat _ 3 example_single_tail [(1, [1, 2, 3]), (2, [4])] (by decide)
      (by decide) (Or.inl rfl) 3 (by decide)⟩

/-! ## Verification: destruction and copy assignment -/

theorem destructor_loop_spec {T : Type} [Element T] {N : Nat} :
    ∀ (nodes : Layout T) (fuel : Nat) (h : Heap T) (pv : Ptr), Chain N h pv nodes none →
      (addrs nodes).Nodup → nodes.length < fuel →
      ∃ h', destructor_loop fuel h (headPtr none nodes) = some h' ∧
        (∀ x, x ∈ addrs nodes → h'.read (some x) = none) ∧
        ∀ x, x ∉ addrs nodes → h'.read (some x) = h.read (some x)
  | [], fuel, h, _, _, _, hf => by
    obtain ⟨f, rfl⟩ : ∃ f, fuel = f + 1 := ⟨fuel - 1, by simp at hf; omega⟩
    exact ⟨h, by simp [destructor_loop, headPtr], fun x hx => by simp [addrs] at hx,
      fun _ _ => rfl⟩
  | (a, c) :: r, fuel, h, pv, hc, hnd, hf => by
    obtain ⟨f, rfl⟩ : ∃ f, fuel = f + 1 := ⟨fuel - 1, by simp at hf; omega⟩
    obtain ⟨⟨n, hr, hok⟩, hrest⟩ := hc
    have hlt := read_lt hr
    have hndr : a ∉ addrs r ∧ (addrs r).Nodup := by simpa [addrs] using hnd
    obtain ⟨d, hd, _⟩ := destroy_slots_spec a n.node_size 0 h n hr
      (by rw [hok.1, hok.2.1]; have := hok.2.2.2.2.2.2; omega)
      (Or.inr (fun x _ hx => ⟨_, hok.slot (show x < _ by rw [hok.1] at hx; omega)⟩))
    have hrd : ∀ x, x ≠ a →
        Heap.read ((h.upd a { n with data := d }).set a none) (some x) = h.read (some x) := by
      intro x hx
      rw [read_free_ne _ (Ne.symm hx), read_upd_ne _ _ (Ne.symm hx)]
    have hc2 : Chain N ((h.upd a { n with data := d }).set a none) (some a) r none :=
      Chain.congr (fun x hx => hrd x (fun e => hndr.1 (e ▸ hx))) hrest
    obtain ⟨h', hl, hfreed, hkeep⟩ := destructor_loop_spec r f _ (some a) hc2 hndr.2
      (by simp only [List.length_cons] at hf; omega)
    refine ⟨h', ?_, fun x hx => ?_, fun x hx => ?_⟩
    · rw [show headPtr none ((a, c) :: r) = some a from rfl, destructor_loop,
        if_pos (by simp)]
      simp only [hr, Option.bind_eq_bind, Option.some_bind, hd]
      rw [free_eq (read_upd_same _ hlt)]
      simp only [Option.some_bind]
      rw [← hok.2.2.2.1] at hl
      exact hl
    · simp only [addrs, List.map_cons, List.mem_cons] at hx
      by_cases hxa : x = a
      · subst hxa
        rw [hkeep x hndr.1]
        exact read_free_same _ _
      · rcases hx with e | hx
        · exact absurd e hxa
        · exact hfreed x hx
    · have hxa : x ≠ a := fun e => hx (by rw [e]; exact mem_addrs_head a c r)
      have hxr : x ∉ addrs r := fun hm => hx (mem_addrs_tail _ hm)
      rw [hkeep x hxr]
      exact hrd x hxa

theorem operator_assign_spec {T : Type} [Element T] {N : Nat} (hN : 1 ≤ N) {a b : State T}
    {la lb : Layout T} (ha : WF N a la) (hb : WF N b lb) (hheap : b.heap = a.heap)
    (hdisj : ∀ x, x ∈ addrs la → x ∉ addrs lb) {fuel : Nat} (hfa : a.size_ < fuel)
    (hfb : b.size_ < fuel) :
    ∃ h lt, operator_assign N fuel a b =
        some ({ a with heap := h, tail_ := lastPtr none lt, head_ := headPtr none lt,
                       size_ := b.size_ },
              { b with heap := h }) ∧
      elems lt = elems lb ∧
      WF N { a with heap := h, tail_ := lastPtr none lt, head_ := headPtr none lt,
                    size_ := b.size_ } lt ∧
      WF N { b with heap := h } lb ∧
      (∀ x, x ∈ addrs la → h.read (some x) = none) ∧
      (∀ x, x ∈ addrs lb → h.read (some x) = b.heap.read (some x)) ∧
      ∀ x, x ∈ addrs lt → a.heap.length < x := by
  have hsrc : ({ b with heap := a.heap } : State T) = b := by
    cases b
    simp only at hheap
    simp [hheap]
  have hbsz : b.size_ = (elems lb).length := by rw [hb.2.2.2.2, counts_sum]
  obtain ⟨temp, lt, htemp, hwt, helt, _, hsen, hsenr, hfr, hfresh, _⟩ :=
    range_ctor_spec hN a.heap (elems lb) (show (elems lb).length < fuel by omega)
  -- the chain of `a` is still in place when the temporary is destroyed
  have hla_lt := Chain.lt ha.1
  have hca : Chain N temp.heap none la none := by
    refine Chain.congr (fun x hx => ?_) ha.1
    obtain ⟨cs, nx, pv, n, hn, _⟩ := nodeAt_of_mem ha.1 x hx
    rw [hfr x n hn, hn]
  have hnl : la.length < fuel := by
    have h1 : la.length = (counts la).length := by simp [counts]
    have h2 : (counts la).length ≤ (counts la).sum := by
      have hp1 := counts_pos ha.1
      generalize counts la = l at hp1
      induction l with
      | nil => simp
      | cons y r ih =>
        have hy := (hp1 y (by simp)).1
        have := ih (fun k hk => hp1 k (by simp [hk]))
        simp only [List.length_cons, List.sum_cons]
        omega
    rw [← ha.2.2.2.2] at h2
    omega
  obtain ⟨h2, hdl, hfreed, hkeep⟩ := destructor_loop_spec la fuel temp.heap none hca ha.2.1 hnl
  have hLla : a.heap.length ∉ addrs la := fun hm => Nat.lt_irrefl _ (hla_lt _ hm)
  have hsen2 : h2.read (some a.heap.length) = some ⟨0, [], none, none⟩ := by
    rw [hkeep _ hLla]; exact hsenr
  refine ⟨h2.set a.heap.length none, lt, ?_, helt, ?_, ?_, ?_, ?_, hfresh⟩
  · simp only [operator_assign, hsrc, to_list_of_WF hb hfb, Option.bind_eq_bind,
      Option.some_bind, htemp, swap, destructor, ha.2.2.1, hdl, hsen, free_eq hsen2,
      Option.pure_def, hwt.2.2.1, hwt.2.2.2.1, hwt.2.2.2.2]
    rw [counts_sum, helt, ← hbsz]
  · refine ⟨?_, hwt.2.1, rfl, rfl, ?_⟩
    · refine Chain.congr (fun x hx => ?_) hwt.1
      have hx1 := hfresh x hx
      have hxla : x ∉ addrs la := fun hm => by
        have := hla_lt x hm
        omega
      show Heap.read (h2.set a.heap.length none) (some x) = _
      rw [read_free_ne _ (by omega), hkeep x hxla]
    · show b.size_ = _
      rw [counts_sum, helt, hbsz]
  · refine ⟨?_, hb.2.1, hb.2.2.1, hb.2.2.2.1, hb.2.2.2.2⟩
    refine Chain.congr (fun x hx => ?_) hb.1
    obtain ⟨cs, nx, pv, n, hn, _⟩ := nodeAt_of_mem hb.1 x hx
    have hxl : x < a.heap.length := by rw [← hheap]; exact read_lt hn
    have hxla : x ∉ addrs la := fun hm => hdisj x hm hx
    show Heap.read (h2.set a.heap.length none) (some x) = _
    rw [read_free_ne _ (by omega), hkeep x hxla, hn]
    rw [hheap] at hn
    exact hfr x n hn
  · intro x hx
    have := hla_lt x hx
    rw [read_free_ne _ (by omega)]
    exact hfreed x hx
  · intro x hx
    obtain ⟨cs, nx, pv, n, hn, _⟩ := nodeAt_of_mem hb.1 x hx
    have hxl : x < a.heap.length := by rw [← hheap]; exact read_lt hn
    have hxla : x ∉ addrs la := fun hm => hdisj x hm hx
    rw [read_free_ne _ (by omega), hkeep x hxla, hn]
    rw [hheap] at hn
    exact hfr x n hn

/-- C13: for well-formed containers `a` and `b` living in one store with no
node in common, the copy assignment `a = b` succeeds; afterwards `a` has the
`size()` and the element sequence of `b`, `a == b` returns `true`, every node
that held the former elements of `a` has been freed, and `b` is unchanged: the
same members, the same node records, the same sequence. -/
theorem operator_assign_correct {T : Type} [Element T] [DecidableEq T] {N : Nat} (hN : 1 ≤ N)
    {a b : State T} {la lb : Layout T} (ha : WF N a la) (hb : WF N b lb)
    (hheap : b.heap = a.heap) (hdisj : ∀ x, x ∈ addrs la → x ∉ addrs lb) (fuel : Nat)
    (hfa : size a < fuel) (hfb : size b < fuel) :
    ∃ a' b', operator_assign N fuel a b = some (a', b') ∧
      size a' = size b' ∧ to_list fuel a' = to_list fuel b ∧
      to_list fuel b' = to_list fuel b ∧ to_list fuel b = some (elems lb) ∧
      operator_eq fuel a' b' = some true ∧
      (∀ x, x ∈ addrs la → a'.heap.read (some x) = none) ∧
      b' = { b with heap := a'.heap } ∧ WF N b' lb ∧
      ∀ x, x ∈ addrs lb → b'.heap.read (some x) = b.heap.read (some x) := by
  obtain ⟨h, lt, hop, helt, hwa, hwb, hfreed, hsame, _⟩ :=
    operator_assign_spec hN ha hb hheap hdisj hfa hfb
  refine ⟨_, _, hop, rfl, ?_, ?_, to_list_of_WF hb hfb, ?_, hfreed, rfl, hwb, hsame⟩
  · rw [to_list_of_WF hwa (show b.size_ < fuel from hfb), to_list_of_WF hb hfb, helt]
  · rw [to_list_of_WF hwb (show b.size_ < fuel from hfb), to_list_of_WF hb hfb]
  · rw [operator_eq_spec hwa hwb (show b.size_ < fuel from hfb), helt]
    simp

theorem operator_assign_correct_witness :
    1 ≤ 3 ∧ WF 3 example_a [(1, [1, 2, 3]), (2, [4, 5])] ∧ WF 3 example_b [(4, [7, 8])] ∧
      example_b.heap = example_a.heap ∧
      (∀ x, x ∈ addrs [((1 : Nat), [1, 2, 3]), (2, [4, 5])] → x ∉ addrs [((4 : Nat), [7, 8])]) ∧
      size example_a < 6 ∧ size example_b < 6 ∧
      ∃ a' b', operator_assign 3 6 example_a example_b = some (a', b') ∧
        size a' = size b' ∧ to_list 6 a' = to_list 6 example_b ∧
        to_list 6 b' = to_list 6 example_b ∧
        to_list 6 example_b = some (elems [(4, [7, 8])]) ∧
        operator_eq 6 a' b' = some true ∧
        (∀ x, x ∈ addrs [((1 : Nat), [1, 2, 3]), (2, [4, 5])] → a'.heap.read (some x) = none) ∧
        b' = { example_b with heap := a'.heap } ∧ WF 3 b' [(4, [7, 8])] ∧
        ∀ x, x ∈ addrs [((4 : Nat), [7, 8])] →
          b'.heap.read (some x) = example_b.heap.read (some x) :=
  ⟨by decide, by decide, by decide, by decide, by decide, by decide, by decide,
    @operator_assign_correct Nat _ _ 3 (by decide) example_a example_b
      [(1, [1, 2, 3]), (2, [4, 5])] [(4, [7, 8])] (by decide) (by decide) (by decide)
      (by decide) 6 (by decide) (by decide)⟩

/-! ## Claims refuted by the code: copy construction and reverse traversal -/

/-- C12 (failing input): the copy constructor has no member initialiser list,
so `push_back` reads `tail_` and `head_` while they are uninitialised.  With
NodeMaxSize 3 and the source `1, 2, 3 | 4, 5`: when the two members hold a
pointer to no node, the first `push_back` dereferences it and the construction
does not complete, and likewise when only `head_` holds one (then `tail_`, null,
is dereferenced).  Only when both happen to hold null pointers is the copy built,
with the elements of the source.  The constructor taking an allocator, which
has the initialisers, builds the copy.  The copy of an empty source is built
(no `push_back` runs) with `size()` 0, but its `head_` still holds the
indeterminate value, which the next `push_back` and the destructor dereference. -/
theorem copy_ctor_reads_uninitialised :
    to_list 6 example_state = some [1, 2, 3, 4, 5] ∧
      copy_ctor 3 6 (some 7) (some 7) example_state = none ∧
      copy_ctor 3 6 none (some 7) example_state = none ∧
      (copy_ctor 3 6 none none example_state).bind (to_list 6) = some [1, 2, 3, 4, 5] ∧
      (copy_ctor_alloc 3 6 example_state).bind (to_list 6) = some [1, 2, 3, 4, 5] ∧
      (copy_ctor 3 6 (some 7) (some 7) (default_ctor ([] : Heap Nat))).map size = some 0 ∧
      (copy_ctor 3 6 (some 7) (some 7) (default_ctor ([] : Heap Nat))).bind
        (fun st => push_back 3 st 1) = none ∧
      (copy_ctor 3 6 (some 7) (some 7) (default_ctor ([] : Heap Nat))).bind (destructor 6) =
        none := by
  decide

/-- C16 (failing input): with NodeMaxSize 3 and the container built from
`1, 2, 3` by the range constructor (or `1, 2, 3, 4` by `push_back`), forward
iteration yields the elements, `end()` is the cursor `(nullptr, 0)`, and
retreating it by one reads `current_node->prev` through the null pointer:
`*rbegin()` and the traversal from `rbegin()` to `rend()` are undefined. -/
theorem rbegin_retreats_null_cursor :
    example_range.bind (to_list 6) = some [1, 2, 3] ∧
      example_range.bind end_ = some ⟨none, 0⟩ ∧
      example_range.bind (fun st => (end_ st).bind (decr 3 st.heap)) = none ∧
      example_range.bind (fun st => (rbegin st).bind (reverse_deref 3 st.heap)) = none ∧
      example_range.bind (reverse_to_list 3 6) = none ∧
      example_pushed.bind (to_list 6) = some [1, 2, 3, 4] ∧
      example_pushed.bind (fun st => (end_ st).bind (decr 3 st.heap)) = none ∧
      example_pushed.bind (reverse_to_list 3 6) = none := by
  decide

/-- The defect behind C16 in general: on every non-empty well-formed container
`end()` is `(nullptr, 0)`, `operator--` on it is undefined, and so is the
reverse traversal from `rbegin()` to `rend()`, whatever the budget. -/
theorem reverse_traversal_undefined {T : Type} {N : Nat} {st : State T} {nodes : Layout T}
    (hw : WF N st nodes) (hne : nodes ≠ []) (fuel : Nat) :
    (end_ st).bind (decr N st.heap) = none ∧
      (rbegin st).bind (reverse_deref N st.heap) = none ∧
      reverse_to_list N fuel st = none := by
  have he := end_of_WF hw hne
  have hd : decr N st.heap ⟨none, 0⟩ = none := by
    simp [decr, Heap.read]
  refine ⟨by rw [he]; exact hd, by rw [rbegin, he]; simp [reverse_deref, hd], ?_⟩
  rw [reverse_to_list, rbegin, he]
  cases fuel with
  | zero => rfl
  | succ f =>
    have hr : (⟨none, 0⟩ : ul_iterator) ≠ rend st := by
      rw [rend, begin_of_WF hw hne, cursor_zero hw.1]
      obtain ⟨y, r, rfl⟩ := List.exists_cons_of_ne_nil hne
      simp [headPtr]
    simp only [Option.bind_eq_bind, Option.some_bind, reverse_collect, reverse_deref, hd,
      Option.none_bind]
    rw [if_pos hr]

theorem reverse_traversal_undefined_witness :
    WF 3 example_state [(1, [1, 2, 3]), (2, [4, 5])] ∧
      [((1 : Nat), [1, 2, 3]), (2, [4, 5])] ≠ [] ∧
      (end_ example_state).bind (decr 3 example_state.heap) = none ∧
      (rbegin example_state).bind (reverse_deref 3 example_state.heap) = none ∧
      reverse_to_list 3 6 example_state = none :=
  ⟨by decide, by decide,
    @reverse_traversal_undefined Nat 3 example_state [(1, [1, 2, 3]), (2, [4, 5])] (by decide)
      (by decide) 6⟩

/-- The defect behind C12 in general: for every non-empty well-formed source,
when the uninitialised `tail_` holds a pointer to no node of the store, the
construction does not complete, whatever `head_` holds and whatever the budget. -/
theorem copy_ctor_undefined_of_garbage {T : Type} {N : Nat} {other : State T}
    {nodes : Layout T} (hw : WF N other nodes) (hne : nodes ≠ []) (g : Nat) (head0 : Ptr)
    (hg : other.heap.read (some g) = none) (hgs : g ≠ other.heap.length) (fuel : Nat) :
    copy_ctor N fuel (some g) head0 other = none := by
  have hw0 : WF N { other with heap := (other.heap.alloc (⟨0, [], none, none⟩ : Node T)).2 }
      nodes := ⟨hw.1.alloc _, hw.2.1, hw.2.2.1, hw.2.2.2.1, hw.2.2.2.2⟩
  have he := end_of_WF hw0 hne
  have hb := begin_of_WF hw0 hne
  obtain ⟨y, r, rfl⟩ := List.exists_cons_of_ne_nil hne
  obtain ⟨a, cs⟩ := y
  have hcz := cursor_zero hw0.1
  simp only [headPtr] at hcz
  rw [hcz] at hb
  have hrg : (other.heap.alloc (⟨0, [], none, none⟩ : Node T)).2.read (some g) = none := by
    rw [read_alloc_old _ _ hgs]; exact hg
  simp only [copy_ctor, he, hb, Option.bind_eq_bind, Option.some_bind]
  cases fuel with
  | zero => rfl
  | succ f =>
    rw [copy_loop, if_pos (by simp)]
    cases hd : deref (other.heap.alloc (⟨0, [], none, none⟩ : Node T)).2 ⟨some a, 0⟩ with
    | none => rfl
    | some v =>
      simp only [Option.bind_eq_bind, Option.some_bind, push_back, hrg]
      simp

theorem copy_ctor_undefined_of_garbage_witness :
    WF 3 example_state [(1, [1, 2, 3]), (2, [4, 5])] ∧
      [((1 : Nat), [1, 2, 3]), (2, [4, 5])] ≠ [] ∧
      example_state.heap.read (some 7) = none ∧ 7 ≠ example_state.heap.length ∧
      copy_ctor 3 6 (some 7) (some 9) example_state = none :=
  ⟨by decide, by decide, by decide, by decide,
    @copy_ctor_undefined_of_garbage Nat 3 example_state [(1, [1, 2, 3]), (2, [4, 5])]
      (by decide) (by decide) 7 (some 9) (by decide) (by decide) 6⟩

/-! ## What holds around the defect of the copy constructor -/

theorem copy_loop_spec {T : Type} {N : Nat} (hN : 1 ≤ N) {ls : Layout T} :
    ∀ (fuel i : Nat) (st : State T) (lc : Layout T),
      WF N st lc → packed N lc → Chain N st.heap none ls none →
      (∀ x, x ∈ addrs ls → x ∉ addrs lc) →
      i ≤ (elems ls).length → (elems ls).length - i < fuel →
      ∃ st' lc', copy_loop N ⟨none, 0⟩ fuel st (cursor none ls i) = some st' ∧
        WF N st' lc' ∧ packed N lc' ∧ elems lc' = elems lc ++ (elems ls).drop i ∧
        st'.sentinel_ = st.sentinel_ ∧ st.heap.length ≤ st'.heap.length ∧
        (∀ b, b < st.heap.length → b ∉ addrs lc →
          st'.heap.read (some b) = st.heap.read (some b)) ∧
        ∀ x, x ∈ addrs lc' → x ∈ addrs lc ∨ st.heap.length ≤ x
  | 0, _, _, _, _, _, _, _, _, hf => by omega
  | fuel + 1, i, st, lc, hw, hp, hcs, hdisj, hi, hf => by
    by_cases hin : i = (elems ls).length
    · subst hin
      rw [cursor_past none ls _ (Nat.le_refl _)]
      refine ⟨st, lc, by simp [copy_loop], hw, hp, ?_, rfl, Nat.le_refl _, fun _ _ _ => rfl,
        fun _ hx => Or.inl hx⟩
      rw [List.drop_eq_nil_of_le (Nat.le_refl _), List.append_nil]
    · have hil : i < (elems ls).length := by omega
      have hne : cursor none ls i ≠ ⟨none, 0⟩ := by
        obtain ⟨pre, a, cs, post, idx, hn, hidx, hi'⟩ := position_split ls i hil
        subst hn
        subst hi'
        rw [cursor_mid none a cs post hidx]
        simp
      obtain ⟨st1, lc1, h1, hw1, he1, hp1, hsen1, _, _, hlen1, _, hfr1, hnew1, _⟩ :=
        push_back_grow hN hw hp ((elems ls)[i])
      have hls_lt := Chain.lt hcs
      have hcs1 : Chain N st1.heap none ls none :=
        Chain.congr (fun x hx => hfr1 x (hdisj x hx) (hls_lt x hx)) hcs
      have hdisj1 : ∀ x, x ∈ addrs ls → x ∉ addrs lc1 := by
        intro x hx hx1
        rcases hnew1 x hx1 with h | h
        · exact hdisj x hx h
        · have := hls_lt x hx
          omega
      obtain ⟨st', lc', h2, hw2, hp2, he2, hsen2, hlen2, hfr2, hnew2⟩ :=
        copy_loop_spec hN fuel (i + 1) st1 lc1 hw1 hp1 hcs1 hdisj1 (by omega) (by omega)
      refine ⟨st', lc', ?_, hw2, hp2, ?_, by rw [hsen2, hsen1], by omega, ?_, ?_⟩
      · rw [copy_loop, if_pos hne, deref_cursor hcs hil, List.getElem?_eq_getElem hil]
        simp only [Option.bind_eq_bind, Option.some_bind, h1, incr_cursor hcs1 hil]
        exact h2
      · rw [he2, he1, List.append_assoc, List.singleton_append,
          ← List.drop_eq_getElem_cons hil]
      · intro b hb hbc
        have hb1 : b ∉ addrs lc1 := by
          intro hm
          rcases hnew1 b hm with h | h
          · exact hbc h
          · omega
        rw [hfr2 b (by omega) hb1, hfr1 b hbc hb]
      · intro x hx
        rcases hnew2 x hx with h | h
        · exact hnew1 x h
        · right; omega

/-- The loop of the copy constructors, started on an empty container with null
`head_` and `tail_`, builds a well-formed copy of the source and leaves the
source as it was. -/
theorem copy_from_null_spec {T : Type} {N : Nat} (hN : 1 ≤ N) {other : State T}
    {ls : Layout T} (hw : WF N other ls) (em : Bool) {fuel : Nat} (hf : other.size_ < fuel) :
    ∃ e st lc,
      end_ { other with heap := (other.heap.alloc (⟨0, [], none, none⟩ : Node T)).2 } = some e ∧
      copy_loop N e fuel
        ⟨(other.heap.alloc (⟨0, [], none, none⟩ : Node T)).2, other.heap.length, none, none, 0,
          em⟩
        (begin { other with heap := (other.heap.alloc (⟨0, [], none, none⟩ : Node T)).2 }) =
        some st ∧
      WF N st lc ∧ elems lc = elems ls ∧ WF N { other with heap := st.heap } ls ∧
      ∀ b, b < other.heap.length → st.heap.read (some b) = other.heap.read (some b) := by
  obtain ⟨h0, hh0⟩ : ∃ h0, h0 = (other.heap.alloc (⟨0, [], none, none⟩ : Node T)).2 := ⟨_, rfl⟩
  rw [← hh0]
  have hl0 : h0.length = other.heap.length + 1 := by rw [hh0]; exact length_alloc _ _
  have hr0 : ∀ b, b < other.heap.length → h0.read (some b) = other.heap.read (some b) := by
    intro b hb
    rw [hh0]
    exact read_alloc_old _ _ (Nat.ne_of_lt hb)
  have hw0 : WF N { other with heap := h0 } ls := by
    rw [hh0]
    exact ⟨hw.1.alloc _, hw.2.1, hw.2.2.1, hw.2.2.2.1, hw.2.2.2.2⟩
  have hsz : other.size_ = (elems ls).length := by rw [hw.2.2.2.2, counts_sum]
  have hinit : WF N (⟨h0, other.heap.length, none, none, 0, em⟩ : State T) [] := by
    simp [WF_nil_iff]
  by_cases hls : ls = []
  · subst hls
    have hz : other.size_ = 0 := by rw [hsz]; rfl
    obtain ⟨f, rfl⟩ : ∃ f, fuel = f + 1 := ⟨fuel - 1, by omega⟩
    refine ⟨⟨some other.sentinel_, 0⟩, _, [], by simp [end_, hz], ?_, hinit, rfl, hw0,
      fun b hb => hr0 b hb⟩
    simp [begin, hz, copy_loop]
  · obtain ⟨st, lc, hloop, hwc, _, hel, _, _, hfr, _⟩ :=
      copy_loop_spec hN fuel 0 (⟨h0, other.heap.length, none, none, 0, em⟩ : State T) []
        hinit trivial hw0.1 (fun _ _ hx => by simp [addrs] at hx) (Nat.zero_le _)
        (by omega)
    have hfr' : ∀ b, b < other.heap.length → st.heap.read (some b) = other.heap.read (some b) := by
      intro b hb
      rw [hfr b (by show b < h0.length; omega) (by simp [addrs]), hr0 b hb]
    refine ⟨⟨none, 0⟩, st, lc, end_of_WF hw0 hls, ?_, hwc, by simpa [elems] using hel, ?_, hfr'⟩
    · rw [begin_of_WF hw0 hls]
      exact hloop
    · refine ⟨Chain.congr (fun x hx => ?_) hw.1, hw.2.1, hw.2.2.1, hw.2.2.2.1, hw.2.2.2.2⟩
      exact hfr' x (Chain.lt hw.1 x hx)

/-- The copy constructor taking an allocator, which initialises `head_` and
`tail_`, satisfies the claim made of copy construction: for every well-formed
source the copy has the `size()` and the element sequence of the source,
`copy == source` returns `true`, and the source is unchanged. -/
theorem copy_ctor_alloc_correct {T : Type} [DecidableEq T] {N : Nat} (hN : 1 ≤ N)
    {other : State T} {ls : Layout T} (hw : WF N other ls) (fuel : Nat)
    (hf : size other < fuel) :
    ∃ st, copy_ctor_alloc N fuel other = some st ∧ size st = size other ∧
      to_list fuel st = to_list fuel other ∧ to_list fuel other = some (elems ls) ∧
      operator_eq fuel st { other with heap := st.heap } = some true ∧
      WF N { other with heap := st.heap } ls ∧
      ∀ b, b < other.heap.length → st.heap.read (some b) = other.heap.read (some b) := by
  obtain ⟨e, st, lc, he, hloop, hwc, hel, hwo, hfr⟩ := copy_from_null_spec hN hw true hf
  have hsz : size st = size other := by
    rw [size_of_WF hwc, size_of_WF hw, hel]
  have hsz' : st.size_ = other.size_ := hsz
  refine ⟨st, ?_, hsz, ?_, to_list_of_WF hw hf, ?_, hwo, hfr⟩
  · simp only [copy_ctor_alloc, Heap.alloc, Option.bind_eq_bind] at he hloop ⊢
    rw [he]
    exact hloop
  · rw [to_list_of_WF hwc (by rw [hsz']; exact hf), to_list_of_WF hw hf, hel]
  · rw [operator_eq_spec hwc hwo (by rw [hsz']; exact hf), hel]
    simp

theorem copy_ctor_alloc_correct_witness :
    1 ≤ 3 ∧ WF 3 example_state [(1, [1, 2, 3]), (2, [4, 5])] ∧ size example_state < 6 ∧
      ∃ st, copy_ctor_alloc 3 6 example_state = some st ∧ size st = size example_state ∧
        to_list 6 st = to_list 6 example_state ∧
        to_list 6 example_state = some (elems [(1, [1, 2, 3]), (2, [4, 5])]) ∧
        operator_eq 6 st { example_state with heap := st.heap } = some true ∧
        WF 3 { example_state with heap := st.heap } [(1, [1, 2, 3]), (2, [4, 5])] ∧
        ∀ b, b < example_state.heap.length →
          st.heap.read (some b) = example_state.heap.read (some b) :=
  ⟨by decide, by decide, by decide,
    @copy_ctor_alloc_correct Nat _ 3 (by decide) example_state [(1, [1, 2, 3]), (2, [4, 5])]
      (by decide) 6 (by decide)⟩

/-- The copy constructor itself builds the copy when the uninitialised `tail_`
and `head_` both happen to hold null pointers. -/
theorem copy_ctor_correct_of_null {T : Type} [DecidableEq T] {N : Nat} (hN : 1 ≤ N)
    {other : State T} {ls : Layout T} (hw : WF N other ls) (fuel : Nat)
    (hf : size other < fuel) :
    ∃ st, copy_ctor N fuel none none other = some st ∧ size st = size other ∧
      to_list fuel st = some (elems ls) ∧
      operator_eq fuel st { other with heap := st.heap } = some true ∧
      WF N { other with heap := st.heap } ls := by
  obtain ⟨e, st, lc, he, hloop, hwc, hel, hwo, hfr⟩ := copy_from_null_spec hN hw false hf
  have hsz : size st = size other := by
    rw [size_of_WF hwc, size_of_WF hw, hel]
  have hsz' : st.size_ = other.size_ := hsz
  refine ⟨st, ?_, hsz, ?_, ?_, hwo⟩
  · simp only [copy_ctor, Heap.alloc, Option.bind_eq_bind] at he hloop ⊢
    rw [he]
    exact hloop
  · rw [to_list_of_WF hwc (by rw [hsz']; exact hf), hel]
  · rw [operator_eq_spec hwc hwo (by rw [hsz']; exact hf), hel]
    simp

theorem copy_ctor_correct_of_null_witness :
    1 ≤ 3 ∧ WF 3 example_state [(1, [1, 2, 3]), (2, [4, 5])] ∧ size example_state < 6 ∧
      ∃ st, copy_ctor 3 6 none none example_state = some st ∧ size st = size example_state ∧
        to_list 6 st = some (elems [(1, [1, 2, 3]), (2, [4, 5])]) ∧
        operator_eq 6 st { example_state with heap := st.heap } = some true ∧
        WF 3 { example_state with heap := st.heap } [(1, [1, 2, 3]), (2, [4, 5])] :=
  ⟨by decide, by decide, by decide,
    @copy_ctor_correct_of_null Nat _ 3 (by decide) example_state [(1, [1, 2, 3]), (2, [4, 5])]
      (by decide) 6 (by decide)⟩

/-! ## Verification: what `insert` leaves behind -/

theorem read_length_none {T : Type} (h : Heap T) : h.read (some h.length) = none := by
  simp [Heap.read]

/-- One `insert` at the element `i` of the node `a`, seen from that node on:
the node stays in the chain, the cursor `(a, i)` stays dereferenceable, and the
elements from the node on are the former ones with `v` put at offset `i`. -/
theorem insert_step {T : Type} [Element T] {N : Nat} {st : State T} {pre post : Layout T}
    {a : Nat} {cs : List T} (hw : WF N st (pre ++ (a, cs) :: post)) {i : Nat}
    (hi : i < cs.length) (v : T) {fuel : Nat} (hf : N ≤ fuel) :
    ∃ r st' cs' post', insert N fuel st ⟨some a, i⟩ (ConstRef.object v) = some (r, st') ∧
      WF N st' (pre ++ (a, cs') :: post') ∧ i < cs'.length ∧
      cs' ++ elems post' =
        (cs ++ elems post).take i ++ v :: (cs ++ elems post).drop i ∧
      st'.size_ = st.size_ + 1 := by
  obtain ⟨n, hr, hok⟩ := nodeAt_of_chain hw.1
  have hcsN : cs.length ≤ N := hok.2.2.2.2.2.2
  obtain ⟨st', hins, hsz, _, _, hw'⟩ := insert_const_spec hw hi v (show cs.length ≤ fuel by omega)
  have hil : (cs.take i ++ v :: cs.drop i).length = cs.length + 1 :=
    ins_length cs i v (Nat.le_of_lt hi)
  have hsplit : (cs ++ elems post).take i ++ v :: (cs ++ elems post).drop i =
      (cs.take i ++ v :: cs.drop i) ++ elems post := by
    rw [List.take_append_of_le_length (Nat.le_of_lt hi),
      List.drop_append_of_le_length (Nat.le_of_lt hi)]
    simp
  rw [hsplit]
  by_cases hroom : cs.length < N
  · rw [if_pos hroom] at hins hw'
    refine ⟨⟨some a, cs.length⟩, st', cs.take i ++ v :: cs.drop i, post, ?_,
      by simpa using hw', by omega, rfl, hsz⟩
    rw [insert_eq_insert_const N fuel st a i _ hr]
    exact hins
  · rw [if_neg hroom] at hins hw'
    refine ⟨⟨some a, N - 1⟩, st', (cs.take i ++ v :: cs.drop i).take N,
      (st.heap.length, (cs.take i ++ v :: cs.drop i).drop N) :: post, ?_, by simpa using hw',
      ?_, ?_, hsz⟩
    · rw [insert_eq_insert_const N fuel st a i _ hr]
      exact hins
    · rw [List.length_take, hil]
      omega
    · simp only [elems]
      rw [← List.append_assoc, List.take_append_drop]

theorem insert_range_loop_spec {T : Type} [Element T] {N : Nat} {pre : Layout T} {a i : Nat}
    {fuel : Nat}
    (hf : N ≤ fuel) :
    ∀ (vs : List T) (st : State T) (cs : List T) (post : Layout T),
      WF N st (pre ++ (a, cs) :: post) → i < cs.length →
      ∃ st' cs' post', insert_range_loop N fuel ⟨some a, i⟩ st vs = some st' ∧
        WF N st' (pre ++ (a, cs') :: post') ∧ i < cs'.length ∧
        cs' ++ elems post' =
          (cs ++ elems post).take i ++ vs.reverse ++ (cs ++ elems post).drop i ∧
        st'.size_ = st.size_ + vs.length
  | [], st, cs, post, hw, hi =>
    ⟨st, cs, post, rfl, hw, hi, by simp, by simp⟩
  | v :: vs, st, cs, post, hw, hi => by
    obtain ⟨r, st1, cs1, post1, h1, hw1, hi1, he1, hs1⟩ := insert_step hw hi v hf
    obtain ⟨st', cs', post', h2, hw2, hi2, he2, hs2⟩ :=
      insert_range_loop_spec hf vs st1 cs1 post1 hw1 hi1
    refine ⟨st', cs', post', ?_, hw2, hi2, ?_, ?_⟩
    · simp [insert_range_loop, h1, h2]
    · have hlen : i ≤ (cs ++ elems post).length := by
        rw [List.length_append]; omega
      have ht : ((cs ++ elems post).take i).length = i := by
        rw [List.length_take]; omega
      rw [he2, he1, List.take_left' ht, List.drop_left' ht]
      simp
    · rw [hs2, hs1, List.length_cons]
      omega

theorem insert_range_spec {T : Type} [Element T] {N : Nat} {st : State T} {pre post : Layout T}
    {a : Nat} {cs : List T} (hw : WF N st (pre ++ (a, cs) :: post)) {i : Nat}
    (hi : i < cs.length) (xs : List T) (hne : xs ≠ []) {fuel : Nat} (hf : N ≤ fuel) :
    ∃ st' cs' post', insert_range_body N fuel st ⟨some a, i⟩ xs = some (⟨some a, i⟩, st') ∧
      WF N st' (pre ++ (a, cs') :: post') ∧ i < cs'.length ∧
      cs' ++ elems post' = (cs ++ elems post).take i ++ xs ++ (cs ++ elems post).drop i ∧
      st'.size_ = st.size_ + xs.length := by
  obtain ⟨x, rest, rfl⟩ := List.exists_cons_of_ne_nil hne
  obtain ⟨st1, cs1, post1, h1, hw1, hi1, he1, hs1⟩ :=
    insert_range_loop_spec hf rest.reverse st cs post hw hi
  obtain ⟨r, st2, cs2, post2, h2, hw2, hi2, he2, hs2⟩ := insert_step hw1 hi1 x hf
  refine ⟨st2, cs2, post2, ?_, hw2, hi2, ?_, ?_⟩
  · simp [insert_range_body, h1, h2]
  · have hlen : i ≤ (cs ++ elems post).length := by
      rw [List.length_append]; omega
    have ht : ((cs ++ elems post).take i).length = i := by
      rw [List.length_take]; omega
    rw [he2, he1, List.reverse_reverse, List.append_assoc, List.take_left' ht,
      List.drop_left' ht]
    simp
  · rw [hs2, hs1, List.length_reverse, List.length_cons]
    omega

/-- What the statements of the range `insert` that follow the initialisation
of `pos` do (`insert_range_body`; no call reaches them, see `insert_range`), the
elements of the range being objects outside the container: for every
well-formed container, every dereferenceable cursor `pos` (offset `i` of the
node `a`, logical position `p`) and every non-empty source range `xs`, they
succeed, return `pos`, increase
`size()` by the length of `xs`, and forward iteration afterwards yields the
former sequence with `xs`, in source order, inserted immediately before the
element `pos` referred to; this holds whether or not the insertions fill and
split the node of `pos`. -/
theorem insert_range_correct {T : Type} [Element T] {N : Nat} {st : State T} {pre post : Layout T}
    {a : Nat} {cs : List T} {i : Nat} (hw : WF N st (pre ++ (a, cs) :: post))
    (hi : i < cs.length) (xs : List T) (hne : xs ≠ []) (fuel : Nat) (hf : N ≤ fuel) :
    ∃ st', insert_range_body N fuel st ⟨some a, i⟩ xs = some (⟨some a, i⟩, st') ∧
      size st' = size st + xs.length ∧
      ∀ k, size st' < k → to_list k st' =
        some ((elems (pre ++ (a, cs) :: post)).take ((elems pre).length + i) ++ xs ++
          (elems (pre ++ (a, cs) :: post)).drop ((elems pre).length + i)) := by
  obtain ⟨st', cs', post', hir, hw', _, he, hs⟩ := insert_range_spec hw hi xs hne hf
  refine ⟨st', hir, hs, fun k hk => ?_⟩
  have hE : elems (pre ++ (a, cs) :: post) = elems pre ++ (cs ++ elems post) := by
    rw [elems_middle, List.append_assoc]
  have hE' : elems (pre ++ (a, cs') :: post') = elems pre ++ (cs' ++ elems post') := by
    rw [elems_middle, List.append_assoc]
  rw [to_list_of_WF hw' hk, hE', he, hE, List.take_append, List.drop_append]
  simp only [List.append_assoc]

theorem insert_range_correct_witness :
    WF 3 example_state ([] ++ (1, [1, 2, 3]) :: [(2, [4, 5])]) ∧ 1 < [1, 2, 3].length ∧
      [7, 8, 9] ≠ [] ∧ 3 ≤ 6 ∧
      ∃ st', insert_range_body 3 6 example_state ⟨some 1, 1⟩ [7, 8, 9] = some (⟨some 1, 1⟩, st') ∧
        size st' = size example_state + [7, 8, 9].length ∧
        ∀ k, size st' < k → to_list k st' =
          some ((elems ([] ++ (1, [1, 2, 3]) :: [(2, [4, 5])])).take
              ((elems ([] : Layout Nat)).length + 1) ++ [7, 8, 9] ++
            (elems ([] ++ (1, [1, 2, 3]) :: [(2, [4, 5])])).drop
              ((elems ([] : Layout Nat)).length + 1)) :=
  ⟨by decide, by decide, by decide, by decide,
    @insert_range_correct Nat _ 3 example_state [] [(2, [4, 5])] 1 [1, 2, 3] 1 (by decide)
      (by decide) [7, 8, 9] (by decide) 6 (by decide)⟩

/-! ## Verification: the split of a full node -/

/-- C27: for every well-formed container and every dereferenceable cursor
`(a, i)` whose node is full (it holds `N = NodeMaxSize` elements `cs`),
`insert(pos, v)` succeeds and creates exactly one node: the store grows by the
one record at the fresh address `L`, the chain reads as before with `L` put
right after `a`, `L` holds exactly the former last element of `a`, `a` holds
`N` elements again (the first `N` of `cs` with `v` put at offset `i`), the
links around `L` are set in both directions (`a` to `L` and back, `L` to the
former successor of `a` and back), `tail_` is `L` when `a` was the tail and
is unchanged otherwise, `head_` is unchanged, and every record other than `a`,
`L` and the former successor of `a` (whose back link alone changes) is left as
it was. -/
theorem insert_full_splits {T : Type} [Element T] {N : Nat} {st : State T} {pre post : Layout T}
    {a : Nat} {cs : List T} {i : Nat} (hw : WF N st (pre ++ (a, cs) :: post))
    (hi : i < cs.length) (hfull : cs.length = N) (v : T) (fuel : Nat) (hf : N ≤ fuel) :
    ∃ r st' kept last, insert N fuel st ⟨some a, i⟩ (ConstRef.object v) = some (r, st') ∧
      cs[cs.length - 1]? = some last ∧
      kept = (cs.take i ++ v :: cs.drop i).take N ∧ kept.length = N ∧
      st.heap.read (some st.heap.length) = none ∧
      st'.heap.length = st.heap.length + 1 ∧
      WF N st' (pre ++ (a, kept) :: (st.heap.length, [last]) :: post) ∧
      NodeAt N st'.heap a kept (some st.heap.length) (lastPtr none pre) ∧
      NodeAt N st'.heap st.heap.length [last] (headPtr none post) (some a) ∧
      (∀ b cb post', post = (b, cb) :: post' →
        NodeAt N st'.heap b cb (headPtr none post') (some st.heap.length)) ∧
      (post = [] → st'.tail_ = some st.heap.length) ∧
      (post ≠ [] → st'.tail_ = st.tail_) ∧
      st'.head_ = st.head_ ∧
      ∀ b, b ≠ a → some b ≠ headPtr none post → b ≠ st.heap.length →
        st'.heap.read (some b) = st.heap.read (some b) := by
  obtain ⟨n, hr, hok⟩ := nodeAt_of_chain hw.1
  obtain ⟨st', hins, _, _, _, hw', hlen, hframe⟩ :=
    insert_const_full hw hi v (show cs.length ≤ fuel by omega) (show ¬ cs.length < N by omega)
  have hil : (cs.take i ++ v :: cs.drop i).length = cs.length + 1 :=
    ins_length cs i v (Nat.le_of_lt hi)
  have hlast : (cs.take i ++ v :: cs.drop i).drop N = [cs[cs.length - 1]] := by
    exact (congrArg (fun k => (cs.take i ++ v :: cs.drop i).drop k) hfull.symm).trans
      (ins_drop_last cs i v hi)
  rw [hlast] at hw'
  have hw2 : WF N st' (pre ++ (a, (cs.take i ++ v :: cs.drop i).take N) ::
      (st.heap.length, [cs[cs.length - 1]]) :: post) := by
    simpa using hw'
  have hc2 := hw2.1
  have hna := nodeAt_of_chain hc2
  have hc3 : Chain N st'.heap none
      ((pre ++ [(a, (cs.take i ++ v :: cs.drop i).take N)]) ++
        (st.heap.length, [cs[cs.length - 1]]) :: post) none := by
    simpa using hc2
  have hnL := nodeAt_of_chain hc3
  rw [lastPtr_append_cons] at hnL
  refine ⟨⟨some a, N - 1⟩, st', _, cs[cs.length - 1], ?_, List.getElem?_eq_getElem (by omega),
    rfl, ?_, read_length_none _, hlen, hw2, hna, hnL, ?_, ?_, ?_, ?_, hframe⟩
  · rw [insert_eq_insert_const N fuel st a i _ hr]
    exact hins
  · rw [List.length_take, hil]
    omega
  · intro b cb post' hp
    subst hp
    have hc4 : Chain N st'.heap none
        ((pre ++ [(a, (cs.take i ++ v :: cs.drop i).take N),
          (st.heap.length, [cs[cs.length - 1]])]) ++ (b, cb) :: post') none := by
      simpa using hc2
    have hnb := nodeAt_of_chain hc4
    rw [lastPtr_append_cons] at hnb
    exact hnb
  · intro hp
    subst hp
    rw [hw2.2.2.2.1, lastPtr_append_cons]
    rfl
  · intro hp
    rw [hw2.2.2.2.1, hw.2.2.2.1, lastPtr_append_cons, lastPtr_append_cons]
    simp only [lastPtr]
    exact lastPtr_ne_nil _ _ post hp
  · rw [hw2.2.2.1, hw.2.2.1, headPtr_append_cons, headPtr_append_cons]

theorem insert_full_splits_witness :
    WF 3 example_state ([] ++ (1, [1, 2, 3]) :: [(2, [4, 5])]) ∧ 1 < [1, 2, 3].length ∧
      [1, 2, 3].length = 3 ∧ 3 ≤ 6 ∧
      ∃ r st' kept last, insert 3 6 example_state ⟨some 1, 1⟩ (ConstRef.object 9) = some (r, st') ∧
        [1, 2, 3][[1, 2, 3].length - 1]? = some last ∧
        kept = ([1, 2, 3].take 1 ++ 9 :: [1, 2, 3].drop 1).take 3 ∧ kept.length = 3 ∧
        example_state.heap.read (some example_state.heap.length) = none ∧
        st'.heap.length = example_state.heap.length + 1 ∧
        WF 3 st' ([] ++ (1, kept) :: (example_state.heap.length, [last]) :: [(2, [4, 5])]) ∧
        NodeAt 3 st'.heap 1 kept (some example_state.heap.length) (lastPtr none ([] : Layout Nat)) ∧
        NodeAt 3 st'.heap example_state.heap.length [last] (headPtr none [(2, [4, 5])])
          (some 1) ∧
        (∀ b cb post', [(2, [4, 5])] = (b, cb) :: post' →
          NodeAt 3 st'.heap b cb (headPtr none post') (some example_state.heap.length)) ∧
        ([(2, [4, 5])] = ([] : Layout Nat) → st'.tail_ = some example_state.heap.length) ∧
        ([(2, [4, 5])] ≠ ([] : Layout Nat) → st'.tail_ = example_state.tail_) ∧
        st'.head_ = example_state.head_ ∧
        ∀ b, b ≠ 1 → some b ≠ headPtr none [(2, [4, 5])] → b ≠ example_state.heap.length →
          st'.heap.read (some b) = example_state.heap.read (some b) :=
  ⟨by decide, by decide, by decide, by decide,
    @insert_full_splits Nat _ 3 example_state [] [(2, [4, 5])] 1 [1, 2, 3] 1 (by decide)
      (by decide) (by decide) 9 6 (by decide)⟩

/-! ## Verification: the cursor returned by `insert` -/

/-- What `insert` returns in general: on a well-formed container and a
dereferenceable cursor `(a, i)`, the call succeeds and returns the cursor to the
last occupied slot of the node `a` (offset `cs.length` when the node had room,
`NodeMaxSize - 1` when it was full), while the inserted element is at `(a, i)`:
the returned cursor is the one to the inserted element only when the node was
full and `pos` referred to its last element. -/
theorem insert_result_cursor {T : Type} [Element T] {N : Nat} {st : State T} {pre post : Layout T}
    {a : Nat} {cs : List T} {i : Nat} (hw : WF N st (pre ++ (a, cs) :: post))
    (hi : i < cs.length) (v : T) (fuel : Nat) (hf : N ≤ fuel) :
    ∃ r st', insert N fuel st ⟨some a, i⟩ (ConstRef.object v) = some (r, st') ∧
      r = ⟨some a, if cs.length < N then cs.length else N - 1⟩ ∧
      deref st'.heap ⟨some a, i⟩ = some v ∧
      (r = ⟨some a, i⟩ ↔ cs.length = N ∧ i + 1 = N) := by
  obtain ⟨n, hr, hok⟩ := nodeAt_of_chain hw.1
  have hcsN : cs.length ≤ N := hok.2.2.2.2.2.2
  obtain ⟨st', hins, _, _, _, hw'⟩ := insert_const_spec hw hi v (show cs.length ≤ fuel by omega)
  have hil : (cs.take i ++ v :: cs.drop i).length = cs.length + 1 :=
    ins_length cs i v (Nat.le_of_lt hi)
  have hget : (cs.take i ++ v :: cs.drop i)[i]? = some v := by
    rw [ins_getElem? cs i v (Nat.le_of_lt hi), if_neg (by omega), if_pos rfl]
  refine ⟨_, st', ?_, rfl, ?_, ?_⟩
  · rw [insert_eq_insert_const N fuel st a i _ hr]
    exact hins
  · by_cases hroom : cs.length < N
    · rw [if_pos hroom] at hw'
      have hw2 : WF N st' (pre ++ (a, cs.take i ++ v :: cs.drop i) :: post) := by
        simpa using hw'
      have hlt : i < (cs.take i ++ v :: cs.drop i).length := by omega
      rw [deref_of_nodeAt (nodeAt_of_chain hw2.1) hlt, ← hget, List.getElem?_eq_getElem hlt]
    · rw [if_neg hroom] at hw'
      have hw2 : WF N st' (pre ++ (a, (cs.take i ++ v :: cs.drop i).take N) ::
          (st.heap.length, (cs.take i ++ v :: cs.drop i).drop N) :: post) := by
        simpa using hw'
      have hlt : i < ((cs.take i ++ v :: cs.drop i).take N).length := by
        rw [List.length_take, hil]
        omega
      rw [deref_of_nodeAt (nodeAt_of_chain hw2.1) hlt, ← hget,
        ← List.getElem?_eq_getElem hlt, List.getElem?_take_of_lt (by omega)]
  · by_cases hroom : cs.length < N
    · rw [if_pos hroom]
      constructor
      · intro h
        injection h with _ h2
        omega
      · intro h
        omega
    · rw [if_neg hroom]
      constructor
      · intro h
        injection h with _ h2
        omega
      · intro h
        have e : N - 1 = i := by omega
        rw [e]

theorem insert_result_cursor_witness :
    WF 3 example_state ([] ++ (1, [1, 2, 3]) :: [(2, [4, 5])]) ∧ 1 < [1, 2, 3].length ∧ 3 ≤ 6 ∧
      ∃ r st', insert 3 6 example_state ⟨some 1, 1⟩ (ConstRef.object 9) = some (r, st') ∧
        r = ⟨some 1, if [1, 2, 3].length < 3 then [1, 2, 3].length else 3 - 1⟩ ∧
        deref st'.heap ⟨some 1, 1⟩ = some 9 ∧
        (r = ⟨some 1, 1⟩ ↔ [1, 2, 3].length = 3 ∧ 1 + 1 = 3) :=
  ⟨by decide, by decide, by decide,
    @insert_result_cursor Nat _ 3 example_state [] [(2, [4, 5])] 1 [1, 2, 3] 1 (by decide)
      (by decide) 9 6 (by decide)⟩

/-- C24 (failing input): with NodeMaxSize 3 and the container `1, 2, 3 | 4, 5`
built by `push_back`, `insert(pos, 9)` at the cursor to 2 (offset 1 of the full
head node) leaves `1, 9, 2 | 3 | 4, 5` with 9 at offset 1 of the head node, but
returns the cursor `(head, NodeMaxSize - 1)`, which dereferences to 2; the
statements of the `const_iterator` overload (`insert_body`) do the same.  With room in the node it is the same: on the container `1, 2`
`insert(begin(), 9)` leaves `9, 1, 2` and returns the cursor to offset 2, which
dereferences to 2. -/
theorem insert_returns_last_slot :
    insert_mid_before.bind (to_list 6) = some [1, 2, 3, 4, 5] ∧
      insert_mid_before.bind (fun st => deref st.heap ⟨st.head_, 1⟩) = some 2 ∧
      insert_mid_result.bind (fun r => to_list 7 r.2) = some [1, 9, 2, 3, 4, 5] ∧
      insert_mid_result.map Prod.fst =
        insert_mid_before.map (fun st => (⟨st.head_, 2⟩ : ul_iterator)) ∧
      insert_mid_result.bind (fun r => deref r.2.heap r.1) = some 2 ∧
      insert_mid_result.bind (fun r => deref r.2.heap ⟨r.2.head_, 1⟩) = some 9 ∧
      insert_mid_result_const = insert_mid_result ∧
      insert_room_result.bind (fun r => to_list 7 r.2) = some [9, 1, 2] ∧
      insert_room_result.map Prod.fst =
        insert_end_before.map (fun st => (⟨st.head_, 2⟩ : ul_iterator)) ∧
      insert_room_result.bind (fun r => deref r.2.heap r.1) = some 2 ∧
      insert_room_result.bind (fun r => deref r.2.heap ⟨r.2.head_, 0⟩) = some 9 := by
  decide

/-! ## Verification: retreating into a partially filled node -/

/-- What `operator--` does after `operator++` across a node boundary: in a
chain where the node `a` (holding `cs`) is followed by another node, advancing
the cursor to the last element of `a` gives the first slot of the next node,
and retreating that gives `(a, NodeMaxSize - 1)`, which is the cursor one
started from only when `a` is full. -/
theorem decr_incr_boundary {T : Type} {N : Nat} {h : Heap T} {pre post : Layout T}
    {pv nx : Ptr} {a b : Nat} {cs cb : List T}
    (hc : Chain N h pv (pre ++ (a, cs) :: (b, cb) :: post) nx) :
    incr h ⟨some a, cs.length - 1⟩ = some ⟨some b, 0⟩ ∧
      incr_then_decr N h ⟨some a, cs.length - 1⟩ = some ⟨some a, N - 1⟩ ∧
      (incr_then_decr N h ⟨some a, cs.length - 1⟩ = some ⟨some a, cs.length - 1⟩ ↔
        cs.length = N) := by
  have hna := nodeAt_of_chain hc
  have hc2 : Chain N h pv ((pre ++ [(a, cs)]) ++ (b, cb) :: post) nx := by simpa using hc
  obtain ⟨nb, hrb, hokb⟩ := nodeAt_of_chain hc2
  have hpos : 0 < cs.length := by
    obtain ⟨_, _, hok⟩ := hna
    exact hok.2.2.2.2.2.1
  have hle : cs.length ≤ N := by
    obtain ⟨_, _, hok⟩ := hna
    exact hok.2.2.2.2.2.2
  have hinc : incr h ⟨some a, cs.length - 1⟩ = some ⟨some b, 0⟩ := by
    rw [incr_of_nodeAt hna, if_neg (by omega)]
    rfl
  have hprev : nb.prev = some a := by
    rw [hokb.2.2.2.2.1, lastPtr_append_cons]
    rfl
  have hdec : incr_then_decr N h ⟨some a, cs.length - 1⟩ = some ⟨some a, N - 1⟩ := by
    simp only [incr_then_decr, hinc, Option.some_bind, decr, gt_iff_lt, Nat.lt_irrefl,
      if_false, hrb, Option.bind_eq_bind, Option.pure_def, hprev]
    rw [usub_of_le (show 1 ≤ N by omega)]
  refine ⟨hinc, hdec, ?_⟩
  rw [hdec]
  constructor
  · intro e
    injection e with e
    injection e with _ e2
    omega
  · intro e
    rw [e]

theorem decr_incr_boundary_witness :
    Chain 3 example_resplit.heap none ([] ++ (1, [1, 2]) :: (2, [3, 4, 5]) :: []) none ∧
      incr example_resplit.heap ⟨some 1, [1, 2].length - 1⟩ = some ⟨some 2, 0⟩ ∧
      incr_then_decr 3 example_resplit.heap ⟨some 1, [1, 2].length - 1⟩ = some ⟨some 1, 3 - 1⟩ ∧
      (incr_then_decr 3 example_resplit.heap ⟨some 1, [1, 2].length - 1⟩ =
          some ⟨some 1, [1, 2].length - 1⟩ ↔ [1, 2].length = 3) :=
  ⟨by decide,
    @decr_incr_boundary Nat 3 example_resplit.heap [] [] none none 1 2 [1, 2] [3, 4, 5]
      (by decide)⟩

/-- C28 (failing input): with NodeMaxSize 3, the container built by `push_back`
of `1, ..., 6` and then the statements of `erase` (`erase_body`) run at 3 holds
`1, 2 | 4, 5, 6` (node counts 2, 3).
For the cursor `c` to 2 (offset 1 of the head node, not the last element),
`++c` is the first slot of the second node and `--(++c)` is `(head, 2)`: not
`c`, and the cursor to a slot that holds no element.  The node left by an
`insert` split behaves alike: in `1, 9, 2 | 3 | 4, 5` (node counts 3, 1, 2) the
cursor `c` to 3 has `--(++c)` at offset 2 of the one-element node.  From a
cursor inside a node, or at the end of a full node, `--(++c)` is `c`. -/
theorem decr_after_incr_overshoots :
    retreat_erased.bind (to_list 7) = some [1, 2, 4, 5, 6] ∧
      retreat_erased.bind (fun st => node_counts st.heap 5 st.head_) = some [2, 3] ∧
      retreat_erased.bind (fun st => deref st.heap ⟨st.head_, 1⟩) = some 2 ∧
      retreat_erased.bind (fun st => (incr st.heap ⟨st.head_, 1⟩).bind (deref st.heap)) =
        some 4 ∧
      retreat_erased.bind (fun st => incr_then_decr 3 st.heap ⟨st.head_, 1⟩) =
        retreat_erased.map (fun st => (⟨st.head_, 2⟩ : ul_iterator)) ∧
      retreat_erased.bind (fun st => incr_then_decr 3 st.heap ⟨st.head_, 1⟩) ≠
        retreat_erased.map (fun st => (⟨st.head_, 1⟩ : ul_iterator)) ∧
      retreat_erased.bind
        (fun st => (incr_then_decr 3 st.heap ⟨st.head_, 1⟩).bind (deref st.heap)) = none ∧
      retreat_erased.bind (fun st => incr_then_decr 3 st.heap ⟨st.head_, 0⟩) =
        retreat_erased.map (fun st => (⟨st.head_, 0⟩ : ul_iterator)) ∧
      retreat_split.bind (to_list 7) = some [1, 9, 2, 3, 4, 5] ∧
      retreat_split.bind (fun st => node_counts st.heap 5 st.head_) = some [3, 1, 2] ∧
      retreat_split.bind (fun st => deref st.heap ⟨some 3, 0⟩) = some 3 ∧
      retreat_split.bind (fun st => incr_then_decr 3 st.heap ⟨some 3, 0⟩) =
        some ⟨some 3, 2⟩ ∧
      retreat_split.bind (fun st => incr_then_decr 3 st.heap ⟨st.head_, 2⟩) =
        retreat_split.map (fun st => (⟨st.head_, 2⟩ : ul_iterator)) := by
  decide

/-! ## Verification: the emptiness flag and emptied nodes -/

/-- C23 (failing input): with NodeMaxSize 3, after `push_front(1)` on a
default-constructed container `size()` is 1 and `empty()` is still true (also
when the container had held an element before); after `push_back(1)` and
the statements of `erase` (`erase_body`) run at `begin()`, `size()` is 0 and
`empty()` is false; and `swap` of an empty
container with a one-element container exchanges the sizes but not the flags.
`pop_back`, `pop_front` and `clear` do set the flag when they empty the
container. -/
theorem empty_flag_out_of_step :
    push_front_once.map (fun st => (size st, empty st)) = some (1, true) ∧
      (((push_back 3 (default_ctor ([] : Heap Nat)) 1).bind (pop_front 3 6)).bind
        (fun st => push_front 3 st (ConstRef.object 2))).map (fun st => (size st, empty st)) =
          some (1, true) ∧
      erase_only_element.map (fun st => (size st, empty st)) = some (0, false) ∧
      swap_empty_with_one.map (fun p => ((size p.1, empty p.1), (size p.2, empty p.2))) =
        some ((1, true), (0, false)) ∧
      ((push_back 3 (default_ctor ([] : Heap Nat)) 1).bind (pop_back 3)).map
        (fun st => (size st, empty st)) = some (0, true) ∧
      ((push_back 3 (default_ctor ([] : Heap Nat)) 1).bind (pop_front 3 6)).map
        (fun st => (size st, empty st)) = some (0, true) ∧
      ((push_back 3 (default_ctor ([] : Heap Nat)) 1).bind (clear 3 6)).map
        (fun st => (size st, empty st)) = some (0, true) := by
  decide

/-- The statements of `erase` that follow the initialisation of `pos`
(`erase_body`; no call reaches them, see `erase`), with NodeMaxSize 3: run
with `pos = begin()` after `push_back(1)` on an empty container, they leave
`size()` 0 while `head_` and `tail_` still point to the node, whose count is
0: the node counts met from `head_` forwards and from `tail_` backwards are
`0`.  Run at 4 after `push_back` of `1, 2, 3, 4`, they leave the counts `3, 0`
forwards and `0, 3` backwards. -/
theorem empty_node_stays_reachable :
    erase_only_element.map size = some 0 ∧
      erase_only_element.map (fun st => (st.head_, st.tail_)) = some (some 1, some 1) ∧
      erase_only_element.bind (fun st => node_counts st.heap 5 st.head_) = some [0] ∧
      erase_only_element.bind (fun st => node_counts_back st.heap 5 st.tail_) = some [0] ∧
      example_pushed.bind (fun st => node_counts st.heap 5 st.head_) = some [3, 1] ∧
      erase_tail_single.map size = some 3 ∧
      erase_tail_single.bind (fun st => node_counts st.heap 5 st.head_) = some [3, 0] ∧
      erase_tail_single.bind (fun st => node_counts_back st.heap 5 st.tail_) = some [0, 3] := by
  decide

/-! ## Verification: failing allocation and construction -/

theorem map_returned_bind {α β ε : Type} (x : Option α) (g : α → Option β) :
    (x.bind g).map (Outcome.returned : β → Outcome ε β) =
      x.bind (fun y => (g y).map Outcome.returned) := by
  cases x <;> rfl

/-- Without a failing step `create_node_after_throwing` is `create_node_after`. -/
theorem create_node_after_throwing_none {T : Type} (N : Nat) (st : State T) (p : Ptr) (k : Nat) :
    create_node_after_throwing N Fault.none st p k =
      (create_node_after N st p k).map Outcome.returned := by
  unfold create_node_after_throwing create_node_after
  simp only [Option.bind_eq_bind, reduceCtorEq, if_false, Option.pure_def, map_returned_bind,
    apply_ite (Option.map Outcome.returned), Option.map_some']

/-- Without a failing step `push_back_throwing` is `push_back`. -/
theorem push_back_throwing_none {T : Type} [Element T] (N : Nat) (st : State T) (v : T) :
    push_back_throwing N Fault.none st v = (push_back N st v).map Outcome.returned := by
  unfold push_back_throwing push_back
  simp only [Option.bind_eq_bind, reduceCtorEq, if_false, Option.pure_def, map_returned_bind,
    apply_ite (Option.map Outcome.returned), Option.map_some',
    create_node_after_throwing_none, Option.bind_map]
  rfl

/-- Failing construction with room in the tail: on every well-formed container
whose tail node has room, `push_back(v)` with the construction of the element
throwing leaves the store, `head_` and `tail_` as they were, but `size_` one
larger than before the call. -/
theorem push_back_construct_failure {T : Type} [Element T] {N : Nat} {st : State T} {pre : Layout T}
    {a : Nat} {cs : List T} (hw : WF N st (pre ++ [(a, cs)])) (hroom : cs.length < N) (v : T) :
    push_back_throwing N Fault.construct_t st v =
      some (Outcome.thrown { st with size_ := st.size_ + 1 }) := by
  obtain ⟨n, hr, hok⟩ := nodeAt_of_chain hw.1
  have ht : st.tail_ = some a := by
    rw [hw.2.2.2.1, lastPtr_append_cons]
    rfl
  have hne : n.node_size ≠ N := by
    rw [hok.1]
    omega
  simp [push_back_throwing, push_back_catch, ht, hr, hne]

theorem push_back_construct_failure_witness :
    WF 3 example_state ([(1, [1, 2, 3])] ++ [(2, [4, 5])]) ∧ [4, 5].length < 3 ∧
      push_back_throwing 3 Fault.construct_t example_state 9 =
        some (Outcome.thrown { example_state with size_ := example_state.size_ + 1 }) :=
  ⟨by decide, by decide,
    @push_back_construct_failure Nat _ 3 example_state [(1, [1, 2, 3])] 2 [4, 5] (by decide)
      (by decide) 9⟩

/-- Failing node allocation with a full tail: on every well-formed container
whose tail node is full, `push_back(v)` with the allocation of the node
throwing leaves the store, `head_` and `tail_` as they were, but `size_` one
larger than before the call. -/
theorem push_back_allocate_failure {T : Type} [Element T] {N : Nat} {st : State T} {pre : Layout T}
    {a : Nat} {cs : List T} (hw : WF N st (pre ++ [(a, cs)])) (hfull : cs.length = N) (v : T) :
    push_back_throwing N Fault.allocate_node st v =
      some (Outcome.thrown { st with size_ := st.size_ + 1 }) := by
  obtain ⟨n, hr, hok⟩ := nodeAt_of_chain hw.1
  have ht : st.tail_ = some a := by
    rw [hw.2.2.2.1, lastPtr_append_cons]
    rfl
  have hne : n.node_size = N := by
    rw [hok.1]
    exact hfull
  simp [push_back_throwing, push_back_catch, create_node_after_throwing, ht, hr, hne]

theorem push_back_allocate_failure_witness :
    WF 3 example_resplit ([(1, [1, 2])] ++ [(2, [3, 4, 5])]) ∧ [3, 4, 5].length = 3 ∧
      push_back_throwing 3 Fault.allocate_node example_resplit 9 =
        some (Outcome.thrown { example_resplit with size_ := example_resplit.size_ + 1 }) :=
  ⟨by decide, by decide,
    @push_back_allocate_failure Nat _ 3 example_resplit [(1, [1, 2])] 2 [3, 4, 5] (by decide)
      (by decide) 9⟩

/-- C21 (failing input): with NodeMaxSize 3.  On the container `1, 2` (room in
the tail), `push_back(9)` with the construction of the element throwing leaves
the store and the elements as they were but `size()` 3 instead of 2: the
`catch` block restores `tail_` only.  On the container `1, 2, 3` (full tail,
two live records of which one holds a buffer): when the node allocation throws
`size()` is left at 4; when the buffer allocation or the element construction
throws, `size()` is left at 4 and the node created by the call stays allocated
and linked after the tail (its `next` points to it, the node counts along the
chain are 3, 1), since `allocated_node` is only assigned on the path of the
empty container.  On a default-constructed container: when the node allocation
throws `size()` is left at 1; when the buffer allocation or the element
construction throws the `catch` block executes `allocated_node->prev->next`
with a null `prev`, which is undefined.  Without a failing step the outcome is
that of `push_back`. -/
theorem push_back_failure_not_rolled_back :
    insert_end_before.map size = some 2 ∧
      push_back_fails_room Fault.construct_t =
        insert_end_before.map (fun st => { st with size_ := 3 }) ∧
      (push_back_fails_room Fault.construct_t).bind (to_list 6) = some [1, 2] ∧
      push_back_full_before.map
          (fun st => (size st, st.head_, st.tail_, live_records st.heap, buffer_count st.heap)) =
        some (3, some 1, some 1, 2, 1) ∧
      push_back_full_before.bind (fun st => (st.heap.read st.tail_).map (fun n => n.next)) =
        some none ∧
      push_back_fails_full Fault.allocate_node =
        push_back_full_before.map (fun st => { st with size_ := 4 }) ∧
      (push_back_fails_full Fault.allocate_t).map
          (fun st => (size st, st.head_, st.tail_, live_records st.heap, buffer_count st.heap)) =
        some (4, some 1, some 1, 3, 1) ∧
      (push_back_fails_full Fault.allocate_t).bind
          (fun st => (st.heap.read st.tail_).map (fun n => n.next)) = some (some 2) ∧
      (push_back_fails_full Fault.allocate_t).bind (fun st => node_counts st.heap 5 st.head_) =
        some [3, 1] ∧
      (push_back_fails_full Fault.construct_t).map
          (fun st => (size st, st.head_, st.tail_, live_records st.heap, buffer_count st.heap)) =
        some (4, some 1, some 1, 3, 2) ∧
      (push_back_fails_full Fault.construct_t).bind
          (fun st => (st.heap.read st.tail_).map (fun n => n.next)) = some (some 2) ∧
      (push_back_fails_full Fault.construct_t).bind (fun st => node_counts st.heap 5 st.head_) =
        some [3, 1] ∧
      push_back_fails_empty Fault.allocate_node =
        some (Outcome.thrown { default_ctor ([] : Heap Nat) with size_ := 1 }) ∧
      push_back_fails_empty Fault.allocate_t = none ∧
      push_back_fails_empty Fault.construct_t = none ∧
      push_back_fails_empty Fault.none =
        (push_back 3 (default_ctor ([] : Heap Nat)) 9).map Outcome.returned := by
  repeat' apply And.intro
  all_goals decide

/-- C22 (failing input): with NodeMaxSize 3 and an empty store at the start.
On the range `1, 2, 3, 4`, when the construction of the element of index 3 (the
first slot of the second node) throws, the `catch` block releases the first
node in full and, `rem` being 0, nothing else: the exception leaves with the
record of the second node and its buffer still allocated.  When the
construction of the element of index 0 throws, nothing is released and the
first node and its buffer stay allocated.  It is the same at index 6 of a range
of 7 elements.  At the indices 1, 2 (and 4, 5 of the longer range) every record
and buffer is released, and when no construction throws the constructor
returns the container of the range constructor. -/
theorem range_ctor_failure_leaks_fresh_node :
    range_ctor_fails 3 [1, 2, 3, 4] =
        some [none, none, some ⟨0, [none, none, none], none, some 1⟩] ∧
      (range_ctor_fails 3 [1, 2, 3, 4]).map (fun h => (live_records h, buffer_count h)) =
        some (1, 1) ∧
      range_ctor_fails 0 [1, 2, 3, 4] = some [none, some ⟨0, [none, none, none], none, none⟩] ∧
      (range_ctor_fails 0 [1, 2, 3, 4]).map (fun h => (live_records h, buffer_count h)) =
        some (1, 1) ∧
      (range_ctor_fails 6 [1, 2, 3, 4, 5, 6, 7]).map
          (fun h => (h.length, live_records h, buffer_count h)) = some (4, 1, 1) ∧
      (range_ctor_fails 3 [1, 2, 3, 4, 5, 6, 7]).map
          (fun h => (h.length, live_records h, buffer_count h)) = some (3, 1, 1) ∧
      range_ctor_fails 1 [1, 2, 3, 4] = some [none, none] ∧
      range_ctor_fails 2 [1, 2, 3, 4] = some [none, none] ∧
      (range_ctor_fails 4 [1, 2, 3, 4, 5, 6, 7]).map
          (fun h => (h.length, live_records h, buffer_count h)) = some (3, 0, 0) ∧
      (range_ctor_fails 5 [1, 2, 3, 4, 5, 6, 7]).map
          (fun h => (h.length, live_records h, buffer_count h)) = some (3, 0, 0) ∧
      range_ctor_alloc_throwing 3 6 4 ([] : Heap Nat) [1, 2, 3, 4] =
        (range_ctor 3 6 ([] : Heap Nat) [1, 2, 3, 4]).map Outcome.returned := by
  decide

/-! ## Verification: members that have no instance -/

/-- C2 (failing input): with NodeMaxSize 3 and the container `1, 2` built by
`push_back`, `ul.insert(ul.begin(), ul.back())` passes a reference to the
element 2 in slot 1.  `insert` shifts the elements of the node first and reads
`value` afterwards, when slot 1 holds 1: the container becomes `1, 1, 2`, where
inserting the value 2 gives `2, 1, 2`.  On the full node `1, 2, 3` it is the
same: `ul.insert(ul.begin(), ul.back())` leaves `2, 1, 2 | 3`, where inserting
the value 3 gives `3, 1, 2 | 3`.  `size()` grows by 1 in every case.  The
overload `insert(const_iterator, const T&)` has no instance, so a call of it
has no result. -/
theorem insert_reads_value_after_shift :
    insert_end_before.bind (to_list 6) = some [1, 2] ∧
      insert_end_before.bind (fun st => (ConstRef.element st.tail_ 1).get st.heap) = some 2 ∧
      insert_back_at_begin.bind (fun r => to_list 7 r.2) = some [1, 1, 2] ∧
      insert_back_at_begin.map (fun r => size r.2) = some 3 ∧
      (insert_end_before.bind
        (fun st => insert 3 6 st ⟨st.head_, 0⟩ (ConstRef.object 2))).bind
          (fun r => to_list 7 r.2) = some [2, 1, 2] ∧
      insert_full_before.bind (to_list 6) = some [1, 2, 3] ∧
      insert_full_before.bind (fun st => (ConstRef.element st.tail_ 2).get st.heap) = some 3 ∧
      insert_back_at_begin_full.bind (fun r => to_list 7 r.2) = some [2, 1, 2, 3] ∧
      (insert_full_before.bind
        (fun st => insert 3 6 st ⟨st.head_, 0⟩ (ConstRef.object 3))).bind
          (fun r => to_list 7 r.2) = some [3, 1, 2, 3] ∧
      insert_end_before.bind
        (fun st => insert_const 3 6 st ⟨st.head_, 0⟩ (ConstRef.object 9)) = none := by
  decide

/-! ## Verification: what `push_front` does to the head node -/

/-- On a type that is not trivial, `push_front` on a head node with room is
undefined: the first round of its loop assigns to `data[node_size]`, a slot
that holds no object. -/
theorem push_front_assigns_dead_slot {T : Type} [Element T]
    (htv : Element.is_trivial T = false) {N : Nat} {st : State T} {a : Nat} {cs : List T}
    {r : Layout T} (hw : WF N st ((a, cs) :: r)) (hroom : cs.length < N) {n : Node T}
    (hr : st.heap.read (some a) = some n) (hd : n.data[cs.length]? = some none)
    (value : ConstRef T) : push_front N st value = none := by
  obtain ⟨hc, _, hh, _, _⟩ := hw
  obtain ⟨⟨n', hr', hok⟩, _⟩ := hc
  rw [hr] at hr'
  cases hr'
  simp only [headPtr] at hh
  have hpos : 0 < cs.length := hok.2.2.2.2.2.1
  obtain ⟨k, hk⟩ : ∃ k, cs.length = k + 1 := ⟨cs.length - 1, by omega⟩
  have hsz : n.node_size ≠ N := by rw [hok.1]; omega
  have hlast : n.data[k]? = some (some (cs[k])) := hok.slot (by omega)
  have hsh : shift_right st.heap (some a) (k + 1) = none := by
    rw [shift_right, load_t_eq hr hlast]
    simp only [Option.bind_eq_bind, Option.some_bind]
    rw [assign_t_dead htv hr (by rw [← hk]; exact hd)]
    rfl
  simp only [push_front, hh, reduceCtorEq, and_false, if_false, hr, Option.bind_eq_bind,
    Option.some_bind, hsz, ne_eq, not_false_eq_true, if_true, hok.1, hk, hsh, Option.none_bind]
  rw [if_pos (by omega)]

theorem push_front_assigns_dead_slot_witness :
    Element.is_trivial Obj = false ∧ WF 3 example_obj [(1, [⟨1⟩])] ∧
      [(⟨1⟩ : Obj)].length < 3 ∧
      example_obj.heap.read (some 1) = some ⟨1, [some ⟨1⟩, none, none], none, none⟩ ∧
      ([some (⟨1⟩ : Obj), none, none])[[(⟨1⟩ : Obj)].length]? = some none ∧
      push_front 3 example_obj (ConstRef.object ⟨2⟩) = none :=
  ⟨rfl, by decide, by decide, by decide, by decide,
    @push_front_assigns_dead_slot Obj _ rfl 3 example_obj 1 [⟨1⟩] [] (by decide) (by decide)
      ⟨1, [some ⟨1⟩, none, none], none, none⟩ (by decide) (by decide) (ConstRef.object ⟨2⟩)⟩

/-- C9 (failing input): with NodeMaxSize 3.  On the container `1, 2` built by
`push_back`, `ul.push_front(ul.back())` passes a reference to the element 2 in
slot 1; `push_front` shifts the elements of the head node first and reads
`value` afterwards, when slot 1 holds 1: the container becomes `1, 1, 2`, where
`push_front` of the value 2 gives `2, 1, 2`.  On an element type that is not
trivial, `push_front` on the container holding the one object `1` (a head node
with room) is undefined, since the loop assigns to `data[node_size]`, which
holds no object; on the full node `1, 2, 3`, where a new node is built and the
element constructed in it, the call succeeds and gives `9, 1, 2, 3`. -/
theorem push_front_shift_defects :
    insert_end_before.bind (to_list 6) = some [1, 2] ∧
      insert_end_before.bind (fun st => (ConstRef.element st.tail_ 1).get st.heap) = some 2 ∧
      push_front_back.bind (to_list 7) = some [1, 1, 2] ∧
      (insert_end_before.bind (fun st => push_front 3 st (ConstRef.object 2))).bind
        (to_list 7) = some [2, 1, 2] ∧
      obj_one.bind (to_list 6) = some [⟨1⟩] ∧
      obj_one.bind (fun st => push_front 3 st (ConstRef.object ⟨2⟩)) = none ∧
      (obj_three.bind (fun st => push_front 3 st (ConstRef.object ⟨9⟩))).bind (to_list 7) =
        some [⟨9⟩, ⟨1⟩, ⟨2⟩, ⟨3⟩] := by
  decide


/-! ## Verification: `delete_node` on slots that hold no object -/

theorem set_next_data {T : Type} {h h' : Heap T} {p q : Ptr} (hs : set_next h p q = some h')
    {c : Nat} {n : Node T} (hr : h.read (some c) = some n) :
    ∃ n', h'.read (some c) = some n' ∧ n'.data = n.data := by
  cases p with
  | none => simp [set_next, Heap.read] at hs
  | some b =>
    cases hb : h.read (some b) with
    | none => simp [set_next, hb] at hs
    | some m =>
      rw [set_next_eq hb] at hs
      cases hs
      by_cases hbc : b = c
      · subst hbc
        rw [hb] at hr
        cases hr
        exact ⟨_, read_upd_same _ (read_lt hb), rfl⟩
      · exact ⟨n, by rw [read_upd_ne _ _ hbc]; exact hr, rfl⟩

theorem set_prev_data {T : Type} {h h' : Heap T} {p q : Ptr} (hs : set_prev h p q = some h')
    {c : Nat} {n : Node T} (hr : h.read (some c) = some n) :
    ∃ n', h'.read (some c) = some n' ∧ n'.data = n.data := by
  cases p with
  | none => simp [set_prev, Heap.read] at hs
  | some b =>
    cases hb : h.read (some b) with
    | none => simp [set_prev, hb] at hs
    | some m =>
      rw [set_prev_eq hb] at hs
      cases hs
      by_cases hbc : b = c
      · subst hbc
        rw [hb] at hr
        cases hr
        exact ⟨_, read_upd_same _ (read_lt hb), rfl⟩
      · exact ⟨n, by rw [read_upd_ne _ _ hbc]; exact hr, rfl⟩

theorem bind_none_of {α β : Type} {x : Option α} {F : α → Option β}
    (hF : ∀ a, x = some a → F a = none) : x.bind F = none := by
  cases hx : x with
  | none => rfl
  | some a => exact hF a hx

/-- On a type that is not trivial, `delete_node` on a node whose slot 0 holds no
object is undefined. -/
theorem delete_node_dead {T : Type} [Element T] (htv : Element.is_trivial T = false)
    {N : Nat} (hN : 1 ≤ N) {h : Heap T} {c : Nat} {n : Node T}
    (hr : h.read (some c) = some n) (hd : n.data[0]? = some none) :
    delete_node N h (some c) = none := by
  obtain ⟨k, rfl⟩ : ∃ k, N = k + 1 := ⟨N - 1, by omega⟩
  simp only [delete_node, destroy_slots, destroy_t_dead htv hr hd, Option.bind_eq_bind,
    Option.none_bind]

/-- On a type that is not trivial, `check_node_empty` on a node with count 0
whose slot 0 holds no object (the slot `pop_back`, `pop_front` or `erase` has
just destroyed) is undefined: it reaches `delete_node`, which runs the
destructor on that slot again. -/
theorem check_node_empty_dead {T : Type} [Element T] (htv : Element.is_trivial T = false)
    {N : Nat} (hN : 1 ≤ N) (st : State T) {c : Nat} {n : Node T}
    (hr : st.heap.read (some c) = some n) (hsz : n.node_size = 0)
    (hd : n.data[0]? = some none) :
    check_node_empty N st (some c) = none := by
  have key : ∀ (h : Heap T) (n1 : Node T), h.read (some c) = some n1 → n1.data = n.data →
      delete_node N h (some c) = none := fun h n1 h1 h2 =>
    delete_node_dead htv hN h1 (by rw [h2]; exact hd)
  have e : ∀ (p : Prop) [Decidable p],
      (if p then ({ st with head_ := none, tail_ := none } : State T) else st).heap =
        st.heap := by
    intro p _
    split <;> rfl
  simp only [check_node_empty, hr, Option.bind_eq_bind, Option.some_bind, hsz, if_true, e,
    Option.pure_def]
  split_ifs
  all_goals first
    | (rw [key _ _ hr rfl]; rfl)
    | (apply bind_none_of
       intro h1 hs1
       have d1 : ∃ n1, h1.read (some c) = some n1 ∧ n1.data = n.data := by
         first
         | exact set_next_data hs1 hr
         | exact set_prev_data hs1 hr
       obtain ⟨n1, hr1, hd1⟩ := d1
       first
       | (rw [key _ _ hr1 hd1]; rfl)
       | (apply bind_none_of
          intro h2 hs2
          obtain ⟨n2, hr2, hd2⟩ := set_prev_data hs2 hr1
          rw [key _ _ hr2 (hd2.trans hd1)]; rfl))

/-- On a type that is not trivial, `pop_front()` on a well-formed container
whose head node holds exactly one element is undefined, whatever the bound on
the loop rounds: it destroys slot 0, sets the count to 0 and calls
`check_node_empty`, whose `delete_node` runs the destructor on that slot
again. -/
theorem pop_front_prune_undefined {T : Type} [Element T]
    (htv : Element.is_trivial T = false) {N : Nat} {st : State T} {a : Nat} {x : T}
    {post : Layout T} (hw : WF N st ((a, [x]) :: post)) (fuel : Nat) :
    pop_front N fuel st = none := by
  obtain ⟨hc, hnd, hh, ht, hs⟩ := hw
  obtain ⟨⟨n, hr, hok⟩, hpost⟩ := hc
  have hlt := read_lt hr
  have hN : 1 ≤ N := hok.2.2.2.2.2.2
  have hs1 : 1 ≤ st.size_ := by rw [hs]; simp [counts]
  have hus : usub st.size_ 1 = st.size_ - 1 := usub_of_le hs1
  simp only [headPtr] at hh
  rw [pop_front, if_neg (by omega)]
  simp only [hus, hh, Option.bind_eq_bind, pop_front_shift_eq]
  cases fuel with
  | zero =>
    split <;> rfl
  | succ f =>
    have hidx : ∀ (s : State T), (begin s).current_index = 0 := by
      intro s
      simp only [begin]
      split <;> rfl
    have hloop : ∀ (s : State T), erase_shift (some a) (f + 1) st.heap (begin s) =
        some st.heap := by
      intro s
      simp only [erase_shift, hr, Option.bind_eq_bind, Option.some_bind, hok.1, hidx s]
      simp [usub]
    have hstep : ∀ (sz : Nat) (em : Bool),
        ((erase_shift (some a) (f + 1) st.heap
            (begin ⟨st.heap, st.sentinel_, st.tail_, some a, sz, em⟩)).bind fun h1 =>
          (h1.read (some a)).bind fun hd =>
            (destroy_t h1 (some a) (usub hd.node_size 1)).bind fun h2 =>
              (set_node_size h2 (some a) (usub hd.node_size 1)).bind fun h3 =>
                check_node_empty N ⟨h3, st.sentinel_, st.tail_, some a, sz, em⟩ (some a)) =
        none := by
      intro sz em
      rw [hloop]
      simp only [Option.some_bind, hr, hok.1, List.length_singleton,
        show usub 1 1 = 0 by decide]
      rw [destroy_t_eq hr (by rw [hok.2.1]; omega) (Or.inr ⟨x, hok.slot (show 0 < [x].length by simp)⟩)]
      simp only [Option.some_bind]
      rw [set_node_size_eq (read_upd_same _ hlt)]
      simp only [Option.some_bind, upd_upd]
      exact check_node_empty_dead htv hN _ (read_upd_same _ hlt) rfl
        (by
          show (n.data.set 0 none)[0]? = some none
          rw [List.getElem?_set_self (by rw [hok.2.1]; omega)])
    by_cases hz : st.size_ - 1 = 0
    · simp only [hz, if_true]
      exact hstep 0 true
    · simp only [hz, if_false]
      exact hstep (st.size_ - 1) st.is_empty_


/-- C11 (failing input): on an element type whose destructor is not trivial,
`pop_front()` on a well-formed container whose head node holds exactly one
element is undefined, whatever the bound on the loop rounds, where it is to
unlink the emptied node.  `pop_front` destroys slot 0, sets the count to
0 and calls `check_node_empty`, whose `delete_node` runs the destructor on all
`NodeMaxSize` slots: on slot 0 a second time, and on the slots that never held
an object. -/
theorem pop_front_destroys_slot_twice {T : Type} [Element T]
    (htv : Element.is_trivial T = false) {N : Nat} {st : State T} {a : Nat} {x : T}
    {post : Layout T} (hw : WF N st ((a, [x]) :: post)) (fuel : Nat) :
    pop_front N fuel st = none :=
  pop_front_prune_undefined htv hw fuel

theorem pop_front_destroys_slot_twice_witness :
    Element.is_trivial Obj = false ∧ obj_one = some example_obj ∧
      WF 3 example_obj [(1, [⟨1⟩])] ∧ pop_front 3 6 example_obj = none :=
  ⟨rfl, by decide, by decide,
    @pop_front_destroys_slot_twice Obj _ rfl 3 example_obj 1 ⟨1⟩ [] (by decide) 6⟩

/-! ## Verification: an element type made trivial -/

end UnrolledList
